import Mathlib

/-!
Gov language: lexer, parser and tree-walking evaluator.

A shallow embedding of `src/lexer.{h,cpp}`, `src/parser.{h,cpp}` and
`src/interpreter.{h,cpp}`, followed by theorems about it.

Conventions of the embedding.

* A C++ `char` is a Lean `Char`, a `std::string` a Lean `String`, a `std::vector` a
  `List`.
* A C++ `int` is an `Int`. Arithmetic on values of the language is reduced to 32 bits
  with `wrap32`; line and column counters are left unreduced.
* What is written to `std::cerr` is kept as a list of diagnostics in the state.
* A loop that only walks forward over the input (the scanning loops of the lexer,
  `skipNewlines`) is a recursion on the remaining input. Every other loop, and every
  call of a recursive function of the parser and of the evaluator, consumes one unit of
  a `fuel` argument; running out of fuel is reported as a separate outcome (`none` in
  the lexer, `timeout` in the parser and the evaluator), which stands for "has not
  returned yet".
* The parser reports a read outside the token vector, which is undefined behaviour in
  C++, as the outcome `undefined`.
-/

namespace Gov

/-! ## Tokens (`lexer.h`) -/

/-- The `enum class TokenType` of `lexer.h`, in declaration order. -/
inductive TokenType
  | STRING
  | INTEGER
  | IDENTIFIER
  | I_LOVE_GOVERNMENT
  | PRAISE_LEADER
  | OBEY_PARTY_LINE
  | PLEASE
  | DECLARE_VARIABLE
  | AS
  | INTEGER_TYPE
  | STRING_TYPE
  | ARRAY_OF_STRING
  | SIZE
  | SET
  | TO
  | FOR_THE_PEOPLE
  | LESS_THAN
  | DO
  | END_FOR_THE_PEOPLE
  | INCREMENT
  | BY
  | DENOUNCE_IMPERIALIST_ERRORS
  | WHILE
  | EQUALS
  | AND
  | OR
  | NOT_EQUALS
  | IF
  | THEN
  | ELSE
  | ELSE_IF
  | END_IF
  | END_WHILE
  | READ
  | PLUS
  | MINUS
  | MULTIPLY
  | DIVIDE
  | LEFT_BRACKET
  | RIGHT_BRACKET
  | LEFT_PAREN
  | RIGHT_PAREN
  | QUOTE
  | NEWLINE
  | EOF_TOKEN
  | COMMENT
  deriving DecidableEq, Repr, Inhabited

/-- The `struct Token` of `lexer.h`. -/
structure Token where
  type : TokenType
  value : String
  line : Int
  column : Int
  deriving DecidableEq, Repr, Inhabited

/-! ## Lexer (`lexer.cpp`) -/

/-- Messages the lexer writes to `std::cerr`. -/
inductive LexDiag
  | unterminatedString (line : Int)
  | unexpectedCharacter (c : Char) (line : Int)
  deriving DecidableEq, Repr

/-- Embedding of `Lexer::initKeywords`: the entries stored in the `keywords` map, in the order of
the assignments. The spellings are pairwise distinct. -/
def keywordTable : List (String × TokenType) :=
  [
    ("!I_LOVE_GOVERNMENT", TokenType.I_LOVE_GOVERNMENT),
    ("PRAISE_LEADER", TokenType.PRAISE_LEADER),
    ("OBEY_PARTY_LINE", TokenType.OBEY_PARTY_LINE),
    ("PLEASE", TokenType.PLEASE),
    ("DECLARE_VARIABLE", TokenType.DECLARE_VARIABLE),
    ("AS", TokenType.AS),
    ("INTEGER", TokenType.INTEGER_TYPE),
    ("STRING", TokenType.STRING_TYPE),
    ("ARRAY_OF_STRING", TokenType.ARRAY_OF_STRING),
    ("SIZE", TokenType.SIZE),
    ("SET", TokenType.SET),
    ("TO", TokenType.TO),
    ("FOR_THE_PEOPLE", TokenType.FOR_THE_PEOPLE),
    ("LESS_THAN", TokenType.LESS_THAN),
    ("DO", TokenType.DO),
    ("END_FOR_THE_PEOPLE", TokenType.END_FOR_THE_PEOPLE),
    ("INCREMENT", TokenType.INCREMENT),
    ("BY", TokenType.BY),
    ("DENOUNCE_IMPERIALIST_ERRORS", TokenType.DENOUNCE_IMPERIALIST_ERRORS),
    ("WHILE", TokenType.WHILE),
    ("EQUALS", TokenType.EQUALS),
    ("AND", TokenType.AND),
    ("OR", TokenType.OR),
    ("NOT_EQUALS", TokenType.NOT_EQUALS),
    ("IF", TokenType.IF),
    ("THEN", TokenType.THEN),
    ("ELSE", TokenType.ELSE),
    ("ELSE_IF", TokenType.ELSE_IF),
    ("END_IF", TokenType.END_IF),
    ("END_WHILE", TokenType.END_WHILE),
    ("READ", TokenType.READ)
  ]

/-- The lookup `keywords.find(value)`: the token type stored under a spelling, if
any. -/
def keywords (value : String) : Option TokenType :=
  (keywordTable.find? (fun e => e.1 = value)).map Prod.snd

/-- The mutable fields of `class Lexer`. `rest` is the unread part of `source`,
that is `source[current ..]`; `cerr` collects what was written to `std::cerr`. -/
structure Lexer where
  rest : List Char
  line : Int
  column : Int
  cerr : List LexDiag
  deriving DecidableEq, Repr

namespace Lexer

/-- Embedding of `Lexer::isAtEnd`: `current >= source.length()`. -/
def isAtEnd (lx : Lexer) : Bool := lx.rest.isEmpty

/-- Embedding of `Lexer::peek`: the current character, `'\0'` at the end. -/
def peek (lx : Lexer) : Char :=
  match lx.rest with
  | [] => Char.ofNat 0
  | c :: _ => c

/-- Embedding of `Lexer::peekNext`: the character after the current one, `'\0'` if there is none. -/
def peekNext (lx : Lexer) : Char :=
  match lx.rest with
  | _ :: c :: _ => c
  | _ => Char.ofNat 0

/-- Embedding of `Lexer::advance`: returns the current character and steps over it (`column++`);
at the end it returns `'\0'` and changes nothing. -/
def advance (lx : Lexer) : Char × Lexer :=
  match lx.rest with
  | [] => (Char.ofNat 0, lx)
  | c :: cs => (c, { lx with rest := cs, column := lx.column + 1 })

/-- Embedding of `Lexer::isAlpha`. -/
def isAlpha (c : Char) : Bool :=
  (c ≥ 'a' && c ≤ 'z') || (c ≥ 'A' && c ≤ 'Z') || c == '_' || c == '!'

/-- Embedding of `Lexer::isDigit`. -/
def isDigit (c : Char) : Bool := c ≥ '0' && c ≤ '9'

/-- Embedding of `Lexer::isAlphaNumeric`. -/
def isAlphaNumeric (c : Char) : Bool := isAlpha c || isDigit c

/-- Embedding of `Lexer::makeToken`: a token at the current line and column. -/
def makeToken (lx : Lexer) (type : TokenType) (value : String := "") : Token :=
  { type := type, value := value, line := lx.line, column := lx.column }

/-- The `while` loop of `Lexer::string`: as long as the current character is not a
double quote and the input is not at its end, count a newline (`line++`, `column = 0`)
and append the character (`value += advance()`). The recursion is on the unread
input. -/
def stringLoop : List Char → Int → Int → String → String × List Char × Int × Int
  | [], line, column, value => (value, [], line, column)
  | c :: cs, line, column, value =>
    if c = '"' then (value, c :: cs, line, column)
    else if c = '\n' then stringLoop cs (line + 1) (0 + 1) (value.push c)
    else stringLoop cs line (column + 1) (value.push c)

/-- Embedding of `Lexer::string`, called after the opening quote was consumed. An unterminated
string reports a diagnostic and returns an `EOF_TOKEN` token. -/
def string (lx : Lexer) : Token × Lexer :=
  match stringLoop lx.rest lx.line lx.column "" with
  | (value, rest, line, column) =>
    let lx1 : Lexer := { lx with rest := rest, line := line, column := column }
    if lx1.isAtEnd then
      let lx2 := { lx1 with cerr := lx1.cerr ++ [LexDiag.unterminatedString lx1.line] }
      (lx2.makeToken TokenType.EOF_TOKEN, lx2)
    else
      let lx2 := (lx1.advance).2
      (lx2.makeToken TokenType.STRING value, lx2)

/-- The `while (isDigit(peek())) value += advance();` loop of `Lexer::number`. -/
def numberLoop : List Char → Int → String → String × List Char × Int
  | [], column, value => (value, [], column)
  | c :: cs, column, value =>
    if isDigit c then numberLoop cs (column + 1) (value.push c)
    else (value, c :: cs, column)

/-- Embedding of `Lexer::number`. -/
def number (lx : Lexer) : Token × Lexer :=
  match numberLoop lx.rest lx.column "" with
  | (value, rest, column) =>
    let lx1 : Lexer := { lx with rest := rest, column := column }
    (lx1.makeToken TokenType.INTEGER value, lx1)

/-- The `while (isAlphaNumeric(peek())) value += advance();` loop of
`Lexer::identifier`. -/
def identifierLoop : List Char → Int → String → String × List Char × Int
  | [], column, value => (value, [], column)
  | c :: cs, column, value =>
    if isAlphaNumeric c then identifierLoop cs (column + 1) (value.push c)
    else (value, c :: cs, column)

/-- Embedding of `Lexer::identifier`: the maximal alphanumeric run, looked up in the keyword
table. -/
def identifier (lx : Lexer) : Token × Lexer :=
  match identifierLoop lx.rest lx.column "" with
  | (value, rest, column) =>
    let lx1 : Lexer := { lx with rest := rest, column := column }
    match keywords value with
    | some type => (lx1.makeToken type value, lx1)
    | none => (lx1.makeToken TokenType.IDENTIFIER value, lx1)

/-- The inner loop of `Lexer::skipWhitespace`:
`while (peek() != '\n' && !isAtEnd()) advance();`. -/
def skipComment : List Char → Int → List Char × Int
  | [], column => ([], column)
  | c :: cs, column =>
    if c = '\n' then (c :: cs, column) else skipComment cs (column + 1)

/-- Embedding of `Lexer::skipWhitespace`: the `while (true)` loop, one iteration per unit of fuel.
`none` means the fuel ran out. -/
def skipWhitespace : Nat → Lexer → Option Lexer
  | 0, _ => none
  | fuel + 1, lx =>
    let c := lx.peek
    if c = ' ' ∨ c = '\r' ∨ c = '\t' then
      skipWhitespace fuel (lx.advance).2
    else if c = '/' ∧ lx.peekNext = '/' then
      match skipComment lx.rest lx.column with
      | (rest, column) => skipWhitespace fuel { lx with rest := rest, column := column }
    else
      some lx

/-- The `switch (c)` of `Lexer::tokenize`, run after `char c = advance()`.
`before` is the lexer before that `advance` and `lx` the lexer after it, so that
`current--; column--;` gives back `before`. Returns the tokens pushed (none or one)
and the lexer. -/
def scanToken (before lx : Lexer) (c : Char) : List Token × Lexer :=
  if c = '\n' then
    let lx1 := { lx with line := lx.line + 1, column := 1 }
    ([lx1.makeToken TokenType.NEWLINE], lx1)
  else if c = '"' then
    let r := lx.string
    ([r.1], r.2)
  else if c = '[' then ([lx.makeToken TokenType.LEFT_BRACKET], lx)
  else if c = ']' then ([lx.makeToken TokenType.RIGHT_BRACKET], lx)
  else if c = '(' then ([lx.makeToken TokenType.LEFT_PAREN], lx)
  else if c = ')' then ([lx.makeToken TokenType.RIGHT_PAREN], lx)
  else if c = '+' then ([lx.makeToken TokenType.PLUS], lx)
  else if c = '-' then ([lx.makeToken TokenType.MINUS], lx)
  else if c = '*' then ([lx.makeToken TokenType.MULTIPLY], lx)
  else if c = '/' then ([lx.makeToken TokenType.DIVIDE], lx)
  else if isDigit c then
    let back := { lx with rest := before.rest, column := lx.column - 1 }
    let r := back.number
    ([r.1], r.2)
  else if isAlpha c then
    let back := { lx with rest := before.rest, column := lx.column - 1 }
    let r := back.identifier
    ([r.1], r.2)
  else
    ([], { lx with cerr := lx.cerr ++ [LexDiag.unexpectedCharacter c lx.line] })

/-- The `while (!isAtEnd())` loop of `Lexer::tokenize` followed by the final
`tokens.push_back(makeToken(TokenType::EOF_TOKEN))`. One iteration per unit of fuel;
`none` means the fuel ran out. -/
def tokenizeLoop : Nat → Lexer → List Token → Option (List Token × Lexer)
  | 0, _, _ => none
  | fuel + 1, lx, tokens =>
    if lx.isAtEnd then
      some (tokens ++ [lx.makeToken TokenType.EOF_TOKEN], lx)
    else
      match skipWhitespace (fuel + 1) lx with
      | none => none
      | some lx1 =>
        if lx1.isAtEnd then
          some (tokens ++ [lx1.makeToken TokenType.EOF_TOKEN], lx1)
        else
          let r := scanToken lx1 (lx1.advance).2 (lx1.advance).1
          tokenizeLoop fuel r.2 (tokens ++ r.1)

/-- The lexer as built by the constructor `Lexer::Lexer(source)`. -/
def init (source : String) : Lexer :=
  { rest := source.data, line := 1, column := 1, cerr := [] }

/-- Embedding of `Lexer::tokenize` on a fresh lexer, with its final state. The fuel
`source.length + 1` is enough for every source (`tokenizeLoop_terminates`). -/
def run (source : String) : Option (List Token × Lexer) :=
  tokenizeLoop (source.length + 1) (init source) []

/-- Embedding of `Lexer::tokenize`: the token sequence of a source text. -/
def tokenize (source : String) : Option (List Token) :=
  (run source).map Prod.fst

/-- Number of `Unterminated string` diagnostics in a log. -/
def unterminatedCount (cerr : List LexDiag) : Nat :=
  cerr.countP (fun d => match d with
    | LexDiag.unterminatedString _ => true
    | _ => false)

/-- Number of `EOF_TOKEN` tokens in a token sequence. -/
def eofCount (tokens : List Token) : Nat :=
  tokens.countP (fun t => t.type = TokenType.EOF_TOKEN)

end Lexer

/-! ## Abstract syntax (`parser.h`) -/

/-- A `std::unique_ptr<Expression>`: either the null pointer (`null`) or one of the
five expression nodes. The children of a node are such pointers again. -/
inductive Expr
  | null
  | StringLiteral (value : String)
  | IntegerLiteral (value : Int)
  | Identifier (name : String)
  | ArrayAccess (array : Expr) (index : Expr)
  | BinaryOp (left : Expr) (op : TokenType) (right : Expr)
  deriving DecidableEq, Repr, Inhabited

/-- A non-null `Statement`. `Assignment.index` is `Expr.null` for a plain assignment.
An else-if clause is the pair of its condition and its body. -/
inductive Stmt
  | PrintStatement (expr : Expr)
  | VarDeclaration (name : String) (type : String) (arraySize : Int)
  | Assignment (varName : String) (value : Expr) (index : Expr)
  | ForLoop (varName : String) (condition : Expr) (body : List Stmt)
  | WhileLoop (condition : Expr) (body : List Stmt)
  | IfStatement (condition : Expr) (thenBranch : List Stmt)
      (elseIfClauses : List (Expr × List Stmt)) (elseBranch : List Stmt)
  | IncrementStatement (varName : String) (amount : Int)
  | ReadStatement (varName : String)
  deriving Repr, Inhabited

/-- The `statements` vector of a `Program`. -/
abbrev Program := List Stmt

/-! ## 32-bit integers and `std::stoi` -/

/-- Embedding of `INT_MIN`. -/
def INT_MIN : Int := -2147483648

/-- Embedding of `INT_MAX`. -/
def INT_MAX : Int := 2147483647

/-- Two's-complement reduction of an integer to the range of a 32-bit `int`. -/
def wrap32 (x : Int) : Int := (x + 2147483648) % 4294967296 - 2147483648

/-- Embedding of `isspace` in the "C" locale: space, `\t`, `\n`, `\v`, `\f`, `\r`. -/
def isSpace (c : Char) : Bool :=
  c == ' ' || c == '\t' || c == '\n' || c == Char.ofNat 11 || c == Char.ofNat 12 || c == '\r'

/-- Value of a run of decimal digits. -/
def digitsValue (ds : List Char) : Nat :=
  ds.foldl (fun acc d => 10 * acc + (d.toNat - '0'.toNat)) 0

/-- Embedding of `std::stoi(s)` of the C++ standard library (base 10): skip leading white space,
read an optional sign and the longest run of digits, ignore what follows. `none`
stands for the exception it throws: `std::invalid_argument` when there is no digit,
`std::out_of_range` when the value does not fit an `int`. -/
def stoi (s : String) : Option Int :=
  let cs := s.data.dropWhile isSpace
  let negative : Bool := cs.head? = some '-'
  let cs1 := if cs.head? = some '-' ∨ cs.head? = some '+' then cs.tail else cs
  let ds := cs1.takeWhile Lexer.isDigit
  if ds.isEmpty then none
  else
    let v : Int := if negative then -(digitsValue ds : Int) else (digitsValue ds : Int)
    if INT_MIN ≤ v ∧ v ≤ INT_MAX then some v else none

/-! ## Parser (`parser.cpp`) -/

/-- Messages the parser writes to `std::cerr`. -/
inductive ParseDiag
  | parseError (message : String) (line : Int)
  | expectedExpression (line : Int)
  | exception (current : Nat)
  deriving DecidableEq, Repr

/-- The mutable part of `class Parser`: the position `current` and what was written
to `std::cerr`. The `tokens` vector never changes and is passed alongside. -/
structure Parser where
  current : Nat
  cerr : List ParseDiag
  deriving DecidableEq, Repr

/-- Outcome of a parser call.
* `ok a p`: returned `a`, leaving the parser in state `p`;
* `thrown p`: a C++ exception (from `std::stoi`) is propagating;
* `undefined`: `tokens[i]` was read with `i` outside the vector;
* `timeout`: the fuel ran out before the call returned. -/
inductive Res (α : Type)
  | ok (a : α) (p : Parser)
  | thrown (p : Parser)
  | undefined
  | timeout
  deriving Repr

/-- Sequencing: continue with `k` after a call that returned; pass on the other
outcomes. -/
def Res.bind {α β : Type} (r : Res α) (k : α → Parser → Res β) : Res β :=
  match r with
  | Res.ok a p => k a p
  | Res.thrown p => Res.thrown p
  | Res.undefined => Res.undefined
  | Res.timeout => Res.timeout

namespace Parser

/-- Embedding of `Parser::peek`: `tokens[current]`. -/
def peek (tokens : List Token) (p : Parser) : Res Token :=
  match tokens[p.current]? with
  | some t => Res.ok t p
  | none => Res.undefined

/-- Embedding of `Parser::previous`: `tokens[current - 1]`. -/
def previous (tokens : List Token) (p : Parser) : Res Token :=
  if p.current = 0 then Res.undefined
  else
    match tokens[p.current - 1]? with
    | some t => Res.ok t p
    | none => Res.undefined

/-- Embedding of `Parser::isAtEnd`: `peek().type == TokenType::EOF_TOKEN`. -/
def isAtEnd (tokens : List Token) (p : Parser) : Res Bool :=
  (peek tokens p).bind fun t p => Res.ok (t.type == TokenType.EOF_TOKEN) p

/-- Embedding of `Parser::check`. -/
def check (tokens : List Token) (p : Parser) (type : TokenType) : Res Bool :=
  (isAtEnd tokens p).bind fun atEnd p =>
    if atEnd then Res.ok false p
    else (peek tokens p).bind fun t p => Res.ok (t.type == type) p

/-- Embedding of `Parser::advance`: `if (!isAtEnd()) current++; return previous();`. -/
def advance (tokens : List Token) (p : Parser) : Res Token :=
  (isAtEnd tokens p).bind fun atEnd p =>
    previous tokens (if atEnd then p else { p with current := p.current + 1 })

/-- Embedding of `Parser::match`: advance over the current token if its type is one of `types`. -/
def match_ (tokens : List Token) (p : Parser) : List TokenType → Res Bool
  | [] => Res.ok false p
  | type :: types =>
    (check tokens p type).bind fun found p =>
      if found then (advance tokens p).bind fun _ p => Res.ok true p
      else match_ tokens p types

/-- Embedding of `Parser::consume`: advance over a token of the expected type; otherwise report
and return the current token, leaving the position unchanged. -/
def consume (tokens : List Token) (p : Parser) (type : TokenType) (message : String) :
    Res Token :=
  (check tokens p type).bind fun found p =>
    if found then advance tokens p
    else (peek tokens p).bind fun t p =>
      peek tokens { p with cerr := p.cerr ++ [ParseDiag.parseError message t.line] }

/-- The loop `while (match({NEWLINE})) {}` on the tokens from `current` on: the
position after the run of `NEWLINE` tokens, or `none` if the run reaches the end of
the vector. -/
def skipNewlinesFrom : List Token → Nat → Option Nat
  | [], _ => none
  | t :: ts, current =>
    if t.type = TokenType.NEWLINE then skipNewlinesFrom ts (current + 1) else some current

/-- Embedding of `Parser::skipNewlines`. -/
def skipNewlines (tokens : List Token) (p : Parser) : Res Unit :=
  match skipNewlinesFrom (tokens.drop p.current) p.current with
  | some current => Res.ok () { p with current := current }
  | none => Res.undefined

/-- The loop `while (!check(NEWLINE) && !isAtEnd()) advance();` of `Parser::statement`
on the tokens from `current` on: the position of the next `NEWLINE` or `EOF_TOKEN`
token, or `none` if there is none. -/
def skipLineFrom : List Token → Nat → Option Nat
  | [], _ => none
  | t :: ts, current =>
    if t.type = TokenType.NEWLINE ∨ t.type = TokenType.EOF_TOKEN then some current
    else skipLineFrom ts (current + 1)

/-- The five binary-operator levels of the expression grammar. `logicalOr`,
`logicalAnd`, `equality`, `addition` and `multiplication` of `parser.cpp` have the
same body up to the operator set they match and the function they call for an
operand. -/
inductive Level
  | logicalOr
  | logicalAnd
  | equality
  | addition
  | multiplication
  deriving DecidableEq, Repr

/-- The operator tokens matched by a level, in the order of its `match({...})`. -/
def Level.ops : Level → List TokenType
  | Level.logicalOr => [TokenType.OR]
  | Level.logicalAnd => [TokenType.AND]
  | Level.equality => [TokenType.EQUALS, TokenType.NOT_EQUALS, TokenType.LESS_THAN]
  | Level.addition => [TokenType.PLUS, TokenType.MINUS]
  | Level.multiplication => [TokenType.MULTIPLY, TokenType.DIVIDE]

/-- The level whose function parses the operands; `none` when operands are parsed by
`primary`. -/
def Level.next : Level → Option Level
  | Level.logicalOr => some Level.logicalAnd
  | Level.logicalAnd => some Level.equality
  | Level.equality => some Level.addition
  | Level.addition => some Level.multiplication
  | Level.multiplication => none

mutual

/-- Embedding of `Parser::expression`: `return logicalOr();`. -/
def expression : Nat → List Token → Parser → Res Expr
  | 0, _, _ => Res.timeout
  | fuel + 1, tokens, p => binaryLevel fuel Level.logicalOr tokens p

/-- The common body of `logicalOr`, `logicalAnd`, `equality`, `addition` and
`multiplication`: parse the first operand, then run the `while (true)` loop. -/
def binaryLevel : Nat → Level → List Token → Parser → Res Expr
  | 0, _, _, _ => Res.timeout
  | fuel + 1, level, tokens, p =>
    (match level.next with
      | some next => binaryLevel fuel next tokens p
      | none => primary fuel tokens p).bind fun expr p =>
    binaryLoop fuel level tokens expr p

/-- The `while (true)` loop of a binary level, `expr` being the tree built so far:
skip newlines; on one of the level's operators skip newlines again, parse the right
operand and combine; otherwise leave the loop. -/
def binaryLoop : Nat → Level → List Token → Expr → Parser → Res Expr
  | 0, _, _, _, _ => Res.timeout
  | fuel + 1, level, tokens, expr, p =>
    (skipNewlines tokens p).bind fun _ p =>
    (match_ tokens p level.ops).bind fun found p =>
      if found then
        (previous tokens p).bind fun opToken p =>
        (skipNewlines tokens p).bind fun _ p =>
        (match level.next with
          | some next => binaryLevel fuel next tokens p
          | none => primary fuel tokens p).bind fun right p =>
        binaryLoop fuel level tokens (Expr.BinaryOp expr opToken.type right) p
      else Res.ok expr p

/-- Embedding of `Parser::primary`. -/
def primary : Nat → List Token → Parser → Res Expr
  | 0, _, _ => Res.timeout
  | fuel + 1, tokens, p =>
    (match_ tokens p [TokenType.STRING]).bind fun isString p =>
    if isString then
      (previous tokens p).bind fun t p => Res.ok (Expr.StringLiteral t.value) p
    else
    (match_ tokens p [TokenType.INTEGER]).bind fun isInteger p =>
    if isInteger then
      (previous tokens p).bind fun t p =>
        match stoi t.value with
        | some v => Res.ok (Expr.IntegerLiteral v) p
        | none => Res.thrown p
    else
    (match_ tokens p [TokenType.LEFT_PAREN]).bind fun isParen p =>
    if isParen then
      (expression fuel tokens p).bind fun expr p =>
      (consume tokens p TokenType.RIGHT_PAREN "Expected ')' after expression").bind fun _ p =>
      Res.ok expr p
    else
    (match_ tokens p [TokenType.IDENTIFIER]).bind fun isIdentifier p =>
    if isIdentifier then
      (previous tokens p).bind fun t p =>
      (match_ tokens p [TokenType.LEFT_BRACKET]).bind fun isBracket p =>
      if isBracket then
        (expression fuel tokens p).bind fun index p =>
        (consume tokens p TokenType.RIGHT_BRACKET "Expected ']' after array index").bind
          fun _ p =>
        Res.ok (Expr.ArrayAccess (Expr.Identifier t.value) index) p
      else Res.ok (Expr.Identifier t.value) p
    else
    (peek tokens p).bind fun t p =>
      Res.ok Expr.null { p with cerr := p.cerr ++ [ParseDiag.expectedExpression t.line] }

end

/-- Embedding of `Parser::logicalOr`. -/
def logicalOr (fuel : Nat) (tokens : List Token) (p : Parser) : Res Expr :=
  binaryLevel fuel Level.logicalOr tokens p

/-- Embedding of `Parser::logicalAnd`. -/
def logicalAnd (fuel : Nat) (tokens : List Token) (p : Parser) : Res Expr :=
  binaryLevel fuel Level.logicalAnd tokens p

/-- Embedding of `Parser::equality`. -/
def equality (fuel : Nat) (tokens : List Token) (p : Parser) : Res Expr :=
  binaryLevel fuel Level.equality tokens p

/-- Embedding of `Parser::addition`. -/
def addition (fuel : Nat) (tokens : List Token) (p : Parser) : Res Expr :=
  binaryLevel fuel Level.addition tokens p

/-- Embedding of `Parser::multiplication`. -/
def multiplication (fuel : Nat) (tokens : List Token) (p : Parser) : Res Expr :=
  binaryLevel fuel Level.multiplication tokens p

/-- Embedding of `Parser::printStatement`. -/
def printStatement (fuel : Nat) (tokens : List Token) (p : Parser) : Res Stmt :=
  (expression fuel tokens p).bind fun expr p => Res.ok (Stmt.PrintStatement expr) p

/-- Embedding of `Parser::varDeclaration`. When no type keyword follows, `type` stays the empty
string. -/
def varDeclaration (tokens : List Token) (p : Parser) : Res Stmt :=
  (consume tokens p TokenType.STRING "Expected variable name in quotes").bind fun _ p =>
  (previous tokens p).bind fun nameToken p =>
  (consume tokens p TokenType.AS "Expected 'AS' after variable name").bind fun _ p =>
  (match_ tokens p [TokenType.INTEGER_TYPE]).bind fun isInteger p =>
  if isInteger then Res.ok (Stmt.VarDeclaration nameToken.value "INTEGER" 0) p
  else
  (match_ tokens p [TokenType.STRING_TYPE]).bind fun isString p =>
  if isString then Res.ok (Stmt.VarDeclaration nameToken.value "STRING" 0) p
  else
  (match_ tokens p [TokenType.ARRAY_OF_STRING]).bind fun isArray p =>
  if isArray then
    (consume tokens p TokenType.SIZE "Expected 'SIZE' after ARRAY_OF_STRING").bind fun _ p =>
    (consume tokens p TokenType.INTEGER "Expected array size").bind fun _ p =>
    (previous tokens p).bind fun sizeToken p =>
      match stoi sizeToken.value with
      | some arraySize =>
        Res.ok (Stmt.VarDeclaration nameToken.value "ARRAY_OF_STRING" arraySize) p
      | none => Res.thrown p
  else Res.ok (Stmt.VarDeclaration nameToken.value "" 0) p

/-- Embedding of `Parser::assignment`. -/
def assignment (fuel : Nat) (tokens : List Token) (p : Parser) : Res Stmt :=
  (consume tokens p TokenType.IDENTIFIER "Expected variable name").bind fun _ p =>
  (previous tokens p).bind fun nameToken p =>
  (match_ tokens p [TokenType.LEFT_BRACKET]).bind fun isBracket p =>
  (if isBracket then
    (expression fuel tokens p).bind fun index p =>
    (consume tokens p TokenType.RIGHT_BRACKET "Expected ']' after array index").bind
      fun _ p =>
    Res.ok index p
   else Res.ok Expr.null p).bind fun index p =>
  (consume tokens p TokenType.TO "Expected 'TO' in assignment").bind fun _ p =>
  (expression fuel tokens p).bind fun value p =>
  Res.ok (Stmt.Assignment nameToken.value value index) p

/-- Embedding of `Parser::incrementStatement`. -/
def incrementStatement (tokens : List Token) (p : Parser) : Res Stmt :=
  (consume tokens p TokenType.IDENTIFIER "Expected variable name").bind fun _ p =>
  (previous tokens p).bind fun nameToken p =>
  (consume tokens p TokenType.BY "Expected 'BY' after INCREMENT").bind fun _ p =>
  (consume tokens p TokenType.INTEGER "Expected increment amount").bind fun _ p =>
  (previous tokens p).bind fun amountToken p =>
    match stoi amountToken.value with
    | some amount => Res.ok (Stmt.IncrementStatement nameToken.value amount) p
    | none => Res.thrown p

/-- Embedding of `Parser::readStatement`. -/
def readStatement (tokens : List Token) (p : Parser) : Res Stmt :=
  (consume tokens p TokenType.IDENTIFIER "Expected variable name").bind fun _ p =>
  (previous tokens p).bind fun nameToken p =>
  Res.ok (Stmt.ReadStatement nameToken.value) p

/-- The condition of a block loop, negated: `check(t)` holds for one of the
terminators or `isAtEnd()` holds. -/
def atBlockEnd (tokens : List Token) (p : Parser) : List TokenType → Res Bool
  | [] => isAtEnd tokens p
  | type :: types =>
    (check tokens p type).bind fun found p =>
      if found then Res.ok true p else atBlockEnd tokens p types

mutual

/-- Embedding of `Parser::statement`. The result is `none` for the null pointer. -/
def statement : Nat → List Token → Parser → Res (Option Stmt)
  | 0, _, _ => Res.timeout
  | fuel + 1, tokens, p =>
    (skipNewlines tokens p).bind fun _ p =>
    (match_ tokens p [TokenType.PRAISE_LEADER]).bind fun isPrint p =>
    if isPrint then (printStatement fuel tokens p).bind fun s p => Res.ok (some s) p
    else
    (match_ tokens p [TokenType.PLEASE]).bind fun isPlease p =>
    (if isPlease then
      (match_ tokens p [TokenType.DECLARE_VARIABLE]).bind fun isDeclare p =>
      if isDeclare then (varDeclaration tokens p).bind fun s p => Res.ok (some (some s)) p
      else
      (match_ tokens p [TokenType.SET]).bind fun isSet p =>
      if isSet then (assignment fuel tokens p).bind fun s p => Res.ok (some (some s)) p
      else
      (match_ tokens p [TokenType.INCREMENT]).bind fun isIncrement p =>
      if isIncrement then
        (incrementStatement tokens p).bind fun s p => Res.ok (some (some s)) p
      else
      (match_ tokens p [TokenType.READ]).bind fun isRead p =>
      if isRead then (readStatement tokens p).bind fun s p => Res.ok (some (some s)) p
      else Res.ok none p
     else Res.ok none p).bind fun returned p =>
    match returned with
    | some result => Res.ok result p
    | none =>
    (match_ tokens p [TokenType.FOR_THE_PEOPLE]).bind fun isFor p =>
    if isFor then (forLoop fuel tokens p).bind fun s p => Res.ok (some s) p
    else
    (match_ tokens p [TokenType.WHILE]).bind fun isWhile p =>
    if isWhile then (whileLoop fuel tokens p).bind fun s p => Res.ok (some s) p
    else
    (match_ tokens p [TokenType.IF]).bind fun isIf p =>
    if isIf then (ifStatement fuel tokens p).bind fun s p => Res.ok (some s) p
    else
    (match_ tokens p
        [TokenType.OBEY_PARTY_LINE, TokenType.DENOUNCE_IMPERIALIST_ERRORS]).bind
      fun isComment p =>
    if isComment then
      match skipLineFrom (tokens.drop p.current) p.current with
      | some current => Res.ok none { p with current := current }
      | none => Res.undefined
    else Res.ok none p

/-- The block loop shared by `forLoop`, `whileLoop` and the three branches of
`ifStatement`: `while (!check(t1) && ... && !isAtEnd()) { auto stmt = statement();
if (stmt) body.push_back(stmt); skipNewlines(); }`, `body` being the statements
collected so far. -/
def block : Nat → List TokenType → List Token → List Stmt → Parser → Res (List Stmt)
  | 0, _, _, _, _ => Res.timeout
  | fuel + 1, terminators, tokens, body, p =>
    (atBlockEnd tokens p terminators).bind fun done p =>
    if done then Res.ok body p
    else
      (statement fuel tokens p).bind fun stmt p =>
      (skipNewlines tokens p).bind fun _ p =>
      block fuel terminators tokens (body ++ stmt.toList) p

/-- Embedding of `Parser::forLoop`. The `varName` of the node is the empty string. -/
def forLoop : Nat → List Token → Parser → Res Stmt
  | 0, _, _ => Res.timeout
  | fuel + 1, tokens, p =>
    (expression fuel tokens p).bind fun condition p =>
    (consume tokens p TokenType.DO "Expected 'DO' after for condition").bind fun _ p =>
    (skipNewlines tokens p).bind fun _ p =>
    (block fuel [TokenType.END_FOR_THE_PEOPLE] tokens [] p).bind fun body p =>
    (consume tokens p TokenType.END_FOR_THE_PEOPLE "Expected 'END_FOR_THE_PEOPLE'").bind
      fun _ p =>
    Res.ok (Stmt.ForLoop "" condition body) p

/-- Embedding of `Parser::whileLoop`. -/
def whileLoop : Nat → List Token → Parser → Res Stmt
  | 0, _, _ => Res.timeout
  | fuel + 1, tokens, p =>
    (expression fuel tokens p).bind fun condition p =>
    (consume tokens p TokenType.DO "Expected 'DO' after while condition").bind fun _ p =>
    (skipNewlines tokens p).bind fun _ p =>
    (block fuel [TokenType.END_WHILE] tokens [] p).bind fun body p =>
    (consume tokens p TokenType.END_WHILE "Expected 'END_WHILE'").bind fun _ p =>
    Res.ok (Stmt.WhileLoop condition body) p

/-- The loop `while (match({ELSE_IF})) { ... }` of `Parser::ifStatement`, `clauses`
being the else-if clauses collected so far. -/
def elseIfClauses : Nat → List Token → List (Expr × List Stmt) → Parser →
    Res (List (Expr × List Stmt))
  | 0, _, _, _ => Res.timeout
  | fuel + 1, tokens, clauses, p =>
    (match_ tokens p [TokenType.ELSE_IF]).bind fun isElseIf p =>
    if isElseIf then
      (expression fuel tokens p).bind fun condition p =>
      (consume tokens p TokenType.THEN "Expected 'THEN' after else-if condition").bind
        fun _ p =>
      (skipNewlines tokens p).bind fun _ p =>
      (block fuel [TokenType.ELSE_IF, TokenType.ELSE, TokenType.END_IF] tokens [] p).bind
        fun body p =>
      elseIfClauses fuel tokens (clauses ++ [(condition, body)]) p
    else Res.ok clauses p

/-- Embedding of `Parser::ifStatement`. -/
def ifStatement : Nat → List Token → Parser → Res Stmt
  | 0, _, _ => Res.timeout
  | fuel + 1, tokens, p =>
    (expression fuel tokens p).bind fun condition p =>
    (consume tokens p TokenType.THEN "Expected 'THEN' after if condition").bind fun _ p =>
    (skipNewlines tokens p).bind fun _ p =>
    (block fuel [TokenType.ELSE_IF, TokenType.ELSE, TokenType.END_IF] tokens [] p).bind
      fun thenBranch p =>
    (elseIfClauses fuel tokens [] p).bind fun clauses p =>
    (match_ tokens p [TokenType.ELSE]).bind fun isElse p =>
    (if isElse then
      (skipNewlines tokens p).bind fun _ p =>
      block fuel [TokenType.END_IF] tokens [] p
     else Res.ok [] p).bind fun elseBranch p =>
    (consume tokens p TokenType.END_IF "Expected 'END_IF'").bind fun _ p =>
    Res.ok (Stmt.IfStatement condition thenBranch clauses elseBranch) p

end

/-- The `while (!isAtEnd())` loop of `Parser::parse` with its `try`/`catch`,
`statements` being the statements collected so far. A caught exception gives the
null program (`none`). -/
def parseLoop : Nat → List Token → List Stmt → Parser → Res (Option Program)
  | 0, _, _, _ => Res.timeout
  | fuel + 1, tokens, statements, p =>
    (isAtEnd tokens p).bind fun atEnd p =>
    if atEnd then Res.ok (some statements) p
    else
      match (statement fuel tokens p).bind fun stmt p =>
          (skipNewlines tokens p).bind fun _ p => Res.ok stmt p with
      | Res.ok stmt p => parseLoop fuel tokens (statements ++ stmt.toList) p
      | Res.thrown p =>
        Res.ok none { p with cerr := p.cerr ++ [ParseDiag.exception p.current] }
      | Res.undefined => Res.undefined
      | Res.timeout => Res.timeout

/-- Embedding of `Parser::parse` on a parser built by `Parser::Parser(tokens)`: the optional
header, then the statement loop. -/
def parse (fuel : Nat) (tokens : List Token) : Res (Option Program) :=
  (match_ tokens { current := 0, cerr := [] } [TokenType.I_LOVE_GOVERNMENT]).bind
    fun isHeader p =>
  (if isHeader then skipNewlines tokens p else Res.ok () p).bind fun _ p =>
  parseLoop fuel tokens [] p

end Parser

/-! ## Evaluator (`interpreter.h`, `interpreter.cpp`) -/

/-- The variant `using Value = std::variant<int, std::string,
std::vector<std::string>>`. -/
inductive Value
  | Integer (i : Int)
  | String (s : String)
  | StringArray (arr : List String)
  deriving DecidableEq, Repr, Inhabited

/-- The map `std::unordered_map<std::string, Value> variables`: the value stored
under a name, if any. -/
abbrev Variables := String → Option Value

/-- The state of `class Interpreter` outside debug mode (`debugMode = false`,
`debugLevel = 0`, as for the `run` command) together with the three standard streams:
`cout` holds the lines written so far, `cin` the lines still to be read and `cerr` the
diagnostics written so far. -/
structure Interpreter where
  vars : Variables
  cout : List String
  cin : List String
  cerr : List String

/-- Outcome of running a statement.
* `ok s`: returned, leaving the interpreter in state `s`;
* `abort`: an uncaught C++ exception ended the process (`std::length_error` from
  constructing a vector of negative size);
* `timeout`: the fuel ran out before the call returned. -/
inductive Exec
  | ok (s : Interpreter)
  | abort
  | timeout

/-- Sequencing of statement outcomes. -/
def Exec.bind (r : Exec) (k : Interpreter → Exec) : Exec :=
  match r with
  | Exec.ok s => k s
  | Exec.abort => Exec.abort
  | Exec.timeout => Exec.timeout

namespace Interpreter

/-- The `for` loop of `Interpreter::valueToString` over the elements from index `i`
on: `if (i > 0) ss << ", "; ss << arr[i];`. -/
def valueToStringLoop : List String → Nat → String → String
  | [], _, ss => ss
  | x :: xs, i, ss => valueToStringLoop xs (i + 1) ((if i > 0 then ss ++ ", " else ss) ++ x)

/-- Embedding of `Interpreter::valueToString`. `std::to_string` of an `int` is its decimal
representation, with a leading `-` for a negative number. -/
def valueToString : Value → String
  | Value.Integer i => toString i
  | Value.String s => s
  | Value.StringArray arr => valueToStringLoop arr 0 "[" ++ "]"

/-- Embedding of `Interpreter::isTruthy`. -/
def isTruthy : Value → Bool
  | Value.Integer i => i != 0
  | Value.String s => !s.isEmpty
  | Value.StringArray _ => false

/-- Embedding of `Interpreter::binaryOperation`: the value returned. Results of `int` arithmetic
are reduced to 32 bits; `/` on `int` truncates toward zero. An operator without a `case`,
and a `case` left by `break`, give `0`. The one call that does not return is `DIVIDE` of
`INT_MIN` by `-1` (`divisionTraps`): the value given for it here is the value of no
call. -/
def binaryOperation (left : Value) (op : TokenType) (right : Value) : Value :=
  match op with
  | TokenType.PLUS =>
    match left, right with
    | Value.String _, _ => Value.String (valueToString left ++ valueToString right)
    | _, Value.String _ => Value.String (valueToString left ++ valueToString right)
    | Value.Integer a, Value.Integer b => Value.Integer (wrap32 (a + b))
    | _, _ => Value.Integer 0
  | TokenType.MINUS =>
    match left, right with
    | Value.Integer a, Value.Integer b => Value.Integer (wrap32 (a - b))
    | _, _ => Value.Integer 0
  | TokenType.EQUALS =>
    Value.Integer (if valueToString left = valueToString right then 1 else 0)
  | TokenType.NOT_EQUALS =>
    Value.Integer (if valueToString left ≠ valueToString right then 1 else 0)
  | TokenType.LESS_THAN =>
    match left, right with
    | Value.Integer a, Value.Integer b => Value.Integer (if a < b then 1 else 0)
    | _, _ => Value.Integer 0
  | TokenType.MULTIPLY =>
    match left, right with
    | Value.Integer a, Value.Integer b => Value.Integer (wrap32 (a * b))
    | _, _ => Value.Integer 0
  | TokenType.DIVIDE =>
    match left, right with
    | Value.Integer a, Value.Integer b =>
      if b ≠ 0 then Value.Integer (wrap32 (Int.tdiv a b)) else Value.Integer 0
    | _, _ => Value.Integer 0
  | TokenType.AND => Value.Integer (if isTruthy left && isTruthy right then 1 else 0)
  | TokenType.OR => Value.Integer (if isTruthy left || isTruthy right then 1 else 0)
  | _ => Value.Integer 0

/-- The call of `Interpreter::binaryOperation` that does not return. The `DIVIDE` case
computes `std::get<int>(left) / rightVal` whenever `rightVal != 0`; for `INT_MIN / -1`
the quotient `2147483648` is no `int`, the division overflows and the process is killed
(SIGFPE). -/
def divisionTraps (left : Value) (op : TokenType) (right : Value) : Bool :=
  op == TokenType.DIVIDE && left == Value.Integer INT_MIN && right == Value.Integer (-1)

/-- Embedding of `Interpreter::evaluate`: the value returned. Every `dynamic_cast` of the null
pointer fails, so `null` reaches the final `return 0`. The calls that do not return
are those told by `traps`; for them the value given here is the value of no call. -/
def evaluate (vars : Variables) : Expr → Value
  | Expr.StringLiteral value => Value.String value
  | Expr.IntegerLiteral value => Value.Integer value
  | Expr.Identifier name =>
    match vars name with
    | some v => v
    | none => Value.Integer 0
  | Expr.ArrayAccess array index =>
    match evaluate vars array, evaluate vars index with
    | Value.StringArray arr, Value.Integer idx =>
      if idx ≥ 0 ∧ idx < arr.length then Value.String (arr.getD idx.toNat "")
      else Value.String ""
    | _, _ => Value.String ""
  | Expr.BinaryOp left op right =>
    binaryOperation (evaluate vars left) op (evaluate vars right)
  | Expr.null => Value.Integer 0

/-- The calls `evaluate(expr)` that do not return: `evaluate` evaluates both operands of
a `BinaryOp`, and the array and the index of an `ArrayAccess`, whatever their values,
so the call is killed when one of these evaluations is, or when the operation itself
is a division that traps. -/
def traps (vars : Variables) : Expr → Bool
  | Expr.ArrayAccess array index => traps vars array || traps vars index
  | Expr.BinaryOp left op right =>
    traps vars left || traps vars right ||
      divisionTraps (evaluate vars left) op (evaluate vars right)
  | _ => false

/-- The call `evaluate(expr)` returns the value `v`: it is not killed on the way, and
`v` is what it returns. -/
def EvaluatesTo (vars : Variables) (expr : Expr) (v : Value) : Prop :=
  traps vars expr = false ∧ evaluate vars expr = v

/-- Embedding of `Interpreter::evaluate`: the lines it writes to `std::cerr`, one
`Undefined variable: <name>` for every lookup that fails, in evaluation order. -/
def evaluateCerr (vars : Variables) : Expr → List String
  | Expr.Identifier name =>
    match vars name with
    | some _ => []
    | none => ["Undefined variable: " ++ name]
  | Expr.ArrayAccess array index =>
    evaluateCerr vars array ++ evaluateCerr vars index
  | Expr.BinaryOp left _ right =>
    evaluateCerr vars left ++ evaluateCerr vars right
  | _ => []

/-- The assignment `variables[name] = value`. -/
def assign (s : Interpreter) (name : String) (value : Value) : Interpreter :=
  { s with vars := Function.update s.vars name (some value) }

/-- The state after a call `evaluate(expr)`: its diagnostics are appended to `cerr`. -/
def evaluated (s : Interpreter) (expr : Expr) : Interpreter :=
  { s with cerr := s.cerr ++ evaluateCerr s.vars expr }

/-- The evaluations of the `Assignment` case of `Interpreter::execute` in the state `s`: the
value is evaluated first, the index only when it is present and the variable holds a
vector. True when one of these calls of `evaluate` does not return; false for every
other statement. -/
def assignmentTraps (s : Interpreter) : Stmt → Bool
  | Stmt.Assignment varName value index =>
    traps s.vars value ||
      (index != Expr.null &&
        match s.vars varName with
        | some (Value.StringArray _) => traps s.vars index
        | _ => false)
  | _ => false

/-- Embedding of `std::getline(std::cin, input)`: the next line and the state after reading it; at
the end of the input the line is empty. -/
def getline (s : Interpreter) : String × Interpreter :=
  match s.cin with
  | [] => ("", s)
  | line :: rest => (line, { s with cin := rest })

mutual

/-- Embedding of `Interpreter::execute`: the outcome of the call when each `evaluate` it makes
returns (see `traps`). -/
def execute : Nat → Stmt → Interpreter → Exec
  | 0, _, _ => Exec.timeout
  | fuel + 1, stmt, s =>
    match stmt with
    | Stmt.PrintStatement expr =>
      let value := evaluate s.vars expr
      let s1 := s.evaluated expr
      Exec.ok { s1 with cout := s1.cout ++ [valueToString value] }
    | Stmt.VarDeclaration name type arraySize =>
      if type = "INTEGER" then Exec.ok (s.assign name (Value.Integer 0))
      else if type = "STRING" then Exec.ok (s.assign name (Value.String ""))
      else if type = "ARRAY_OF_STRING" then
        if arraySize < 0 then Exec.abort
        else Exec.ok (s.assign name (Value.StringArray (List.replicate arraySize.toNat " ")))
      else Exec.ok s
    | Stmt.Assignment varName value index =>
      let v := evaluate s.vars value
      let s1 := s.evaluated value
      if index ≠ Expr.null then
        match s1.vars varName with
        | some (Value.StringArray arr) =>
          let indexValue := evaluate s1.vars index
          let s2 := s1.evaluated index
          match indexValue with
          | Value.Integer idx =>
            if idx ≥ 0 ∧ idx < arr.length then
              Exec.ok (s2.assign varName (Value.StringArray (arr.set idx.toNat (valueToString v))))
            else Exec.ok s2
          | _ => Exec.ok s2
        | _ => Exec.ok s1
      else Exec.ok (s1.assign varName v)
    | Stmt.ForLoop _ condition body => whileLoop fuel condition body s
    | Stmt.WhileLoop condition body => whileLoop fuel condition body s
    | Stmt.IfStatement condition thenBranch elseIfClauses elseBranch =>
      if isTruthy (evaluate s.vars condition) then
        executeAll fuel thenBranch (s.evaluated condition)
      else elseIf fuel elseIfClauses elseBranch (s.evaluated condition)
    | Stmt.IncrementStatement varName amount =>
      match s.vars varName with
      | some (Value.Integer currentValue) =>
        Exec.ok (s.assign varName (Value.Integer (wrap32 (currentValue + amount))))
      | _ => Exec.ok s
    | Stmt.ReadStatement varName =>
      let input := s.getline.1
      let s1 := s.getline.2
      match stoi input with
      | some intValue => Exec.ok (s1.assign varName (Value.Integer intValue))
      | none => Exec.ok (s1.assign varName (Value.String input))

/-- The loop `for (auto& stmt : body) execute(stmt.get());`. -/
def executeAll : Nat → List Stmt → Interpreter → Exec
  | 0, _, _ => Exec.timeout
  | _ + 1, [], s => Exec.ok s
  | fuel + 1, stmt :: rest, s => (execute fuel stmt s).bind fun s => executeAll fuel rest s

/-- The loop `while (isTruthy(evaluate(condition))) { for (...) execute(...); }`, which
`execute` runs for a `ForLoop` and for a `WhileLoop` alike. -/
def whileLoop : Nat → Expr → List Stmt → Interpreter → Exec
  | 0, _, _, _ => Exec.timeout
  | fuel + 1, condition, body, s =>
    if isTruthy (evaluate s.vars condition) then
      (executeAll fuel body (s.evaluated condition)).bind fun s =>
        whileLoop fuel condition body s
    else Exec.ok (s.evaluated condition)

/-- The `else` part of the `IfStatement` case: the loop over the else-if clauses, which
runs the body of the first clause with a truthy condition and stops (`executed = true;
break;`), followed by the else-branch when no clause ran. -/
def elseIf : Nat → List (Expr × List Stmt) → List Stmt → Interpreter → Exec
  | 0, _, _, _ => Exec.timeout
  | fuel + 1, [], elseBranch, s => executeAll fuel elseBranch s
  | fuel + 1, clause :: clauses, elseBranch, s =>
    if isTruthy (evaluate s.vars clause.1) then
      executeAll fuel clause.2 (s.evaluated clause.1)
    else elseIf fuel clauses elseBranch (s.evaluated clause.1)

end

/-- A freshly constructed `Interpreter` reading the input lines `cin`. -/
def init (cin : List String) : Interpreter :=
  { vars := fun _ => none, cout := [], cin := cin, cerr := [] }

/-- Embedding of `Interpreter::interpret` on a fresh interpreter: the top-level statements in
order. -/
def interpret (fuel : Nat) (program : Program) (cin : List String) : Exec :=
  executeAll fuel program (init cin)

end Interpreter

/-! ## Auxiliary definitions used in the statements of the theorems -/

namespace Parser

/-- The token sequence of the source text `x`. -/
def strayIdentifier : List Token :=
  [⟨TokenType.IDENTIFIER, "x", 1, 2⟩, ⟨TokenType.EOF_TOKEN, "", 1, 2⟩]

/-- The token sequence of the source text `PRAISE_LEADER`. -/
def praiseNothing : List Token :=
  [⟨TokenType.PRAISE_LEADER, "PRAISE_LEADER", 1, 14⟩, ⟨TokenType.EOF_TOKEN, "", 1, 14⟩]

/-- The token sequence of the source text `PRAISE_LEADER 1 +`. -/
def praiseOnePlus : List Token :=
  [⟨TokenType.PRAISE_LEADER, "PRAISE_LEADER", 1, 14⟩, ⟨TokenType.INTEGER, "1", 1, 16⟩,
    ⟨TokenType.PLUS, "", 1, 18⟩, ⟨TokenType.EOF_TOKEN, "", 1, 18⟩]

/-- The token sequence of the source text `PRAISE_LEADER 1 + 2`. -/
def praiseOnePlusTwo : List Token :=
  [⟨TokenType.PRAISE_LEADER, "PRAISE_LEADER", 1, 14⟩, ⟨TokenType.INTEGER, "1", 1, 16⟩,
    ⟨TokenType.PLUS, "", 1, 18⟩, ⟨TokenType.INTEGER, "2", 1, 20⟩,
    ⟨TokenType.EOF_TOKEN, "", 1, 20⟩]

/-- The token sequence of the source text `2 + 3 * 4`. -/
def twoPlusThreeTimesFour : List Token :=
  [⟨TokenType.INTEGER, "2", 1, 2⟩, ⟨TokenType.PLUS, "", 1, 4⟩,
    ⟨TokenType.INTEGER, "3", 1, 6⟩, ⟨TokenType.MULTIPLY, "", 1, 8⟩,
    ⟨TokenType.INTEGER, "4", 1, 10⟩, ⟨TokenType.EOF_TOKEN, "", 1, 10⟩]

/-- The token sequence of the source text `a EQUALS b LESS_THAN c`. -/
def equalsLessThan : List Token :=
  [⟨TokenType.IDENTIFIER, "a", 1, 2⟩, ⟨TokenType.EQUALS, "EQUALS", 1, 9⟩,
    ⟨TokenType.IDENTIFIER, "b", 1, 11⟩, ⟨TokenType.LESS_THAN, "LESS_THAN", 1, 21⟩,
    ⟨TokenType.IDENTIFIER, "c", 1, 23⟩, ⟨TokenType.EOF_TOKEN, "", 1, 23⟩]

/-- The log holds no `Expected expression` diagnostic of `Parser::primary`. -/
def NoExpected (cerr : List ParseDiag) : Prop :=
  ∀ line, ParseDiag.expectedExpression line ∉ cerr

/-- The call `f` returns `a` in state `q`: it does so with every sufficiently large
amount of fuel. -/
def Returns {α : Type} (f : Nat → Res α) (a : α) (q : Parser) : Prop :=
  ∃ fuel0, ∀ fuel, fuel0 ≤ fuel → f fuel = Res.ok a q

/-- Position of a level in the order of precedence, from `logicalOr` (loosest) to
`multiplication` (tightest). -/
def Level.rank : Level → Nat
  | Level.logicalOr => 0
  | Level.logicalAnd => 1
  | Level.equality => 2
  | Level.addition => 3
  | Level.multiplication => 4

/-- The function that parses the operands of a level: the function of the level
`next` for `some next`, and `primary` for `none`. -/
def parseAt (next : Option Level) (fuel : Nat) (tokens : List Token) (p : Parser) :
    Res Expr :=
  match next with
  | some level => binaryLevel fuel level tokens p
  | none => primary fuel tokens p

/-- Rank of the function that parses operands: the rank of the level for `some level`,
and `5` for `primary`. -/
def rankAt : Option Level → Nat
  | some level => level.rank
  | none => 5

/-- The token at position `i` is neither a `NEWLINE` nor an operator of a level of rank
`rank` or more: no level from `rank` on continues an expression over it. -/
def StopsFrom (tokens : List Token) (i : Nat) (rank : Nat) : Prop :=
  ∃ t, tokens[i]? = some t ∧ t.type ≠ TokenType.NEWLINE ∧
    ∀ level : Level, rank ≤ level.rank → t.type ∉ level.ops

/-- The token at position `i` is neither a `NEWLINE` nor a binary operator, as is the
case for `EOF_TOKEN`: no expression continues over it. -/
def EndsExpression (tokens : List Token) (i : Nat) : Prop :=
  ∃ t, tokens[i]? = some t ∧ t.type ≠ TokenType.NEWLINE ∧
    ∀ level : Level, t.type ∉ level.ops

/-- The tokens from the position of `p` on are a run of operator and operand pairs:
for each entry `(op, e)` of the list, in order, an operator token of type `op`
belonging to `level`, followed by tokens that `primary` parses to the non-null
expression `e`; `r` is the state after the last operand. -/
inductive OperandRun (tokens : List Token) (level : Level) :
    Parser → List (TokenType × Expr) → Parser → Prop
  | nil (p : Parser) : OperandRun tokens level p [] p
  | cons (p q r : Parser) (o : Token) (e : Expr) (rest : List (TokenType × Expr))
      (fuel : Nat) :
      tokens[p.current]? = some o → o.type ∈ level.ops →
      primary fuel tokens ⟨p.current + 1, p.cerr⟩ = Res.ok e q → e ≠ Expr.null →
      OperandRun tokens level q rest r →
      OperandRun tokens level p ((o.type, e) :: rest) r

/-- The left-nested tree `BinaryOp(...BinaryOp(BinaryOp(e0, op1, e1), op2, e2)..., opn,
en)` of a first operand `e0` and the operator and operand pairs `(op1, e1)`, ...,
`(opn, en)`. -/
def leftNested (e0 : Expr) (run : List (TokenType × Expr)) : Expr :=
  run.foldl (fun acc s => Expr.BinaryOp acc s.1 s.2) e0

end Parser

/-- The expression is not the null pointer and has no null pointer below it. -/
def Expr.complete : Expr → Bool
  | Expr.null => false
  | Expr.StringLiteral _ => true
  | Expr.IntegerLiteral _ => true
  | Expr.Identifier _ => true
  | Expr.ArrayAccess array index => array.complete && index.complete
  | Expr.BinaryOp left _ right => left.complete && right.complete

/-- The index of an `Assignment` is absent (null) or a complete expression. -/
def Expr.absentOrComplete (index : Expr) : Bool :=
  index == Expr.null || index.complete

/-- Every required child of the statement, and of every statement and expression below
it, is non-null: the expression of a `PrintStatement`, the value of an `Assignment`
(and its index when present), the condition of a `ForLoop`, a `WhileLoop`, an
`IfStatement` and of each else-if clause, both operands of every `BinaryOp` and the
array and the index of every `ArrayAccess`. -/
inductive Stmt.Complete : Stmt → Prop
  | print (expr : Expr) :
      expr.complete = true → Stmt.Complete (Stmt.PrintStatement expr)
  | varDeclaration (name type : String) (arraySize : Int) :
      Stmt.Complete (Stmt.VarDeclaration name type arraySize)
  | assignment (varName : String) (value index : Expr) :
      value.complete = true → index.absentOrComplete = true →
      Stmt.Complete (Stmt.Assignment varName value index)
  | forLoop (varName : String) (condition : Expr) (body : List Stmt) :
      condition.complete = true → (∀ s ∈ body, Stmt.Complete s) →
      Stmt.Complete (Stmt.ForLoop varName condition body)
  | whileLoop (condition : Expr) (body : List Stmt) :
      condition.complete = true → (∀ s ∈ body, Stmt.Complete s) →
      Stmt.Complete (Stmt.WhileLoop condition body)
  | ifStatement (condition : Expr) (thenBranch : List Stmt)
      (elseIfClauses : List (Expr × List Stmt)) (elseBranch : List Stmt) :
      condition.complete = true → (∀ s ∈ thenBranch, Stmt.Complete s) →
      (∀ c ∈ elseIfClauses, c.1.complete = true) →
      (∀ c ∈ elseIfClauses, ∀ s ∈ c.2, Stmt.Complete s) →
      (∀ s ∈ elseBranch, Stmt.Complete s) →
      Stmt.Complete (Stmt.IfStatement condition thenBranch elseIfClauses elseBranch)
  | increment (varName : String) (amount : Int) :
      Stmt.Complete (Stmt.IncrementStatement varName amount)
  | read (varName : String) :
      Stmt.Complete (Stmt.ReadStatement varName)

/-- The value holds the `std::string` alternative. -/
def Value.isString : Value → Bool
  | Value.String _ => true
  | _ => false

/-- The value holds the `int` alternative. -/
def Value.isInteger : Value → Bool
  | Value.Integer _ => true
  | _ => false

/-- The statement is an indexed `Assignment`: its index is present. -/
def Stmt.isIndexedAssignment : Stmt → Bool
  | Stmt.Assignment _ _ index => index != Expr.null
  | _ => false

/-- The interpreter state after a run that returned. -/
def Exec.state? : Exec → Option Interpreter
  | Exec.ok s => some s
  | _ => none

/-- Follows the spec's words ("its decimal representation"): the decimal digits of a
natural number, most significant first, and the single digit `0` for zero. -/
def natDecimal (n : Nat) : String :=
  if n = 0 then "0" else String.mk ((Nat.digits 10 n).reverse.map Nat.digitChar)

/-- Follows the spec's words ("its decimal representation", "with a leading `-` for
negatives"): the decimal representation of an integer. -/
def decimal (i : Int) : String :=
  if i < 0 then "-" ++ natDecimal i.natAbs else natDecimal i.natAbs

/-- The program of the array scenario: `names` is declared with `SIZE 2`, `names[0]` is set
to `"Alice"` and `names[1]` to `"Bob"`, and `names[0] + " and " + names[1]` is printed. -/
def arrayScenario : Program :=
  [Stmt.VarDeclaration "names" "ARRAY_OF_STRING" 2,
    Stmt.Assignment "names" (Expr.StringLiteral "Alice") (Expr.IntegerLiteral 0),
    Stmt.Assignment "names" (Expr.StringLiteral "Bob") (Expr.IntegerLiteral 1),
    Stmt.PrintStatement
      (Expr.BinaryOp
        (Expr.BinaryOp (Expr.ArrayAccess (Expr.Identifier "names") (Expr.IntegerLiteral 0))
          TokenType.PLUS (Expr.StringLiteral " and "))
        TokenType.PLUS (Expr.ArrayAccess (Expr.Identifier "names") (Expr.IntegerLiteral 1)))]

/-- The line reads as the integer `n` under `std::stoi`: it consists of white space
(possibly none), an optional sign `+` or `-`, a non-empty run of decimal digits that
ends the line or is followed by a character that is not a digit, and any further text;
`n` is the value of the digit run, negated after the sign `-`, and lies in the range of
a 32-bit `int`. -/
def ReadsAs (line : String) (n : Int) : Prop :=
  ∃ ws sign ds tail : List Char, line.data = ws ++ sign ++ ds ++ tail ∧
    (∀ c ∈ ws, isSpace c = true) ∧ (sign = [] ∨ sign = ['+'] ∨ sign = ['-']) ∧
    ds ≠ [] ∧ (∀ c ∈ ds, Lexer.isDigit c = true) ∧
    (∀ c, tail.head? = some c → Lexer.isDigit c = false) ∧
    n = (if sign = ['-'] then -(digitsValue ds : Int) else (digitsValue ds : Int)) ∧
    INT_MIN ≤ n ∧ n ≤ INT_MAX

/-- The program of the read scenario: `x` is declared as `INTEGER`, then `PLEASE READ x`
and `PRAISE_LEADER x + 1`. -/
def readScenario : Program :=
  [Stmt.VarDeclaration "x" "INTEGER" 0, Stmt.ReadStatement "x",
    Stmt.PrintStatement
      (Expr.BinaryOp (Expr.Identifier "x") TokenType.PLUS (Expr.IntegerLiteral 1))]

/-- The state after the calls `evaluate(c)` for the conditions `c` of the list, in
order. -/
def evaluatedAll (s : Interpreter) (conditions : List Expr) : Interpreter :=
  conditions.foldl Interpreter.evaluated s

/-- The statement `FOR_THE_PEOPLE i LESS_THAN n DO PRAISE_LEADER i; PLEASE INCREMENT i BY
1 END_FOR_THE_PEOPLE` as `Parser::forLoop` builds it. -/
def countedLoop (n : Int) : Stmt :=
  Stmt.ForLoop ""
    (Expr.BinaryOp (Expr.Identifier "i") TokenType.LESS_THAN (Expr.IntegerLiteral n))
    [Stmt.PrintStatement (Expr.Identifier "i"), Stmt.IncrementStatement "i" 1]

/-- The lines `k`, `k + 1`, ..., `k + m - 1`, each as `valueToString` writes it. -/
def countLines (k m : Nat) : List String :=
  (List.range' k m).map fun (j : Nat) => Interpreter.valueToString (Value.Integer (j : Int))

namespace Lexer

/-- The loop of `tokenize` run from the state `lx` with the tokens `tokens` collected so
far, given one unit of fuel more than there are unread characters, which is enough
for it to return. -/
def tokensFrom (lx : Lexer) (tokens : List Token) : Option (List Token × Lexer) :=
  tokenizeLoop (lx.rest.length + 1) lx tokens

end Lexer

namespace Parser

/-- The `n` tokens from position `i` on are `NEWLINE` tokens. -/
def NewlineRun (tokens : List Token) (i n : Nat) : Prop :=
  ∀ j, j < n → ∃ t, tokens[i + j]? = some t ∧ t.type = TokenType.NEWLINE

/-- The token sequence of the source text `1`, newline, `+ 2`. -/
def oneNewlinePlusTwo : List Token :=
  [⟨TokenType.INTEGER, "1", 1, 2⟩, ⟨TokenType.NEWLINE, "", 2, 1⟩,
    ⟨TokenType.PLUS, "", 2, 2⟩, ⟨TokenType.INTEGER, "2", 2, 4⟩,
    ⟨TokenType.EOF_TOKEN, "", 2, 4⟩]

/-- The token sequence of the source text `1 +`, newline, `2`. -/
def onePlusNewlineTwo : List Token :=
  [⟨TokenType.INTEGER, "1", 1, 2⟩, ⟨TokenType.PLUS, "", 1, 4⟩,
    ⟨TokenType.NEWLINE, "", 2, 1⟩, ⟨TokenType.INTEGER, "2", 2, 2⟩,
    ⟨TokenType.EOF_TOKEN, "", 2, 2⟩]

end Parser

/-- The call `r` is matched by the fuel-indexed call `f`: when `r` returned `a` in state
`q`, `f` returns, given enough fuel, some `b` in a state `s` with `J a q b s`; and when
an exception left `r`, an exception leaves `f`, given enough fuel. -/
def Res.RelF {α : Type} (J : α → Parser → α → Parser → Prop) (r : Res α)
    (f : Nat → Res α) : Prop :=
  (∀ a q, r = Res.ok a q →
    ∃ b s, J a q b s ∧ ∃ fuel0, ∀ fuel, fuel0 ≤ fuel → f fuel = Res.ok b s) ∧
  (∀ q, r = Res.thrown q → ∃ s fuel0, ∀ fuel, fuel0 ≤ fuel → f fuel = Res.thrown s)

namespace Parser

/-- The token types that `Parser::statement` consumes as the first token of a statement
or of a decorative comment. -/
def startsStatement (type : TokenType) : Bool :=
  type == TokenType.PRAISE_LEADER || type == TokenType.PLEASE ||
    type == TokenType.FOR_THE_PEOPLE || type == TokenType.WHILE || type == TokenType.IF ||
    type == TokenType.OBEY_PARTY_LINE || type == TokenType.DENOUNCE_IMPERIALIST_ERRORS

/-- The two keywords that open a decorative comment. -/
def isCommentKeyword (type : TokenType) : Bool :=
  type == TokenType.OBEY_PARTY_LINE || type == TokenType.DENOUNCE_IMPERIALIST_ERRORS

/-- A decorative comment line: `OBEY_PARTY_LINE` or `DENOUNCE_IMPERIALIST_ERRORS`, then
tokens of any type other than `NEWLINE` and `EOF_TOKEN`, then the `NEWLINE` that ends
the line. -/
def CommentLine (line : List Token) : Prop :=
  ∃ keyword text newline, line = keyword :: (text ++ [newline]) ∧
    isCommentKeyword keyword.type = true ∧
    (∀ t ∈ text, t.type ≠ TokenType.NEWLINE ∧ t.type ≠ TokenType.EOF_TOKEN) ∧
    newline.type = TokenType.NEWLINE

/-- The token sequence `tokens1` is `tokens` with a decorative comment line of `c` tokens
inserted at position `a`, where the token at position `a` of `tokens` starts a statement
and position `a` is the start of `tokens` or follows a `NEWLINE` token. -/
structure Inserted (tokens tokens1 : List Token) (a c : Nat) : Prop where
  before : ∀ i, i < a → tokens1[i]? = tokens[i]?
  after : ∀ i, a ≤ i → tokens1[i + c]? = tokens[i]?
  head : ∃ t, tokens[a]? = some t ∧ startsStatement t.type = true
  keyword : ∃ t, tokens1[a]? = some t ∧ isCommentKeyword t.type = true
  text : ∀ j, a < j → j + 1 < a + c →
    ∃ t, tokens1[j]? = some t ∧ t.type ≠ TokenType.NEWLINE ∧ t.type ≠ TokenType.EOF_TOKEN
  newline : ∃ t, tokens1[a + c - 1]? = some t ∧ t.type = TokenType.NEWLINE
  two : 2 ≤ c
  last : a = 0 ∨ ∃ t, tokens[a - 1]? = some t ∧ t.type = TokenType.NEWLINE

/-- Corresponding positions in a token sequence and in the sequence with a comment line
of `c` tokens inserted at position `a`: the same position before `a`, the position
moved by `c` from `a` on, and position `a` in both when the comment line has not been
passed yet. -/
def PosRel (a c : Nat) (p p1 : Parser) : Prop :=
  (p.current < a ∧ p1.current = p.current) ∨ (a ≤ p.current ∧ p1.current = p.current + c) ∨
    (p.current = a ∧ p1.current = a)

/-- Corresponding positions at which both sequences hold the same token: as `PosRel`,
without the case of position `a` in both. -/
def PosEq (a c : Nat) (p p1 : Parser) : Prop :=
  (p.current < a ∧ p1.current = p.current) ∨ (a ≤ p.current ∧ p1.current = p.current + c)

/-- The tokens of the line `PRAISE_LEADER "a"` with the `NEWLINE` that ends it. -/
def linesBefore : List Token :=
  [⟨TokenType.PRAISE_LEADER, "PRAISE_LEADER", 1, 14⟩, ⟨TokenType.STRING, "a", 1, 18⟩,
    ⟨TokenType.NEWLINE, "", 2, 1⟩]

/-- The tokens of the comment line `OBEY_PARTY_LINE PLEASE 1 + END_IF`. -/
def commentLine : List Token :=
  [⟨TokenType.OBEY_PARTY_LINE, "OBEY_PARTY_LINE", 2, 16⟩,
    ⟨TokenType.PLEASE, "PLEASE", 2, 23⟩, ⟨TokenType.INTEGER, "1", 2, 25⟩,
    ⟨TokenType.PLUS, "", 2, 27⟩, ⟨TokenType.END_IF, "END_IF", 2, 34⟩,
    ⟨TokenType.NEWLINE, "", 3, 1⟩]

/-- The tokens of the line `PRAISE_LEADER "b"` at the end of a source text. -/
def linesAfter : List Token :=
  [⟨TokenType.PRAISE_LEADER, "PRAISE_LEADER", 3, 14⟩, ⟨TokenType.STRING, "b", 3, 18⟩,
    ⟨TokenType.EOF_TOKEN, "", 3, 18⟩]

/-- The token before the current one is the same in both sequences. -/
def Look (tokens tokens1 : List Token) (p p1 : Parser) : Prop :=
  p.current ≠ 0 ∧ p1.current ≠ 0 ∧ tokens1[p1.current - 1]? = tokens[p.current - 1]?

end Parser

/-- The call on a second token sequence has the same outcome `r1 = r` as the call on
the first; the call read no token outside the sequence (`r` is not `undefined`); what
it returned satisfies `A` and the state in which an exception left it satisfies
`B`. -/
def Res.Sound {α : Type} (A : α → Parser → Prop) (B : Parser → Prop) (r r1 : Res α) : Prop :=
  r1 = r ∧ r ≠ Res.undefined ∧ (∀ a q, r = Res.ok a q → A a q) ∧ ∀ q, r = Res.thrown q → B q

/-- The statement is `VarDeclaration(name, type, arraySize)` or holds it at any depth:
in the body of a loop, in a branch of an `IfStatement` or in the body of one of its
else-if clauses. -/
inductive Stmt.Declares (name type : String) (arraySize : Int) : Stmt → Prop
  | here : Stmt.Declares name type arraySize (Stmt.VarDeclaration name type arraySize)
  | forLoop (varName : String) (condition : Expr) (body : List Stmt) (s : Stmt) :
      s ∈ body → Stmt.Declares name type arraySize s →
      Stmt.Declares name type arraySize (Stmt.ForLoop varName condition body)
  | whileLoop (condition : Expr) (body : List Stmt) (s : Stmt) :
      s ∈ body → Stmt.Declares name type arraySize s →
      Stmt.Declares name type arraySize (Stmt.WhileLoop condition body)
  | thenBranch (condition : Expr) (thenBranch : List Stmt)
      (elseIfClauses : List (Expr × List Stmt)) (elseBranch : List Stmt) (s : Stmt) :
      s ∈ thenBranch → Stmt.Declares name type arraySize s →
      Stmt.Declares name type arraySize
        (Stmt.IfStatement condition thenBranch elseIfClauses elseBranch)
  | elseIfClause (condition : Expr) (thenBranch : List Stmt)
      (elseIfClauses : List (Expr × List Stmt)) (elseBranch : List Stmt)
      (clause : Expr × List Stmt) (s : Stmt) :
      clause ∈ elseIfClauses → s ∈ clause.2 → Stmt.Declares name type arraySize s →
      Stmt.Declares name type arraySize
        (Stmt.IfStatement condition thenBranch elseIfClauses elseBranch)
  | elseBranch (condition : Expr) (thenBranch : List Stmt)
      (elseIfClauses : List (Expr × List Stmt)) (elseBranch : List Stmt) (s : Stmt) :
      s ∈ elseBranch → Stmt.Declares name type arraySize s →
      Stmt.Declares name type arraySize
        (Stmt.IfStatement condition thenBranch elseIfClauses elseBranch)

namespace Parser

/-- Index of the first `EOF_TOKEN` token of a sequence (its length if there is none). -/
def firstEof (tokens : List Token) : Nat :=
  tokens.findIdx fun t => t.type == TokenType.EOF_TOKEN

/-- The first `EOF_TOKEN` token of `tokens` is at index `k`, and `tokens1` holds the same
tokens as `tokens` at the indices up to `k`. -/
structure UpTo (tokens tokens1 : List Token) (k : Nat) : Prop where
  eof : ∃ t, tokens[k]? = some t ∧ t.type = TokenType.EOF_TOKEN
  before : ∀ i, i < k → ∃ t, tokens[i]? = some t ∧ t.type ≠ TokenType.EOF_TOKEN
  agree : ∀ i, i ≤ k → tokens1[i]? = tokens[i]?

/-- Every lexeme of an `INTEGER` token is converted by `std::stoi`: it is an integer
that fits a 32-bit `int`. -/
def IntegersFit (tokens : List Token) : Prop :=
  ∀ t ∈ tokens, t.type = TokenType.INTEGER → stoi t.value ≠ none

/-- The parser reported that the integer of an `INCREMENT ... BY` or of an
`ARRAY_OF_STRING SIZE` was missing. -/
def MissingInteger (cerr : List ParseDiag) : Prop :=
  ∃ line, ParseDiag.parseError "Expected increment amount" line ∈ cerr ∨
    ParseDiag.parseError "Expected array size" line ∈ cerr

/-- The state in which an exception of `std::stoi` leaves the parser: the position is
not after the first `EOF_TOKEN` token, at index `k`, and when every `INTEGER` lexeme
fits, a missing integer was reported. -/
def Thrown (tokens : List Token) (k : Nat) (q : Parser) : Prop :=
  q.current ≤ k ∧ (IntegersFit tokens → MissingInteger q.cerr)

/-- No lexeme of an `INTEGER`, `SIZE` or `ARRAY_OF_STRING` token is converted by
`std::stoi` to a negative integer. -/
def SizesNonNegative (tokens : List Token) : Prop :=
  ∀ t ∈ tokens, (t.type = TokenType.INTEGER ∨ t.type = TokenType.SIZE ∨
    t.type = TokenType.ARRAY_OF_STRING) → ∀ n, stoi t.value = some n → 0 ≤ n

/-- What `varDeclaration` leaves in the `type` and `arraySize` fields: the tag is one of
the three type names or the empty string; the size is `0` unless the tag is
`ARRAY_OF_STRING`; the size is not negative when `SizesNonNegative` holds of the
tokens. -/
def DeclShape (tokens : List Token) (type : String) (arraySize : Int) : Prop :=
  (type = "INTEGER" ∨ type = "STRING" ∨ type = "ARRAY_OF_STRING" ∨ type = "") ∧
    (type ≠ "ARRAY_OF_STRING" → arraySize = 0) ∧
    (SizesNonNegative tokens → 0 ≤ arraySize)

/-- Every `VarDeclaration` in the statement has the shape `DeclShape`. -/
def Shaped (tokens : List Token) (stmt : Stmt) : Prop :=
  ∀ name type arraySize, stmt.Declares name type arraySize → DeclShape tokens type arraySize

/-- The tokens of `PLEASE INCREMENT x BY`, the increment amount missing. -/
def incrementNothing : List Token :=
  [⟨TokenType.PLEASE, "PLEASE", 1, 7⟩, ⟨TokenType.INCREMENT, "INCREMENT", 1, 17⟩,
    ⟨TokenType.IDENTIFIER, "x", 1, 19⟩, ⟨TokenType.BY, "BY", 1, 22⟩,
    ⟨TokenType.EOF_TOKEN, "", 1, 22⟩]

/-- The tokens of `PLEASE DECLARE_VARIABLE "a" AS ARRAY_OF_STRING SIZE`, the array size
missing. -/
def declareSizeNothing : List Token :=
  [⟨TokenType.PLEASE, "PLEASE", 1, 7⟩,
    ⟨TokenType.DECLARE_VARIABLE, "DECLARE_VARIABLE", 1, 24⟩,
    ⟨TokenType.STRING, "a", 1, 28⟩, ⟨TokenType.AS, "AS", 1, 31⟩,
    ⟨TokenType.ARRAY_OF_STRING, "ARRAY_OF_STRING", 1, 47⟩,
    ⟨TokenType.SIZE, "SIZE", 1, 52⟩, ⟨TokenType.EOF_TOKEN, "", 1, 52⟩]

/-- The tokens of `PLEASE DECLARE_VARIABLE "x" AS`, the type missing. -/
def declareNothing : List Token :=
  [⟨TokenType.PLEASE, "PLEASE", 1, 7⟩,
    ⟨TokenType.DECLARE_VARIABLE, "DECLARE_VARIABLE", 1, 24⟩,
    ⟨TokenType.STRING, "x", 1, 28⟩, ⟨TokenType.AS, "AS", 1, 31⟩,
    ⟨TokenType.EOF_TOKEN, "", 1, 31⟩]

/-- A token sequence that the lexer does not return: a declaration of an array whose
size token holds the lexeme `-5`. -/
def declareNegativeSize : List Token :=
  [⟨TokenType.PLEASE, "PLEASE", 1, 7⟩,
    ⟨TokenType.DECLARE_VARIABLE, "DECLARE_VARIABLE", 1, 24⟩,
    ⟨TokenType.STRING, "a", 1, 28⟩, ⟨TokenType.AS, "AS", 1, 31⟩,
    ⟨TokenType.ARRAY_OF_STRING, "ARRAY_OF_STRING", 1, 47⟩,
    ⟨TokenType.SIZE, "SIZE", 1, 52⟩, ⟨TokenType.INTEGER, "-5", 1, 55⟩,
    ⟨TokenType.EOF_TOKEN, "", 1, 55⟩]

/-- The tokens of the source text `PRAISE_LEADER "a`: an unterminated string gives two
`EOF_TOKEN` tokens. -/
def praiseUnterminated : List Token :=
  [⟨TokenType.PRAISE_LEADER, "PRAISE_LEADER", 1, 14⟩, ⟨TokenType.EOF_TOKEN, "", 1, 17⟩,
    ⟨TokenType.EOF_TOKEN, "", 1, 17⟩]

end Parser
/-! ## Lexer: termination and the end-of-file token -/

namespace Lexer

theorem keywords_ne_eof (value : String) : keywords value ≠ some TokenType.EOF_TOKEN := by
  intro h
  simp only [keywords, Option.map_eq_some'] at h
  obtain ⟨e, he, h2⟩ := h
  have hmem := List.mem_of_find?_eq_some he
  have hall : ∀ x ∈ keywordTable, x.2 ≠ TokenType.EOF_TOKEN := by decide
  exact hall e hmem h2

theorem skipComment_length (cs : List Char) (column : Int) :
    (skipComment cs column).1.length ≤ cs.length := by
  induction cs generalizing column with
  | nil => simp [skipComment]
  | cons c cs ih =>
    simp only [skipComment]
    split_ifs
    · simp
    · exact Nat.le_succ_of_le (ih _)

theorem numberLoop_length (cs : List Char) (column : Int) (value : String) :
    (numberLoop cs column value).2.1.length ≤ cs.length := by
  induction cs generalizing column value with
  | nil => simp [numberLoop]
  | cons c cs ih =>
    simp only [numberLoop]
    split_ifs
    · exact Nat.le_succ_of_le (ih _ _)
    · simp

theorem identifierLoop_length (cs : List Char) (column : Int) (value : String) :
    (identifierLoop cs column value).2.1.length ≤ cs.length := by
  induction cs generalizing column value with
  | nil => simp [identifierLoop]
  | cons c cs ih =>
    simp only [identifierLoop]
    split_ifs
    · exact Nat.le_succ_of_le (ih _ _)
    · simp

theorem stringLoop_length (cs : List Char) (line column : Int) (value : String) :
    (stringLoop cs line column value).2.1.length ≤ cs.length := by
  induction cs generalizing line column value with
  | nil => simp [stringLoop]
  | cons c cs ih =>
    simp only [stringLoop]
    split_ifs
    · simp
    · exact Nat.le_succ_of_le (ih _ _ _)
    · exact Nat.le_succ_of_le (ih _ _ _)

/-- With more fuel than unread characters `skipWhitespace` returns; it reads forward
only and writes no diagnostic. -/
theorem skipWhitespace_terminates (fuel : Nat) (lx : Lexer) (h : lx.rest.length < fuel) :
    ∃ lx1, skipWhitespace fuel lx = some lx1 ∧ lx1.rest.length ≤ lx.rest.length ∧
      lx1.cerr = lx.cerr := by
  induction fuel generalizing lx with
  | zero => omega
  | succ fuel ih =>
    obtain ⟨rest, line, column, cerr⟩ := lx
    cases rest with
    | nil => exact ⟨_, by simp [skipWhitespace, peek], le_refl _, rfl⟩
    | cons c cs =>
      simp only [List.length_cons] at h
      simp only [skipWhitespace, peek, peekNext, advance]
      split_ifs with h1 h2
      · obtain ⟨lx1, e, hl, hc⟩ := ih ⟨cs, line, column + 1, cerr⟩ (by simpa using h)
        exact ⟨lx1, e, by simp at hl ⊢; omega, hc⟩
      · have hlen := skipComment_length cs (column + 1)
        have hne : c ≠ '\n' := by
          rw [h2.1]; decide
        simp only [skipComment, if_neg hne]
        obtain ⟨lx1, e, hl, hc⟩ :=
          ih ⟨(skipComment cs (column + 1)).1, line, (skipComment cs (column + 1)).2, cerr⟩
            (by simp only; omega)
        exact ⟨lx1, e, by simp at hl ⊢; omega, hc⟩
      · exact ⟨_, rfl, le_refl _, rfl⟩

/-- What one pass through the `switch` of `tokenize` does to the unread input, to the
number of `EOF_TOKEN` tokens and to the number of `Unterminated string` diagnostics. -/
theorem scanToken_spec (before lx : Lexer) (c : Char) (hb : before.rest = c :: lx.rest) :
    (scanToken before lx c).2.rest.length ≤ lx.rest.length ∧
    ((eofCount (scanToken before lx c).1 = 0 ∧
        unterminatedCount (scanToken before lx c).2.cerr = unterminatedCount lx.cerr) ∨
     (eofCount (scanToken before lx c).1 = 1 ∧ (scanToken before lx c).2.rest = [] ∧
        unterminatedCount (scanToken before lx c).2.cerr = unterminatedCount lx.cerr + 1)) := by
  obtain ⟨rest, line, column, cerr⟩ := lx
  simp only at hb
  generalize hr : scanToken before ⟨rest, line, column, cerr⟩ c = r
  unfold scanToken at hr
  by_cases h1 : c = '\n'
  · rw [if_pos h1] at hr; subst hr; simp [eofCount, makeToken]
  rw [if_neg h1] at hr
  by_cases h2 : c = '"'
  · -- string literal
    rw [if_pos h2] at hr
    subst hr
    simp only [string]
    have hlen := stringLoop_length rest line column ""
    generalize stringLoop rest line column "" = r at hlen
    obtain ⟨value, rest1, line1, column1⟩ := r
    simp only at hlen
    cases rest1 with
    | nil =>
      simp [isAtEnd, eofCount, makeToken, unterminatedCount, List.countP_append, List.countP_cons]
    | cons d ds =>
      simp only [List.length_cons] at hlen
      simp [isAtEnd, eofCount, makeToken, advance, List.countP_cons]
      omega
  rw [if_neg h2] at hr
  by_cases h3 : c = '['
  · rw [if_pos h3] at hr; subst hr; simp [eofCount, makeToken]
  rw [if_neg h3] at hr
  by_cases h4 : c = ']'
  · rw [if_pos h4] at hr; subst hr; simp [eofCount, makeToken]
  rw [if_neg h4] at hr
  by_cases h5 : c = '('
  · rw [if_pos h5] at hr; subst hr; simp [eofCount, makeToken]
  rw [if_neg h5] at hr
  by_cases h6 : c = ')'
  · rw [if_pos h6] at hr; subst hr; simp [eofCount, makeToken]
  rw [if_neg h6] at hr
  by_cases h7 : c = '+'
  · rw [if_pos h7] at hr; subst hr; simp [eofCount, makeToken]
  rw [if_neg h7] at hr
  by_cases h8 : c = '-'
  · rw [if_pos h8] at hr; subst hr; simp [eofCount, makeToken]
  rw [if_neg h8] at hr
  by_cases h9 : c = '*'
  · rw [if_pos h9] at hr; subst hr; simp [eofCount, makeToken]
  rw [if_neg h9] at hr
  by_cases h10 : c = '/'
  · rw [if_pos h10] at hr; subst hr; simp [eofCount, makeToken]
  rw [if_neg h10] at hr
  by_cases h11 : isDigit c = true
  · -- number
    rw [if_pos h11] at hr
    subst hr
    have hlen := numberLoop_length rest (column - 1 + 1) ("".push c)
    simp only [number, hb, numberLoop, if_pos h11]
    refine ⟨hlen, Or.inl ?_⟩
    simp [eofCount, makeToken]
  rw [if_neg h11] at hr
  by_cases h12 : isAlpha c = true
  · -- identifier or keyword
    rw [if_pos h12] at hr
    subst hr
    have hlen := identifierLoop_length rest (column - 1 + 1) ("".push c)
    have ha : isAlphaNumeric c = true := by simp [isAlphaNumeric, h12]
    simp only [identifier, hb, identifierLoop, if_pos ha]
    have hk := keywords_ne_eof (identifierLoop rest (column - 1 + 1) ("".push c)).1
    cases hty : keywords (identifierLoop rest (column - 1 + 1) ("".push c)).1 with
    | none => exact ⟨hlen, Or.inl (by simp [eofCount, makeToken])⟩
    | some type =>
      have : type ≠ TokenType.EOF_TOKEN := by
        intro hh; rw [hh] at hty; exact hk hty
      exact ⟨hlen, Or.inl (by simp [eofCount, makeToken, this])⟩
  rw [if_neg h12] at hr
  subst hr; simp [eofCount, unterminatedCount, List.countP_append, List.countP_cons]

/-- The loop of `tokenize` returns whenever it has more fuel than unread characters.
Its last token is `EOF_TOKEN`; every `Unterminated string` diagnostic adds one more
`EOF_TOKEN`, and there is at most one such diagnostic. -/
theorem tokenizeLoop_terminates (fuel : Nat) (lx : Lexer) (tokens : List Token)
    (h : lx.rest.length < fuel) :
    ∃ more lx1, tokenizeLoop fuel lx tokens = some (tokens ++ more, lx1) ∧
      (more.getLast?).map Token.type = some TokenType.EOF_TOKEN ∧
      eofCount more + unterminatedCount lx.cerr = 1 + unterminatedCount lx1.cerr ∧
      unterminatedCount lx1.cerr ≤ unterminatedCount lx.cerr + 1 ∧
      (lx.rest = [] → lx1.cerr = lx.cerr) := by
  induction fuel generalizing lx tokens with
  | zero => omega
  | succ fuel ih =>
    simp only [tokenizeLoop]
    by_cases hend : lx.isAtEnd = true
    · rw [if_pos hend]
      refine ⟨_, lx, rfl, ?_, ?_, ?_, ?_⟩ <;> simp [eofCount, makeToken]
    · rw [if_neg hend]
      obtain ⟨lx1, e1, hl1, hc1⟩ := skipWhitespace_terminates (fuel + 1) lx h
      simp only [e1]
      have hne : lx.rest ≠ [] := by
        intro hh; simp [isAtEnd, hh] at hend
      by_cases hend1 : lx1.isAtEnd = true
      · rw [if_pos hend1]
        refine ⟨_, lx1, rfl, ?_, ?_, ?_, ?_⟩ <;> simp [eofCount, makeToken, hc1, hne]
      · rw [if_neg hend1]
        obtain ⟨rest1, line1, column1, cerr1⟩ := lx1
        cases rest1 with
        | nil => simp [isAtEnd] at hend1
        | cons c cs =>
          simp only [advance]
          simp only at hc1
          simp only [List.length_cons] at hl1
          have hs := scanToken_spec ⟨c :: cs, line1, column1, cerr1⟩
            ⟨cs, line1, column1 + 1, cerr1⟩ c rfl
          generalize scanToken ⟨c :: cs, line1, column1, cerr1⟩
            ⟨cs, line1, column1 + 1, cerr1⟩ c = r at hs
          obtain ⟨hlen, hcases⟩ := hs
          simp only at hlen
          obtain ⟨more, lx2, e2, hlast, hcount, hle, hnil⟩ :=
            ih r.2 (tokens ++ r.1) (by omega)
          refine ⟨r.1 ++ more, lx2, by rw [e2, List.append_assoc], ?_, ?_, ?_, ?_⟩
          · cases more with
            | nil => simp at hlast
            | cons m ms => rw [List.getLast?_append_of_ne_nil _ (by simp)]; exact hlast
          · simp only [eofCount, List.countP_append] at hcount hcases ⊢
            rw [← hc1]
            rcases hcases with ⟨h0, hu⟩ | ⟨h1, hr, hu⟩
            · have hu1 : unterminatedCount r.2.cerr = unterminatedCount cerr1 := hu
              omega
            · have hu1 : unterminatedCount r.2.cerr = unterminatedCount cerr1 + 1 := hu
              have := hnil hr; rw [this] at hcount hle ⊢; omega
          · rw [← hc1]
            rcases hcases with ⟨h0, hu⟩ | ⟨h1, hr, hu⟩
            · have hu1 : unterminatedCount r.2.cerr = unterminatedCount cerr1 := hu
              omega
            · have hu1 : unterminatedCount r.2.cerr = unterminatedCount cerr1 + 1 := hu
              have := hnil hr; rw [this]; omega
          · intro hh; exact absurd hh hne

end Lexer

/-- C1 (counterexample). The source `"abc`, which ends inside an unterminated string
literal, is tokenized to two `EOF_TOKEN` tokens, so the sequence does not contain
exactly one. -/
theorem c1_counterexample :
    (Lexer.tokenize "\"abc").map (fun tokens => tokens.map Token.type) =
        some [TokenType.EOF_TOKEN, TokenType.EOF_TOKEN] ∧
      (Lexer.tokenize "\"abc").map Lexer.eofCount ≠ some 1 := by
  decide

/-- C1 (amended). For every source text `Lexer::tokenize` returns, and the last token
of the sequence is `EOF_TOKEN`. The sequence contains exactly one `EOF_TOKEN` when no
`Unterminated string` diagnostic was written, and exactly two when one was written;
there is never more than one such diagnostic. -/
theorem c1_tokenize_eof (source : String) :
    ∃ tokens lx, Lexer.run source = some (tokens, lx) ∧
      Lexer.tokenize source = some tokens ∧
      (tokens.getLast?).map Token.type = some TokenType.EOF_TOKEN ∧
      Lexer.eofCount tokens = 1 + Lexer.unterminatedCount lx.cerr ∧
      Lexer.unterminatedCount lx.cerr ≤ 1 := by
  obtain ⟨more, lx, hrun, hlast, hcount, hle, _⟩ :=
    Lexer.tokenizeLoop_terminates (source.length + 1) (Lexer.init source) []
      (by show source.data.length < source.data.length + 1; omega)
  simp only [List.nil_append] at hrun
  refine ⟨more, lx, hrun, ?_, hlast, ?_, ?_⟩
  · have hr : Lexer.run source = some (more, lx) := hrun
    simp [Lexer.tokenize, hr]
  · simpa [Lexer.init, Lexer.unterminatedCount] using hcount
  · simpa [Lexer.init, Lexer.unterminatedCount] using hle

/-! ## Parser: a statement that consumes nothing -/

namespace Parser

theorem statement_strayIdentifier (fuel : Nat) :
    statement (fuel + 1) strayIdentifier ⟨0, []⟩ = Res.ok none ⟨0, []⟩ := by
  simp [statement, strayIdentifier, skipNewlines, skipNewlinesFrom, match_, check, isAtEnd,
    peek, Res.bind]

theorem parseLoop_strayIdentifier (fuel : Nat) (statements : List Stmt) :
    parseLoop fuel strayIdentifier statements ⟨0, []⟩ = Res.timeout := by
  induction fuel generalizing statements with
  | zero => rfl
  | succ fuel ih =>
    cases fuel with
    | zero =>
      simp [parseLoop, statement, strayIdentifier, isAtEnd, peek, Res.bind]
    | succ fuel =>
      rw [parseLoop]
      have h1 : isAtEnd strayIdentifier ⟨0, []⟩ = Res.ok false ⟨0, []⟩ := by
        simp [strayIdentifier, isAtEnd, peek, Res.bind]
      have h2 : skipNewlines strayIdentifier ⟨0, []⟩ = Res.ok () ⟨0, []⟩ := by
        simp [strayIdentifier, skipNewlines, skipNewlinesFrom]
      simp only [h1, Res.bind, statement_strayIdentifier, h2]
      simpa using ih _

end Parser

/-- C2 (failing input). On the tokens of the source text `x`, an identifier followed by
`EOF_TOKEN`, `Parser::parse` has not returned after any number of steps: `statement`
returns the null pointer without consuming the identifier, so every pass of the
top-level loop starts from the same position. -/
theorem c2_parse_diverges (fuel : Nat) :
    Lexer.tokenize "x" = some Parser.strayIdentifier ∧
      Parser.statement (fuel + 1) Parser.strayIdentifier ⟨0, []⟩ = Res.ok none ⟨0, []⟩ ∧
      Parser.parse fuel Parser.strayIdentifier = Res.timeout := by
  refine ⟨by decide, Parser.statement_strayIdentifier fuel, ?_⟩
  have h : Parser.match_ Parser.strayIdentifier ⟨0, []⟩ [TokenType.I_LOVE_GOVERNMENT] =
      Res.ok false ⟨0, []⟩ := by
    simp [Parser.strayIdentifier, Parser.match_, Parser.check, Parser.isAtEnd, Parser.peek,
      Res.bind]
  simp only [Parser.parse, h, Res.bind]
  exact Parser.parseLoop_strayIdentifier fuel []

/-! ## Parser: the primitives -/

theorem Res.bind_eq_ok {α β : Type} {r : Res α} {k : α → Parser → Res β} {b : β}
    {q : Parser} : r.bind k = Res.ok b q ↔ ∃ a p, r = Res.ok a p ∧ k a p = Res.ok b q := by
  cases r with
  | ok a p =>
    simp only [Res.bind, Res.ok.injEq]
    exact ⟨fun h => ⟨a, p, ⟨rfl, rfl⟩, h⟩, fun ⟨_, _, ⟨h1, h2⟩, h⟩ => by rw [h1, h2]; exact h⟩
  | thrown p => simp [Res.bind]
  | undefined => simp [Res.bind]
  | timeout => simp [Res.bind]

namespace Parser

theorem peek_eq_ok {tokens : List Token} {p q : Parser} {t : Token} :
    peek tokens p = Res.ok t q ↔ tokens[p.current]? = some t ∧ q = p := by
  unfold peek
  cases h : tokens[p.current]? <;> simp [eq_comm]

theorem previous_eq_ok {tokens : List Token} {p q : Parser} {t : Token} :
    previous tokens p = Res.ok t q ↔
      p.current ≠ 0 ∧ tokens[p.current - 1]? = some t ∧ q = p := by
  unfold previous
  by_cases h0 : p.current = 0
  · simp [h0]
  · rw [if_neg h0]
    cases h : tokens[p.current - 1]? <;> simp [eq_comm, h0]

theorem isAtEnd_eq_ok {tokens : List Token} {p q : Parser} {b : Bool} :
    isAtEnd tokens p = Res.ok b q ↔
      ∃ t, tokens[p.current]? = some t ∧ b = (t.type == TokenType.EOF_TOKEN) ∧ q = p := by
  simp only [isAtEnd, Res.bind_eq_ok, peek_eq_ok, Res.ok.injEq]
  constructor
  · rintro ⟨t, p1, ⟨h1, rfl⟩, rfl, rfl⟩
    exact ⟨t, h1, rfl, rfl⟩
  · rintro ⟨t, h1, rfl, rfl⟩
    exact ⟨t, _, ⟨h1, rfl⟩, rfl, rfl⟩

theorem check_eq_ok {tokens : List Token} {p q : Parser} {type : TokenType} {b : Bool} :
    check tokens p type = Res.ok b q ↔
      ∃ t, tokens[p.current]? = some t ∧
        b = (t.type != TokenType.EOF_TOKEN && t.type == type) ∧ q = p := by
  simp only [check, Res.bind_eq_ok, isAtEnd_eq_ok]
  constructor
  · rintro ⟨atEnd, p1, ⟨t, h1, rfl, rfl⟩, h2⟩
    by_cases he : t.type = TokenType.EOF_TOKEN
    · simp only [he, beq_self_eq_true, if_true, Res.ok.injEq] at h2
      exact ⟨t, h1, by simp [he, h2.1.symm], h2.2.symm⟩
    · have hf : (t.type == TokenType.EOF_TOKEN) = false := by simp [he]
      simp only [hf, Bool.false_eq_true, if_false, Res.bind_eq_ok, peek_eq_ok] at h2
      obtain ⟨t1, p1, ⟨h3, rfl⟩, h4⟩ := h2
      rw [h1] at h3
      cases h3
      simp only [Res.ok.injEq] at h4
      exact ⟨t, h1, by simp [he, h4.1.symm], h4.2.symm⟩
  · rintro ⟨t, h1, rfl, rfl⟩
    refine ⟨_, _, ⟨t, h1, rfl, rfl⟩, ?_⟩
    by_cases he : t.type = TokenType.EOF_TOKEN
    · simp [he]
    · have hf : (t.type == TokenType.EOF_TOKEN) = false := by simp [he]
      simp only [hf, Bool.false_eq_true, if_false, Res.bind_eq_ok, peek_eq_ok]
      exact ⟨t, _, ⟨h1, rfl⟩, by simp [he]⟩

theorem advance_eq_ok {tokens : List Token} {p q : Parser} {t : Token}
    (h : advance tokens p = Res.ok t q) :
    q.cerr = p.cerr ∧ (q.current = p.current ∨ q.current = p.current + 1) ∧
      q.current ≠ 0 ∧ tokens[q.current - 1]? = some t := by
  simp only [advance, Res.bind_eq_ok, isAtEnd_eq_ok, previous_eq_ok] at h
  obtain ⟨atEnd, p1, ⟨t1, _, _, rfl⟩, h0, h2, rfl⟩ := h
  split_ifs at h0 h2 ⊢ <;> simp_all

/-- What `match` does when it returns: nothing when it answers `false`, the current
token then being `EOF_TOKEN` or of a type outside `types`; when it answers `true` it has
stepped over one token, whose type is among `types` and is not `EOF_TOKEN`. -/
theorem match_eq_ok {tokens : List Token} {p q : Parser} {types : List TokenType}
    {b : Bool} (h : match_ tokens p types = Res.ok b q) :
    (b = false ∧ q = p ∧ ∀ t, tokens[p.current]? = some t →
        t.type ≠ TokenType.EOF_TOKEN → t.type ∉ types) ∨
    (b = true ∧ q = ⟨p.current + 1, p.cerr⟩ ∧
      ∃ t, tokens[p.current]? = some t ∧ t.type ∈ types ∧ t.type ≠ TokenType.EOF_TOKEN) := by
  induction types with
  | nil =>
    simp only [match_, Res.ok.injEq] at h
    exact Or.inl ⟨h.1.symm, h.2.symm, fun _ _ _ => List.not_mem_nil _⟩
  | cons type types ih =>
    simp only [match_, Res.bind_eq_ok, check_eq_ok] at h
    obtain ⟨found, p1, ⟨t, h1, rfl, rfl⟩, h2⟩ := h
    by_cases hc : (t.type != TokenType.EOF_TOKEN && t.type == type) = true
    · rw [if_pos hc] at h2
      simp only [Res.bind_eq_ok, Res.ok.injEq] at h2
      obtain ⟨t2, p2, hadv, rfl, rfl⟩ := h2
      simp only [advance, Res.bind_eq_ok, isAtEnd_eq_ok, previous_eq_ok] at hadv
      obtain ⟨atEnd, p3, ⟨t3, h3, rfl, rfl⟩, _, _, h5⟩ := hadv
      rw [h1] at h3
      cases h3
      simp only [Bool.and_eq_true, bne_iff_ne, ne_eq, beq_iff_eq] at hc
      have hf : (t.type == TokenType.EOF_TOKEN) = false := by simp [hc.1]
      simp only [hf, Bool.false_eq_true, if_false] at h5
      exact Or.inr ⟨rfl, h5, t, h1, by simp [hc.2], hc.1⟩
    · rw [if_neg hc] at h2
      simp only [Bool.and_eq_true, bne_iff_ne, ne_eq, beq_iff_eq, not_and] at hc
      rcases ih h2 with ⟨rfl, rfl, hh⟩ | ⟨rfl, rfl, t2, h3, h4, h5⟩
      · refine Or.inl ⟨rfl, rfl, ?_⟩
        intro t2 h3 he
        rw [h1] at h3
        cases h3
        simp only [List.mem_cons, not_or]
        exact ⟨hc he, hh t h1 he⟩
      · exact Or.inr ⟨rfl, rfl, t2, h3, List.mem_cons_of_mem _ h4, h5⟩

theorem match_cerr {tokens : List Token} {p q : Parser} {types : List TokenType} {b : Bool}
    (h : match_ tokens p types = Res.ok b q) : q.cerr = p.cerr := by
  rcases match_eq_ok h with ⟨_, rfl, _⟩ | ⟨_, rfl, _⟩ <;> rfl

theorem consume_noExpected {tokens : List Token} {p q : Parser} {type : TokenType}
    {message : String} {t : Token} (h : consume tokens p type message = Res.ok t q)
    (hq : NoExpected q.cerr) : NoExpected p.cerr := by
  simp only [consume, Res.bind_eq_ok, check_eq_ok] at h
  obtain ⟨found, p1, ⟨t1, _, _, rfl⟩, h2⟩ := h
  split_ifs at h2
  · rw [← (advance_eq_ok h2).1]; exact hq
  · simp only [Res.bind_eq_ok, peek_eq_ok] at h2
    obtain ⟨t2, p2, ⟨_, rfl⟩, _, rfl⟩ := h2
    intro line hmem
    exact hq line (by simp [hmem])

theorem skipNewlines_cerr {tokens : List Token} {p q : Parser}
    (h : skipNewlines tokens p = Res.ok () q) : q.cerr = p.cerr := by
  unfold skipNewlines at h
  split at h
  · simp only [Res.ok.injEq, true_and] at h
    rw [← h]
  · simp at h

end Parser

/-! ## Parser: null children come with an `Expected expression` diagnostic -/

namespace Parser

theorem NoExpected_of_append {cerr : List ParseDiag} {d : ParseDiag}
    (h : NoExpected (cerr ++ [d])) : NoExpected cerr :=
  fun line hmem => h line (by simp [hmem])

/-- The expression functions return a complete expression unless an
`Expected expression` diagnostic was written; the loop of a binary level keeps a
complete tree complete. -/
theorem expression_complete_aux (fuel : Nat) :
    (∀ tokens p e q, expression fuel tokens p = Res.ok e q → NoExpected q.cerr →
      NoExpected p.cerr ∧ e.complete = true) ∧
    (∀ level tokens p e q, binaryLevel fuel level tokens p = Res.ok e q →
      NoExpected q.cerr → NoExpected p.cerr ∧ e.complete = true) ∧
    (∀ level tokens expr p e q, binaryLoop fuel level tokens expr p = Res.ok e q →
      NoExpected q.cerr → NoExpected p.cerr ∧ (expr.complete = true → e.complete = true)) ∧
    (∀ tokens p e q, primary fuel tokens p = Res.ok e q → NoExpected q.cerr →
      NoExpected p.cerr ∧ e.complete = true) := by
  induction fuel with
  | zero =>
    refine ⟨?_, ?_, ?_, ?_⟩ <;> intros <;> simp_all [expression, binaryLevel, binaryLoop, primary]
  | succ fuel ih =>
    obtain ⟨ihE, ihL, ihLoop, ihP⟩ := ih
    have operand : ∀ (level : Level) tokens p e q,
        (match level.next with
          | some next => binaryLevel fuel next tokens p
          | none => primary fuel tokens p) = Res.ok e q →
        NoExpected q.cerr → NoExpected p.cerr ∧ e.complete = true := by
      intro level tokens p e q h hq
      cases hn : level.next with
      | none => rw [hn] at h; exact ihP _ _ _ _ h hq
      | some next => rw [hn] at h; exact ihL _ _ _ _ _ h hq
    refine ⟨?_, ?_, ?_, ?_⟩
    · intro tokens p e q h hq
      simp only [expression] at h
      exact ihL _ _ _ _ _ h hq
    · intro level tokens p e q h hq
      simp only [binaryLevel, Res.bind_eq_ok] at h
      obtain ⟨expr, p1, h1, h2⟩ := h
      obtain ⟨hp1, hloop⟩ := ihLoop _ _ _ _ _ _ h2 hq
      obtain ⟨hp, hexpr⟩ := operand _ _ _ _ _ h1 hp1
      exact ⟨hp, hloop hexpr⟩
    · intro level tokens expr p e q h hq
      simp only [binaryLoop, Res.bind_eq_ok] at h
      obtain ⟨_, p1, h1, found, p2, h2, h3⟩ := h
      have c1 := skipNewlines_cerr h1
      have c2 := match_cerr h2
      cases found with
      | false =>
        simp only [Bool.false_eq_true, if_false, Res.ok.injEq] at h3
        obtain ⟨rfl, rfl⟩ := h3
        rw [c2, c1] at hq
        exact ⟨hq, fun h => h⟩
      | true =>
        simp only [if_true, Res.bind_eq_ok, previous_eq_ok] at h3
        obtain ⟨opToken, p3, ⟨_, _, rfl⟩, _, p4, h4, right, p5, h5, h6⟩ := h3
        have c4 := skipNewlines_cerr h4
        obtain ⟨hp5, hloop⟩ := ihLoop _ _ _ _ _ _ h6 hq
        obtain ⟨hp4, hright⟩ := operand _ _ _ _ _ h5 hp5
        rw [c4, c2, c1] at hp4
        refine ⟨hp4, fun hexpr => hloop ?_⟩
        simp [Expr.complete, hexpr, hright]
    · intro tokens p e q h hq
      simp only [primary, Res.bind_eq_ok] at h
      obtain ⟨isString, p1, h1, h⟩ := h
      have c1 := match_cerr h1
      cases isString with
      | true =>
        simp only [if_true, Res.bind_eq_ok, previous_eq_ok, Res.ok.injEq] at h
        obtain ⟨t, p2, ⟨_, _, rfl⟩, rfl, rfl⟩ := h
        rw [c1] at hq
        exact ⟨hq, rfl⟩
      | false =>
        simp only [Bool.false_eq_true, if_false, Res.bind_eq_ok] at h
        obtain ⟨isInteger, p2, h2, h⟩ := h
        have c2 := match_cerr h2
        cases isInteger with
        | true =>
          simp only [if_true, Res.bind_eq_ok, previous_eq_ok] at h
          obtain ⟨t, p3, ⟨_, _, rfl⟩, h⟩ := h
          cases hs : stoi t.value with
          | none => simp [hs] at h
          | some v =>
            simp only [hs, Res.ok.injEq] at h
            obtain ⟨rfl, rfl⟩ := h
            rw [c2, c1] at hq
            exact ⟨hq, rfl⟩
        | false =>
          simp only [Bool.false_eq_true, if_false, Res.bind_eq_ok] at h
          obtain ⟨isParen, p3, h3, h⟩ := h
          have c3 := match_cerr h3
          cases isParen with
          | true =>
            simp only [if_true, Res.bind_eq_ok, Res.ok.injEq] at h
            obtain ⟨expr, p4, h4, _, p5, h5, rfl, rfl⟩ := h
            have hp4 := consume_noExpected h5 hq
            obtain ⟨hp3, hexpr⟩ := ihE _ _ _ _ h4 hp4
            rw [c3, c2, c1] at hp3
            exact ⟨hp3, hexpr⟩
          | false =>
            simp only [Bool.false_eq_true, if_false, Res.bind_eq_ok] at h
            obtain ⟨isIdentifier, p4, h4, h⟩ := h
            have c4 := match_cerr h4
            cases isIdentifier with
            | true =>
              simp only [if_true, Res.bind_eq_ok, previous_eq_ok] at h
              obtain ⟨t, p5, ⟨_, _, rfl⟩, isBracket, p6, h6, h⟩ := h
              have c6 := match_cerr h6
              cases isBracket with
              | true =>
                simp only [if_true, Res.bind_eq_ok, Res.ok.injEq] at h
                obtain ⟨index, p7, h7, _, p8, h8, rfl, rfl⟩ := h
                have hp7 := consume_noExpected h8 hq
                obtain ⟨hp6, hindex⟩ := ihE _ _ _ _ h7 hp7
                rw [c6, c4, c3, c2, c1] at hp6
                exact ⟨hp6, by simp [Expr.complete, hindex]⟩
              | false =>
                simp only [Bool.false_eq_true, if_false, Res.ok.injEq] at h
                obtain ⟨rfl, rfl⟩ := h
                rw [c6, c4, c3, c2, c1] at hq
                exact ⟨hq, rfl⟩
            | false =>
              simp only [Bool.false_eq_true, if_false, Res.bind_eq_ok, peek_eq_ok,
                Res.ok.injEq] at h
              obtain ⟨t, p5, ⟨_, rfl⟩, rfl, rfl⟩ := h
              exact absurd (List.mem_append_right _ (List.mem_singleton.2 rfl)) (hq t.line)

theorem expression_complete {fuel : Nat} {tokens : List Token} {p q : Parser} {e : Expr}
    (h : expression fuel tokens p = Res.ok e q) (hq : NoExpected q.cerr) :
    NoExpected p.cerr ∧ e.complete = true :=
  (expression_complete_aux fuel).1 tokens p e q h hq

end Parser

namespace Parser

theorem atBlockEnd_eq_ok {tokens : List Token} {p q : Parser} {types : List TokenType}
    {b : Bool} (h : atBlockEnd tokens p types = Res.ok b q) : q = p := by
  induction types with
  | nil =>
    simp only [atBlockEnd, isAtEnd_eq_ok] at h
    obtain ⟨_, _, _, h⟩ := h
    exact h
  | cons type types ih =>
    simp only [atBlockEnd, Res.bind_eq_ok, check_eq_ok] at h
    obtain ⟨found, p1, ⟨_, _, _, rfl⟩, h⟩ := h
    split_ifs at h
    · simp only [Res.ok.injEq] at h
      exact h.2.symm
    · exact ih h

theorem printStatement_complete {fuel : Nat} {tokens : List Token} {p q : Parser} {s : Stmt}
    (h : printStatement fuel tokens p = Res.ok s q) (hq : NoExpected q.cerr) :
    NoExpected p.cerr ∧ s.Complete := by
  simp only [printStatement, Res.bind_eq_ok, Res.ok.injEq] at h
  obtain ⟨expr, p1, h1, rfl, rfl⟩ := h
  obtain ⟨hp, he⟩ := expression_complete h1 hq
  exact ⟨hp, Stmt.Complete.print _ he⟩

theorem varDeclaration_complete {tokens : List Token} {p q : Parser} {s : Stmt}
    (h : varDeclaration tokens p = Res.ok s q) (hq : NoExpected q.cerr) :
    NoExpected p.cerr ∧ s.Complete := by
  simp only [varDeclaration, Res.bind_eq_ok, previous_eq_ok] at h
  obtain ⟨_, p1, h1, nameToken, _, ⟨_, _, rfl⟩, _, p2, h2, isInteger, p3, h3, h⟩ := h
  have c3 := match_cerr h3
  have back : NoExpected p3.cerr → NoExpected p.cerr := fun h0 => by
    rw [c3] at h0
    exact consume_noExpected h1 (consume_noExpected h2 h0)
  cases isInteger with
  | true =>
    simp only [if_true, Res.ok.injEq] at h
    obtain ⟨rfl, rfl⟩ := h
    exact ⟨back hq, Stmt.Complete.varDeclaration _ _ _⟩
  | false =>
    simp only [Bool.false_eq_true, if_false, Res.bind_eq_ok] at h
    obtain ⟨isString, p4, h4, h⟩ := h
    have c4 := match_cerr h4
    cases isString with
    | true =>
      simp only [if_true, Res.ok.injEq] at h
      obtain ⟨rfl, rfl⟩ := h
      rw [c4] at hq
      exact ⟨back hq, Stmt.Complete.varDeclaration _ _ _⟩
    | false =>
      simp only [Bool.false_eq_true, if_false, Res.bind_eq_ok] at h
      obtain ⟨isArray, p5, h5, h⟩ := h
      have c5 := match_cerr h5
      cases isArray with
      | true =>
        simp only [if_true, Res.bind_eq_ok, previous_eq_ok] at h
        obtain ⟨_, p6, h6, _, p7, h7, sizeToken, _, ⟨_, _, rfl⟩, h⟩ := h
        cases hs : stoi sizeToken.value with
        | none => simp [hs] at h
        | some v =>
          simp only [hs, Res.ok.injEq] at h
          obtain ⟨rfl, rfl⟩ := h
          have h0 := consume_noExpected h6 (consume_noExpected h7 hq)
          rw [c5, c4] at h0
          exact ⟨back h0, Stmt.Complete.varDeclaration _ _ _⟩
      | false =>
        simp only [Bool.false_eq_true, if_false, Res.ok.injEq] at h
        obtain ⟨rfl, rfl⟩ := h
        rw [c5, c4] at hq
        exact ⟨back hq, Stmt.Complete.varDeclaration _ _ _⟩

theorem assignment_complete {fuel : Nat} {tokens : List Token} {p q : Parser} {s : Stmt}
    (h : assignment fuel tokens p = Res.ok s q) (hq : NoExpected q.cerr) :
    NoExpected p.cerr ∧ s.Complete := by
  simp only [assignment, Res.bind_eq_ok, previous_eq_ok, Res.ok.injEq] at h
  obtain ⟨_, p1, h1, nameToken, _, ⟨_, _, rfl⟩, isBracket, p2, h2, index, p3, h3, _, p4, h4,
    value, p5, h5, rfl, rfl⟩ := h
  have c2 := match_cerr h2
  obtain ⟨hp4, hvalue⟩ := expression_complete h5 hq
  have hp3 := consume_noExpected h4 hp4
  have hindex : NoExpected p2.cerr ∧ index.absentOrComplete = true := by
    cases isBracket with
    | true =>
      simp only [if_true, Res.bind_eq_ok, Res.ok.injEq] at h3
      obtain ⟨index1, p6, h6, _, p7, h7, rfl, rfl⟩ := h3
      obtain ⟨hp2, hi⟩ := expression_complete h6 (consume_noExpected h7 hp3)
      exact ⟨hp2, by simp [Expr.absentOrComplete, hi]⟩
    | false =>
      simp only [Bool.false_eq_true, if_false, Res.ok.injEq] at h3
      obtain ⟨rfl, rfl⟩ := h3
      exact ⟨hp3, by simp [Expr.absentOrComplete]⟩
  obtain ⟨hp2, hi⟩ := hindex
  rw [c2] at hp2
  exact ⟨consume_noExpected h1 hp2, Stmt.Complete.assignment _ _ _ hvalue hi⟩

theorem incrementStatement_complete {tokens : List Token} {p q : Parser} {s : Stmt}
    (h : incrementStatement tokens p = Res.ok s q) (hq : NoExpected q.cerr) :
    NoExpected p.cerr ∧ s.Complete := by
  simp only [incrementStatement, Res.bind_eq_ok, previous_eq_ok] at h
  obtain ⟨_, p1, h1, nameToken, _, ⟨_, _, rfl⟩, _, p2, h2, _, p3, h3, amountToken, _,
    ⟨_, _, rfl⟩, h⟩ := h
  cases hs : stoi amountToken.value with
  | none => simp [hs] at h
  | some v =>
    simp only [hs, Res.ok.injEq] at h
    obtain ⟨rfl, rfl⟩ := h
    exact ⟨consume_noExpected h1 (consume_noExpected h2 (consume_noExpected h3 hq)),
      Stmt.Complete.increment _ _⟩

theorem readStatement_complete {tokens : List Token} {p q : Parser} {s : Stmt}
    (h : readStatement tokens p = Res.ok s q) (hq : NoExpected q.cerr) :
    NoExpected p.cerr ∧ s.Complete := by
  simp only [readStatement, Res.bind_eq_ok, previous_eq_ok, Res.ok.injEq] at h
  obtain ⟨_, p1, h1, nameToken, _, ⟨_, _, rfl⟩, rfl, rfl⟩ := h
  exact ⟨consume_noExpected h1 hq, Stmt.Complete.read _⟩

end Parser

namespace Parser

/-- The statement functions return complete statements unless an `Expected expression`
diagnostic was written; the block loops add complete statements only. -/
theorem statement_complete_aux (fuel : Nat) :
    (∀ tokens p r q, statement fuel tokens p = Res.ok r q → NoExpected q.cerr →
      NoExpected p.cerr ∧ ∀ s, r = some s → s.Complete) ∧
    (∀ terminators tokens body p r q, block fuel terminators tokens body p = Res.ok r q →
      NoExpected q.cerr →
      NoExpected p.cerr ∧ ((∀ s ∈ body, Stmt.Complete s) → ∀ s ∈ r, Stmt.Complete s)) ∧
    (∀ tokens p s q, forLoop fuel tokens p = Res.ok s q → NoExpected q.cerr →
      NoExpected p.cerr ∧ s.Complete) ∧
    (∀ tokens p s q, whileLoop fuel tokens p = Res.ok s q → NoExpected q.cerr →
      NoExpected p.cerr ∧ s.Complete) ∧
    (∀ tokens clauses p r q, elseIfClauses fuel tokens clauses p = Res.ok r q →
      NoExpected q.cerr →
      NoExpected p.cerr ∧
        (((∀ c ∈ clauses, c.1.complete = true) ∧ ∀ c ∈ clauses, ∀ s ∈ c.2, Stmt.Complete s) →
          (∀ c ∈ r, c.1.complete = true) ∧ ∀ c ∈ r, ∀ s ∈ c.2, Stmt.Complete s)) ∧
    (∀ tokens p s q, ifStatement fuel tokens p = Res.ok s q → NoExpected q.cerr →
      NoExpected p.cerr ∧ s.Complete) := by
  induction fuel with
  | zero =>
    refine ⟨?_, ?_, ?_, ?_, ?_, ?_⟩ <;> intros <;>
      simp_all [statement, block, forLoop, whileLoop, elseIfClauses, ifStatement]
  | succ fuel ih =>
    obtain ⟨ihS, ihB, ihF, ihW, ihC, ihI⟩ := ih
    refine ⟨?_, ?_, ?_, ?_, ?_, ?_⟩
    · -- statement
      intro tokens p r q h hq
      simp only [statement, Res.bind_eq_ok] at h
      obtain ⟨_, p1, h1, isPrint, p2, h2, h⟩ := h
      have c1 := skipNewlines_cerr h1
      have c2 := match_cerr h2
      have back2 : NoExpected p2.cerr → NoExpected p.cerr := fun h0 => by
        rw [c2, c1] at h0; exact h0
      cases isPrint with
      | true =>
        simp only [if_true, Res.bind_eq_ok, Res.ok.injEq] at h
        obtain ⟨s, p3, h3, rfl, rfl⟩ := h
        obtain ⟨hp, hs⟩ := printStatement_complete h3 hq
        exact ⟨back2 hp, fun s1 e => by cases e; exact hs⟩
      | false =>
        simp only [Bool.false_eq_true, if_false, Res.bind_eq_ok] at h
        obtain ⟨isPlease, p3, h3, returned, p4, h4, h⟩ := h
        have c3 := match_cerr h3
        have please : NoExpected p4.cerr → NoExpected p3.cerr ∧
            ∀ res s, returned = some res → res = some s → s.Complete := by
          intro hp4
          cases isPlease with
          | false =>
            simp only [Bool.false_eq_true, if_false, Res.ok.injEq] at h4
            obtain ⟨rfl, rfl⟩ := h4
            exact ⟨hp4, fun _ _ e => by cases e⟩
          | true =>
            simp only [if_true, Res.bind_eq_ok] at h4
            obtain ⟨isDeclare, p5, h5, h4⟩ := h4
            have c5 := match_cerr h5
            cases isDeclare with
            | true =>
              simp only [if_true, Res.bind_eq_ok, Res.ok.injEq] at h4
              obtain ⟨s, p6, h6, rfl, rfl⟩ := h4
              obtain ⟨hp, hs⟩ := varDeclaration_complete h6 hp4
              rw [c5] at hp
              exact ⟨hp, fun _ _ e1 e2 => by cases e1; cases e2; exact hs⟩
            | false =>
              simp only [Bool.false_eq_true, if_false, Res.bind_eq_ok] at h4
              obtain ⟨isSet, p6, h6, h4⟩ := h4
              have c6 := match_cerr h6
              cases isSet with
              | true =>
                simp only [if_true, Res.bind_eq_ok, Res.ok.injEq] at h4
                obtain ⟨s, p7, h7, rfl, rfl⟩ := h4
                obtain ⟨hp, hs⟩ := assignment_complete h7 hp4
                rw [c6, c5] at hp
                exact ⟨hp, fun _ _ e1 e2 => by cases e1; cases e2; exact hs⟩
              | false =>
                simp only [Bool.false_eq_true, if_false, Res.bind_eq_ok] at h4
                obtain ⟨isIncrement, p7, h7, h4⟩ := h4
                have c7 := match_cerr h7
                cases isIncrement with
                | true =>
                  simp only [if_true, Res.bind_eq_ok, Res.ok.injEq] at h4
                  obtain ⟨s, p8, h8, rfl, rfl⟩ := h4
                  obtain ⟨hp, hs⟩ := incrementStatement_complete h8 hp4
                  rw [c7, c6, c5] at hp
                  exact ⟨hp, fun _ _ e1 e2 => by cases e1; cases e2; exact hs⟩
                | false =>
                  simp only [Bool.false_eq_true, if_false, Res.bind_eq_ok] at h4
                  obtain ⟨isRead, p8, h8, h4⟩ := h4
                  have c8 := match_cerr h8
                  cases isRead with
                  | true =>
                    simp only [if_true, Res.bind_eq_ok, Res.ok.injEq] at h4
                    obtain ⟨s, p9, h9, rfl, rfl⟩ := h4
                    obtain ⟨hp, hs⟩ := readStatement_complete h9 hp4
                    rw [c8, c7, c6, c5] at hp
                    exact ⟨hp, fun _ _ e1 e2 => by cases e1; cases e2; exact hs⟩
                  | false =>
                    simp only [Bool.false_eq_true, if_false, Res.ok.injEq] at h4
                    obtain ⟨rfl, rfl⟩ := h4
                    rw [c8, c7, c6, c5] at hp4
                    exact ⟨hp4, fun _ _ e => by cases e⟩
        have back4 : NoExpected p4.cerr → NoExpected p.cerr := fun h0 => by
          have := (please h0).1
          rw [c3] at this
          exact back2 this
        cases returned with
        | some result =>
          simp only [Res.ok.injEq] at h
          obtain ⟨rfl, rfl⟩ := h
          exact ⟨back4 hq, fun s e => (please hq).2 _ s rfl e⟩
        | none =>
          simp only [Res.bind_eq_ok] at h
          obtain ⟨isFor, p5, h5, h⟩ := h
          have c5 := match_cerr h5
          cases isFor with
          | true =>
            simp only [if_true, Res.bind_eq_ok, Res.ok.injEq] at h
            obtain ⟨s, p6, h6, rfl, rfl⟩ := h
            obtain ⟨hp, hs⟩ := ihF _ _ _ _ h6 hq
            rw [c5] at hp
            exact ⟨back4 hp, fun s1 e => by cases e; exact hs⟩
          | false =>
            simp only [Bool.false_eq_true, if_false, Res.bind_eq_ok] at h
            obtain ⟨isWhile, p6, h6, h⟩ := h
            have c6 := match_cerr h6
            cases isWhile with
            | true =>
              simp only [if_true, Res.bind_eq_ok, Res.ok.injEq] at h
              obtain ⟨s, p7, h7, rfl, rfl⟩ := h
              obtain ⟨hp, hs⟩ := ihW _ _ _ _ h7 hq
              rw [c6, c5] at hp
              exact ⟨back4 hp, fun s1 e => by cases e; exact hs⟩
            | false =>
              simp only [Bool.false_eq_true, if_false, Res.bind_eq_ok] at h
              obtain ⟨isIf, p7, h7, h⟩ := h
              have c7 := match_cerr h7
              cases isIf with
              | true =>
                simp only [if_true, Res.bind_eq_ok, Res.ok.injEq] at h
                obtain ⟨s, p8, h8, rfl, rfl⟩ := h
                obtain ⟨hp, hs⟩ := ihI _ _ _ _ h8 hq
                rw [c7, c6, c5] at hp
                exact ⟨back4 hp, fun s1 e => by cases e; exact hs⟩
              | false =>
                simp only [Bool.false_eq_true, if_false, Res.bind_eq_ok] at h
                obtain ⟨isComment, p8, h8, h⟩ := h
                have c8 := match_cerr h8
                cases isComment with
                | true =>
                  simp only [if_true] at h
                  split at h
                  · simp only [Res.ok.injEq] at h
                    obtain ⟨rfl, rfl⟩ := h
                    have hq1 : NoExpected p8.cerr := hq
                    rw [c8, c7, c6, c5] at hq1
                    exact ⟨back4 hq1, fun _ e => by cases e⟩
                  · simp at h
                | false =>
                  simp only [Bool.false_eq_true, if_false, Res.ok.injEq] at h
                  obtain ⟨rfl, rfl⟩ := h
                  rw [c8, c7, c6, c5] at hq
                  exact ⟨back4 hq, fun _ e => by cases e⟩
    · -- block
      intro terminators tokens body p r q h hq
      simp only [block, Res.bind_eq_ok] at h
      obtain ⟨done, p1, h1, h⟩ := h
      have e1 := atBlockEnd_eq_ok h1
      subst e1
      cases done with
      | true =>
        simp only [if_true, Res.ok.injEq] at h
        obtain ⟨rfl, rfl⟩ := h
        exact ⟨hq, fun hb => hb⟩
      | false =>
        simp only [Bool.false_eq_true, if_false, Res.bind_eq_ok] at h
        obtain ⟨stmt, p2, h2, _, p3, h3, h4⟩ := h
        obtain ⟨hp3, hrest⟩ := ihB _ _ _ _ _ _ h4 hq
        rw [skipNewlines_cerr h3] at hp3
        obtain ⟨hp, hs⟩ := ihS _ _ _ _ h2 hp3
        refine ⟨hp, fun hb => hrest ?_⟩
        intro s hmem
        rcases List.mem_append.1 hmem with hm | hm
        · exact hb s hm
        · exact hs s (by simpa [Option.mem_toList] using hm)
    · -- forLoop
      intro tokens p s q h hq
      simp only [forLoop, Res.bind_eq_ok, Res.ok.injEq] at h
      obtain ⟨condition, p1, h1, _, p2, h2, _, p3, h3, body, p4, h4, _, p5, h5, rfl, rfl⟩ := h
      obtain ⟨hp3, hbody⟩ := ihB _ _ _ _ _ _ h4 (consume_noExpected h5 hq)
      rw [skipNewlines_cerr h3] at hp3
      obtain ⟨hp, hc⟩ := expression_complete h1 (consume_noExpected h2 hp3)
      exact ⟨hp, Stmt.Complete.forLoop _ _ _ hc (hbody (by simp))⟩
    · -- whileLoop
      intro tokens p s q h hq
      simp only [whileLoop, Res.bind_eq_ok, Res.ok.injEq] at h
      obtain ⟨condition, p1, h1, _, p2, h2, _, p3, h3, body, p4, h4, _, p5, h5, rfl, rfl⟩ := h
      obtain ⟨hp3, hbody⟩ := ihB _ _ _ _ _ _ h4 (consume_noExpected h5 hq)
      rw [skipNewlines_cerr h3] at hp3
      obtain ⟨hp, hc⟩ := expression_complete h1 (consume_noExpected h2 hp3)
      exact ⟨hp, Stmt.Complete.whileLoop _ _ hc (hbody (by simp))⟩
    · -- elseIfClauses
      intro tokens clauses p r q h hq
      simp only [elseIfClauses, Res.bind_eq_ok] at h
      obtain ⟨isElseIf, p1, h1, h⟩ := h
      have c1 := match_cerr h1
      cases isElseIf with
      | false =>
        simp only [Bool.false_eq_true, if_false, Res.ok.injEq] at h
        obtain ⟨rfl, rfl⟩ := h
        rw [c1] at hq
        exact ⟨hq, fun hc => hc⟩
      | true =>
        simp only [if_true, Res.bind_eq_ok] at h
        obtain ⟨condition, p2, h2, _, p3, h3, _, p4, h4, body, p5, h5, h6⟩ := h
        obtain ⟨hp5, hrest⟩ := ihC _ _ _ _ _ h6 hq
        obtain ⟨hp4, hbody⟩ := ihB _ _ _ _ _ _ h5 hp5
        rw [skipNewlines_cerr h4] at hp4
        obtain ⟨hp1, hc⟩ := expression_complete h2 (consume_noExpected h3 hp4)
        rw [c1] at hp1
        refine ⟨hp1, fun hcl => hrest ⟨?_, ?_⟩⟩
        · intro c hmem
          rcases List.mem_append.1 hmem with hm | hm
          · exact hcl.1 c hm
          · rw [List.mem_singleton.1 hm]; exact hc
        · intro c hmem
          rcases List.mem_append.1 hmem with hm | hm
          · exact hcl.2 c hm
          · rw [List.mem_singleton.1 hm]; exact hbody (by simp)
    · -- ifStatement
      intro tokens p s q h hq
      simp only [ifStatement, Res.bind_eq_ok, Res.ok.injEq] at h
      obtain ⟨condition, p1, h1, _, p2, h2, _, p3, h3, thenBranch, p4, h4, clauses, p5, h5,
        isElse, p6, h6, elseBranch, p7, h7, _, p8, h8, rfl, rfl⟩ := h
      have hp7 := consume_noExpected h8 hq
      have helse : NoExpected p6.cerr ∧ ∀ s ∈ elseBranch, Stmt.Complete s := by
        cases isElse with
        | true =>
          simp only [if_true, Res.bind_eq_ok] at h7
          obtain ⟨_, p9, h9, h10⟩ := h7
          obtain ⟨hp9, hb⟩ := ihB _ _ _ _ _ _ h10 hp7
          rw [skipNewlines_cerr h9] at hp9
          exact ⟨hp9, hb (by simp)⟩
        | false =>
          simp only [Bool.false_eq_true, if_false, Res.ok.injEq] at h7
          obtain ⟨rfl, rfl⟩ := h7
          exact ⟨hp7, by simp⟩
      obtain ⟨hp6, hels⟩ := helse
      rw [match_cerr h6] at hp6
      obtain ⟨hp4, hcl⟩ := ihC _ _ _ _ _ h5 hp6
      obtain ⟨hp3, hthen⟩ := ihB _ _ _ _ _ _ h4 hp4
      rw [skipNewlines_cerr h3] at hp3
      obtain ⟨hp, hc⟩ := expression_complete h1 (consume_noExpected h2 hp3)
      have hcl2 := hcl ⟨by simp, by simp⟩
      exact ⟨hp, Stmt.Complete.ifStatement _ _ _ _ hc (hthen (by simp)) hcl2.1 hcl2.2 hels⟩

theorem parseLoop_complete (fuel : Nat) :
    ∀ tokens statements p program q,
      parseLoop fuel tokens statements p = Res.ok (some program) q → NoExpected q.cerr →
      NoExpected p.cerr ∧
        ((∀ s ∈ statements, Stmt.Complete s) → ∀ s ∈ program, Stmt.Complete s) := by
  induction fuel with
  | zero => intro tokens statements p program q h; simp [parseLoop] at h
  | succ fuel ih =>
    intro tokens statements p program q h hq
    simp only [parseLoop, Res.bind_eq_ok, isAtEnd_eq_ok] at h
    obtain ⟨atEnd, p1, ⟨_, _, _, rfl⟩, h⟩ := h
    split_ifs at h
    · simp only [Res.ok.injEq, Option.some.injEq] at h
      obtain ⟨rfl, rfl⟩ := h
      exact ⟨hq, fun hst => hst⟩
    · split at h
      · rename_i stmt p2 heq
        simp only [Res.bind_eq_ok, Res.ok.injEq] at heq
        obtain ⟨stmt1, p3, h3, _, p4, h4, rfl, rfl⟩ := heq
        obtain ⟨hp4, hloop⟩ := ih _ _ _ _ _ h hq
        rw [skipNewlines_cerr h4] at hp4
        obtain ⟨hp, hs⟩ := (statement_complete_aux fuel).1 _ _ _ _ h3 hp4
        refine ⟨hp, fun hst => hloop ?_⟩
        intro s hmem
        rcases List.mem_append.1 hmem with hm | hm
        · exact hst s hm
        · exact hs s (by simpa [Option.mem_toList] using hm)
      · simp at h
      · simp at h
      · simp at h

end Parser

/-- C3 (counterexample). The tokens of `PRAISE_LEADER` and of `PRAISE_LEADER 1 +` parse
to a `Program`, yet the first holds a `PrintStatement` whose expression is the null
pointer and the second a `BinaryOp` whose right operand is the null pointer. -/
theorem c3_counterexample :
    Parser.parse 9 Parser.praiseNothing =
        Res.ok (some [Stmt.PrintStatement Expr.null]) ⟨1, [ParseDiag.expectedExpression 1]⟩ ∧
      ¬ Stmt.Complete (Stmt.PrintStatement Expr.null) ∧
      Parser.parse 12 Parser.praiseOnePlus =
        Res.ok (some [Stmt.PrintStatement
            (Expr.BinaryOp (Expr.IntegerLiteral 1) TokenType.PLUS Expr.null)])
          ⟨3, [ParseDiag.expectedExpression 1]⟩ ∧
      ¬ Stmt.Complete (Stmt.PrintStatement
          (Expr.BinaryOp (Expr.IntegerLiteral 1) TokenType.PLUS Expr.null)) := by
  refine ⟨rfl, ?_, rfl, ?_⟩
  · intro h
    cases h with
    | print _ h => simp [Expr.complete] at h
  · intro h
    cases h with
    | print _ h => simp [Expr.complete] at h

/-- C3 (amended). Whenever `Parser::parse` returns a `Program` and has written no
`Expected expression` diagnostic, every required child in the program is non-null: the
expression of every `PrintStatement`, the value of every `Assignment` (and its index
when present), every condition, both operands of every `BinaryOp`, and the array and
the index of every `ArrayAccess`. -/
theorem c3_parse_complete (fuel : Nat) (tokens : List Token) (program : Program)
    (q : Parser) (h : Parser.parse fuel tokens = Res.ok (some program) q)
    (hq : Parser.NoExpected q.cerr) : ∀ s ∈ program, Stmt.Complete s := by
  simp only [Parser.parse, Res.bind_eq_ok] at h
  obtain ⟨isHeader, p1, _, _, p2, _, h3⟩ := h
  exact (Parser.parseLoop_complete fuel _ _ _ _ _ h3 hq).2 (by simp)

/-- C3 (instance). The tokens of `PRAISE_LEADER 1 + 2` parse without a diagnostic, and the
statement of the program is complete. -/
theorem c3_parse_complete_witness :
    Parser.parse 12 Parser.praiseOnePlusTwo =
        Res.ok (some [Stmt.PrintStatement
          (Expr.BinaryOp (Expr.IntegerLiteral 1) TokenType.PLUS (Expr.IntegerLiteral 2))])
          ⟨4, []⟩ ∧
      Parser.NoExpected [] ∧
      ∀ s ∈ [Stmt.PrintStatement
          (Expr.BinaryOp (Expr.IntegerLiteral 1) TokenType.PLUS (Expr.IntegerLiteral 2))],
        Stmt.Complete s :=
  ⟨rfl, (fun _ h => by cases h),
    c3_parse_complete 12 Parser.praiseOnePlusTwo _ ⟨4, []⟩ rfl (fun _ h => by cases h)⟩

/-! ## Parser: more fuel does not change a result -/

theorem Res.bind_mono {α β : Type} {r r1 : Res α} {k k1 : α → Parser → Res β}
    (hr : r ≠ Res.timeout → r1 = r)
    (hk : ∀ a p, r = Res.ok a p → k a p ≠ Res.timeout → k1 a p = k a p)
    (h : r.bind k ≠ Res.timeout) : r1.bind k1 = r.bind k := by
  cases r with
  | ok a p =>
    rw [hr (by simp)]
    exact hk a p rfl h
  | thrown p => rw [hr (by simp)]; rfl
  | undefined => rw [hr (by simp)]; rfl
  | timeout => exact absurd rfl h

namespace Parser

/-- One more unit of fuel does not change the outcome of an expression function that
did not run out of fuel. -/
theorem expression_fuel_succ (fuel : Nat) :
    (∀ tokens p, expression fuel tokens p ≠ Res.timeout →
      expression (fuel + 1) tokens p = expression fuel tokens p) ∧
    (∀ level tokens p, binaryLevel fuel level tokens p ≠ Res.timeout →
      binaryLevel (fuel + 1) level tokens p = binaryLevel fuel level tokens p) ∧
    (∀ level tokens expr p, binaryLoop fuel level tokens expr p ≠ Res.timeout →
      binaryLoop (fuel + 1) level tokens expr p = binaryLoop fuel level tokens expr p) ∧
    (∀ tokens p, primary fuel tokens p ≠ Res.timeout →
      primary (fuel + 1) tokens p = primary fuel tokens p) := by
  induction fuel with
  | zero =>
    refine ⟨?_, ?_, ?_, ?_⟩ <;> intros <;> simp_all [expression, binaryLevel, binaryLoop, primary]
  | succ fuel ih =>
    obtain ⟨ihE, ihL, ihLoop, ihP⟩ := ih
    have operand : ∀ (level : Level) tokens p,
        (match level.next with
          | some next => binaryLevel fuel next tokens p
          | none => primary fuel tokens p) ≠ Res.timeout →
        (match level.next with
          | some next => binaryLevel (fuel + 1) next tokens p
          | none => primary (fuel + 1) tokens p) =
        (match level.next with
          | some next => binaryLevel fuel next tokens p
          | none => primary fuel tokens p) := by
      intro level tokens p h
      cases hn : level.next with
      | none => rw [hn] at h; exact ihP _ _ h
      | some next => rw [hn] at h; exact ihL _ _ _ h
    refine ⟨?_, ?_, ?_, ?_⟩
    · intro tokens p h
      rw [expression] at h ⊢
      rw [expression]
      exact ihL _ _ _ h
    · intro level tokens p h
      rw [binaryLevel] at h ⊢
      rw [binaryLevel]
      exact Res.bind_mono (operand _ _ _) (fun e p1 _ hk => ihLoop _ _ _ _ hk) h
    · intro level tokens expr p h
      rw [binaryLoop] at h ⊢
      rw [binaryLoop]
      refine Res.bind_mono (fun _ => rfl) (fun _ p1 _ h => ?_) h
      refine Res.bind_mono (fun _ => rfl) (fun found p2 _ h => ?_) h
      cases found with
      | false => rfl
      | true =>
        simp only [if_true] at h ⊢
        refine Res.bind_mono (fun _ => rfl) (fun opToken p3 _ h => ?_) h
        refine Res.bind_mono (fun _ => rfl) (fun _ p4 _ h => ?_) h
        exact Res.bind_mono (operand _ _ _) (fun right p5 _ hk => ihLoop _ _ _ _ hk) h
    · intro tokens p h
      rw [primary] at h ⊢
      rw [primary]
      refine Res.bind_mono (fun _ => rfl) (fun isString p1 _ h => ?_) h
      cases isString with
      | true => rfl
      | false =>
        simp only [Bool.false_eq_true, if_false] at h ⊢
        refine Res.bind_mono (fun _ => rfl) (fun isInteger p2 _ h => ?_) h
        cases isInteger with
        | true => rfl
        | false =>
          simp only [Bool.false_eq_true, if_false] at h ⊢
          refine Res.bind_mono (fun _ => rfl) (fun isParen p3 _ h => ?_) h
          cases isParen with
          | true =>
            simp only [if_true] at h ⊢
            exact Res.bind_mono (ihE _ _) (fun _ _ _ _ => rfl) h
          | false =>
            simp only [Bool.false_eq_true, if_false] at h ⊢
            refine Res.bind_mono (fun _ => rfl) (fun isIdentifier p4 _ h => ?_) h
            cases isIdentifier with
            | false => rfl
            | true =>
              simp only [if_true] at h ⊢
              refine Res.bind_mono (fun _ => rfl) (fun t p5 _ h => ?_) h
              refine Res.bind_mono (fun _ => rfl) (fun isBracket p6 _ h => ?_) h
              cases isBracket with
              | false => rfl
              | true =>
                simp only [if_true] at h ⊢
                exact Res.bind_mono (ihE _ _) (fun _ _ _ _ => rfl) h

end Parser

/-! ## Parser: how the binary levels compose -/

namespace Parser

theorem primary_fuel_le {fuel fuel1 : Nat} {tokens : List Token} {p q : Parser} {e : Expr}
    (h : primary fuel tokens p = Res.ok e q) (hle : fuel ≤ fuel1) :
    primary fuel1 tokens p = Res.ok e q := by
  induction hle with
  | refl => exact h
  | step _ ih =>
    rw [(expression_fuel_succ _).2.2.2 tokens p (by rw [ih]; simp), ih]

theorem returns_primary {fuel : Nat} {tokens : List Token} {p q : Parser} {e : Expr}
    (h : primary fuel tokens p = Res.ok e q) :
    Returns (fun fuel => parseAt none fuel tokens p) e q :=
  ⟨fuel, fun _ hle => primary_fuel_le h hle⟩

/-- A non-null result of `primary` starts at a token that opens a primary. -/
theorem primary_first_token {fuel : Nat} {tokens : List Token} {p q : Parser} {e : Expr}
    (h : primary fuel tokens p = Res.ok e q) (he : e ≠ Expr.null) :
    ∃ t, tokens[p.current]? = some t ∧ t.type ∈ [TokenType.STRING, TokenType.INTEGER,
      TokenType.LEFT_PAREN, TokenType.IDENTIFIER] := by
  cases fuel with
  | zero => simp [primary] at h
  | succ fuel =>
    simp only [primary, Res.bind_eq_ok] at h
    obtain ⟨isString, p1, h1, h⟩ := h
    rcases match_eq_ok h1 with ⟨rfl, rfl, _⟩ | ⟨_, _, t, ht, hm, _⟩
    swap
    · exact ⟨t, ht, by simp only [List.mem_singleton] at hm; simp [hm]⟩
    simp only [Bool.false_eq_true, if_false, Res.bind_eq_ok] at h
    obtain ⟨isInteger, p2, h2, h⟩ := h
    rcases match_eq_ok h2 with ⟨rfl, rfl, _⟩ | ⟨_, _, t, ht, hm, _⟩
    swap
    · exact ⟨t, ht, by simp only [List.mem_singleton] at hm; simp [hm]⟩
    simp only [Bool.false_eq_true, if_false, Res.bind_eq_ok] at h
    obtain ⟨isParen, p3, h3, h⟩ := h
    rcases match_eq_ok h3 with ⟨rfl, rfl, _⟩ | ⟨_, _, t, ht, hm, _⟩
    swap
    · exact ⟨t, ht, by simp only [List.mem_singleton] at hm; simp [hm]⟩
    simp only [Bool.false_eq_true, if_false, Res.bind_eq_ok] at h
    obtain ⟨isIdentifier, p4, h4, h⟩ := h
    rcases match_eq_ok h4 with ⟨rfl, rfl, _⟩ | ⟨_, _, t, ht, hm, _⟩
    swap
    · exact ⟨t, ht, by simp only [List.mem_singleton] at hm; simp [hm]⟩
    simp only [Bool.false_eq_true, if_false, Res.bind_eq_ok, peek_eq_ok, Res.ok.injEq] at h
    obtain ⟨_, _, _, h, _⟩ := h
    exact absurd h.symm he

theorem skipNewlines_stay {tokens : List Token} {p : Parser} {t : Token}
    (h : tokens[p.current]? = some t) (hn : t.type ≠ TokenType.NEWLINE) :
    skipNewlines tokens p = Res.ok () p := by
  have hd : tokens.drop p.current = t :: tokens.drop (p.current + 1) := by
    have hlt : p.current < tokens.length := by
      rcases Nat.lt_or_ge p.current tokens.length with h1 | h1
      · exact h1
      · rw [List.getElem?_eq_none h1] at h; cases h
    rw [List.getElem?_eq_getElem hlt] at h
    cases h
    exact List.drop_eq_getElem_cons hlt
  simp [skipNewlines, hd, skipNewlinesFrom, hn]

theorem match_hit {tokens : List Token} {p : Parser} {t : Token} {types : List TokenType}
    (h : tokens[p.current]? = some t) (hm : t.type ∈ types)
    (he : t.type ≠ TokenType.EOF_TOKEN) :
    match_ tokens p types = Res.ok true ⟨p.current + 1, p.cerr⟩ := by
  induction types with
  | nil => cases hm
  | cons type types ih =>
    have hc : check tokens p type =
        Res.ok (t.type != TokenType.EOF_TOKEN && t.type == type) p :=
      check_eq_ok.2 ⟨t, h, rfl, rfl⟩
    simp only [match_, hc, Res.bind]
    by_cases hty : t.type = type
    · subst hty
      have hat : isAtEnd tokens p = Res.ok false p :=
        isAtEnd_eq_ok.2 ⟨t, h, by simp [he], rfl⟩
      have hprev : previous tokens ⟨p.current + 1, p.cerr⟩ = Res.ok t ⟨p.current + 1, p.cerr⟩ :=
        previous_eq_ok.2 ⟨by simp, by simpa using h, rfl⟩
      simp [he, advance, hat, Res.bind, hprev]
    · have hm2 : t.type ∈ types := by
        rcases List.mem_cons.1 hm with h1 | h1
        · exact absurd h1 hty
        · exact h1
      simp [hty, ih hm2]

theorem match_miss {tokens : List Token} {p : Parser} {t : Token} {types : List TokenType}
    (h : tokens[p.current]? = some t) (hm : t.type = TokenType.EOF_TOKEN ∨ t.type ∉ types) :
    match_ tokens p types = Res.ok false p := by
  induction types with
  | nil => rfl
  | cons type types ih =>
    have hc : check tokens p type =
        Res.ok (t.type != TokenType.EOF_TOKEN && t.type == type) p :=
      check_eq_ok.2 ⟨t, h, rfl, rfl⟩
    simp only [match_, hc, Res.bind]
    have hf : (t.type != TokenType.EOF_TOKEN && t.type == type) = false := by
      rcases hm with h1 | h1
      · simp [h1]
      · simp only [List.mem_cons, not_or] at h1
        simp [h1.1]
    rw [hf]
    simp only [Bool.false_eq_true, if_false]
    apply ih
    rcases hm with h1 | h1
    · exact Or.inl h1
    · simp only [List.mem_cons, not_or] at h1
      exact Or.inr h1.2

/-- The loop of a level stops at a token that is neither a `NEWLINE` nor one of the
operators of the level. -/
theorem returns_loop_stop {tokens : List Token} {level : Level} {expr : Expr} {p : Parser}
    {t : Token} (h : tokens[p.current]? = some t) (hn : t.type ≠ TokenType.NEWLINE)
    (hm : t.type ∉ level.ops) :
    Returns (fun fuel => binaryLoop fuel level tokens expr p) expr p := by
  refine ⟨1, fun fuel hle => ?_⟩
  obtain ⟨fuel, rfl⟩ : ∃ n, fuel = n + 1 := ⟨fuel - 1, by omega⟩
  simp [binaryLoop, skipNewlines_stay h hn, match_miss h (Or.inr hm), Res.bind]

theorem ops_ne_eof {level : Level} {type : TokenType} (h : type ∈ level.ops) :
    type ≠ TokenType.EOF_TOKEN ∧ type ≠ TokenType.NEWLINE := by
  refine ⟨?_, ?_⟩ <;> (rintro rfl; cases level <;> simp [Level.ops] at h)

/-- One pass of the loop of a level over an operator and its right operand. -/
theorem returns_loop_step {tokens : List Token} {level : Level} {expr right e : Expr}
    {p q r : Parser} {o t : Token} (ho : tokens[p.current]? = some o)
    (hm : o.type ∈ level.ops) (ht : tokens[p.current + 1]? = some t)
    (hn : t.type ≠ TokenType.NEWLINE)
    (hright : Returns (fun fuel => parseAt level.next fuel tokens ⟨p.current + 1, p.cerr⟩)
      right q)
    (hrest : Returns (fun fuel => binaryLoop fuel level tokens
      (Expr.BinaryOp expr o.type right) q) e r) :
    Returns (fun fuel => binaryLoop fuel level tokens expr p) e r := by
  obtain ⟨f1, h1⟩ := hright
  obtain ⟨f2, h2⟩ := hrest
  refine ⟨max f1 f2 + 1, fun fuel hle => ?_⟩
  obtain ⟨fuel, rfl⟩ : ∃ n, fuel = n + 1 := ⟨fuel - 1, by omega⟩
  have hprev : previous tokens ⟨p.current + 1, p.cerr⟩ = Res.ok o ⟨p.current + 1, p.cerr⟩ :=
    previous_eq_ok.2 ⟨by simp, by simpa using ho, rfl⟩
  have hskip : skipNewlines tokens ⟨p.current + 1, p.cerr⟩ =
      Res.ok () ⟨p.current + 1, p.cerr⟩ := skipNewlines_stay (p := ⟨p.current + 1, p.cerr⟩) ht hn
  have hr := h1 fuel (by omega)
  have hl := h2 fuel (by omega)
  simp only [parseAt] at hr
  show binaryLoop (fuel + 1) level tokens expr p = Res.ok e r
  rw [binaryLoop]
  simp only [skipNewlines_stay ho (ops_ne_eof hm).2, match_hit ho hm (ops_ne_eof hm).1,
    Res.bind, if_true, hprev, hskip, hr, hl]

/-- A level returns what its loop makes of its first operand. -/
theorem returns_level {tokens : List Token} {level : Level} {first e : Expr}
    {p q r : Parser}
    (hfirst : Returns (fun fuel => parseAt level.next fuel tokens p) first q)
    (hloop : Returns (fun fuel => binaryLoop fuel level tokens first q) e r) :
    Returns (fun fuel => parseAt (some level) fuel tokens p) e r := by
  obtain ⟨f1, h1⟩ := hfirst
  obtain ⟨f2, h2⟩ := hloop
  refine ⟨max f1 f2 + 1, fun fuel hle => ?_⟩
  obtain ⟨fuel, rfl⟩ : ∃ n, fuel = n + 1 := ⟨fuel - 1, by omega⟩
  have hr := h1 fuel (by omega)
  have hl := h2 fuel (by omega)
  simp only [parseAt] at hr
  simp only [parseAt]
  rw [binaryLevel]
  simp only [hr, Res.bind, hl]

theorem returns_expression {tokens : List Token} {e : Expr} {p r : Parser}
    (h : Returns (fun fuel => parseAt (some Level.logicalOr) fuel tokens p) e r) :
    Returns (fun fuel => expression fuel tokens p) e r := by
  obtain ⟨f1, h1⟩ := h
  refine ⟨f1 + 1, fun fuel hle => ?_⟩
  obtain ⟨fuel, rfl⟩ : ∃ n, fuel = n + 1 := ⟨fuel - 1, by omega⟩
  show expression (fuel + 1) tokens p = Res.ok e r
  rw [expression]
  exact h1 fuel (by omega)

end Parser

namespace Parser

theorem Level.rank_le (level : Level) : level.rank ≤ 4 := by
  cases level <;> simp [Level.rank]

theorem Level.rank_injective {l1 l2 : Level} (h : l1.rank = l2.rank) : l1 = l2 := by
  cases l1 <;> cases l2 <;> simp [Level.rank] at h <;> rfl

theorem Level.next_of_rank {level : Level} {next : Option Level}
    (h : rankAt next = level.rank + 1) : level.next = next := by
  cases next with
  | none => cases level <;> simp [rankAt, Level.rank] at h; rfl
  | some l => cases level <;> cases l <;> simp [rankAt, Level.rank] at h <;> rfl

theorem Level.rankAt_next (level : Level) : rankAt level.next = level.rank + 1 := by
  cases level <;> rfl

/-- An operator belongs to one level only. -/
theorem Level.ops_disjoint {l1 l2 : Level} {type : TokenType} (h1 : type ∈ l1.ops)
    (h2 : type ∈ l2.ops) : l1 = l2 := by
  cases l1 <;> cases l2 <;> simp [Level.ops] at h1 h2 <;>
    first
      | rfl
      | (rcases h1 with rfl | rfl | rfl <;> simp at h2)

/-- An operator of a level stops every tighter level. -/
theorem stopsFrom_of_op {tokens : List Token} {i : Nat} {o : Token} {level : Level}
    (ho : tokens[i]? = some o) (hm : o.type ∈ level.ops) :
    StopsFrom tokens i (level.rank + 1) :=
  ⟨o, ho, (ops_ne_eof hm).2, fun l hl hmem => by
    have := Level.ops_disjoint hm hmem
    subst this
    omega⟩

theorem StopsFrom.mono {tokens : List Token} {i r1 r2 : Nat} (h : StopsFrom tokens i r1)
    (hle : r1 ≤ r2) : StopsFrom tokens i r2 := by
  obtain ⟨t, ht, hn, hall⟩ := h
  exact ⟨t, ht, hn, fun l hl => hall l (le_trans hle hl)⟩

theorem stopsFrom_of_ends {tokens : List Token} {i : Nat} (h : EndsExpression tokens i)
    (r : Nat) : StopsFrom tokens i r := by
  obtain ⟨t, ht, hn, hall⟩ := h
  exact ⟨t, ht, hn, fun l _ => hall l⟩

theorem returns_loop_stopsFrom {tokens : List Token} {level : Level} {expr : Expr}
    {p : Parser} {r : Nat} (h : StopsFrom tokens p.current r) (hr : r ≤ level.rank) :
    Returns (fun fuel => binaryLoop fuel level tokens expr p) expr p := by
  obtain ⟨t, ht, hn, hall⟩ := h
  exact returns_loop_stop ht hn (hall level hr)

/-- A result of a tighter parsing function is the result of a looser level when the
loops of the levels in between stop at once. -/
theorem returns_lift (n : Nat) :
    ∀ (next : Option Level) (level : Level) (tokens : List Token) (p q : Parser) (e : Expr),
      rankAt next = level.rank + 1 + n →
      Returns (fun fuel => parseAt next fuel tokens p) e q →
      StopsFrom tokens q.current level.rank →
      Returns (fun fuel => parseAt (some level) fuel tokens p) e q := by
  induction n with
  | zero =>
    intro next level tokens p q e hr h hs
    have hn : level.next = next := Level.next_of_rank (by omega)
    subst hn
    exact returns_level h (returns_loop_stopsFrom hs (le_refl _))
  | succ n ih =>
    intro next level tokens p q e hr h hs
    cases hnext : level.next with
    | none =>
      have := Level.rankAt_next level
      rw [hnext] at this
      have h5 : rankAt next ≤ 5 := by
        cases next with
        | none => simp [rankAt]
        | some l => have := Level.rank_le l; simp only [rankAt]; omega
      simp only [rankAt] at this
      omega
    | some mid =>
      have hmid := Level.rankAt_next level
      rw [hnext] at hmid
      simp only [rankAt] at hmid
      have h1 := ih next mid tokens p q e (by omega) h (hs.mono (by omega))
      have h2 : Returns (fun fuel => parseAt level.next fuel tokens p) e q := by
        rw [hnext]; exact h1
      exact returns_level h2 (returns_loop_stopsFrom hs (le_refl _))

/-- The same when the tighter function may be the looser level itself. -/
theorem returns_lift_le {inner level : Level} {tokens : List Token} {p q : Parser} {e : Expr}
    (hle : level.rank ≤ inner.rank)
    (h : Returns (fun fuel => parseAt (some inner) fuel tokens p) e q)
    (hs : StopsFrom tokens q.current level.rank) :
    Returns (fun fuel => parseAt (some level) fuel tokens p) e q := by
  rcases Nat.eq_or_lt_of_le hle with heq | hlt
  · rw [Level.rank_injective heq]; exact h
  · exact returns_lift (inner.rank - level.rank - 1) (some inner) level tokens p q e
      (by simp only [rankAt]; omega) h hs

/-- A result of `primary` is the result of the operand function of a level when no
tighter level continues over the next token. -/
theorem returns_operand {level : Level} {fuel : Nat} {tokens : List Token} {p q : Parser}
    {e : Expr} (h : primary fuel tokens p = Res.ok e q)
    (hs : StopsFrom tokens q.current (level.rank + 1)) :
    Returns (fun fuel => parseAt level.next fuel tokens p) e q := by
  cases hnext : level.next with
  | none => exact returns_primary h
  | some mid =>
    have hmid := Level.rankAt_next level
    rw [hnext] at hmid
    simp only [rankAt] at hmid
    have := Level.rank_le mid
    exact returns_lift (4 - mid.rank) none mid tokens p q e (by simp only [rankAt]; omega)
      (returns_primary h) (hs.mono (by omega))

theorem first_token_not_newline {fuel : Nat} {tokens : List Token} {p q : Parser} {e : Expr}
    (h : primary fuel tokens p = Res.ok e q) (he : e ≠ Expr.null) :
    ∃ t, tokens[p.current]? = some t ∧ t.type ≠ TokenType.NEWLINE := by
  obtain ⟨t, ht, hm⟩ := primary_first_token h he
  refine ⟨t, ht, ?_⟩
  intro hn
  rw [hn] at hm
  simp at hm

end Parser

/-- C6. Operator precedence of `Parser::expression`. Let the tokens from the position of
`p` on be a primary parsed to `e1`, an operator `o1` of level `l1`, a primary parsed to
`e2`, an operator `o2` of level `l2`, a primary parsed to `e3`, and then a token that is
neither a `NEWLINE` nor a binary operator (such as `EOF_TOKEN`). If `l2` is a strictly
higher level than `l1`, `expression` returns `BinaryOp(e1, o1, BinaryOp(e2, o2, e3))`;
if `l1` is strictly higher than `l2`, it returns `BinaryOp(BinaryOp(e1, o1, e2), o2, e3)`. -/
theorem c6_precedence (tokens : List Token) (f1 f2 f3 : Nat) (l1 l2 : Parser.Level)
    (p q1 q2 q3 : Parser) (o1 o2 : Token) (e1 e2 e3 : Expr)
    (h1 : Parser.primary f1 tokens p = Res.ok e1 q1)
    (ho1 : tokens[q1.current]? = some o1) (hl1 : o1.type ∈ l1.ops)
    (h2 : Parser.primary f2 tokens ⟨q1.current + 1, q1.cerr⟩ = Res.ok e2 q2)
    (n2 : e2 ≠ Expr.null)
    (ho2 : tokens[q2.current]? = some o2) (hl2 : o2.type ∈ l2.ops)
    (h3 : Parser.primary f3 tokens ⟨q2.current + 1, q2.cerr⟩ = Res.ok e3 q3)
    (n3 : e3 ≠ Expr.null)
    (hend : Parser.EndsExpression tokens q3.current) :
    (l1.rank < l2.rank →
      Parser.Returns (fun fuel => Parser.expression fuel tokens p)
        (Expr.BinaryOp e1 o1.type (Expr.BinaryOp e2 o2.type e3)) q3) ∧
    (l2.rank < l1.rank →
      Parser.Returns (fun fuel => Parser.expression fuel tokens p)
        (Expr.BinaryOp (Expr.BinaryOp e1 o1.type e2) o2.type e3) q3) := by
  obtain ⟨t2, ht2, hn2⟩ := Parser.first_token_not_newline h2 n2
  obtain ⟨t3, ht3, hn3⟩ := Parser.first_token_not_newline h3 n3
  have s1 := Parser.stopsFrom_of_op ho1 hl1
  have s2 := Parser.stopsFrom_of_op ho2 hl2
  have s3 := fun r => Parser.stopsFrom_of_ends hend r
  constructor
  · intro hlt
    -- the right operand of `o1` is the whole of `e2 o2 e3`
    have inner : Parser.Returns
        (fun fuel => Parser.parseAt (some l2) fuel tokens ⟨q1.current + 1, q1.cerr⟩)
        (Expr.BinaryOp e2 o2.type e3) q3 :=
      Parser.returns_level (Parser.returns_operand h2 s2)
        (Parser.returns_loop_step ho2 hl2 ht3 hn3 (Parser.returns_operand h3 (s3 _))
          (Parser.returns_loop_stopsFrom (s3 _) (le_refl _)))
    cases hnext : l1.next with
    | none =>
      have := Parser.Level.rankAt_next l1
      rw [hnext] at this
      have := Parser.Level.rank_le l2
      simp only [Parser.rankAt] at *
      omega
    | some mid =>
      have hmid := Parser.Level.rankAt_next l1
      rw [hnext] at hmid
      simp only [Parser.rankAt] at hmid
      have right : Parser.Returns
          (fun fuel => Parser.parseAt l1.next fuel tokens ⟨q1.current + 1, q1.cerr⟩)
          (Expr.BinaryOp e2 o2.type e3) q3 := by
        rw [hnext]
        exact Parser.returns_lift_le (by omega) inner (s3 _)
      have whole := Parser.returns_level (Parser.returns_operand h1 s1)
        (Parser.returns_loop_step ho1 hl1 ht2 hn2 right
          (Parser.returns_loop_stopsFrom (s3 _) (le_refl _)))
      exact Parser.returns_expression
        (Parser.returns_lift_le (by simp [Parser.Level.rank]) whole (s3 _))
  · intro hlt
    -- the left operand of `o2` is the whole of `e1 o1 e2`
    have inner : Parser.Returns (fun fuel => Parser.parseAt (some l1) fuel tokens p)
        (Expr.BinaryOp e1 o1.type e2) q2 :=
      Parser.returns_level (Parser.returns_operand h1 s1)
        (Parser.returns_loop_step ho1 hl1 ht2 hn2
          (Parser.returns_operand h2 (s2.mono (by omega)))
          (Parser.returns_loop_stopsFrom s2 (by omega)))
    cases hnext : l2.next with
    | none =>
      have := Parser.Level.rankAt_next l2
      rw [hnext] at this
      have := Parser.Level.rank_le l1
      simp only [Parser.rankAt] at *
      omega
    | some mid =>
      have hmid := Parser.Level.rankAt_next l2
      rw [hnext] at hmid
      simp only [Parser.rankAt] at hmid
      have left : Parser.Returns (fun fuel => Parser.parseAt l2.next fuel tokens p)
          (Expr.BinaryOp e1 o1.type e2) q2 := by
        rw [hnext]
        exact Parser.returns_lift_le (by omega) inner (s2.mono (by omega))
      have whole := Parser.returns_level left
        (Parser.returns_loop_step ho2 hl2 ht3 hn3 (Parser.returns_operand h3 (s3 _))
          (Parser.returns_loop_stopsFrom (s3 _) (le_refl _)))
      exact Parser.returns_expression
        (Parser.returns_lift_le (by simp [Parser.Level.rank]) whole (s3 _))

/-- C6 (instance). The tokens of `2 + 3 * 4` parse to `PLUS(2, MULTIPLY(3, 4))`, which
evaluates to `14`. -/
theorem c6_precedence_witness :
    Lexer.tokenize "2 + 3 * 4" = some Parser.twoPlusThreeTimesFour ∧
      Parser.Returns (fun fuel => Parser.expression fuel Parser.twoPlusThreeTimesFour ⟨0, []⟩)
        (Expr.BinaryOp (Expr.IntegerLiteral 2) TokenType.PLUS
          (Expr.BinaryOp (Expr.IntegerLiteral 3) TokenType.MULTIPLY (Expr.IntegerLiteral 4)))
        ⟨5, []⟩ ∧
      Interpreter.evaluate (fun _ => none)
        (Expr.BinaryOp (Expr.IntegerLiteral 2) TokenType.PLUS
          (Expr.BinaryOp (Expr.IntegerLiteral 3) TokenType.MULTIPLY (Expr.IntegerLiteral 4))) =
        Value.Integer 14 :=
  ⟨by decide,
    (c6_precedence Parser.twoPlusThreeTimesFour 1 1 1 Parser.Level.addition
      Parser.Level.multiplication ⟨0, []⟩ ⟨1, []⟩ ⟨3, []⟩ ⟨5, []⟩
      ⟨TokenType.PLUS, "", 1, 4⟩ ⟨TokenType.MULTIPLY, "", 1, 8⟩
      (Expr.IntegerLiteral 2) (Expr.IntegerLiteral 3) (Expr.IntegerLiteral 4)
      rfl rfl (by decide) rfl (by decide) rfl (by decide) rfl (by decide)
      ⟨⟨TokenType.EOF_TOKEN, "", 1, 10⟩, rfl, by decide,
        fun level => by cases level <;> decide⟩).1 (by decide),
    by decide⟩

namespace Parser

theorem OperandRun.stopsFrom {tokens : List Token} {level : Level} {q r : Parser}
    {run : List (TokenType × Expr)} (h : OperandRun tokens level q run r)
    (hend : EndsExpression tokens r.current) :
    StopsFrom tokens q.current (level.rank + 1) := by
  cases h with
  | nil => exact stopsFrom_of_ends hend _
  | cons _ _ _ o _ _ _ ho hm _ _ _ => exact stopsFrom_of_op ho hm

/-- The loop of a level turns a run of operators of the level and primaries into the
left-nested tree over the tree built so far. -/
theorem returns_loop_run {tokens : List Token} {level : Level} {q r : Parser}
    {run : List (TokenType × Expr)} (h : OperandRun tokens level q run r)
    (hend : EndsExpression tokens r.current) (acc : Expr) :
    Returns (fun fuel => binaryLoop fuel level tokens acc q) (leftNested acc run) r := by
  induction h generalizing acc with
  | nil p => exact returns_loop_stopsFrom (stopsFrom_of_ends hend 0) (Nat.zero_le _)
  | cons p q r o e rest fuel ho hm hprim hne hrest ih =>
    obtain ⟨t, ht, hn⟩ := first_token_not_newline hprim hne
    exact returns_loop_step ho hm ht hn (returns_operand hprim (hrest.stopsFrom hend))
      (ih hend (Expr.BinaryOp acc o.type e))

end Parser

/-- C7. Left associativity. Let the tokens from the position of `p` on be a primary parsed
to `e0`, then `n ≥ 0` pairs of an operator and a primary, the operators `op1 ... opn` all
of one level and the primaries parsed to `e1 ... en`, and then a token that is neither a
`NEWLINE` nor a binary operator (such as `EOF_TOKEN`). Then `expression` returns the
left-nested tree `BinaryOp(...BinaryOp(BinaryOp(e0, op1, e1), op2, e2)..., opn, en)`. -/
theorem c7_left_associative (tokens : List Token) (level : Parser.Level) (fuel : Nat)
    (p q r : Parser) (e0 : Expr) (run : List (TokenType × Expr))
    (h0 : Parser.primary fuel tokens p = Res.ok e0 q)
    (hrun : Parser.OperandRun tokens level q run r)
    (hend : Parser.EndsExpression tokens r.current) :
    Parser.Returns (fun fuel => Parser.expression fuel tokens p)
      (Parser.leftNested e0 run) r :=
  Parser.returns_expression
    (Parser.returns_lift_le (by simp [Parser.Level.rank])
      (Parser.returns_level (Parser.returns_operand h0 (hrun.stopsFrom hend))
        (Parser.returns_loop_run hrun hend e0))
      (Parser.stopsFrom_of_ends hend _))

/-- C7 (instance). The tokens of `a EQUALS b LESS_THAN c` parse to
`LESS_THAN(EQUALS(a, b), c)`. -/
theorem c7_left_associative_witness :
    Lexer.tokenize "a EQUALS b LESS_THAN c" = some Parser.equalsLessThan ∧
      Parser.Returns (fun fuel => Parser.expression fuel Parser.equalsLessThan ⟨0, []⟩)
        (Expr.BinaryOp
          (Expr.BinaryOp (Expr.Identifier "a") TokenType.EQUALS (Expr.Identifier "b"))
          TokenType.LESS_THAN (Expr.Identifier "c"))
        ⟨5, []⟩ :=
  ⟨by decide,
    c7_left_associative Parser.equalsLessThan Parser.Level.equality 1 ⟨0, []⟩ ⟨1, []⟩ ⟨5, []⟩
      (Expr.Identifier "a")
      [(TokenType.EQUALS, Expr.Identifier "b"), (TokenType.LESS_THAN, Expr.Identifier "c")]
      rfl
      (Parser.OperandRun.cons ⟨1, []⟩ ⟨3, []⟩ ⟨5, []⟩ ⟨TokenType.EQUALS, "EQUALS", 1, 9⟩
        (Expr.Identifier "b") _ 1 rfl (by decide) rfl (by decide)
        (Parser.OperandRun.cons ⟨3, []⟩ ⟨5, []⟩ ⟨5, []⟩
          ⟨TokenType.LESS_THAN, "LESS_THAN", 1, 21⟩
          (Expr.Identifier "c") _ 1 rfl (by decide) rfl (by decide)
          (Parser.OperandRun.nil ⟨5, []⟩)))
      ⟨⟨TokenType.EOF_TOKEN, "", 1, 23⟩, rfl, by decide,
        fun level => by cases level <;> decide⟩⟩

/-! ## Evaluator: the operator `PLUS` -/

/-- C8. The operator table of `PLUS`: if either operand is a String the result is the
String `valueToString(a) ++ valueToString(b)`; otherwise, if both are Integers, it is
the Integer `a + b` reduced to 32 bits (the sum itself when that fits an `int`); in
every other case it is Integer `0`. -/
theorem c8_plus_table (a b : Value) :
    Interpreter.binaryOperation a TokenType.PLUS b =
        (if a.isString || b.isString then
          Value.String (Interpreter.valueToString a ++ Interpreter.valueToString b)
        else
          match a, b with
          | Value.Integer x, Value.Integer y => Value.Integer (wrap32 (x + y))
          | _, _ => Value.Integer 0) ∧
      ∀ x y : Int, a = Value.Integer x → b = Value.Integer y →
        INT_MIN ≤ x + y → x + y ≤ INT_MAX →
        Interpreter.binaryOperation a TokenType.PLUS b = Value.Integer (x + y) := by
  constructor
  · cases a <;> cases b <;> simp [Interpreter.binaryOperation, Value.isString]
  · rintro x y rfl rfl hlo hhi
    simp only [Interpreter.binaryOperation, Value.Integer.injEq, wrap32]
    simp only [INT_MIN, INT_MAX] at hlo hhi
    omega

/-- C8 (instance). Here `2 PLUS 3` is the Integer `5`. -/
theorem c8_plus_table_witness :
    Interpreter.binaryOperation (Value.Integer 2) TokenType.PLUS (Value.Integer 3) =
      Value.Integer (2 + 3) :=
  (c8_plus_table (Value.Integer 2) (Value.Integer 3)).2 2 3 rfl rfl (by decide) (by decide)

/-- C9 (counterexample). The operands Integer `1` and the empty StringArray have
different variants, yet `PLUS` yields Integer `0` and not the String `1[]`. -/
theorem c9_counterexample :
    Interpreter.binaryOperation (Value.Integer 1) TokenType.PLUS (Value.StringArray []) =
        Value.Integer 0 ∧
      Interpreter.valueToString (Value.Integer 1) ++
          Interpreter.valueToString (Value.StringArray []) = "1[]" ∧
      Interpreter.binaryOperation (Value.Integer 1) TokenType.PLUS (Value.StringArray []) ≠
        Value.String (Interpreter.valueToString (Value.Integer 1) ++
          Interpreter.valueToString (Value.StringArray [])) := by
  decide

/-- C9 (amended). For every pair of values of which at least one is a String, `PLUS`
yields the String `valueToString(a) ++ valueToString(b)`; an Integer and a StringArray,
in either order, yield Integer `0`. -/
theorem c9_plus_string (a b : Value) (h : a.isString = true ∨ b.isString = true) :
    Interpreter.binaryOperation a TokenType.PLUS b =
        Value.String (Interpreter.valueToString a ++ Interpreter.valueToString b) ∧
      ∀ (x : Int) (arr : List String),
        Interpreter.binaryOperation (Value.Integer x) TokenType.PLUS (Value.StringArray arr) =
            Value.Integer 0 ∧
          Interpreter.binaryOperation (Value.StringArray arr) TokenType.PLUS (Value.Integer x) =
            Value.Integer 0 := by
  constructor
  · cases a <;> cases b <;> simp_all [Interpreter.binaryOperation, Value.isString]
  · intro x arr
    simp [Interpreter.binaryOperation]

/-- C9 (instance). Here `"a" PLUS 1` is the String `a1`. -/
theorem c9_plus_string_witness :
    Interpreter.binaryOperation (Value.String "a") TokenType.PLUS (Value.Integer 1) =
      Value.String "a1" :=
  (c9_plus_string (Value.String "a") (Value.Integer 1) (Or.inl rfl)).1

/-- C10. With 32-bit wrap-around arithmetic `PLUS` on Integers is commutative and
associative. -/
theorem c10_plus_comm_assoc (a b c : Int) :
    Interpreter.binaryOperation (Value.Integer a) TokenType.PLUS (Value.Integer b) =
        Interpreter.binaryOperation (Value.Integer b) TokenType.PLUS (Value.Integer a) ∧
      Interpreter.binaryOperation
          (Interpreter.binaryOperation (Value.Integer a) TokenType.PLUS (Value.Integer b))
          TokenType.PLUS (Value.Integer c) =
        Interpreter.binaryOperation (Value.Integer a) TokenType.PLUS
          (Interpreter.binaryOperation (Value.Integer b) TokenType.PLUS (Value.Integer c)) := by
  simp only [Interpreter.binaryOperation, Value.Integer.injEq, wrap32]
  constructor <;> omega

/-! ## Evaluator: which statements change the variant of a binding -/

theorem Exec.bind_ok_iff {r : Exec} {k : Interpreter → Exec} {s : Interpreter} :
    r.bind k = Exec.ok s ↔ ∃ s1, r = Exec.ok s1 ∧ k s1 = Exec.ok s := by
  cases r <;> simp [Exec.bind]

namespace Interpreter

theorem assign_other {s : Interpreter} {name x : String} {v : Value} (h : name ≠ x) :
    (s.assign name v).vars x = s.vars x := by
  simp [assign, Function.update, Ne.symm h]

theorem assign_same {s : Interpreter} {name : String} {v : Value} :
    (s.assign name v).vars name = some v := by
  simp [assign]

end Interpreter

namespace Interpreter

/-- Whenever an indexed `Assignment` returns, every StringArray bound before it is bound
to a StringArray of the same length after it. -/
theorem execute_indexed_keeps {fuel : Nat} {stmt : Stmt} {s s1 : Interpreter}
    (hstmt : stmt.isIndexedAssignment = true) (h : execute fuel stmt s = Exec.ok s1) :
    ∀ y arr, s.vars y = some (Value.StringArray arr) →
      ∃ arr1, s1.vars y = some (Value.StringArray arr1) ∧ arr1.length = arr.length := by
  cases fuel with
  | zero => simp [execute] at h
  | succ fuel =>
    cases stmt with
    | Assignment varName value index =>
      have hidx : index ≠ Expr.null := by
        simpa [Stmt.isIndexedAssignment] using hstmt
      simp only [execute, ne_eq, hidx, not_false_eq_true, if_true] at h
      split at h
      · rename_i arr0 harr
        split at h
        · split_ifs at h
          · cases h
            intro y arr hy
            by_cases hx : varName = y
            · subst hx
              have h0 : s.vars varName = some (Value.StringArray arr0) := harr
              rw [h0] at hy
              cases hy
              exact ⟨_, assign_same, by simp⟩
            · exact ⟨arr, by rw [assign_other hx]; exact hy, rfl⟩
          · cases h
            exact fun y arr hy => ⟨arr, hy, rfl⟩
        · cases h
          exact fun y arr hy => ⟨arr, hy, rfl⟩
      · cases h
        exact fun y arr hy => ⟨arr, hy, rfl⟩
    | PrintStatement _ => simp [Stmt.isIndexedAssignment] at hstmt
    | VarDeclaration _ _ _ => simp [Stmt.isIndexedAssignment] at hstmt
    | ForLoop _ _ _ => simp [Stmt.isIndexedAssignment] at hstmt
    | WhileLoop _ _ => simp [Stmt.isIndexedAssignment] at hstmt
    | IfStatement _ _ _ _ => simp [Stmt.isIndexedAssignment] at hstmt
    | IncrementStatement _ _ => simp [Stmt.isIndexedAssignment] at hstmt
    | ReadStatement _ => simp [Stmt.isIndexedAssignment] at hstmt

/-- An indexed `Assignment` whose evaluations of the value and of the index return,
returns. -/
theorem execute_indexed {fuel : Nat} {stmt : Stmt} (s : Interpreter)
    (hstmt : stmt.isIndexedAssignment = true) (hfuel : 1 ≤ fuel) :
    assignmentTraps s stmt = false → ∃ s1, execute fuel stmt s = Exec.ok s1 := by
  intro _
  obtain ⟨fuel, rfl⟩ : ∃ n, fuel = n + 1 := ⟨fuel - 1, by omega⟩
  cases stmt with
  | Assignment varName value index =>
    have hidx : index ≠ Expr.null := by
      simpa [Stmt.isIndexedAssignment] using hstmt
    simp only [execute, ne_eq, hidx, not_false_eq_true, if_true]
    split
    · split
      · split_ifs
        · exact ⟨_, rfl⟩
        · exact ⟨_, rfl⟩
      · exact ⟨_, rfl⟩
    · exact ⟨_, rfl⟩
  | PrintStatement _ => simp [Stmt.isIndexedAssignment] at hstmt
  | VarDeclaration _ _ _ => simp [Stmt.isIndexedAssignment] at hstmt
  | ForLoop _ _ _ => simp [Stmt.isIndexedAssignment] at hstmt
  | WhileLoop _ _ => simp [Stmt.isIndexedAssignment] at hstmt
  | IfStatement _ _ _ _ => simp [Stmt.isIndexedAssignment] at hstmt
  | IncrementStatement _ _ => simp [Stmt.isIndexedAssignment] at hstmt
  | ReadStatement _ => simp [Stmt.isIndexedAssignment] at hstmt

/-- Whenever a sequence of indexed assignments returns, every StringArray bound before
it is bound to a StringArray of the same length after it. -/
theorem executeAll_indexed_keeps (assigns : List Stmt) :
    ∀ (fuel : Nat) (s s1 : Interpreter),
      (∀ stmt ∈ assigns, stmt.isIndexedAssignment = true) →
      executeAll fuel assigns s = Exec.ok s1 →
      ∀ y arr, s.vars y = some (Value.StringArray arr) →
        ∃ arr1, s1.vars y = some (Value.StringArray arr1) ∧ arr1.length = arr.length := by
  induction assigns with
  | nil =>
    intro fuel s s1 _ h
    cases fuel with
    | zero => simp [executeAll] at h
    | succ fuel =>
      simp only [executeAll, Exec.ok.injEq] at h
      subst h
      exact fun y arr hy => ⟨arr, hy, rfl⟩
  | cons stmt rest ih =>
    intro fuel s s1 hall h
    cases fuel with
    | zero => simp [executeAll] at h
    | succ fuel =>
      simp only [executeAll, Exec.bind_ok_iff] at h
      obtain ⟨s2, h1, h2⟩ := h
      intro y arr hy
      obtain ⟨arr1, hy1, hl1⟩ :=
        execute_indexed_keeps (hall stmt (List.mem_cons_self _ _)) h1 y arr hy
      obtain ⟨arr2, hy2, hl2⟩ :=
        ih fuel s2 s1 (fun t ht => hall t (List.mem_cons_of_mem _ ht)) h2 y arr1 hy1
      exact ⟨arr2, hy2, by rw [hl2, hl1]⟩

/-- A sequence of indexed assignments none of whose evaluations is killed, in any state,
returns. -/
theorem executeAll_indexed (assigns : List Stmt) :
    ∀ (fuel : Nat) (s : Interpreter),
      (∀ stmt ∈ assigns, stmt.isIndexedAssignment = true) →
      (∀ stmt ∈ assigns, ∀ s2 : Interpreter, assignmentTraps s2 stmt = false) →
      assigns.length + 1 ≤ fuel →
      ∃ s1, executeAll fuel assigns s = Exec.ok s1 := by
  induction assigns with
  | nil =>
    intro fuel s _ _ hfuel
    obtain ⟨fuel, rfl⟩ : ∃ n, fuel = n + 1 := ⟨fuel - 1, by omega⟩
    exact ⟨s, rfl⟩
  | cons stmt rest ih =>
    intro fuel s hall hsafe hfuel
    simp only [List.length_cons] at hfuel
    obtain ⟨fuel, rfl⟩ : ∃ n, fuel = n + 1 := ⟨fuel - 1, by omega⟩
    obtain ⟨s1, h1⟩ := @execute_indexed fuel stmt s
      (hall stmt (List.mem_cons_self _ _)) (by omega) (hsafe stmt (List.mem_cons_self _ _) s)
    obtain ⟨s2, h2⟩ := ih fuel s1 (fun t ht => hall t (List.mem_cons_of_mem _ ht))
      (fun t ht => hsafe t (List.mem_cons_of_mem _ ht)) (by omega)
    exact ⟨s2, by simp [executeAll, h1, Exec.bind, h2]⟩

end Interpreter

/-- C5. Array length is invariant under indexed assignment. For every indexed
`Assignment` (any variable name, index expression and value expression) and every
environment: the assignment returns when its evaluations of the value and of the index
return (the one evaluation that does not is a `DIVIDE` of `INT_MIN` by `-1`, which kills
the process), and whenever it returns, every bound StringArray is bound to a StringArray
of the same length. Hence whenever the run of `DECLARE_VARIABLE a AS ARRAY_OF_STRING
SIZE n` followed by any sequence of indexed assignments returns, `a` is bound to a
StringArray of length `n`; and the run returns when no evaluation of the assignments is
killed. -/
theorem c5_array_length (a : String) (n : Nat) (assigns : List Stmt) (s : Interpreter)
    (fuel : Nat) (hassign : ∀ stmt ∈ assigns, stmt.isIndexedAssignment = true)
    (hfuel : assigns.length + 2 ≤ fuel) :
    (∀ stmt ∈ assigns, ∀ s2 : Interpreter,
      (Interpreter.assignmentTraps s2 stmt = false →
        ∃ s3, Interpreter.execute fuel stmt s2 = Exec.ok s3) ∧
      ∀ s3, Interpreter.execute fuel stmt s2 = Exec.ok s3 →
        ∀ y arr, s2.vars y = some (Value.StringArray arr) →
          ∃ arr1, s3.vars y = some (Value.StringArray arr1) ∧ arr1.length = arr.length) ∧
    (∀ s1,
      Interpreter.executeAll fuel (Stmt.VarDeclaration a "ARRAY_OF_STRING" n :: assigns) s =
        Exec.ok s1 →
      ∃ arr, s1.vars a = some (Value.StringArray arr) ∧ arr.length = n) ∧
    ((∀ stmt ∈ assigns, ∀ s2 : Interpreter, Interpreter.assignmentTraps s2 stmt = false) →
      ∃ s1,
        Interpreter.executeAll fuel (Stmt.VarDeclaration a "ARRAY_OF_STRING" n :: assigns) s =
          Exec.ok s1) := by
  obtain ⟨fuel, rfl⟩ : ∃ k, fuel = k + 2 := ⟨fuel - 2, by omega⟩
  have hne1 : ¬ ("ARRAY_OF_STRING" = "INTEGER") := by decide
  have hne2 : ¬ ("ARRAY_OF_STRING" = "STRING") := by decide
  have hdecl : Interpreter.execute (fuel + 1) (Stmt.VarDeclaration a "ARRAY_OF_STRING" n) s =
      Exec.ok (s.assign a (Value.StringArray (List.replicate n " "))) := by
    simp [Interpreter.execute, hne1, hne2]
  refine ⟨?_, ?_, ?_⟩
  · intro stmt hm s2
    exact ⟨Interpreter.execute_indexed s2 (hassign stmt hm) (by omega),
      fun s3 h => Interpreter.execute_indexed_keeps (hassign stmt hm) h⟩
  · intro s1 h
    simp only [Interpreter.executeAll, hdecl, Exec.bind] at h
    obtain ⟨arr, harr, hlen⟩ := Interpreter.executeAll_indexed_keeps assigns _ _ _ hassign h
      a _ Interpreter.assign_same
    exact ⟨arr, harr, by simpa using hlen⟩
  · intro hsafe
    obtain ⟨s1, h1⟩ := Interpreter.executeAll_indexed assigns (fuel + 1)
      (s.assign a (Value.StringArray (List.replicate n " "))) hassign hsafe (by omega)
    exact ⟨s1, by simp only [Interpreter.executeAll, hdecl, Exec.bind, h1]⟩

/-- C5 (instance). After `names` is declared with `SIZE 2` and `names[0]` and `names[5]` are
assigned, `names` is bound to a StringArray of length 2. The evaluation of
`(0 - 2147483647 - 1) / (0 - 1)` is killed, so an assignment of it does not return. -/
theorem c5_array_length_witness :
    (∃ s1,
      Interpreter.executeAll 4
          [Stmt.VarDeclaration "names" "ARRAY_OF_STRING" (2 : Nat),
            Stmt.Assignment "names" (Expr.StringLiteral "Alice") (Expr.IntegerLiteral 0),
            Stmt.Assignment "names" (Expr.StringLiteral "Bob") (Expr.IntegerLiteral 5)]
          (Interpreter.init []) = Exec.ok s1 ∧
        ∃ arr, s1.vars "names" = some (Value.StringArray arr) ∧ arr.length = 2) ∧
    Interpreter.assignmentTraps (Interpreter.init [])
      (Stmt.Assignment "names"
        (Expr.BinaryOp
          (Expr.BinaryOp
            (Expr.BinaryOp (Expr.IntegerLiteral 0) TokenType.MINUS
              (Expr.IntegerLiteral 2147483647))
            TokenType.MINUS (Expr.IntegerLiteral 1))
          TokenType.DIVIDE
          (Expr.BinaryOp (Expr.IntegerLiteral 0) TokenType.MINUS (Expr.IntegerLiteral 1)))
        (Expr.IntegerLiteral 0)) = true := by
  have h := c5_array_length "names" 2
    [Stmt.Assignment "names" (Expr.StringLiteral "Alice") (Expr.IntegerLiteral 0),
      Stmt.Assignment "names" (Expr.StringLiteral "Bob") (Expr.IntegerLiteral 5)]
    (Interpreter.init []) 4 (by decide) (by decide)
  refine ⟨?_, by decide⟩
  obtain ⟨s1, h1⟩ := h.2.2 (fun stmt hm s2 => by
    simp only [List.mem_cons, List.mem_singleton, List.not_mem_nil, or_false] at hm
    rcases hm with rfl | rfl
    · simp only [Interpreter.assignmentTraps, Interpreter.traps, Bool.false_or]
      cases s2.vars "names" with
      | none => rfl
      | some v => cases v <;> rfl
    · simp only [Interpreter.assignmentTraps, Interpreter.traps, Bool.false_or]
      cases s2.vars "names" with
      | none => rfl
      | some v => cases v <;> rfl)
  exact ⟨s1, h1, h.2.1 s1 h1⟩

/-! ## Evaluator: the other operators -/

namespace Interpreter

/-- Truncating division of 32-bit integers stays in the 32-bit range except for
`INT_MIN / -1`. -/
theorem tdiv_in_range {a b : Int} (ha : INT_MIN ≤ a ∧ a ≤ INT_MAX)
    (hne : ¬ (a = INT_MIN ∧ b = -1)) :
    INT_MIN ≤ Int.tdiv a b ∧ Int.tdiv a b ≤ INT_MAX := by
  simp only [INT_MIN, INT_MAX] at *
  have hq : (Int.tdiv a b).natAbs = a.natAbs / b.natAbs := Int.natAbs_tdiv a b
  by_cases h1 : b.natAbs = 1
  · have hb : b = 1 ∨ b = -1 := by omega
    rcases hb with rfl | rfl
    · rw [Int.tdiv_one]; omega
    · have : Int.tdiv a (-1) = -a := by rw [Int.tdiv_neg, Int.tdiv_one]
      rw [this]; omega
  · by_cases h0 : b.natAbs = 0
    · have : b = 0 := by omega
      subst this
      simp
    · have h2 : 2 ≤ b.natAbs := by omega
      have hle : a.natAbs / b.natAbs ≤ a.natAbs / 2 := Nat.div_le_div_left h2 (by decide)
      have hlt : a.natAbs / 2 ≤ 1073741824 := by omega
      omega

/-- The remainder of truncating division is smaller than the divisor in absolute value
and, unless it is zero, has the sign of the dividend. -/
theorem tmod_spec (a b : Int) (hb : b ≠ 0) :
    |Int.tmod a b| < |b| ∧ (Int.tmod a b = 0 ∨ (Int.tmod a b).sign = a.sign) := by
  have key : ∀ x : Int, 0 ≤ x → 0 ≤ Int.tmod x b ∧ Int.tmod x b < |b| := by
    intro x hx
    refine ⟨Int.tmod_nonneg b hx, ?_⟩
    rcases lt_or_gt_of_ne hb with h | h
    · have := Int.tmod_lt_of_pos x (b := -b) (by omega)
      rw [Int.tmod_neg] at this
      rw [abs_of_neg h]; exact this
    · rw [abs_of_pos h]; exact Int.tmod_lt_of_pos x h
  rcases Int.le_total 0 a with ha | ha
  · obtain ⟨h1, h2⟩ := key a ha
    refine ⟨by rw [abs_of_nonneg h1]; exact h2, ?_⟩
    by_cases hr : Int.tmod a b = 0
    · exact Or.inl hr
    · right
      have hpos : 0 < Int.tmod a b := by omega
      have hapos : 0 < a := by
        rcases lt_or_eq_of_le ha with h | h
        · exact h
        · rw [← h] at hr; simp at hr
      rw [Int.sign_eq_one_of_pos hpos, Int.sign_eq_one_of_pos hapos]
  · obtain ⟨h1, h2⟩ := key (-a) (by omega)
    have hneg : Int.tmod a b = -Int.tmod (-a) b := by
      have := Int.tmod_def a b
      have := Int.tmod_def (-a) b
      rw [Int.neg_tdiv] at this
      rw [Int.tmod_def a b, this]
      rw [Int.mul_neg]
      omega
    refine ⟨by rw [hneg, abs_neg, abs_of_nonneg h1]; exact h2, ?_⟩
    by_cases hr : Int.tmod a b = 0
    · exact Or.inl hr
    · right
      have hlt : Int.tmod a b < 0 := by omega
      have halt : a < 0 := by
        rcases lt_or_eq_of_le ha with h | h
        · exact h
        · rw [h] at hr; simp at hr
      rw [Int.sign_eq_neg_one_of_neg hlt, Int.sign_eq_neg_one_of_neg halt]

end Interpreter

/-- C11. `DIVIDE` is truncating and guarded. For a 32-bit Integer `a` and an Integer
`b ≠ 0`, other than `INT_MIN` and `-1`, the result is the Integer `q` with `a = q * b + r` for a
remainder `r` with `|r| < |b|` that is zero or has the sign of `a` (the quotient rounded
toward zero). When `b = 0`, or when an operand is not an Integer, the result is
Integer `0`. -/
theorem c11_divide (a b : Int) (ha : INT_MIN ≤ a ∧ a ≤ INT_MAX) :
    (b ≠ 0 → ¬ (a = INT_MIN ∧ b = -1) →
      ∃ q r : Int,
        Interpreter.binaryOperation (Value.Integer a) TokenType.DIVIDE (Value.Integer b) =
          Value.Integer q ∧
        a = q * b + r ∧ |r| < |b| ∧ (r = 0 ∨ r.sign = a.sign)) ∧
    Interpreter.binaryOperation (Value.Integer a) TokenType.DIVIDE (Value.Integer 0) =
      Value.Integer 0 ∧
    ∀ left right : Value, ¬ (left.isInteger = true ∧ right.isInteger = true) →
      Interpreter.binaryOperation left TokenType.DIVIDE right = Value.Integer 0 := by
  refine ⟨?_, by simp [Interpreter.binaryOperation], ?_⟩
  · intro hb0 hne
    obtain ⟨h1, h2⟩ := Interpreter.tdiv_in_range (b := b) ha hne
    obtain ⟨h3, h4⟩ := Interpreter.tmod_spec a b hb0
    refine ⟨Int.tdiv a b, Int.tmod a b, ?_, ?_, h3, h4⟩
    · simp only [Interpreter.binaryOperation, ne_eq, hb0, not_false_eq_true, if_true,
        Value.Integer.injEq, wrap32]
      simp only [INT_MIN, INT_MAX] at h1 h2
      omega
    · have := Int.tdiv_add_tmod' a b
      omega
  · intro left right h
    cases left <;> cases right <;> simp_all [Interpreter.binaryOperation, Value.isInteger]

/-- C11 (instance). Here `-7 DIVIDE 2` is the Integer `-3`, with remainder `-1`. -/
theorem c11_divide_witness :
    Interpreter.binaryOperation (Value.Integer (-7)) TokenType.DIVIDE (Value.Integer 2) =
        Value.Integer (-3) ∧
      ∃ q r : Int,
        Interpreter.binaryOperation (Value.Integer (-7)) TokenType.DIVIDE (Value.Integer 2) =
          Value.Integer q ∧
        (-7 : Int) = q * 2 + r ∧ |r| < |(2 : Int)| ∧ (r = 0 ∨ r.sign = (-7 : Int).sign) :=
  ⟨by decide,
    (c11_divide (-7) 2 (by decide)).1 (by decide) (by decide)⟩

/-- The 32-bit reduction is the integer of the `int` range that differs from its argument
by a multiple of `2^32`; it leaves an integer of the `int` range as it is. -/
theorem wrap32_spec (x : Int) :
    INT_MIN ≤ wrap32 x ∧ wrap32 x ≤ INT_MAX ∧ (∃ k : Int, wrap32 x = x + k * 4294967296) ∧
      (INT_MIN ≤ x → x ≤ INT_MAX → wrap32 x = x) := by
  simp only [INT_MIN, INT_MAX, wrap32]
  refine ⟨by omega, by omega, ⟨-((x + 2147483648) / 4294967296), by omega⟩, ?_⟩
  intro h1 h2
  omega

/-- C12. `MINUS`, `MULTIPLY` and `LESS_THAN` are Integer-only. On two Integers they give
`a - b` and `a * b` reduced to 32 bits, and `1` if `a < b` else `0`; when an operand is a
String or a StringArray each of them gives Integer `0`, so `"a" LESS_THAN "b"` is `0`. -/
theorem c12_integer_only (left right : Value) :
    (∀ a b : Int, left = Value.Integer a → right = Value.Integer b →
      Interpreter.binaryOperation left TokenType.MINUS right = Value.Integer (wrap32 (a - b)) ∧
      Interpreter.binaryOperation left TokenType.MULTIPLY right =
        Value.Integer (wrap32 (a * b)) ∧
      Interpreter.binaryOperation left TokenType.LESS_THAN right =
        Value.Integer (if a < b then 1 else 0)) ∧
    (¬ (left.isInteger = true ∧ right.isInteger = true) →
      Interpreter.binaryOperation left TokenType.MINUS right = Value.Integer 0 ∧
      Interpreter.binaryOperation left TokenType.MULTIPLY right = Value.Integer 0 ∧
      Interpreter.binaryOperation left TokenType.LESS_THAN right = Value.Integer 0) ∧
    Interpreter.binaryOperation (Value.String "a") TokenType.LESS_THAN (Value.String "b") =
      Value.Integer 0 := by
  refine ⟨?_, ?_, rfl⟩
  · rintro a b rfl rfl
    exact ⟨rfl, rfl, rfl⟩
  · intro h
    cases left <;> cases right <;> simp_all [Interpreter.binaryOperation, Value.isInteger]

/-- C12 (instance). Here `7 MINUS 9` is `-2`, `6 MULTIPLY 7` is `42`, `2147483647 MULTIPLY 2`
wraps to `-2`, and `3 LESS_THAN 5` is `1`. -/
theorem c12_integer_only_witness :
    Interpreter.binaryOperation (Value.Integer 7) TokenType.MINUS (Value.Integer 9) =
        Value.Integer (-2) ∧
      Interpreter.binaryOperation (Value.Integer 6) TokenType.MULTIPLY (Value.Integer 7) =
        Value.Integer 42 ∧
      Interpreter.binaryOperation (Value.Integer 2147483647) TokenType.MULTIPLY
        (Value.Integer 2) = Value.Integer (-2) ∧
      Interpreter.binaryOperation (Value.Integer 3) TokenType.LESS_THAN (Value.Integer 5) =
        Value.Integer 1 :=
  ⟨((c12_integer_only (Value.Integer 7) (Value.Integer 9)).1 7 9 rfl rfl).1,
    ((c12_integer_only (Value.Integer 6) (Value.Integer 7)).1 6 7 rfl rfl).2.1,
    ((c12_integer_only (Value.Integer 2147483647) (Value.Integer 2)).1 2147483647 2 rfl
      rfl).2.1,
    ((c12_integer_only (Value.Integer 3) (Value.Integer 5)).1 3 5 rfl rfl).2.2⟩

/-- C13. `EQUALS` compares stringifications: `a EQUALS b` is Integer `1` if
`valueToString(a) = valueToString(b)` and Integer `0` otherwise. Hence it is reflexive and
symmetric, it does not tell variants apart (Integer `5` equals String `"5"`), and
`a NOT_EQUALS b` is `1 - (a EQUALS b)`. -/
theorem c13_equals (a b : Value) :
    Interpreter.binaryOperation a TokenType.EQUALS b =
        Value.Integer
          (if Interpreter.valueToString a = Interpreter.valueToString b then 1 else 0) ∧
      Interpreter.binaryOperation a TokenType.EQUALS a = Value.Integer 1 ∧
      Interpreter.binaryOperation a TokenType.EQUALS b =
        Interpreter.binaryOperation b TokenType.EQUALS a ∧
      Interpreter.binaryOperation (Value.Integer 5) TokenType.EQUALS (Value.String "5") =
        Value.Integer 1 ∧
      ∃ e : Int, Interpreter.binaryOperation a TokenType.EQUALS b = Value.Integer e ∧
        Interpreter.binaryOperation a TokenType.NOT_EQUALS b = Value.Integer (1 - e) := by
  refine ⟨rfl, by simp [Interpreter.binaryOperation], ?_, by decide, ?_⟩
  · simp only [Interpreter.binaryOperation, Value.Integer.injEq]
    by_cases h : Interpreter.valueToString a = Interpreter.valueToString b
    · simp [h]
    · simp [h, Ne.symm h]
  · by_cases h : Interpreter.valueToString a = Interpreter.valueToString b
    · exact ⟨1, by simp [Interpreter.binaryOperation, h], by simp [Interpreter.binaryOperation, h]⟩
    · exact ⟨0, by simp [Interpreter.binaryOperation, h], by simp [Interpreter.binaryOperation, h]⟩

/-- C14. Truthiness and the logical operators. `isTruthy(v)` holds exactly when `v` is a
non-zero Integer or a non-empty String, never for a StringArray. `a AND b` is Integer `1`
if both operands are truthy and `a OR b` is Integer `1` if at least one is; each is
Integer `0` otherwise. -/
theorem c14_truthy (a b : Value) :
    (Interpreter.isTruthy a = true ↔
      (∃ i : Int, i ≠ 0 ∧ a = Value.Integer i) ∨ (∃ s : String, s ≠ "" ∧ a = Value.String s)) ∧
    (∀ arr : List String, Interpreter.isTruthy (Value.StringArray arr) = false) ∧
    Interpreter.binaryOperation a TokenType.AND b =
      Value.Integer
        (if Interpreter.isTruthy a = true ∧ Interpreter.isTruthy b = true then 1 else 0) ∧
    Interpreter.binaryOperation a TokenType.OR b =
      Value.Integer
        (if Interpreter.isTruthy a = true ∨ Interpreter.isTruthy b = true then 1 else 0) := by
  refine ⟨?_, fun _ => rfl, ?_, ?_⟩
  · cases a with
    | Integer i => simp [Interpreter.isTruthy]
    | String s =>
      have h := String.isEmpty_iff s
      cases he : s.isEmpty <;> simp_all [Interpreter.isTruthy]
    | StringArray arr => simp [Interpreter.isTruthy]
  · simp [Interpreter.binaryOperation]
  · simp [Interpreter.binaryOperation]

/-! ## Evaluator: stringification -/

namespace Interpreter

theorem toDigitsCore_eq (fuel : Nat) : ∀ (n : Nat) (ds : List Char), n < fuel →
    Nat.toDigitsCore 10 fuel n ds =
      (if n = 0 then ['0'] else (Nat.digits 10 n).reverse.map Nat.digitChar) ++ ds := by
  induction fuel with
  | zero => intro n ds h; omega
  | succ fuel ih =>
    intro n ds h
    simp only [Nat.toDigitsCore]
    by_cases h0 : n / 10 = 0
    · rw [if_pos h0]
      have hlt : n < 10 := by omega
      by_cases hn : n = 0
      · subst hn; rfl
      · rw [if_neg hn, Nat.digits_def' (by decide) (by omega), h0]
        simp
    · rw [if_neg h0]
      have hn : n ≠ 0 := by omega
      have hd : Nat.digits 10 n = (n % 10) :: Nat.digits 10 (n / 10) :=
        Nat.digits_def' (by decide) (by omega)
      rw [ih (n / 10) _ (by omega), if_neg h0, if_neg hn, hd]
      simp

/-- The string that `std::to_string` gives for a natural number is its decimal
representation. -/
theorem toString_nat_eq (n : Nat) : toString n = natDecimal n := by
  show Nat.repr n = natDecimal n
  simp only [Nat.repr, Nat.toDigits, toDigitsCore_eq (n + 1) n [] (Nat.lt_succ_self n),
    natDecimal, List.append_nil]
  split_ifs <;> rfl

theorem toString_int_eq (i : Int) : toString i = decimal i := by
  cases i with
  | ofNat m =>
    show toString m = decimal (Int.ofNat m)
    have h : ¬ ((Int.ofNat m) < 0) := by simp
    have ha : (Int.ofNat m).natAbs = m := rfl
    simp only [decimal, if_neg h, ha, toString_nat_eq]
  | negSucc m =>
    show "-" ++ toString (m + 1) = decimal (Int.negSucc m)
    have h : Int.negSucc m < 0 := Int.negSucc_lt_zero m
    simp only [decimal, if_pos h, toString_nat_eq]
    rfl

theorem intercalate_go_append (p acc s : String) (xs : List String) :
    String.intercalate.go (p ++ acc) s xs = p ++ String.intercalate.go acc s xs := by
  induction xs generalizing acc with
  | nil => rfl
  | cons x xs ih =>
    simp only [String.intercalate.go]
    rw [← ih]
    simp only [String.append_assoc]

theorem valueToStringLoop_eq (xs : List String) : ∀ (i : Nat) (ss : String), 0 < i →
    valueToStringLoop xs i ss = String.intercalate.go ss ", " xs := by
  induction xs with
  | nil => intro i ss _; rfl
  | cons x xs ih =>
    intro i ss hi
    simp only [valueToStringLoop, if_pos hi, String.intercalate.go]
    exact ih (i + 1) _ (Nat.succ_pos i)

end Interpreter

/-- C15. Stringification. `valueToString` of an Integer is its decimal representation,
with a leading `-` for a negative number; of a String it is the string itself; of a
StringArray it is `[`, the elements joined by `", "`, and `]`, so the empty array gives
`[]` and a one-element array gives `[e0]`. -/
theorem c15_valueToString (i : Int) (s : String) (arr : List String) (e0 : String) :
    Interpreter.valueToString (Value.Integer i) = decimal i ∧
      Interpreter.valueToString (Value.String s) = s ∧
      Interpreter.valueToString (Value.StringArray arr) = "[" ++ ", ".intercalate arr ++ "]" ∧
      Interpreter.valueToString (Value.StringArray []) = "[]" ∧
      Interpreter.valueToString (Value.StringArray [e0]) = "[" ++ e0 ++ "]" ∧
      Interpreter.valueToString (Value.Integer (-42)) = "-42" ∧
      Interpreter.valueToString (Value.StringArray ["Alice", "Bob"]) = "[Alice, Bob]" := by
  refine ⟨Interpreter.toString_int_eq i, rfl, ?_, rfl, rfl, by decide, by decide⟩
  cases arr with
  | nil => rfl
  | cons x xs =>
    simp only [Interpreter.valueToString, Interpreter.valueToStringLoop, String.intercalate,
      Nat.lt_irrefl, if_false]
    rw [Interpreter.valueToStringLoop_eq xs 1 _ Nat.one_pos,
      Interpreter.intercalate_go_append]

/-! ## Evaluator: lookups, declarations and updates -/

/-- C16. Identifier evaluation. `evaluate(Identifier x)` returns the value bound to `x`
when `x` is bound and Integer `0` when it is not, in which case it reports
`Undefined variable: x`; in neither case does the environment change, so an undefined
variable is not created. -/
theorem c16_identifier (s : Interpreter) (x : String) (fuel : Nat) :
    Interpreter.evaluate s.vars (Expr.Identifier x) = (s.vars x).getD (Value.Integer 0) ∧
      (s.evaluated (Expr.Identifier x)).vars = s.vars ∧
      (s.evaluated (Expr.Identifier x)).cerr =
        s.cerr ++ (if (s.vars x).isSome then [] else ["Undefined variable: " ++ x]) ∧
      ∃ s1, Interpreter.execute (fuel + 1) (Stmt.PrintStatement (Expr.Identifier x)) s =
          Exec.ok s1 ∧ s1.vars = s.vars ∧
        s1.cout = s.cout ++
          [Interpreter.valueToString ((s.vars x).getD (Value.Integer 0))] := by
  have h1 : Interpreter.evaluate s.vars (Expr.Identifier x) =
      (s.vars x).getD (Value.Integer 0) := by
    simp only [Interpreter.evaluate]
    cases s.vars x <;> rfl
  refine ⟨h1, rfl, ?_, ?_⟩
  · simp only [Interpreter.evaluated, Interpreter.evaluateCerr]
    cases s.vars x <;> rfl
  · refine ⟨_, rfl, rfl, ?_⟩
    simp only [Interpreter.evaluated, h1]

/-- C17. ArrayAccess evaluation. The call `evaluate(ArrayAccess(arr, idx))` evaluates
`arr` and `idx` and returns exactly when both evaluations return (what does not return
is a `DIVIDE` of `INT_MIN` by `-1`, which kills the process). It returns the String
element `xs[i]` when `arr` evaluates to a StringArray `xs` and `idx` to an Integer `i`
with `0 ≤ i < length(xs)`; in every other case, `arr` and `idx` evaluating to any other
values, it returns the empty String. -/
theorem c17_arrayAccess (vars : Variables) (array index : Expr) :
    (∀ (xs : List String) (i : Int) (x : String),
      Interpreter.EvaluatesTo vars array (Value.StringArray xs) →
      Interpreter.EvaluatesTo vars index (Value.Integer i) →
      0 ≤ i → xs[i.toNat]? = some x →
      Interpreter.EvaluatesTo vars (Expr.ArrayAccess array index) (Value.String x)) ∧
    (∀ (a b : Value),
      Interpreter.EvaluatesTo vars array a → Interpreter.EvaluatesTo vars index b →
      (¬ ∃ (xs : List String) (i : Int),
        a = Value.StringArray xs ∧ b = Value.Integer i ∧ 0 ≤ i ∧ i < xs.length) →
      Interpreter.EvaluatesTo vars (Expr.ArrayAccess array index) (Value.String "")) ∧
    (Interpreter.traps vars (Expr.ArrayAccess array index) = true ↔
      Interpreter.traps vars array = true ∨ Interpreter.traps vars index = true) := by
  refine ⟨?_, ?_, ?_⟩
  · intro xs i x ha hi h0 hx
    have hlt : i.toNat < xs.length := by
      rcases Nat.lt_or_ge i.toNat xs.length with h | h
      · exact h
      · rw [List.getElem?_eq_none h] at hx; cases hx
    have hlt2 : i < xs.length := by omega
    refine ⟨by simp [Interpreter.traps, ha.1, hi.1], ?_⟩
    simp only [Interpreter.evaluate, ha.2, hi.2, ge_iff_le, h0, hlt2, and_self, if_true,
      List.getD_eq_getElem?_getD, hx, Option.getD_some]
  · intro a b ha hb h
    refine ⟨by simp [Interpreter.traps, ha.1, hb.1], ?_⟩
    simp only [Interpreter.evaluate]
    split
    · rename_i xs i hxs hi
      split_ifs with hc
      · exact absurd ⟨xs, i, ha.2.symm.trans hxs, hb.2.symm.trans hi, hc.1, hc.2⟩ h
      · rfl
    · rfl
  · simp [Interpreter.traps]

/-- C17 (instance). In an environment binding `a` to `["p", "q"]`, `a[1]` is `"q"` and
`a[2]` is the empty String; the evaluation of `a[(0 - 2147483647 - 1) / (0 - 1)]` does
not return. -/
theorem c17_arrayAccess_witness :
    Interpreter.EvaluatesTo
        (Function.update (fun _ => none) "a" (some (Value.StringArray ["p", "q"])))
        (Expr.ArrayAccess (Expr.Identifier "a") (Expr.IntegerLiteral 1)) (Value.String "q") ∧
      Interpreter.EvaluatesTo
        (Function.update (fun _ => none) "a" (some (Value.StringArray ["p", "q"])))
        (Expr.ArrayAccess (Expr.Identifier "a") (Expr.IntegerLiteral 2)) (Value.String "") ∧
      Interpreter.traps
        (Function.update (fun _ => none) "a" (some (Value.StringArray ["p", "q"])))
        (Expr.ArrayAccess (Expr.Identifier "a")
          (Expr.BinaryOp
            (Expr.BinaryOp
              (Expr.BinaryOp (Expr.IntegerLiteral 0) TokenType.MINUS
                (Expr.IntegerLiteral 2147483647))
              TokenType.MINUS (Expr.IntegerLiteral 1))
            TokenType.DIVIDE
            (Expr.BinaryOp (Expr.IntegerLiteral 0) TokenType.MINUS
              (Expr.IntegerLiteral 1)))) = true :=
  ⟨(c17_arrayAccess _ (Expr.Identifier "a") (Expr.IntegerLiteral 1)).1 ["p", "q"] 1 "q"
      ⟨by decide, by decide⟩ ⟨rfl, rfl⟩ (by decide) rfl,
    (c17_arrayAccess _ (Expr.Identifier "a") (Expr.IntegerLiteral 2)).2.1
      (Value.StringArray ["p", "q"]) (Value.Integer 2) ⟨by decide, by decide⟩ ⟨rfl, rfl⟩ (by
        rintro ⟨xs, i, ha, hi, _, hlt⟩
        cases ha
        cases hi
        simp at hlt),
    (c17_arrayAccess _ (Expr.Identifier "a") _).2.2.2 (Or.inr (by decide))⟩

/-- C18. VarDeclaration execution. Executing `VarDeclaration(x, T, n)` binds `x` to
Integer `0` when `T = INTEGER`, to the empty String when `T = STRING`, and to a StringArray
of exactly `n` elements, each the one-character string `" "`, when `T = ARRAY_OF_STRING`.
It replaces any earlier binding of `x` and leaves every other binding unchanged. -/
theorem c18_varDeclaration (s : Interpreter) (x : String) (n : Nat) (k : Int)
    (fuel : Nat) :
    (∃ s1, Interpreter.execute (fuel + 1) (Stmt.VarDeclaration x "INTEGER" k) s = Exec.ok s1 ∧
      s1.vars x = some (Value.Integer 0) ∧ ∀ y, y ≠ x → s1.vars y = s.vars y) ∧
    (∃ s1, Interpreter.execute (fuel + 1) (Stmt.VarDeclaration x "STRING" k) s = Exec.ok s1 ∧
      s1.vars x = some (Value.String "") ∧ ∀ y, y ≠ x → s1.vars y = s.vars y) ∧
    (∃ s1 arr,
      Interpreter.execute (fuel + 1) (Stmt.VarDeclaration x "ARRAY_OF_STRING" n) s =
        Exec.ok s1 ∧
      s1.vars x = some (Value.StringArray arr) ∧ arr.length = n ∧ (∀ e ∈ arr, e = " ") ∧
      ∀ y, y ≠ x → s1.vars y = s.vars y) := by
  have hne1 : ¬ ("STRING" = "INTEGER") := by decide
  have hne2 : ¬ ("ARRAY_OF_STRING" = "INTEGER") := by decide
  have hne3 : ¬ ("ARRAY_OF_STRING" = "STRING") := by decide
  refine ⟨⟨s.assign x (Value.Integer 0), ?_, Interpreter.assign_same, ?_⟩,
    ⟨s.assign x (Value.String ""), ?_, Interpreter.assign_same, ?_⟩,
    ⟨s.assign x (Value.StringArray (List.replicate n " ")), List.replicate n " ", ?_,
      Interpreter.assign_same, List.length_replicate _ _, ?_, ?_⟩⟩
  · simp [Interpreter.execute]
  · exact fun y hy => Interpreter.assign_other (Ne.symm hy)
  · simp [Interpreter.execute, hne1]
  · exact fun y hy => Interpreter.assign_other (Ne.symm hy)
  · simp [Interpreter.execute, hne2, hne3]
  · exact fun e he => List.eq_of_mem_replicate he
  · exact fun y hy => Interpreter.assign_other (Ne.symm hy)

namespace Interpreter

/-- Reading `a[j]` in an environment that binds `a` to the StringArray `xs`. -/
theorem evaluate_element {vars : Variables} {a : String} {xs : List String}
    (ha : vars a = some (Value.StringArray xs)) (j : Int) :
    evaluate vars (Expr.ArrayAccess (Expr.Identifier a) (Expr.IntegerLiteral j)) =
      Value.String (if 0 ≤ j ∧ j < xs.length then xs.getD j.toNat "" else "") := by
  simp only [evaluate, ha]
  split_ifs <;> rfl

end Interpreter

/-- C19. Indexed assignment writes exactly one element. Let `a` be bound to a StringArray
`xs`, let the index expression evaluate to an Integer `i` with `0 ≤ i < length(xs)` and
the value expression `e` to a value `v` (both evaluations return: neither reaches a
`DIVIDE` of `INT_MIN` by `-1`, which kills the process). Then `SET a[i] TO e` returns
with `a` bound to `xs` with element `i` replaced by `valueToString(v)`: afterwards `a[i]`
evaluates to that String, every other element `a[j]` evaluates as before, and every
other variable is unchanged. -/
theorem c19_indexed_assignment (fuel : Nat) (s : Interpreter) (a : String)
    (xs : List String) (index value : Expr) (i : Int) (v : Value)
    (hindex : index ≠ Expr.null)
    (ha : s.vars a = some (Value.StringArray xs))
    (hi : Interpreter.EvaluatesTo s.vars index (Value.Integer i))
    (hv : Interpreter.EvaluatesTo s.vars value v)
    (h0 : 0 ≤ i) (hlt : i < xs.length) :
    ∃ s1, Interpreter.execute (fuel + 1) (Stmt.Assignment a value index) s = Exec.ok s1 ∧
      s1.vars a = some (Value.StringArray
        (xs.set i.toNat (Interpreter.valueToString v))) ∧
      Interpreter.EvaluatesTo s1.vars
          (Expr.ArrayAccess (Expr.Identifier a) (Expr.IntegerLiteral i))
        (Value.String (Interpreter.valueToString v)) ∧
      (∀ j : Int, j ≠ i →
        Interpreter.evaluate s1.vars
            (Expr.ArrayAccess (Expr.Identifier a) (Expr.IntegerLiteral j)) =
          Interpreter.evaluate s.vars
            (Expr.ArrayAccess (Expr.Identifier a) (Expr.IntegerLiteral j))) ∧
      ∀ y, y ≠ a → s1.vars y = s.vars y := by
  have hrun : Interpreter.execute (fuel + 1) (Stmt.Assignment a value index) s =
      Exec.ok (((s.evaluated value).evaluated index).assign a (Value.StringArray
        (xs.set i.toNat (Interpreter.valueToString v)))) := by
    have ha1 : (s.evaluated value).vars a = some (Value.StringArray xs) := ha
    have hi1 : Interpreter.evaluate (s.evaluated value).vars index = Value.Integer i := hi.2
    simp only [Interpreter.execute, ne_eq, hindex, not_false_eq_true, if_true, ha1, hi1,
      ge_iff_le, h0, hlt, and_self, hv.2]
  have hnew : ((((s.evaluated value).evaluated index).assign a (Value.StringArray
      (xs.set i.toNat (Interpreter.valueToString v)))).vars a) =
      some (Value.StringArray (xs.set i.toNat (Interpreter.valueToString v))) :=
    Interpreter.assign_same
  have hi2 : i.toNat < xs.length := by omega
  refine ⟨_, hrun, hnew, ⟨rfl, ?_⟩, ?_, ?_⟩
  · rw [Interpreter.evaluate_element hnew i]
    simp [h0, hlt, hi2]
  · intro j hj
    rw [Interpreter.evaluate_element hnew j, Interpreter.evaluate_element ha j]
    simp only [List.length_set]
    split_ifs with hc
    · have hne : i.toNat ≠ j.toNat := by omega
      simp [List.getD_eq_getElem?_getD, List.getElem?_set_ne hne]
    · rfl
  · intro y hy
    exact Interpreter.assign_other (Ne.symm hy)

/-- C19 (instance). In the array scenario the second assignment writes `names[1]` and keeps
`names[0]`, and the program prints `Alice and Bob`. The evaluation of the value
`(0 - 2147483647 - 1) / (0 - 1)` does not return. -/
theorem c19_indexed_assignment_witness :
    (∃ s1,
      Interpreter.execute 1
          (Stmt.Assignment "names" (Expr.StringLiteral "Bob") (Expr.IntegerLiteral 1))
          ((Interpreter.init []).assign "names" (Value.StringArray ["Alice", " "])) =
        Exec.ok s1 ∧
      s1.vars "names" = some (Value.StringArray (["Alice", " "].set 1 "Bob"))) ∧
      (Interpreter.interpret 6 arrayScenario []).state?.map (fun s => s.cout) =
        some ["Alice and Bob"] ∧
      Interpreter.traps ((Interpreter.init []).assign "names"
          (Value.StringArray ["Alice", " "])).vars
        (Expr.BinaryOp
          (Expr.BinaryOp
            (Expr.BinaryOp (Expr.IntegerLiteral 0) TokenType.MINUS
              (Expr.IntegerLiteral 2147483647))
            TokenType.MINUS (Expr.IntegerLiteral 1))
          TokenType.DIVIDE
          (Expr.BinaryOp (Expr.IntegerLiteral 0) TokenType.MINUS (Expr.IntegerLiteral 1))) =
        true :=
  ⟨(c19_indexed_assignment 0
      ((Interpreter.init []).assign "names" (Value.StringArray ["Alice", " "])) "names"
      ["Alice", " "] (Expr.IntegerLiteral 1) (Expr.StringLiteral "Bob") 1 (Value.String "Bob")
      (by decide) (by decide) ⟨rfl, rfl⟩ ⟨rfl, rfl⟩ (by decide) (by decide)).imp
        fun _ h => ⟨h.1, h.2.1⟩,
    by decide, by decide⟩

/-- C20. IncrementStatement execution. `IncrementStatement(x, k)` rebinds `x` to the Integer
`v + k`, reduced to 32 bits, when `x` is bound to the Integer `v`; it leaves the whole
state unchanged when `x` is unbound or bound to a String or a StringArray; it never changes
another variable. -/
theorem c20_increment (fuel : Nat) (s : Interpreter) (x : String) (k : Int) :
    (∀ v : Int, s.vars x = some (Value.Integer v) →
      ∃ s1, Interpreter.execute (fuel + 1) (Stmt.IncrementStatement x k) s = Exec.ok s1 ∧
        s1.vars x = some (Value.Integer (wrap32 (v + k)))) ∧
    ((∀ v : Int, s.vars x ≠ some (Value.Integer v)) →
      Interpreter.execute (fuel + 1) (Stmt.IncrementStatement x k) s = Exec.ok s) ∧
    ∃ s1, Interpreter.execute (fuel + 1) (Stmt.IncrementStatement x k) s = Exec.ok s1 ∧
      ∀ y, y ≠ x → s1.vars y = s.vars y := by
  refine ⟨?_, ?_, ?_⟩
  · intro v hv
    exact ⟨s.assign x (Value.Integer (wrap32 (v + k))),
      by simp only [Interpreter.execute, hv], Interpreter.assign_same⟩
  · intro h
    cases hx : s.vars x with
    | none => simp only [Interpreter.execute, hx]
    | some w =>
      cases w with
      | Integer v => exact absurd hx (h v)
      | String _ => simp only [Interpreter.execute, hx]
      | StringArray _ => simp only [Interpreter.execute, hx]
  · cases hx : s.vars x with
    | none => exact ⟨s, by simp only [Interpreter.execute, hx], fun _ _ => rfl⟩
    | some w =>
      cases w with
      | Integer v =>
        exact ⟨s.assign x (Value.Integer (wrap32 (v + k))),
          by simp only [Interpreter.execute, hx],
          fun y hy => Interpreter.assign_other (Ne.symm hy)⟩
      | String _ => exact ⟨s, by simp only [Interpreter.execute, hx], fun _ _ => rfl⟩
      | StringArray _ => exact ⟨s, by simp only [Interpreter.execute, hx], fun _ _ => rfl⟩

/-- C20 (instance). With `i` bound to `2147483647`, `INCREMENT i BY 1` wraps to
`-2147483648`; with `i` bound to a String the statement changes nothing. -/
theorem c20_increment_witness :
    (∃ s1,
      Interpreter.execute 1 (Stmt.IncrementStatement "i" 1)
          ((Interpreter.init []).assign "i" (Value.Integer 2147483647)) = Exec.ok s1 ∧
        s1.vars "i" = some (Value.Integer (-2147483648))) ∧
      Interpreter.execute 1 (Stmt.IncrementStatement "i" 1)
          ((Interpreter.init []).assign "i" (Value.String "s")) =
        Exec.ok ((Interpreter.init []).assign "i" (Value.String "s")) :=
  ⟨(c20_increment 0 ((Interpreter.init []).assign "i" (Value.Integer 2147483647)) "i" 1).1
      2147483647 (by decide),
    (c20_increment 0 ((Interpreter.init []).assign "i" (Value.String "s")) "i" 1).2.1
      (fun v h => by
        have h2 : some (Value.String "s") = some (Value.Integer v) := by
          rw [← h]; decide
        cases h2)⟩

/-! ## Evaluator: reading a line -/

theorem digitChar_spec {d : Nat} (h : d < 10) :
    Lexer.isDigit (Nat.digitChar d) = true ∧ (Nat.digitChar d).toNat - '0'.toNat = d := by
  interval_cases d <;> exact ⟨by decide, by decide⟩

theorem digitsValue_append (ds : List Char) (d : Char) :
    digitsValue (ds ++ [d]) = 10 * digitsValue ds + (d.toNat - '0'.toNat) := by
  simp [digitsValue, List.foldl_append]

/-- The value of the digits of a natural number, written most significant first, is
that number. -/
theorem digitsValue_digits (n : Nat) :
    digitsValue ((Nat.digits 10 n).reverse.map Nat.digitChar) = n := by
  have key : ∀ L : List Nat, (∀ d ∈ L, d < 10) →
      digitsValue (L.reverse.map Nat.digitChar) = Nat.ofDigits 10 L := by
    intro L
    induction L with
    | nil => intro _; rfl
    | cons d L ih =>
      intro h
      have hd : d < 10 := h d (List.mem_cons_self _ _)
      rw [List.reverse_cons, List.map_append, List.map_singleton, digitsValue_append,
        ih (fun e he => h e (List.mem_cons_of_mem _ he)), (digitChar_spec hd).2,
        Nat.ofDigits_cons]
      omega
  rw [key _ (fun d hd => Nat.digits_lt_base (by decide) hd), Nat.ofDigits_digits]

theorem dropWhile_isSpace {ws rest : List Char} (hws : ∀ c ∈ ws, isSpace c = true)
    (hrest : ∀ c, rest.head? = some c → isSpace c = false) :
    (ws ++ rest).dropWhile isSpace = rest := by
  induction ws with
  | nil =>
    cases rest with
    | nil => rfl
    | cons c cs => simp [List.dropWhile, hrest c rfl]
  | cons w ws ih =>
    simp only [List.cons_append, List.dropWhile, hws w (List.mem_cons_self _ _)]
    exact ih (fun c hc => hws c (List.mem_cons_of_mem _ hc))

theorem takeWhile_isDigit {ds tail : List Char} (hds : ∀ c ∈ ds, Lexer.isDigit c = true)
    (htail : ∀ c, tail.head? = some c → Lexer.isDigit c = false) :
    (ds ++ tail).takeWhile Lexer.isDigit = ds := by
  induction ds with
  | nil =>
    cases tail with
    | nil => rfl
    | cons c cs => simp [List.takeWhile, htail c rfl]
  | cons d ds ih =>
    simp only [List.cons_append, List.takeWhile, hds d (List.mem_cons_self _ _)]
    exact congrArg (List.cons d) (ih (fun c hc => hds c (List.mem_cons_of_mem _ hc)))

theorem isDigit_not_space {c : Char} (h : Lexer.isDigit c = true) : isSpace c = false := by
  simp only [Lexer.isDigit, Bool.and_eq_true, decide_eq_true_eq] at h
  have h1 : '0'.val ≤ c.val := h.1
  have h2 : (48 : UInt32) ≤ c.val := h1
  have h3 : 48 ≤ c.val.toNat := h2
  have hne : ∀ n : Nat, n < 48 → c ≠ Char.ofNat n := by
    intro n hn hc
    rw [hc] at h3
    have : (Char.ofNat n).val.toNat = n := by
      have hv : n.isValidChar := Or.inl (by omega)
      simp [Char.ofNat, hv, Char.ofNatAux, UInt32.toNat]
    omega
  simp only [isSpace, Bool.or_eq_false_iff, beq_eq_false_iff_ne, ne_eq]
  exact ⟨⟨⟨⟨⟨hne 32 (by omega), hne 9 (by omega)⟩, hne 10 (by omega)⟩, hne 11 (by omega)⟩,
    hne 12 (by omega)⟩, hne 13 (by omega)⟩

theorem isDigit_ne_of_lt {c : Char} (h : Lexer.isDigit c = true) (n : Nat) (hn : n < 48) :
    c ≠ Char.ofNat n := by
  simp only [Lexer.isDigit, Bool.and_eq_true, decide_eq_true_eq] at h
  have h1 : '0'.val ≤ c.val := h.1
  have h2 : (48 : UInt32) ≤ c.val := h1
  have h3 : 48 ≤ c.val.toNat := h2
  intro hc
  rw [hc] at h3
  have : (Char.ofNat n).val.toNat = n := by
    have hv : n.isValidChar := Or.inl (by omega)
    simp [Char.ofNat, hv, Char.ofNatAux, UInt32.toNat]
  omega

/-- What `std::stoi` returns on white space, an optional sign, a run of digits and
further text that does not start with a digit. -/
theorem stoi_shape {ws sign ds tail : List Char} (hws : ∀ c ∈ ws, isSpace c = true)
    (hsign : sign = [] ∨ sign = ['+'] ∨ sign = ['-']) (hne : ds ≠ [])
    (hds : ∀ c ∈ ds, Lexer.isDigit c = true)
    (htail : ∀ c, tail.head? = some c → Lexer.isDigit c = false) :
    stoi (String.mk (ws ++ sign ++ ds ++ tail)) =
      if INT_MIN ≤ (if sign = ['-'] then -(digitsValue ds : Int) else (digitsValue ds : Int)) ∧
          (if sign = ['-'] then -(digitsValue ds : Int) else (digitsValue ds : Int)) ≤ INT_MAX
      then some (if sign = ['-'] then -(digitsValue ds : Int) else (digitsValue ds : Int))
      else none := by
  obtain ⟨d, ds1, rfl⟩ := List.exists_cons_of_ne_nil hne
  have hd : Lexer.isDigit d = true := hds d (List.mem_cons_self _ _)
  have hplus : d ≠ '+' := isDigit_ne_of_lt hd 43 (by omega)
  have hminus : d ≠ '-' := isDigit_ne_of_lt hd 45 (by omega)
  have htake := takeWhile_isDigit hds htail
  have hdrop : (ws ++ sign ++ (d :: ds1) ++ tail).dropWhile isSpace =
      sign ++ (d :: ds1) ++ tail := by
    rw [List.append_assoc, List.append_assoc, ← List.append_assoc sign]
    apply dropWhile_isSpace hws
    intro c hc
    rcases hsign with rfl | rfl | rfl
    · simp only [List.nil_append, List.cons_append, List.head?_cons, Option.some.injEq] at hc
      exact hc ▸ isDigit_not_space hd
    · simp only [List.cons_append, List.head?_cons, Option.some.injEq] at hc
      subst hc; decide
    · simp only [List.cons_append, List.head?_cons, Option.some.injEq] at hc
      subst hc; decide
  simp only [stoi, hdrop]
  rcases hsign with rfl | rfl | rfl
  · have e1 : ¬ ((d :: ds1 ++ tail).head? = some '-' ∨ (d :: ds1 ++ tail).head? = some '+') := by
      simp [hplus, hminus]
    have e2 : ¬ (([] : List Char) = ['-']) := by simp
    simp only [List.nil_append, if_neg e1, htake, if_neg e2]
    simp [hminus]
  · have e2 : ¬ (['+'] = ['-']) := by decide
    have htake1 : List.takeWhile Lexer.isDigit (d :: (ds1 ++ tail)) = d :: ds1 := htake
    simp [htake1]
  · have htake1 : List.takeWhile Lexer.isDigit (d :: (ds1 ++ tail)) = d :: ds1 := htake
    simp [htake1]

/-- A line that reads as `n` makes `std::stoi` return `n`. -/
theorem stoi_of_readsAs {line : String} {n : Int} (h : ReadsAs line n) : stoi line = some n := by
  obtain ⟨ws, sign, ds, tail, hl, hws, hsign, hne, hds, htail, hn, hlo, hhi⟩ := h
  have e : line = String.mk (ws ++ sign ++ ds ++ tail) := by
    rw [← hl]
  rw [e, stoi_shape hws hsign hne hds htail, ← hn, if_pos ⟨hlo, hhi⟩]

/-- When `std::stoi` returns `n` the line reads as `n`. -/
theorem readsAs_of_stoi {line : String} {n : Int} (h : stoi line = some n) : ReadsAs line n := by
  have hsplit := List.takeWhile_append_dropWhile isSpace line.data
  have hws : ∀ c ∈ line.data.takeWhile isSpace, isSpace c = true :=
    fun c hc => List.mem_takeWhile_imp hc
  have hshape : ∀ (sign cs1 : List Char) (v : Int),
      line.data.dropWhile isSpace = sign ++ cs1 →
      (sign = [] ∨ sign = ['+'] ∨ sign = ['-']) →
      v = (if sign = ['-'] then -(digitsValue (cs1.takeWhile Lexer.isDigit) : Int)
        else (digitsValue (cs1.takeWhile Lexer.isDigit) : Int)) →
      (if cs1.takeWhile Lexer.isDigit = [] then none
        else if INT_MIN ≤ v ∧ v ≤ INT_MAX then some v else none) = some n →
      ReadsAs line n := by
    intro sign cs1 v hcs hsign hval hv
    by_cases h1 : cs1.takeWhile Lexer.isDigit = []
    · rw [if_pos h1] at hv; exact absurd hv (by simp)
    rw [if_neg h1] at hv
    by_cases h2 : INT_MIN ≤ v ∧ v ≤ INT_MAX
    · rw [if_pos h2] at hv
      injection hv with hv
      subst hv
      refine ⟨line.data.takeWhile isSpace, sign, cs1.takeWhile Lexer.isDigit,
        cs1.dropWhile Lexer.isDigit, ?_, hws, hsign, h1,
        fun c hc => List.mem_takeWhile_imp hc, ?_, hval, h2.1, h2.2⟩
      · rw [List.append_assoc, List.append_assoc, List.takeWhile_append_dropWhile, ← hcs,
          List.takeWhile_append_dropWhile]
      · intro c hc
        have := @List.head?_dropWhile_not _ Lexer.isDigit cs1
        rw [hc] at this
        simpa using this
    · rw [if_neg h2] at hv; exact absurd hv (by simp)
  simp only [stoi] at h
  cases hcs : line.data.dropWhile isSpace with
  | nil => simp [hcs] at h
  | cons c cs1 =>
    rw [hcs] at h
    by_cases hm : c = '-'
    · subst hm
      apply hshape ['-'] cs1 _ (by rw [hcs]; rfl) (Or.inr (Or.inr rfl)) rfl
      simpa using h
    · by_cases hp : c = '+'
      · subst hp
        apply hshape ['+'] cs1 _ (by rw [hcs]; rfl) (Or.inr (Or.inl rfl)) rfl
        simpa using h
      · apply hshape [] (c :: cs1) _ (by rw [hcs]; rfl) (Or.inl rfl) rfl
        simpa [hm, hp] using h

/-- The decimal representation of a natural number is a non-empty run of digits whose
value is that number. -/
theorem natDecimal_spec (n : Nat) :
    (natDecimal n).data ≠ [] ∧ (∀ c ∈ (natDecimal n).data, Lexer.isDigit c = true) ∧
      digitsValue (natDecimal n).data = n := by
  by_cases h0 : n = 0
  · subst h0
    refine ⟨by decide, by decide, by decide⟩
  · simp only [natDecimal, if_neg h0]
    refine ⟨?_, ?_, digitsValue_digits n⟩
    · simp [Nat.digits_ne_nil_iff_ne_zero, h0]
    · intro c hc
      simp only [List.mem_map, List.mem_reverse] at hc
      obtain ⟨d, hd, rfl⟩ := hc
      exact (digitChar_spec (Nat.digits_lt_base (by decide) hd)).1

/-- The decimal representation of a 32-bit integer reads as that integer. -/
theorem readsAs_decimal {i : Int} (hi : INT_MIN ≤ i ∧ i ≤ INT_MAX) : ReadsAs (decimal i) i := by
  obtain ⟨hne, hds, hval⟩ := natDecimal_spec i.natAbs
  by_cases hneg : i < 0
  · refine ⟨[], ['-'], (natDecimal i.natAbs).data, [], ?_, by simp, Or.inr (Or.inr rfl), hne,
      hds, by simp, ?_, hi.1, hi.2⟩
    · simp only [decimal, if_pos hneg, String.data_append]
      simp
    · rw [hval]; simp only [if_true]; omega
  · refine ⟨[], [], (natDecimal i.natAbs).data, [], ?_, by simp, Or.inl rfl, hne,
      hds, by simp, ?_, hi.1, hi.2⟩
    · simp only [decimal, if_neg hneg]
      simp
    · rw [hval]
      have : ¬ (([] : List Char) = ['-']) := by simp
      rw [if_neg this]; omega

/-- Every character of the decimal representation of an integer is a digit or `-`. -/
theorem decimal_chars (i : Int) :
    ∀ c ∈ (decimal i).data, c = '-' ∨ Lexer.isDigit c = true := by
  obtain ⟨_, hds, _⟩ := natDecimal_spec i.natAbs
  intro c hc
  by_cases hneg : i < 0
  · simp only [decimal, if_pos hneg, String.data_append, List.mem_append] at hc
    rcases hc with hc | hc
    · left; simpa using hc
    · exact Or.inr (hds c hc)
  · simp only [decimal, if_neg hneg] at hc
    exact Or.inr (hds c hc)

namespace Interpreter

/-- What `ReadStatement` does with the next input line. -/
theorem execute_read (fuel : Nat) (s : Interpreter) (x line : String) (rest : List String)
    (hcin : s.cin = line :: rest) :
    execute (fuel + 1) (Stmt.ReadStatement x) s =
      Exec.ok (assign { s with cin := rest } x
        (match stoi line with
          | some n => Value.Integer n
          | none => Value.String line)) := by
  simp only [execute, getline, hcin]
  cases stoi line <;> rfl

end Interpreter

/-- C21. Read/print round trip on integers: for every 32-bit Integer `i` and every variable
`x`, `ReadStatement(x)` run on the input line `valueToString(Integer i)` returns with `x`
bound to `Integer i`; it takes that line from the input and changes no other
variable. -/
theorem c21_read_roundtrip (fuel : Nat) (s : Interpreter) (x : String) (i : Int)
    (rest : List String) (hi : INT_MIN ≤ i ∧ i ≤ INT_MAX)
    (hcin : s.cin = Interpreter.valueToString (Value.Integer i) :: rest) :
    ∃ s1, Interpreter.execute (fuel + 1) (Stmt.ReadStatement x) s = Exec.ok s1 ∧
      s1.vars x = some (Value.Integer i) ∧ s1.cin = rest ∧
      ∀ y, y ≠ x → s1.vars y = s.vars y := by
  have hs : stoi (Interpreter.valueToString (Value.Integer i)) = some i := by
    show stoi (toString i) = some i
    rw [Interpreter.toString_int_eq]
    exact stoi_of_readsAs (readsAs_decimal hi)
  refine ⟨_, Interpreter.execute_read fuel s x _ rest hcin, ?_, rfl, ?_⟩
  · rw [hs]; exact Interpreter.assign_same
  · intro y hy
    exact Interpreter.assign_other (Ne.symm hy)

/-- C21 (instance). The line of `INT_MIN` is read back as `INT_MIN`, and the read scenario
run on the input line `41` prints `42`. -/
theorem c21_read_roundtrip_witness :
    (∃ s1, Interpreter.execute 1 (Stmt.ReadStatement "x")
        (Interpreter.init ["-2147483648"]) = Exec.ok s1 ∧
      s1.vars "x" = some (Value.Integer (-2147483648))) ∧
    (Interpreter.interpret 4 readScenario ["41"]).state?.map (fun s => s.cout) =
      some ["42"] :=
  ⟨(c21_read_roundtrip 0 (Interpreter.init ["-2147483648"]) "x" (-2147483648) []
      (by decide) (by decide)).imp fun _ h => ⟨h.1, h.2.1⟩,
    by decide⟩


/-- C22 (counterexample). The line `12abc` is not the decimal representation of an integer,
and `ReadStatement` binds the Integer `12` on it, not the String `12abc`. -/
theorem c22_counterexample :
    (∀ n : Int, decimal n ≠ "12abc") ∧
    (Interpreter.execute 1 (Stmt.ReadStatement "x") (Interpreter.init ["12abc"])).state?.map
        (fun s => s.vars "x") = some (some (Value.Integer 12)) := by
  refine ⟨?_, by decide⟩
  intro n h
  have := decimal_chars n 'a' (by rw [h]; decide)
  revert this
  decide

/-- C22 (amended). `ReadStatement(x)` takes the next input line and binds `x` to what
`std::stoi` makes of it: the Integer `n` when the line reads as `n`, that is when it
consists of optional white space, an optional sign, a run of digits whose signed value
`n` fits a 32-bit `int`, and any further text; the String equal to the raw line when the
line reads as no integer. -/
theorem c22_read_stoi (fuel : Nat) (s : Interpreter) (x line : String) (rest : List String)
    (hcin : s.cin = line :: rest) :
    ∃ s1, Interpreter.execute (fuel + 1) (Stmt.ReadStatement x) s = Exec.ok s1 ∧
      s1.cin = rest ∧
      (∀ n, ReadsAs line n → s1.vars x = some (Value.Integer n)) ∧
      ((∀ n, ¬ ReadsAs line n) → s1.vars x = some (Value.String line)) := by
  refine ⟨_, Interpreter.execute_read fuel s x line rest hcin, rfl, ?_, ?_⟩
  · intro n hn
    rw [stoi_of_readsAs hn]; exact Interpreter.assign_same
  · intro hn
    cases hst : stoi line with
    | none => exact Interpreter.assign_same
    | some n => exact absurd (readsAs_of_stoi hst) (hn n)

/-- C22 (instances). The lines `12abc`, ` 7` and `+5` bind the Integers `12`, `7` and `5`;
the empty line and `99999999999` bind the raw line as a String. -/
theorem c22_read_stoi_witness :
    (∃ s1, Interpreter.execute 1 (Stmt.ReadStatement "x") (Interpreter.init ["12abc"]) =
        Exec.ok s1 ∧ s1.vars "x" = some (Value.Integer 12)) ∧
    (∃ s1, Interpreter.execute 1 (Stmt.ReadStatement "x") (Interpreter.init [" 7"]) =
        Exec.ok s1 ∧ s1.vars "x" = some (Value.Integer 7)) ∧
    (∃ s1, Interpreter.execute 1 (Stmt.ReadStatement "x") (Interpreter.init ["+5"]) =
        Exec.ok s1 ∧ s1.vars "x" = some (Value.Integer 5)) ∧
    (∃ s1, Interpreter.execute 1 (Stmt.ReadStatement "x") (Interpreter.init [""]) =
        Exec.ok s1 ∧ s1.vars "x" = some (Value.String "")) ∧
    (∃ s1, Interpreter.execute 1 (Stmt.ReadStatement "x")
        (Interpreter.init ["99999999999"]) =
        Exec.ok s1 ∧ s1.vars "x" = some (Value.String "99999999999")) :=
  ⟨(c22_read_stoi 0 (Interpreter.init ["12abc"]) "x" "12abc" [] rfl).imp fun _ h =>
      ⟨h.1, h.2.2.1 12 ⟨[], [], ['1', '2'], ['a', 'b', 'c'], rfl, by decide, Or.inl rfl,
        by decide, by decide, by intro c hc; cases hc; decide, by decide, by decide,
        by decide⟩⟩,
    (c22_read_stoi 0 (Interpreter.init [" 7"]) "x" " 7" [] rfl).imp fun _ h =>
      ⟨h.1, h.2.2.1 7 ⟨[' '], [], ['7'], [], rfl, by decide, Or.inl rfl,
        by decide, by decide, (by intro c hc; cases hc), by decide, by decide, by decide⟩⟩,
    (c22_read_stoi 0 (Interpreter.init ["+5"]) "x" "+5" [] rfl).imp fun _ h =>
      ⟨h.1, h.2.2.1 5 ⟨[], ['+'], ['5'], [], rfl, by decide, Or.inr (Or.inl rfl),
        by decide, by decide, (by intro c hc; cases hc), by decide, by decide, by decide⟩⟩,
    (c22_read_stoi 0 (Interpreter.init [""]) "x" "" [] rfl).imp fun _ h =>
      ⟨h.1, h.2.2.2 fun n hn => by
        have h1 := stoi_of_readsAs hn
        have h2 : stoi "" = none := by decide
        rw [h2] at h1; cases h1⟩,
    (c22_read_stoi 0 (Interpreter.init ["99999999999"]) "x" "99999999999" [] rfl).imp
      fun _ h =>
      ⟨h.1, h.2.2.2 fun n hn => by
        have h1 := stoi_of_readsAs hn
        have h2 : stoi "99999999999" = none := by decide
        rw [h2] at h1; cases h1⟩⟩

/-! ## Evaluator: conditionals and loops -/

namespace Interpreter

theorem evaluated_vars (s : Interpreter) (expr : Expr) : (s.evaluated expr).vars = s.vars := rfl

theorem evaluatedAll_vars (s : Interpreter) (conditions : List Expr) :
    (evaluatedAll s conditions).vars = s.vars := by
  induction conditions generalizing s with
  | nil => rfl
  | cons c cs ih => exact (ih (s.evaluated c)).trans rfl

end Interpreter

namespace Interpreter

/-- The counted loop from a state in which `i` is `k`, with `m` passes to go. -/
theorem whileLoop_counted (n : Nat) (hn : (n : Int) ≤ INT_MAX) (m : Nat) :
    ∀ (k fuel : Nat) (s : Interpreter), k + m = n → s.vars "i" = some (Value.Integer k) →
      m + 3 ≤ fuel →
      ∃ s1, whileLoop fuel
          (Expr.BinaryOp (Expr.Identifier "i") TokenType.LESS_THAN (Expr.IntegerLiteral n))
          [Stmt.PrintStatement (Expr.Identifier "i"), Stmt.IncrementStatement "i" 1] s =
          Exec.ok s1 ∧
        s1.cout = s.cout ++ countLines k m ∧ s1.vars "i" = some (Value.Integer n) ∧
        (∀ y, y ≠ "i" → s1.vars y = s.vars y) ∧ s1.cin = s.cin ∧ s1.cerr = s.cerr := by
  induction m with
  | zero =>
    intro k fuel s hk hs hfuel
    obtain ⟨fuel, rfl⟩ : ∃ f, fuel = f + 1 := ⟨fuel - 1, by omega⟩
    have hk' : k = n := by omega
    subst hk'
    refine ⟨s.evaluated (Expr.BinaryOp (Expr.Identifier "i") TokenType.LESS_THAN
      (Expr.IntegerLiteral (k : Int))), ?_, ?_, hs, fun _ _ => rfl, rfl, ?_⟩
    · simp [whileLoop, evaluate, hs, binaryOperation, isTruthy]
    · simp [evaluated, countLines]
    · simp [evaluated, evaluateCerr, hs]
  | succ m ih =>
    intro k fuel s hk hs hfuel
    obtain ⟨fuel, rfl⟩ : ∃ f, fuel = f + 4 := ⟨fuel - 4, by omega⟩
    have hlt : (k : Int) < n := by omega
    have hw : wrap32 ((k : Int) + 1) = ((k + 1 : Nat) : Int) := by
      have h1 : (k : Int) + 1 ≤ INT_MAX := by omega
      simp only [INT_MAX] at h1
      simp only [wrap32, Nat.cast_add, Nat.cast_one]
      omega
    let s2 : Interpreter :=
      { s with cout := s.cout ++ [valueToString (Value.Integer k)],
               vars := Function.update s.vars "i" (some (Value.Integer ((k + 1 : Nat) : Int))) }
    have hbody : executeAll (fuel + 3)
        [Stmt.PrintStatement (Expr.Identifier "i"), Stmt.IncrementStatement "i" 1]
        (s.evaluated
          (Expr.BinaryOp (Expr.Identifier "i") TokenType.LESS_THAN (Expr.IntegerLiteral n))) =
        Exec.ok s2 := by
      simp [executeAll, execute, Exec.bind, evaluated, evaluate, evaluateCerr, hs, assign, hw, s2]
    obtain ⟨s1, hrun, hcout, hi, hframe, hcin, hcerr⟩ :=
      ih (k + 1) (fuel + 3) s2 (by omega) (by simp [s2]) (by omega)
    refine ⟨s1, ?_, ?_, hi, ?_, hcin, hcerr⟩
    · have hc : isTruthy (evaluate s.vars
          (Expr.BinaryOp (Expr.Identifier "i") TokenType.LESS_THAN (Expr.IntegerLiteral n))) =
          true := by
        simp [evaluate, hs, binaryOperation, isTruthy, hlt]
      rw [show fuel + 4 = (fuel + 3) + 1 from rfl]
      simp only [whileLoop, hc, if_true, hbody, Exec.bind]
      exact hrun
    · rw [hcout]
      simp [s2, countLines, List.range'_succ]
    · intro y hy
      rw [hframe y hy]
      simp [s2, Function.update, hy]

end Interpreter

/-- C24. Counted loop: for every `n` with `0 ≤ n ≤ INT_MAX`, run from a state in which `i`
is bound to Integer `0`, the loop `FOR_THE_PEOPLE i LESS_THAN n DO PRAISE_LEADER i;
PLEASE INCREMENT i BY 1 END_FOR_THE_PEOPLE` returns, given fuel `n + 4` or more. It has
written the `n` lines `0`, `1`, ..., `n - 1` in that order, one for each pass through the
body, and nothing else; `i` is bound to Integer `n` and every other variable is
unchanged. -/
theorem c24_counted_loop (n fuel : Nat) (s : Interpreter) (hn : (n : Int) ≤ INT_MAX)
    (hs : s.vars "i" = some (Value.Integer 0)) (hfuel : n + 4 ≤ fuel) :
    ∃ s1, Interpreter.execute fuel (countedLoop n) s = Exec.ok s1 ∧
      s1.cout = s.cout ++ countLines 0 n ∧ (countLines 0 n).length = n ∧
      s1.vars "i" = some (Value.Integer n) ∧ ∀ y, y ≠ "i" → s1.vars y = s.vars y := by
  obtain ⟨fuel, rfl⟩ : ∃ f, fuel = f + 1 := ⟨fuel - 1, by omega⟩
  obtain ⟨s1, hrun, hcout, hi, hframe, _, _⟩ :=
    Interpreter.whileLoop_counted n hn n 0 fuel s (by omega) hs (by omega)
  exact ⟨s1, by simpa [countedLoop, Interpreter.execute] using hrun, hcout,
    by simp only [countLines, List.length_map, List.length_range'], hi, hframe⟩

/-- C24 (instance). For `n = 3` the loop writes `0`, `1`, `2` and leaves `i` at `3`; for
`n = 0` it writes nothing. -/
theorem c24_counted_loop_witness :
    (∃ s1, Interpreter.execute 7 (countedLoop 3)
        ((Interpreter.init []).assign "i" (Value.Integer 0)) = Exec.ok s1 ∧
      s1.cout = ["0", "1", "2"] ∧ s1.vars "i" = some (Value.Integer 3)) ∧
    (∃ s1, Interpreter.execute 4 (countedLoop 0)
        ((Interpreter.init []).assign "i" (Value.Integer 0)) = Exec.ok s1 ∧
      s1.cout = []) :=
  ⟨(c24_counted_loop 3 7 ((Interpreter.init []).assign "i" (Value.Integer 0)) (by decide)
      (by decide) (by decide)).imp fun _ h => ⟨h.1, h.2.1, h.2.2.2.1⟩,
    (c24_counted_loop 0 4 ((Interpreter.init []).assign "i" (Value.Integer 0)) (by decide)
      (by decide) (by decide)).imp fun _ h => ⟨h.1, h.2.1⟩⟩

/-! ## Lexer: one token at a time -/

namespace Lexer

/-- Fuel beyond the number of unread characters does not change what `skipWhitespace`
returns. -/
theorem skipWhitespace_fuel (fuel1 : Nat) : ∀ (fuel2 : Nat) (lx : Lexer),
    lx.rest.length < fuel1 → lx.rest.length < fuel2 →
    skipWhitespace fuel1 lx = skipWhitespace fuel2 lx := by
  induction fuel1 with
  | zero => intro fuel2 lx h; omega
  | succ fuel1 ih =>
    intro fuel2 lx h1 h2
    obtain ⟨fuel2, rfl⟩ : ∃ f, fuel2 = f + 1 := ⟨fuel2 - 1, by omega⟩
    obtain ⟨rest, line, column, cerr⟩ := lx
    cases rest with
    | nil => simp [skipWhitespace, peek]
    | cons c cs =>
      simp only [List.length_cons] at h1 h2
      simp only [skipWhitespace, peek, peekNext, advance]
      split_ifs with h3 h4
      · exact ih fuel2 _ (by simpa using h1) (by simpa using h2)
      · have hlen := skipComment_length cs (column + 1)
        have hne : c ≠ '\n' := by
          rw [h4.1]; decide
        simp only [skipComment, if_neg hne]
        exact ih fuel2 _ (by simp only; omega) (by simp only; omega)
      · rfl

/-- Fuel beyond the number of unread characters does not change what the loop of
`tokenize` returns. -/
theorem tokenizeLoop_fuel (fuel1 : Nat) : ∀ (fuel2 : Nat) (lx : Lexer) (tokens : List Token),
    lx.rest.length < fuel1 → lx.rest.length < fuel2 →
    tokenizeLoop fuel1 lx tokens = tokenizeLoop fuel2 lx tokens := by
  induction fuel1 with
  | zero => intro fuel2 lx tokens h; omega
  | succ fuel1 ih =>
    intro fuel2 lx tokens h1 h2
    obtain ⟨fuel2, rfl⟩ : ∃ f, fuel2 = f + 1 := ⟨fuel2 - 1, by omega⟩
    simp only [tokenizeLoop]
    by_cases hend : lx.isAtEnd = true
    · rw [if_pos hend, if_pos hend]
    · rw [if_neg hend, if_neg hend, skipWhitespace_fuel (fuel1 + 1) (fuel2 + 1) lx h1 h2]
      obtain ⟨lx1, e1, hl1, _⟩ := skipWhitespace_terminates (fuel2 + 1) lx h2
      simp only [e1]
      by_cases hend1 : lx1.isAtEnd = true
      · rw [if_pos hend1, if_pos hend1]
      · rw [if_neg hend1, if_neg hend1]
        obtain ⟨rest1, line1, column1, cerr1⟩ := lx1
        cases rest1 with
        | nil => simp [isAtEnd] at hend1
        | cons c cs =>
          simp only [advance]
          simp only [List.length_cons] at hl1
          have hs := (scanToken_spec ⟨c :: cs, line1, column1, cerr1⟩
            ⟨cs, line1, column1 + 1, cerr1⟩ c rfl).1
          simp only at hs
          exact ih fuel2 _ _ (by omega) (by omega)

theorem tokenizeLoop_tokensFrom {fuel : Nat} {lx : Lexer} (tokens : List Token)
    (h : lx.rest.length < fuel) : tokenizeLoop fuel lx tokens = tokensFrom lx tokens :=
  tokenizeLoop_fuel fuel _ lx tokens h (Nat.lt_succ_self _)

theorem run_eq (source : String) : run source = tokensFrom (init source) [] := rfl

/-- At the end of the input the loop pushes the final `EOF_TOKEN`. -/
theorem tokensFrom_nil (line column : Int) (cerr : List LexDiag) (tokens : List Token) :
    tokensFrom ⟨[], line, column, cerr⟩ tokens =
      some (tokens ++ [⟨TokenType.EOF_TOKEN, "", line, column⟩], ⟨[], line, column, cerr⟩) := by
  simp [tokensFrom, tokenizeLoop, isAtEnd, makeToken]

end Lexer

namespace Lexer

/-- The loop of `identifier` on a run of alphanumeric characters that ends the input or
is followed by another character: it appends the whole run. -/
theorem identifierLoop_run (w : List Char) : ∀ (rest : List Char) (column : Int)
    (value : String), (∀ c ∈ w, isAlphaNumeric c = true) →
    (∀ c, rest.head? = some c → isAlphaNumeric c = false) →
    identifierLoop (w ++ rest) column value =
      (⟨value.data ++ w⟩, rest, column + w.length) := by
  induction w with
  | nil =>
    intro rest column value _ hrest
    cases rest with
    | nil => simp [identifierLoop]
    | cons c cs => simp [identifierLoop, hrest c rfl]
  | cons d w ih =>
    intro rest column value hw hrest
    show identifierLoop (d :: (w ++ rest)) column value = _
    simp only [identifierLoop, hw d (List.mem_cons_self _ _), if_true]
    rw [ih rest _ _ (fun c hc => hw c (List.mem_cons_of_mem _ hc)) hrest]
    simp only [String.push, List.append_assoc, List.singleton_append, List.length_cons,
      Nat.cast_add, Nat.cast_one, Prod.mk.injEq, true_and]
    omega

/-- The loop of `string` on text without a double quote that is followed by one: it
appends the whole text and stops at the quote. -/
theorem stringLoop_run (s : List Char) : ∀ (rest : List Char) (line column : Int)
    (value : String), '"' ∉ s →
    stringLoop (s ++ '"' :: rest) line column value =
      (⟨value.data ++ s⟩, '"' :: rest, (stringLoop s line column value).2.2.1,
        (stringLoop s line column value).2.2.2) := by
  induction s with
  | nil => intro rest line column value _; simp [stringLoop]
  | cons d s ih =>
    intro rest line column value hs
    have hd : d ≠ '"' := fun h => hs (h ▸ List.mem_cons_self _ _)
    have hs1 : '"' ∉ s := fun h => hs (List.mem_cons_of_mem _ h)
    show stringLoop (d :: (s ++ '"' :: rest)) line column value = _
    simp only [stringLoop, if_neg hd]
    by_cases hn : d = '\n'
    · simp only [if_pos hn]
      rw [ih rest _ _ _ hs1]
      simp [String.push]
    · simp only [if_neg hn]
      rw [ih rest _ _ _ hs1]
      simp [String.push]

/-- The comment loop of `skipWhitespace` on text without a newline that ends the input
or is followed by a newline: it skips the whole text. -/
theorem skipComment_run (c : List Char) : ∀ (rest : List Char) (column : Int),
    '\n' ∉ c → (∀ d, rest.head? = some d → d = '\n') →
    skipComment (c ++ rest) column = (rest, column + c.length) := by
  induction c with
  | nil =>
    intro rest column _ hrest
    cases rest with
    | nil => simp [skipComment]
    | cons d ds => simp [skipComment, hrest d rfl]
  | cons d c ih =>
    intro rest column hc hrest
    have hd : d ≠ '\n' := fun h => hc (h ▸ List.mem_cons_self _ _)
    show skipComment (d :: (c ++ rest)) column = _
    simp only [skipComment, if_neg hd]
    rw [ih rest _ (fun h => hc (List.mem_cons_of_mem _ h)) hrest]
    simp only [List.length_cons, Nat.cast_add, Nat.cast_one, Prod.mk.injEq, true_and]
    omega

/-- A letter, `_` or `!` is none of the characters that `tokenize` handles before it
tries `isDigit` and `isAlpha`, and it is not a digit. -/
theorem isAlpha_spec {c : Char} (h : isAlpha c = true) :
    c ≠ ' ' ∧ c ≠ '\r' ∧ c ≠ '\t' ∧ c ≠ '\n' ∧ c ≠ '"' ∧ c ≠ '[' ∧ c ≠ ']' ∧ c ≠ '(' ∧
      c ≠ ')' ∧ c ≠ '+' ∧ c ≠ '-' ∧ c ≠ '*' ∧ c ≠ '/' ∧ isDigit c = false := by
  have key : ∀ d : Char, isAlpha d = false → c ≠ d := by
    intro d hd hcd
    rw [hcd, hd] at h
    exact absurd h (by decide)
  refine ⟨key _ (by decide), key _ (by decide), key _ (by decide), key _ (by decide),
    key _ (by decide), key _ (by decide), key _ (by decide), key _ (by decide),
    key _ (by decide), key _ (by decide), key _ (by decide), key _ (by decide),
    key _ (by decide), ?_⟩
  simp only [isAlpha, Bool.or_eq_true, Bool.and_eq_true, decide_eq_true_eq, beq_iff_eq] at h
  simp only [isDigit, Bool.and_eq_false_iff, decide_eq_false_iff_not]
  by_contra hd
  simp only [not_or, not_not] at hd
  have d1 : 48 ≤ c.val.toNat := hd.1
  have d2 : c.val.toNat ≤ 57 := hd.2
  rcases h with ((⟨a1, a2⟩ | ⟨a1, a2⟩) | rfl) | rfl
  · have a3 : 97 ≤ c.val.toNat := a1
    omega
  · have a3 : 65 ≤ c.val.toNat := a1
    omega
  · exact absurd d2 (by decide)
  · exact absurd d1 (by decide)

end Lexer

namespace Lexer

/-- Where `skipWhitespace` stops it stops again. -/
theorem skipWhitespace_idem (fuel : Nat) : ∀ (lx lx1 : Lexer) (fuel1 : Nat),
    skipWhitespace fuel lx = some lx1 → skipWhitespace (fuel1 + 1) lx1 = some lx1 := by
  induction fuel with
  | zero => intro lx lx1 fuel1 h; simp [skipWhitespace] at h
  | succ fuel ih =>
    intro lx lx1 fuel1 h
    simp only [skipWhitespace] at h
    split_ifs at h with h1 h2
    · exact ih _ _ _ h
    · exact ih _ _ _ h
    · injection h with h
      subst h
      simp only [skipWhitespace, if_neg h1, if_neg h2]

/-- One pass of the loop of `tokenize` from a state in which `skipWhitespace` skips
nothing: the character is scanned, and the loop goes on after it. -/
theorem tokensFrom_scan (c : Char) (cs : List Char) (line column : Int) (cerr : List LexDiag)
    (tokens : List Token)
    (hstay : skipWhitespace (cs.length + 2) ⟨c :: cs, line, column, cerr⟩ =
      some ⟨c :: cs, line, column, cerr⟩) :
    tokensFrom ⟨c :: cs, line, column, cerr⟩ tokens =
      tokensFrom (scanToken ⟨c :: cs, line, column, cerr⟩ ⟨cs, line, column + 1, cerr⟩ c).2
        (tokens ++ (scanToken ⟨c :: cs, line, column, cerr⟩ ⟨cs, line, column + 1, cerr⟩ c).1) := by
  have hs := (scanToken_spec ⟨c :: cs, line, column, cerr⟩ ⟨cs, line, column + 1, cerr⟩ c
    rfl).1
  simp only at hs
  have e : tokensFrom ⟨c :: cs, line, column, cerr⟩ tokens =
      tokenizeLoop (cs.length + 1 + 1) ⟨c :: cs, line, column, cerr⟩ tokens := rfl
  rw [e]
  simp only [tokenizeLoop, isAtEnd, List.isEmpty_cons, Bool.false_eq_true, if_false, hstay,
    advance]
  exact tokenizeLoop_tokensFrom _ (Nat.lt_succ_of_le hs)

/-- The loop of `tokenize` gives the same result from a state and from the state that
`skipWhitespace` reaches from it. -/
theorem tokensFrom_skip (lx lx1 : Lexer) (tokens : List Token)
    (h : skipWhitespace (lx.rest.length + 1) lx = some lx1) :
    tokensFrom lx tokens = tokensFrom lx1 tokens := by
  obtain ⟨lx2, e2, hl2, _⟩ := skipWhitespace_terminates (lx.rest.length + 1) lx
    (Nat.lt_succ_self _)
  have h12 : lx2 = lx1 := by rw [e2] at h; exact Option.some.inj h
  subst h12
  have hidem := skipWhitespace_idem _ _ _ lx2.rest.length h
  by_cases hend : lx.isAtEnd = true
  · have hnil : lx.rest = [] := by simpa [isAtEnd] using hend
    obtain ⟨rest, line, column, cerr⟩ := lx
    simp only at hnil
    subst hnil
    simp only [skipWhitespace, peek, List.length_nil] at h
    have hc : ¬ (Char.ofNat 0 = ' ' ∨ Char.ofNat 0 = '\r' ∨ Char.ofNat 0 = '\t') := by decide
    have hc2 : ¬ (Char.ofNat 0 = '/' ∧ peekNext ⟨[], line, column, cerr⟩ = '/') :=
      fun hh => absurd hh.1 (by decide)
    rw [if_neg hc, if_neg hc2] at h
    rw [← Option.some.inj h]
  · have e : tokensFrom lx tokens = tokenizeLoop (lx.rest.length + 1) lx tokens := rfl
    have e1 : tokensFrom lx2 tokens = tokenizeLoop (lx2.rest.length + 1) lx2 tokens := rfl
    rw [e, e1]
    simp only [tokenizeLoop, if_neg hend, h]
    by_cases hend1 : lx2.isAtEnd = true
    · simp only [if_pos hend1]
    · simp only [if_neg hend1, hidem]
      obtain ⟨rest1, line1, column1, cerr1⟩ := lx2
      cases rest1 with
      | nil => simp [isAtEnd] at hend1
      | cons c cs =>
        simp only [advance]
        simp only [List.length_cons] at hl2
        have hs := (scanToken_spec ⟨c :: cs, line1, column1, cerr1⟩
          ⟨cs, line1, column1 + 1, cerr1⟩ c rfl).1
        simp only at hs
        exact tokenizeLoop_fuel _ _ _ _ (by omega) (by simp only [List.length_cons]; omega)

/-- A blank before the next token is skipped. -/
theorem tokensFrom_space (cs : List Char) (line column : Int) (cerr : List LexDiag)
    (tokens : List Token) :
    tokensFrom ⟨' ' :: cs, line, column, cerr⟩ tokens =
      tokensFrom ⟨cs, line, column + 1, cerr⟩ tokens := by
  obtain ⟨lx1, e1, _, _⟩ := skipWhitespace_terminates (cs.length + 1)
    ⟨cs, line, column + 1, cerr⟩ (Nat.lt_succ_self _)
  have h : skipWhitespace ((' ' :: cs).length + 1) ⟨' ' :: cs, line, column, cerr⟩ =
      some lx1 := by
    simp only [List.length_cons, skipWhitespace, peek, advance, true_or, if_true]
    exact e1
  rw [tokensFrom_skip _ lx1 tokens h, tokensFrom_skip _ lx1 tokens e1]

theorem skipWhitespace_comment (fuel : Nat) (cs : List Char) (line column : Int)
    (cerr : List LexDiag) :
    skipWhitespace (fuel + 1) ⟨'/' :: '/' :: cs, line, column, cerr⟩ =
      skipWhitespace fuel ⟨(skipComment cs (column + 1 + 1)).1, line,
        (skipComment cs (column + 1 + 1)).2, cerr⟩ := by
  have h1 : ¬ ('/' = ' ' ∨ '/' = '\r' ∨ '/' = '\t') := by decide
  have h2 : '/' ≠ '\n' := by decide
  simp only [skipWhitespace, peek, peekNext, if_neg h1, and_self, if_true, skipComment,
    if_neg h2]

/-- A `//` comment without a newline in it, ending the input or followed by a newline,
is skipped. -/
theorem tokensFrom_comment (c rest : List Char) (line column : Int) (cerr : List LexDiag)
    (tokens : List Token) (hc : '\n' ∉ c) (hrest : ∀ d, rest.head? = some d → d = '\n') :
    tokensFrom ⟨'/' :: '/' :: (c ++ rest), line, column, cerr⟩ tokens =
      tokensFrom ⟨rest, line, column + 1 + 1 + c.length, cerr⟩ tokens := by
  obtain ⟨lx1, e1, _, _⟩ := skipWhitespace_terminates (rest.length + 1)
    ⟨rest, line, column + 1 + 1 + c.length, cerr⟩ (Nat.lt_succ_self _)
  have h : skipWhitespace (('/' :: '/' :: (c ++ rest)).length + 1)
      ⟨'/' :: '/' :: (c ++ rest), line, column, cerr⟩ = some lx1 := by
    rw [skipWhitespace_comment, skipComment_run c rest _ hc hrest, ← e1]
    exact skipWhitespace_fuel _ _ _
      (by simp only [List.length_cons, List.length_append]; omega) (Nat.lt_succ_self _)
  rw [tokensFrom_skip _ lx1 tokens h, tokensFrom_skip _ lx1 tokens e1]

end Lexer

namespace Lexer

theorem skipWhitespace_stay (fuel : Nat) (c : Char) (cs : List Char) (line column : Int)
    (cerr : List LexDiag) (h1 : ¬ (c = ' ' ∨ c = '\r' ∨ c = '\t')) (h2 : c ≠ '/') :
    skipWhitespace (fuel + 1) ⟨c :: cs, line, column, cerr⟩ =
      some ⟨c :: cs, line, column, cerr⟩ := by
  have h3 : ¬ (c = '/' ∧ peekNext ⟨c :: cs, line, column, cerr⟩ = '/') := fun h => h2 h.1
  simp only [skipWhitespace, peek, if_neg h1, if_neg h3]

/-- A newline gives a `NEWLINE` token placed at the start of the next line. -/
theorem tokensFrom_newline (cs : List Char) (line column : Int) (cerr : List LexDiag)
    (tokens : List Token) :
    tokensFrom ⟨'\n' :: cs, line, column, cerr⟩ tokens =
      tokensFrom ⟨cs, line + 1, 1, cerr⟩
        (tokens ++ [⟨TokenType.NEWLINE, "", line + 1, 1⟩]) := by
  rw [tokensFrom_scan _ _ _ _ _ _
    (skipWhitespace_stay _ _ _ _ _ _ (by decide) (by decide))]
  simp only [scanToken, if_true, makeToken]

/-- A string literal without a double quote inside gives a `STRING` token whose lexeme
is the text between the quotes. -/
theorem tokensFrom_string (s rest : List Char) (line column : Int) (cerr : List LexDiag)
    (tokens : List Token) (hs : '"' ∉ s) :
    tokensFrom ⟨'"' :: (s ++ '"' :: rest), line, column, cerr⟩ tokens =
      tokensFrom ⟨rest, (stringLoop s line (column + 1) "").2.2.1,
          (stringLoop s line (column + 1) "").2.2.2 + 1, cerr⟩
        (tokens ++ [⟨TokenType.STRING, ⟨s⟩, (stringLoop s line (column + 1) "").2.2.1,
          (stringLoop s line (column + 1) "").2.2.2 + 1⟩]) := by
  rw [tokensFrom_scan _ _ _ _ _ _
    (skipWhitespace_stay _ _ _ _ _ _ (by decide) (by decide))]
  have h1 : ¬ ('"' = '\n') := by decide
  simp only [scanToken, if_neg h1, if_true, string, stringLoop_run s rest _ _ _ hs, isAtEnd,
    List.isEmpty_cons, Bool.false_eq_true, if_false, advance, makeToken]
  rfl

/-- A word of letters, digits, `_` and `!` that does not start with a digit, ending the
input or followed by another character, gives one token: the keyword of that spelling,
or an `IDENTIFIER`. -/
theorem tokensFrom_word (c : Char) (w rest : List Char) (line column : Int)
    (cerr : List LexDiag) (tokens : List Token) (hc : isAlpha c = true)
    (hw : ∀ d ∈ w, isAlphaNumeric d = true)
    (hrest : ∀ d, rest.head? = some d → isAlphaNumeric d = false) :
    tokensFrom ⟨c :: (w ++ rest), line, column, cerr⟩ tokens =
      tokensFrom ⟨rest, line, column + (w.length + 1 : Nat), cerr⟩
        (tokens ++ [⟨(keywords ⟨c :: w⟩).getD TokenType.IDENTIFIER, ⟨c :: w⟩, line,
          column + (w.length + 1 : Nat)⟩]) := by
  obtain ⟨n1, n2, n3, n4, n5, n6, n7, n8, n9, n10, n11, n12, n13, n14⟩ := isAlpha_spec hc
  rw [tokensFrom_scan _ _ _ _ _ _
    (skipWhitespace_stay _ _ _ _ _ _ (by simp [n1, n2, n3]) n13)]
  have hcw : ∀ d ∈ c :: w, isAlphaNumeric d = true := by
    intro d hd
    rcases List.mem_cons.1 hd with rfl | hd
    · simp [isAlphaNumeric, hc]
    · exact hw d hd
  have hrun := identifierLoop_run (c :: w) rest (column + 1 - 1) "" hcw hrest
  have hd : ¬ (isDigit c = true) := by simp [n14]
  simp only [scanToken, if_neg n4, if_neg n5, if_neg n6, if_neg n7, if_neg n8, if_neg n9,
    if_neg n10, if_neg n11, if_neg n12, if_neg n13, if_neg hd, hc, if_true, identifier]
  have hrun1 : identifierLoop (c :: (w ++ rest)) (column + 1 - 1) "" =
      (⟨c :: w⟩, rest, column + (w.length + 1 : Nat)) := by
    rw [← List.cons_append, hrun]
    simp only [List.length_cons, Prod.mk.injEq, true_and]
    constructor
    · rfl
    · omega
  simp only [hrun1]
  cases keywords ⟨c :: w⟩ <;> rfl

end Lexer

/-! ## Lexer: string literals, words and comments -/

namespace Lexer

theorem stringLoop_line (s : List Char) : ∀ (line column : Int) (value : String), '"' ∉ s →
    (stringLoop s line column value).2.2.1 = line + s.count '\n' := by
  induction s with
  | nil => intro line column value _; simp [stringLoop]
  | cons d s ih =>
    intro line column value hs
    have hd : d ≠ '"' := fun h => hs (h ▸ List.mem_cons_self _ _)
    have hs1 : '"' ∉ s := fun h => hs (List.mem_cons_of_mem _ h)
    simp only [stringLoop, if_neg hd]
    by_cases hn : d = '\n'
    · subst hn
      simp only [if_true, ih _ _ _ hs1, List.count_cons_self, Nat.cast_add, Nat.cast_one]
      omega
    · simp only [if_neg hn, ih _ _ _ hs1]
      rw [List.count_cons_of_ne (Ne.symm hn)]

theorem tokenize_eq {source : String} {tokens : List Token} {lx : Lexer}
    (h : tokensFrom (init source) [] = some (tokens, lx)) : tokenize source = some tokens := by
  have hr : run source = some (tokens, lx) := h
  simp [tokenize, hr]

end Lexer

/-- C26. String literal lexing: for every string `s` without a double quote (backslashes,
newlines, `//` and any other character are allowed), `tokenize` of `s` between two
double quotes is exactly a `STRING` token with lexeme `s` followed by `EOF_TOKEN`. The
lexeme is the text as it stands; both tokens carry the line of the closing quote, the
first line plus the number of newlines in `s`. -/
theorem c26_string_literal (s : String) (hs : '"' ∉ s.data) :
    ∃ column : Int,
      Lexer.tokenize ("\"" ++ s ++ "\"") =
        some [⟨TokenType.STRING, s, 1 + s.data.count '\n', column⟩,
          ⟨TokenType.EOF_TOKEN, "", 1 + s.data.count '\n', column⟩] := by
  refine ⟨(Lexer.stringLoop s.data 1 (1 + 1) "").2.2.2 + 1, ?_⟩
  apply @Lexer.tokenize_eq _ _ ⟨[], _, _, []⟩
  have e : Lexer.init ("\"" ++ s ++ "\"") = ⟨'"' :: (s.data ++ '"' :: []), 1, 1, []⟩ := by
    simp [Lexer.init, String.data_append]
  rw [e, Lexer.tokensFrom_string s.data [] 1 1 [] [] hs, Lexer.tokensFrom_nil,
    Lexer.stringLoop_line _ _ _ _ hs]
  rfl

/-- C26 (instance). A literal holding a backslash, a `//` and a newline is one `STRING`
token with exactly that text. -/
theorem c26_string_literal_witness :
    ∃ column : Int,
      Lexer.tokenize "\"a\\n // b\nc\"" =
        some [⟨TokenType.STRING, "a\\n // b\nc", 2, column⟩,
          ⟨TokenType.EOF_TOKEN, "", 2, column⟩] :=
  c26_string_literal "a\\n // b\nc" (by decide)

namespace Lexer

/-- The lookup in the keyword table finds an entry of the table. -/
theorem keywords_of_mem {value : String} {type : TokenType}
    (h : (value, type) ∈ keywordTable) : keywords value = some type := by
  have hall : ∀ e ∈ keywordTable, keywords e.1 = some e.2 := by decide
  exact hall _ h

/-- The lookup in the keyword table fails for a spelling that is not in the table. -/
theorem keywords_of_not_mem {value : String}
    (h : ∀ type, (value, type) ∉ keywordTable) : keywords value = none := by
  cases hk : keywords value with
  | none => rfl
  | some type =>
    simp only [keywords, Option.map_eq_some'] at hk
    obtain ⟨e, he, h2⟩ := hk
    have hmem := List.mem_of_find?_eq_some he
    have h1 := List.find?_some he
    simp only [decide_eq_true_eq] at h1
    exact absurd (by rw [← h1]; exact hmem) (h e.2)

end Lexer

/-- C27. Identifier and keyword lexing: for every non-empty word `w` of characters from
`[a-zA-Z0-9_!]` whose first character is not a digit, `tokenize(w)` is exactly one token
with lexeme `w` followed by `EOF_TOKEN`. The kind of the token is the kind stored under
`w` in the keyword table of 31 spellings when `w` is, character for character, one of
them, and `IDENTIFIER` otherwise. -/
theorem c27_word (w : String) (hne : w.data ≠ [])
    (hw : ∀ c ∈ w.data, Lexer.isAlphaNumeric c = true)
    (hfirst : ∀ c, w.data.head? = some c → Lexer.isDigit c = false) :
    ∃ kind : TokenType,
      Lexer.tokenize w =
        some [⟨kind, w, 1, 1 + w.length⟩, ⟨TokenType.EOF_TOKEN, "", 1, 1 + w.length⟩] ∧
      (∀ k, (w, k) ∈ keywordTable → kind = k) ∧
      ((∀ k, (w, k) ∉ keywordTable) → kind = TokenType.IDENTIFIER) ∧
      keywordTable.length = 31 := by
  obtain ⟨c, cs, hdata⟩ := List.exists_cons_of_ne_nil hne
  have hc : Lexer.isAlpha c = true := by
    have h1 := hw c (by rw [hdata]; exact List.mem_cons_self _ _)
    have h2 := hfirst c (by rw [hdata]; rfl)
    simpa [Lexer.isAlphaNumeric, h2] using h1
  have hcs : ∀ d ∈ cs, Lexer.isAlphaNumeric d = true :=
    fun d hd => hw d (by rw [hdata]; exact List.mem_cons_of_mem _ hd)
  have hwc : w = ⟨c :: cs⟩ := by rw [← hdata]
  refine ⟨(keywords w).getD TokenType.IDENTIFIER, ?_, ?_, ?_, rfl⟩
  · apply @Lexer.tokenize_eq _ _ ⟨[], _, _, []⟩
    have e : Lexer.init w = ⟨c :: (cs ++ []), 1, 1, []⟩ := by
      simp [Lexer.init, hdata]
    rw [e, Lexer.tokensFrom_word c cs [] 1 1 [] [] hc hcs (by simp), Lexer.tokensFrom_nil, hwc]
    rfl
  · intro k hk
    rw [Lexer.keywords_of_mem hk]; rfl
  · intro hk
    rw [Lexer.keywords_of_not_mem hk]; rfl

/-- C27 (instances). `PRAISE_LEADER` is a keyword; `praise_leader`, `PRAISE_LEADERS` and
`I_LOVE_GOVERNMENT` without `!` are identifiers; the spellings `INTEGER` and `STRING`
give the type-tag kinds. -/
theorem c27_word_witness :
    (∃ kind, Lexer.tokenize "PRAISE_LEADER" =
        some [⟨kind, "PRAISE_LEADER", 1, 14⟩, ⟨TokenType.EOF_TOKEN, "", 1, 14⟩] ∧
      kind = TokenType.PRAISE_LEADER) ∧
    (∃ kind, Lexer.tokenize "praise_leader" =
        some [⟨kind, "praise_leader", 1, 14⟩, ⟨TokenType.EOF_TOKEN, "", 1, 14⟩] ∧
      kind = TokenType.IDENTIFIER) ∧
    (∃ kind, Lexer.tokenize "PRAISE_LEADERS" =
        some [⟨kind, "PRAISE_LEADERS", 1, 15⟩, ⟨TokenType.EOF_TOKEN, "", 1, 15⟩] ∧
      kind = TokenType.IDENTIFIER) ∧
    (∃ kind, Lexer.tokenize "I_LOVE_GOVERNMENT" =
        some [⟨kind, "I_LOVE_GOVERNMENT", 1, 18⟩, ⟨TokenType.EOF_TOKEN, "", 1, 18⟩] ∧
      kind = TokenType.IDENTIFIER) ∧
    (∃ kind, Lexer.tokenize "INTEGER" =
        some [⟨kind, "INTEGER", 1, 8⟩, ⟨TokenType.EOF_TOKEN, "", 1, 8⟩] ∧
      kind = TokenType.INTEGER_TYPE) ∧
    (∃ kind, Lexer.tokenize "STRING" =
        some [⟨kind, "STRING", 1, 7⟩, ⟨TokenType.EOF_TOKEN, "", 1, 7⟩] ∧
      kind = TokenType.STRING_TYPE) :=
  ⟨(c27_word "PRAISE_LEADER" (by decide) (by decide) (by decide)).imp fun _ h =>
      ⟨h.1, h.2.1 _ (by decide)⟩,
    (c27_word "praise_leader" (by decide) (by decide) (by decide)).imp fun _ h =>
      ⟨h.1, h.2.2.1 fun k hk => by
        have h1 := Lexer.keywords_of_mem hk
        have h2 : keywords "praise_leader" = none := by decide
        rw [h2] at h1; cases h1⟩,
    (c27_word "PRAISE_LEADERS" (by decide) (by decide) (by decide)).imp fun _ h =>
      ⟨h.1, h.2.2.1 fun k hk => by
        have h1 := Lexer.keywords_of_mem hk
        have h2 : keywords "PRAISE_LEADERS" = none := by decide
        rw [h2] at h1; cases h1⟩,
    (c27_word "I_LOVE_GOVERNMENT" (by decide) (by decide) (by decide)).imp fun _ h =>
      ⟨h.1, h.2.2.1 fun k hk => by
        have h1 := Lexer.keywords_of_mem hk
        have h2 : keywords "I_LOVE_GOVERNMENT" = none := by decide
        rw [h2] at h1; cases h1⟩,
    (c27_word "INTEGER" (by decide) (by decide) (by decide)).imp fun _ h =>
      ⟨h.1, h.2.1 _ (by decide)⟩,
    (c27_word "STRING" (by decide) (by decide) (by decide)).imp fun _ h =>
      ⟨h.1, h.2.1 _ (by decide)⟩⟩

/-- C28. Line comments are invisible to the token stream: for every text `c` without a
newline and every source text `rest`, `tokenize` of `//`, `c`, a newline and `rest` is
the token sequence of the newline and `rest`, token for token with kinds, lexemes,
lines and columns; its first token is the `NEWLINE` of the newline that ends the
comment; and `tokenize` of `//` and `c` alone is the single token `EOF_TOKEN`. -/
theorem c28_line_comment (c rest : String) (hc : '\n' ∉ c.data) :
    Lexer.tokenize ("//" ++ c ++ "\n" ++ rest) = Lexer.tokenize ("\n" ++ rest) ∧
    (∃ more, Lexer.tokenize ("//" ++ c ++ "\n" ++ rest) =
      some (⟨TokenType.NEWLINE, "", 2, 1⟩ :: more)) ∧
    Lexer.tokenize ("//" ++ c) = some [⟨TokenType.EOF_TOKEN, "", 1, 1 + 1 + 1 + c.length⟩] := by
  have e1 : Lexer.init ("//" ++ c ++ "\n" ++ rest) =
      ⟨'/' :: '/' :: (c.data ++ '\n' :: rest.data), 1, 1, []⟩ := by
    simp [Lexer.init, String.data_append]
  have e2 : Lexer.init ("\n" ++ rest) = ⟨'\n' :: rest.data, 1, 1, []⟩ := by
    simp [Lexer.init, String.data_append]
  have e3 : Lexer.init ("//" ++ c) = ⟨'/' :: '/' :: (c.data ++ []), 1, 1, []⟩ := by
    simp [Lexer.init, String.data_append]
  have h1 : Lexer.run ("//" ++ c ++ "\n" ++ rest) = Lexer.run ("\n" ++ rest) := by
    rw [Lexer.run_eq, Lexer.run_eq, e1, e2,
      Lexer.tokensFrom_comment c.data _ 1 1 [] [] hc (by simp),
      Lexer.tokensFrom_newline, Lexer.tokensFrom_newline]
  have h2 : Lexer.tokenize ("//" ++ c ++ "\n" ++ rest) = Lexer.tokenize ("\n" ++ rest) := by
    simp only [Lexer.tokenize, h1]
  refine ⟨h2, ?_, ?_⟩
  · obtain ⟨more, lx1, hrun, _⟩ := Lexer.tokenizeLoop_terminates (rest.data.length + 1)
      ⟨rest.data, 1 + 1, 1, []⟩ ([] ++ [⟨TokenType.NEWLINE, "", 1 + 1, 1⟩])
      (Nat.lt_succ_self _)
    refine ⟨more, ?_⟩
    rw [h2]
    apply @Lexer.tokenize_eq _ _ lx1
    rw [e2, Lexer.tokensFrom_newline]
    exact hrun
  · apply @Lexer.tokenize_eq _ _ ⟨[], _, _, []⟩
    rw [e3, Lexer.tokensFrom_comment c.data [] 1 1 [] [] hc (by simp), Lexer.tokensFrom_nil]
    rfl

/-- C28 (instance). The source `// note`, newline, `PRAISE_LEADER 1` has the tokens of the
source that starts with the newline; `// note` alone gives `EOF_TOKEN`. -/
theorem c28_line_comment_witness :
    Lexer.tokenize "// note\nPRAISE_LEADER 1" = Lexer.tokenize "\nPRAISE_LEADER 1" ∧
    Lexer.tokenize "// note" = some [⟨TokenType.EOF_TOKEN, "", 1, 8⟩] :=
  ⟨(c28_line_comment " note" "PRAISE_LEADER 1" (by decide)).1,
    (c28_line_comment " note" "PRAISE_LEADER 1" (by decide)).2.2⟩

/-- C25. End-to-end print of a string literal: for every string `s` without a double
quote, the source `!I_LOVE_GOVERNMENT`, newline, `PRAISE_LEADER "s"` is tokenized; from
its tokens `parse` returns, given fuel `9` or more and without a diagnostic, the Program
with the single statement `PrintStatement(StringLiteral s)`; and `interpret` of that
Program returns, given fuel `2` or more, having written the one line `s` and nothing
else, with no variable bound. -/
theorem c25_print_literal (s : String) (cin : List String) (hs : '"' ∉ s.data) :
    ∃ tokens, Lexer.tokenize ("!I_LOVE_GOVERNMENT\nPRAISE_LEADER \"" ++ s ++ "\"") =
        some tokens ∧
      (∀ fuel, ∃ p, Parser.parse (fuel + 9) tokens =
          Res.ok (some [Stmt.PrintStatement (Expr.StringLiteral s)]) p ∧ p.cerr = []) ∧
      ∀ fuel, ∃ s1,
        Interpreter.interpret (fuel + 2) [Stmt.PrintStatement (Expr.StringLiteral s)] cin =
          Exec.ok s1 ∧
        s1.cout = [s] ∧ s1.cerr = [] ∧ ∀ x, s1.vars x = none := by
  have e : Lexer.init ("!I_LOVE_GOVERNMENT\nPRAISE_LEADER \"" ++ s ++ "\"") =
      ⟨'!' :: ("I_LOVE_GOVERNMENT".data ++ ('\n' :: 'P' :: ("RAISE_LEADER".data ++
        (' ' :: '"' :: (s.data ++ '"' :: []))))), 1, 1, []⟩ := by
    simp [Lexer.init, String.data_append]
  have hlex := Lexer.tokensFrom_word '!' "I_LOVE_GOVERNMENT".data
    ('\n' :: 'P' :: ("RAISE_LEADER".data ++ (' ' :: '"' :: (s.data ++ '"' :: [])))) 1 1 [] []
    (by decide) (by decide) (by intro d hd; cases hd; decide)
  rw [Lexer.tokensFrom_newline,
    Lexer.tokensFrom_word 'P' "RAISE_LEADER".data (' ' :: '"' :: (s.data ++ '"' :: []))
      _ _ _ _ (by decide) (by decide) (by intro d hd; cases hd; decide),
    Lexer.tokensFrom_space, Lexer.tokensFrom_string s.data [] _ _ _ _ hs,
    Lexer.tokensFrom_nil] at hlex
  rw [← e] at hlex
  refine ⟨_, Lexer.tokenize_eq hlex, ?_, ?_⟩
  · intro fuel
    exact ⟨⟨4, []⟩, rfl, rfl⟩
  · intro fuel
    exact ⟨_, rfl, rfl, rfl, fun _ => rfl⟩

/-- C25 (instance). The source with `PRAISE_LEADER "Hello, Citizen"` parses to the one
print statement, which writes the line `Hello, Citizen`. -/
theorem c25_print_literal_witness :
    ∃ tokens, Lexer.tokenize "!I_LOVE_GOVERNMENT\nPRAISE_LEADER \"Hello, Citizen\"" =
        some tokens ∧
      (∃ p, Parser.parse 9 tokens =
        Res.ok (some [Stmt.PrintStatement (Expr.StringLiteral "Hello, Citizen")]) p) ∧
      ∃ s1, Interpreter.interpret 2
          [Stmt.PrintStatement (Expr.StringLiteral "Hello, Citizen")] [] = Exec.ok s1 ∧
        s1.cout = ["Hello, Citizen"] :=
  (c25_print_literal "Hello, Citizen" [] (by decide)).imp fun _ h =>
    ⟨h.1, (h.2.1 0).imp fun _ hp => hp.1, (h.2.2 0).imp fun _ hi => ⟨hi.1, hi.2.1⟩⟩

/-! ## Parser: newlines inside an expression -/

namespace Parser

theorem skipNewlinesFrom_run {tokens : List Token} {t : Token} (n : Nat) : ∀ (c : Nat),
    NewlineRun tokens c n → tokens[c + n]? = some t → t.type ≠ TokenType.NEWLINE →
    skipNewlinesFrom (tokens.drop c) c = some (c + n) := by
  induction n with
  | zero =>
    intro c _ ht hn
    have hlt : c < tokens.length := by
      rcases Nat.lt_or_ge c tokens.length with h1 | h1
      · exact h1
      · rw [Nat.add_zero, List.getElem?_eq_none h1] at ht; cases ht
    rw [Nat.add_zero, List.getElem?_eq_getElem hlt] at ht
    cases ht
    rw [List.drop_eq_getElem_cons hlt]
    simp [skipNewlinesFrom, hn]
  | succ n ih =>
    intro c hrun ht hn
    obtain ⟨t0, ht0, hn0⟩ := hrun 0 (Nat.succ_pos _)
    have hlt : c < tokens.length := by
      rcases Nat.lt_or_ge c tokens.length with h1 | h1
      · exact h1
      · rw [Nat.add_zero, List.getElem?_eq_none h1] at ht0; cases ht0
    rw [Nat.add_zero, List.getElem?_eq_getElem hlt] at ht0
    cases ht0
    rw [List.drop_eq_getElem_cons hlt]
    simp only [skipNewlinesFrom, hn0, if_true]
    have hrun1 : NewlineRun tokens (c + 1) n := by
      intro j hj
      have := hrun (j + 1) (by omega)
      rwa [show c + (j + 1) = c + 1 + j by omega] at this
    rw [ih (c + 1) hrun1 (by rwa [show c + 1 + n = c + (n + 1) by omega]) hn]
    congr 1
    omega

/-- The loop `skipNewlines` over a run of `NEWLINE` tokens that a token of another type
follows. -/
theorem skipNewlines_run {tokens : List Token} {t : Token} {c n : Nat} (cerr : List ParseDiag)
    (hrun : NewlineRun tokens c n) (ht : tokens[c + n]? = some t)
    (hn : t.type ≠ TokenType.NEWLINE) :
    skipNewlines tokens ⟨c, cerr⟩ = Res.ok () ⟨c + n, cerr⟩ := by
  simp only [skipNewlines, skipNewlinesFrom_run n c hrun ht hn]

/-- The loop of a level skips newlines and stops at a token that is not one of its
operators. -/
theorem returns_loop_stop_newlines {tokens : List Token} {level : Level} {expr : Expr}
    {p p1 : Parser} {t : Token} (hskip : skipNewlines tokens p = Res.ok () p1)
    (h : tokens[p1.current]? = some t) (hm : t.type ∉ level.ops) :
    Returns (fun fuel => binaryLoop fuel level tokens expr p) expr p1 := by
  refine ⟨1, fun fuel hle => ?_⟩
  obtain ⟨fuel, rfl⟩ : ∃ n, fuel = n + 1 := ⟨fuel - 1, by omega⟩
  simp [binaryLoop, hskip, match_miss h (Or.inr hm), Res.bind]

/-- One pass of the loop of a level: newlines, an operator of the level, newlines again
and the right operand. -/
theorem returns_loop_step_newlines {tokens : List Token} {level : Level}
    {expr right e : Expr} {p p1 p2 q r : Parser} {o : Token}
    (hskip1 : skipNewlines tokens p = Res.ok () p1)
    (ho : tokens[p1.current]? = some o) (hm : o.type ∈ level.ops)
    (hskip2 : skipNewlines tokens ⟨p1.current + 1, p1.cerr⟩ = Res.ok () p2)
    (hright : Returns (fun fuel => parseAt level.next fuel tokens p2) right q)
    (hrest : Returns (fun fuel => binaryLoop fuel level tokens
      (Expr.BinaryOp expr o.type right) q) e r) :
    Returns (fun fuel => binaryLoop fuel level tokens expr p) e r := by
  obtain ⟨f1, h1⟩ := hright
  obtain ⟨f2, h2⟩ := hrest
  refine ⟨max f1 f2 + 1, fun fuel hle => ?_⟩
  obtain ⟨fuel, rfl⟩ : ∃ n, fuel = n + 1 := ⟨fuel - 1, by omega⟩
  have hprev : previous tokens ⟨p1.current + 1, p1.cerr⟩ =
      Res.ok o ⟨p1.current + 1, p1.cerr⟩ :=
    previous_eq_ok.2 ⟨by simp, by simpa using ho, rfl⟩
  have hr := h1 fuel (by omega)
  have hl := h2 fuel (by omega)
  simp only [parseAt] at hr
  show binaryLoop (fuel + 1) level tokens expr p = Res.ok e r
  rw [binaryLoop]
  simp only [hskip1, match_hit ho hm (ops_ne_eof hm).1, Res.bind, if_true, hprev, hskip2,
    hr, hl]

end Parser

/-- C30 (counterexample). In the tokens of `1`, newline, `+ 2` the `NEWLINE` comes before
the operator, and `expression` does not end at `1`: it returns `BinaryOp(1, PLUS, 2)`. -/
theorem c30_counterexample :
    Lexer.tokenize "1\n+ 2" = some Parser.oneNewlinePlusTwo ∧
    Parser.expression 8 Parser.oneNewlinePlusTwo ⟨0, []⟩ =
      Res.ok (Expr.BinaryOp (Expr.IntegerLiteral 1) TokenType.PLUS (Expr.IntegerLiteral 2))
        ⟨4, []⟩ ∧
    Expr.BinaryOp (Expr.IntegerLiteral 1) TokenType.PLUS (Expr.IntegerLiteral 2) ≠
      Expr.IntegerLiteral 1 :=
  ⟨by decide, rfl, by decide⟩

/-- C30 (amended). Line wrapping of expressions: inside expression parsing `NEWLINE`
tokens are skipped both after an operand, before a binary operator, and after the
operator, before its right operand. Let the tokens from the position of `p` on be a
primary parsed to `e1`, `n1 ≥ 0` `NEWLINE` tokens, a binary operator `o`, `n2 ≥ 0`
`NEWLINE` tokens, a primary parsed to `e2`, and then a token that is neither a `NEWLINE`
nor a binary operator. Then `expression` returns the single expression
`BinaryOp(e1, o, e2)`: so it does for `e1 op NEWLINE e2` and for `e1 NEWLINE op e2`. -/
theorem c30_line_wrapping (tokens : List Token) (level : Parser.Level) (f1 f2 n1 n2 : Nat)
    (p q r : Parser) (e1 e2 : Expr) (o : Token)
    (h1 : Parser.primary f1 tokens p = Res.ok e1 q)
    (hnl1 : Parser.NewlineRun tokens q.current n1)
    (ho : tokens[q.current + n1]? = some o) (hm : o.type ∈ level.ops)
    (hnl2 : Parser.NewlineRun tokens (q.current + n1 + 1) n2)
    (h2 : Parser.primary f2 tokens ⟨q.current + n1 + 1 + n2, q.cerr⟩ = Res.ok e2 r)
    (he2 : e2 ≠ Expr.null) (hend : Parser.EndsExpression tokens r.current) :
    Parser.Returns (fun fuel => Parser.expression fuel tokens p)
      (Expr.BinaryOp e1 o.type e2) r := by
  obtain ⟨t2, ht2, hn2⟩ := Parser.first_token_not_newline h2 he2
  have so := Parser.stopsFrom_of_op ho hm
  have send := fun k => Parser.stopsFrom_of_ends hend k
  have hskip1 : Parser.skipNewlines tokens q = Res.ok () ⟨q.current + n1, q.cerr⟩ :=
    Parser.skipNewlines_run q.cerr hnl1 ho (Parser.ops_ne_eof hm).2
  have hstay : Parser.skipNewlines tokens ⟨q.current + n1, q.cerr⟩ =
      Res.ok () ⟨q.current + n1, q.cerr⟩ :=
    Parser.skipNewlines_stay (p := ⟨q.current + n1, q.cerr⟩) ho (Parser.ops_ne_eof hm).2
  have hskip2 : Parser.skipNewlines tokens ⟨q.current + n1 + 1, q.cerr⟩ =
      Res.ok () ⟨q.current + n1 + 1 + n2, q.cerr⟩ :=
    Parser.skipNewlines_run q.cerr hnl2 ht2 hn2
  have right : Parser.Returns
      (fun fuel => Parser.parseAt level.next fuel tokens ⟨q.current + n1 + 1 + n2, q.cerr⟩)
      e2 r := Parser.returns_operand h2 (send _)
  have rest : Parser.Returns (fun fuel => Parser.binaryLoop fuel level tokens
      (Expr.BinaryOp e1 o.type e2) r) (Expr.BinaryOp e1 o.type e2) r :=
    Parser.returns_loop_stopsFrom (send _) (le_refl _)
  have whole : Parser.Returns (fun fuel => Parser.parseAt (some level) fuel tokens p)
      (Expr.BinaryOp e1 o.type e2) r := by
    cases hnext : level.next with
    | none =>
      have first : Parser.Returns (fun fuel => Parser.parseAt level.next fuel tokens p) e1 q := by
        rw [hnext]; exact Parser.returns_primary h1
      exact Parser.returns_level first
        (Parser.returns_loop_step_newlines hskip1 ho hm hskip2 right rest)
    | some mid =>
      have hmid := Parser.Level.rankAt_next level
      rw [hnext] at hmid
      simp only [Parser.rankAt] at hmid
      have hmid4 := Parser.Level.rank_le mid
      obtain ⟨_, ho', _, hall⟩ := so
      have hnot : o.type ∉ Parser.Level.multiplication.ops := by
        have h4 : Parser.Level.multiplication.rank = 4 := rfl
        have := hall Parser.Level.multiplication (by rw [h4]; omega)
        rw [ho] at ho'
        cases ho'
        exact this
      have atMul : Parser.Returns
          (fun fuel => Parser.parseAt (some Parser.Level.multiplication) fuel tokens p) e1
          ⟨q.current + n1, q.cerr⟩ :=
        @Parser.returns_level tokens Parser.Level.multiplication e1 e1 p q
          ⟨q.current + n1, q.cerr⟩ (Parser.returns_primary h1)
          (Parser.returns_loop_stop_newlines hskip1 ho hnot)
      have first : Parser.Returns (fun fuel => Parser.parseAt level.next fuel tokens p) e1
          ⟨q.current + n1, q.cerr⟩ := by
        rw [hnext]
        have h4 : Parser.Level.multiplication.rank = 4 := rfl
        exact Parser.returns_lift_le (by rw [h4]; exact hmid4) atMul
          ((Parser.stopsFrom_of_op ho hm).mono (by omega))
      exact Parser.returns_level first
        (Parser.returns_loop_step_newlines hstay ho hm hskip2 right rest)
  exact Parser.returns_expression
    (Parser.returns_lift_le (by simp [Parser.Level.rank]) whole (send _))

/-- C30 (instances). The tokens of `1 +`, newline, `2` and the tokens of `1`, newline,
`+ 2` both parse to `BinaryOp(1, PLUS, 2)`. -/
theorem c30_line_wrapping_witness :
    Parser.Returns (fun fuel => Parser.expression fuel Parser.onePlusNewlineTwo ⟨0, []⟩)
      (Expr.BinaryOp (Expr.IntegerLiteral 1) TokenType.PLUS (Expr.IntegerLiteral 2))
      ⟨4, []⟩ ∧
    Parser.Returns (fun fuel => Parser.expression fuel Parser.oneNewlinePlusTwo ⟨0, []⟩)
      (Expr.BinaryOp (Expr.IntegerLiteral 1) TokenType.PLUS (Expr.IntegerLiteral 2))
      ⟨4, []⟩ :=
  ⟨c30_line_wrapping Parser.onePlusNewlineTwo Parser.Level.addition 1 1 0 1 ⟨0, []⟩ ⟨1, []⟩
      ⟨4, []⟩ (Expr.IntegerLiteral 1) (Expr.IntegerLiteral 2) ⟨TokenType.PLUS, "", 1, 4⟩
      rfl (fun j hj => absurd hj (Nat.not_lt_zero j)) rfl (by decide)
      (fun j hj => ⟨⟨TokenType.NEWLINE, "", 2, 1⟩, by
        have : j = 0 := by omega
        subst this; rfl, rfl⟩)
      rfl (by decide)
      ⟨⟨TokenType.EOF_TOKEN, "", 2, 2⟩, rfl, by decide, fun level => by cases level <;> decide⟩,
    c30_line_wrapping Parser.oneNewlinePlusTwo Parser.Level.addition 1 1 1 0 ⟨0, []⟩ ⟨1, []⟩
      ⟨4, []⟩ (Expr.IntegerLiteral 1) (Expr.IntegerLiteral 2) ⟨TokenType.PLUS, "", 2, 2⟩
      rfl
      (fun j hj => ⟨⟨TokenType.NEWLINE, "", 2, 1⟩, by
        have : j = 0 := by omega
        subst this; rfl, rfl⟩)
      rfl (by decide) (fun j hj => absurd hj (Nat.not_lt_zero j))
      rfl (by decide)
      ⟨⟨TokenType.EOF_TOKEN, "", 2, 4⟩, rfl, by decide, fun level => by cases level <;> decide⟩⟩

/-! ## Parser: decorative comments -/

theorem Res.bind_eq_thrown {α β : Type} {r : Res α} {k : α → Parser → Res β} {q : Parser} :
    r.bind k = Res.thrown q ↔ r = Res.thrown q ∨ ∃ a p, r = Res.ok a p ∧ k a p = Res.thrown q := by
  cases r with
  | ok a p =>
    simp only [Res.bind, Res.ok.injEq]
    constructor
    · exact fun h => Or.inr ⟨a, p, ⟨rfl, rfl⟩, h⟩
    · rintro (h | ⟨_, _, ⟨rfl, rfl⟩, h⟩)
      · cases h
      · exact h
  | thrown p => simp [Res.bind]
  | undefined => simp [Res.bind]
  | timeout => simp [Res.bind]

namespace Res.RelF

variable {α β : Type} {J : α → Parser → α → Parser → Prop}
  {J2 : β → Parser → β → Parser → Prop}

theorem of_ok {a b : α} {q s : Parser} (h : J a q b s) :
    Res.RelF J (Res.ok a q) (fun _ => Res.ok b s) := by
  refine ⟨fun a1 q1 e => ?_, fun q1 e => ?_⟩
  · cases e
    exact ⟨b, s, h, 0, fun _ _ => rfl⟩
  · cases e

theorem of_undefined {f : Nat → Res α} : Res.RelF J Res.undefined f := by
  refine ⟨fun _ _ e => ?_, fun _ e => ?_⟩ <;> cases e

theorem of_timeout {f : Nat → Res α} : Res.RelF J Res.timeout f := by
  refine ⟨fun _ _ e => ?_, fun _ e => ?_⟩ <;> cases e

theorem of_thrown {q s : Parser} : Res.RelF J (Res.thrown q) (fun _ => Res.thrown s) := by
  refine ⟨fun _ _ e => ?_, fun _ _ => ⟨s, 0, fun _ _ => rfl⟩⟩
  cases e

theorem weaken {J1 : α → Parser → α → Parser → Prop} {r : Res α} {f : Nat → Res α}
    (h : Res.RelF J r f) (hJ : ∀ a q b s, r = Res.ok a q → J a q b s → J1 a q b s) :
    Res.RelF J1 r f := by
  refine ⟨fun a q e => ?_, h.2⟩
  obtain ⟨b, s, hj, hf⟩ := h.1 a q e
  exact ⟨b, s, hJ a q b s e hj, hf⟩

theorem congr {r : Res α} {f g : Nat → Res α} (hfg : ∀ fuel, f fuel = g fuel)
    (h : Res.RelF J r g) : Res.RelF J r f := by
  have e : f = g := funext hfg
  rw [e]; exact h

/-- The fuel-indexed call may be given with one unit of fuel more. -/
theorem of_succ {r : Res α} {f : Nat → Res α} (h : Res.RelF J r (fun fuel => f (fuel + 1))) :
    Res.RelF J r f := by
  refine ⟨fun a q e => ?_, fun q e => ?_⟩
  · obtain ⟨b, s, hj, m, hf⟩ := h.1 a q e
    refine ⟨b, s, hj, m + 1, fun fuel hle => ?_⟩
    obtain ⟨fuel, rfl⟩ : ∃ n, fuel = n + 1 := ⟨fuel - 1, by omega⟩
    exact hf fuel (by omega)
  · obtain ⟨s, m, hf⟩ := h.2 q e
    refine ⟨s, m + 1, fun fuel hle => ?_⟩
    obtain ⟨fuel, rfl⟩ : ∃ n, fuel = n + 1 := ⟨fuel - 1, by omega⟩
    exact hf fuel (by omega)

/-- Sequencing of matched calls. -/
theorem bind {r : Res α} {f : Nat → Res α} {k : α → Parser → Res β}
    {k1 : Nat → α → Parser → Res β} (h : Res.RelF J r f)
    (hk : ∀ a q b s, r = Res.ok a q → J a q b s →
      Res.RelF J2 (k a q) (fun fuel => k1 fuel b s)) :
    Res.RelF J2 (r.bind k) (fun fuel => (f fuel).bind (k1 fuel)) := by
  refine ⟨fun c q2 e => ?_, fun q2 e => ?_⟩
  · obtain ⟨a, q, e1, e2⟩ := Res.bind_eq_ok.1 e
    obtain ⟨b, s, hj, m1, hf⟩ := h.1 a q e1
    obtain ⟨d, s2, hj2, m2, hf2⟩ := (hk a q b s e1 hj).1 c q2 e2
    refine ⟨d, s2, hj2, max m1 m2, fun fuel hle => ?_⟩
    show (f fuel).bind (k1 fuel) = _
    rw [hf fuel (le_trans (le_max_left _ _) hle)]
    exact hf2 fuel (le_trans (le_max_right _ _) hle)
  · rcases Res.bind_eq_thrown.1 e with e1 | ⟨a, q, e1, e2⟩
    · obtain ⟨s, m, hf⟩ := h.2 q2 e1
      exact ⟨s, m, fun fuel hle => by
        show (f fuel).bind (k1 fuel) = _
        rw [hf fuel hle]; rfl⟩
    · obtain ⟨b, s, hj, m1, hf⟩ := h.1 a q e1
      obtain ⟨s2, m2, hf2⟩ := (hk a q b s e1 hj).2 q2 e2
      refine ⟨s2, max m1 m2, fun fuel hle => ?_⟩
      show (f fuel).bind (k1 fuel) = _
      rw [hf fuel (le_trans (le_max_left _ _) hle)]
      exact hf2 fuel (le_trans (le_max_right _ _) hle)

end Res.RelF

namespace Parser

theorem isAtEnd_eq (tokens : List Token) (p : Parser) :
    isAtEnd tokens p =
      match tokens[p.current]? with
      | none => Res.undefined
      | some t => Res.ok (t.type == TokenType.EOF_TOKEN) p := by
  unfold isAtEnd peek
  cases tokens[p.current]? <;> rfl

theorem check_eq (tokens : List Token) (p : Parser) (type : TokenType) :
    check tokens p type =
      match tokens[p.current]? with
      | none => Res.undefined
      | some t => Res.ok (t.type != TokenType.EOF_TOKEN && t.type == type) p := by
  unfold check
  rw [isAtEnd_eq]
  unfold peek
  cases h : tokens[p.current]? with
  | none => rfl
  | some t =>
    by_cases he : t.type = TokenType.EOF_TOKEN
    · simp [Res.bind, he]
    · simp [Res.bind, he, h]

theorem advance_eq {tokens : List Token} {p : Parser} {t : Token}
    (h : tokens[p.current]? = some t) (he : t.type ≠ TokenType.EOF_TOKEN) :
    advance tokens p = Res.ok t ⟨p.current + 1, p.cerr⟩ := by
  unfold advance
  rw [isAtEnd_eq, h]
  simp only [Res.bind, beq_iff_eq, he, if_false]
  exact previous_eq_ok.2 ⟨by simp, by simpa using h, rfl⟩

theorem match_eq (tokens : List Token) (p : Parser) (type : TokenType)
    (types : List TokenType) :
    match_ tokens p (type :: types) =
      match tokens[p.current]? with
      | none => Res.undefined
      | some t =>
        if t.type ≠ TokenType.EOF_TOKEN ∧ t.type ∈ type :: types then
          Res.ok true ⟨p.current + 1, p.cerr⟩
        else Res.ok false p := by
  cases h : tokens[p.current]? with
  | none => simp [match_, check_eq, h, Res.bind]
  | some t =>
    simp only
    by_cases hc : t.type ≠ TokenType.EOF_TOKEN ∧ t.type ∈ type :: types
    · rw [if_pos hc]; exact match_hit h hc.2 hc.1
    · rw [if_neg hc]
      apply match_miss h
      by_cases he : t.type = TokenType.EOF_TOKEN
      · exact Or.inl he
      · exact Or.inr fun hm => hc ⟨he, hm⟩

theorem consume_eq (tokens : List Token) (p : Parser) (type : TokenType) (message : String) :
    consume tokens p type message =
      match tokens[p.current]? with
      | none => Res.undefined
      | some t =>
        if t.type ≠ TokenType.EOF_TOKEN ∧ t.type = type then
          Res.ok t ⟨p.current + 1, p.cerr⟩
        else Res.ok t ⟨p.current, p.cerr ++ [ParseDiag.parseError message t.line]⟩ := by
  unfold consume
  rw [check_eq]
  cases h : tokens[p.current]? with
  | none => rfl
  | some t =>
    simp only [Res.bind]
    by_cases hc : t.type ≠ TokenType.EOF_TOKEN ∧ t.type = type
    · have hb : (t.type != TokenType.EOF_TOKEN && t.type == type) = true := by
        have h1 := hc.1
        have h2 := hc.2
        have h3 : ¬ (type = TokenType.EOF_TOKEN) := h2 ▸ h1
        simp [h2, h3]
      rw [if_pos hc, if_pos hb]
      exact advance_eq h hc.1
    · have hb : ¬ ((t.type != TokenType.EOF_TOKEN && t.type == type) = true) := by
        simpa using hc
      rw [if_neg hc, if_neg hb]
      simp [peek, h, Res.bind]

theorem previous_eq (tokens : List Token) (p : Parser) :
    previous tokens p =
      if p.current = 0 then Res.undefined
      else
        match tokens[p.current - 1]? with
        | some t => Res.ok t p
        | none => Res.undefined := rfl

theorem atBlockEnd_eq (tokens : List Token) (p : Parser) (types : List TokenType) :
    atBlockEnd tokens p types =
      match tokens[p.current]? with
      | none => Res.undefined
      | some t =>
        Res.ok (t.type == TokenType.EOF_TOKEN ||
          (t.type != TokenType.EOF_TOKEN && decide (t.type ∈ types))) p := by
  induction types with
  | nil =>
    rw [atBlockEnd, isAtEnd_eq]
    cases tokens[p.current]? <;> simp
  | cons type types ih =>
    rw [atBlockEnd, check_eq]
    cases h : tokens[p.current]? with
    | none => rfl
    | some t =>
      simp only [Res.bind]
      rw [ih, h]
      simp only
      by_cases he : t.type = TokenType.EOF_TOKEN
      · simp [he]
      · by_cases hty : t.type = type
        · have he2 : ¬ (type = TokenType.EOF_TOKEN) := hty ▸ he
          simp [he, hty, he2]
        · simp [he, hty]

/-- One step of `skipNewlines`. -/
theorem skipNewlines_eq (tokens : List Token) (p : Parser) :
    skipNewlines tokens p =
      match tokens[p.current]? with
      | none => Res.undefined
      | some t =>
        if t.type = TokenType.NEWLINE then skipNewlines tokens ⟨p.current + 1, p.cerr⟩
        else Res.ok () p := by
  cases h : tokens[p.current]? with
  | none =>
    have hge : tokens.length ≤ p.current := by
      rcases Nat.lt_or_ge p.current tokens.length with h1 | h1
      · rw [List.getElem?_eq_getElem h1] at h; cases h
      · exact h1
    simp [skipNewlines, List.drop_eq_nil_of_le hge, skipNewlinesFrom]
  | some t =>
    have hlt : p.current < tokens.length := by
      rcases Nat.lt_or_ge p.current tokens.length with h1 | h1
      · exact h1
      · rw [List.getElem?_eq_none h1] at h; cases h
    rw [List.getElem?_eq_getElem hlt] at h
    cases h
    simp only [skipNewlines, List.drop_eq_getElem_cons hlt, skipNewlinesFrom]
    split_ifs <;> rfl

end Parser

namespace Parser

section

variable {T T1 : List Token} {a c : Nat}

theorem startsStatement_of_comment {type : TokenType} (h : isCommentKeyword type = true) :
    startsStatement type = true := by
  simp only [isCommentKeyword, Bool.or_eq_true, beq_iff_eq] at h
  rcases h with h | h <;> rw [h] <;> rfl

theorem PosEq.posRel {p p1 : Parser} (h : PosEq a c p p1) : PosRel a c p p1 := by
  rcases h with h | h
  · exact Or.inl h
  · exact Or.inr (Or.inl h)

/-- At corresponding positions the two sequences hold the same token, or a token that
starts a statement and the keyword of the comment. -/
theorem tokens_of_posRel (hs : Inserted T T1 a c) {p p1 : Parser} (hR : PosRel a c p p1) :
    T1[p1.current]? = T[p.current]? ∨
      ∃ t k, T[p.current]? = some t ∧ T1[p1.current]? = some k ∧
        startsStatement t.type = true ∧ startsStatement k.type = true ∧
        p.current = a ∧ p1.current = a := by
  rcases hR with ⟨h1, h2⟩ | ⟨h1, h2⟩ | ⟨h1, h2⟩
  · left; rw [h2]; exact hs.before _ h1
  · left; rw [h2]; exact hs.after _ h1
  · right
    obtain ⟨t, ht, hst⟩ := hs.head
    obtain ⟨k, hk, hck⟩ := hs.keyword
    exact ⟨t, k, by rw [h1]; exact ht, by rw [h2]; exact hk, hst,
      startsStatement_of_comment hck, h1, h2⟩

theorem tokens_of_posEq (hs : Inserted T T1 a c) {p p1 : Parser} (hE : PosEq a c p p1) :
    T1[p1.current]? = T[p.current]? := by
  rcases hE with ⟨h1, h2⟩ | ⟨h1, h2⟩
  · rw [h2]; exact hs.before _ h1
  · rw [h2]; exact hs.after _ h1

/-- Stepping over a token that both sequences hold keeps the positions in
correspondence. -/
theorem posRel_step (hs : Inserted T T1 a c) {p p1 : Parser} (hR : PosRel a c p p1)
    (hne : ¬ (p.current = a ∧ p1.current = a)) (cerr cerr1 : List ParseDiag) :
    PosRel a c ⟨p.current + 1, cerr⟩ ⟨p1.current + 1, cerr1⟩ ∧
      Look T T1 ⟨p.current + 1, cerr⟩ ⟨p1.current + 1, cerr1⟩ := by
  have htok : T1[p1.current]? = T[p.current]? := by
    rcases tokens_of_posRel hs hR with h | ⟨_, _, _, _, _, _, h1, h2⟩
    · exact h
    · exact absurd ⟨h1, h2⟩ hne
  refine ⟨?_, by simp, by simp, by simpa using htok⟩
  rcases hR with ⟨h1, h2⟩ | ⟨h1, h2⟩ | ⟨h1, h2⟩
  · by_cases h : p.current + 1 < a
    · exact Or.inl ⟨h, by simp [h2]⟩
    · exact Or.inr (Or.inr ⟨by simp only; omega, by simp only; omega⟩)
  · exact Or.inr (Or.inl ⟨by simp only; omega, by simp only; omega⟩)
  · exact absurd ⟨h1, h2⟩ hne

/-- Stepping over a token other than `NEWLINE` that both sequences hold leads to
positions at which they hold the same token again. -/
theorem posEq_step (hs : Inserted T T1 a c) {p p1 : Parser} (hR : PosRel a c p p1)
    (hne : ¬ (p.current = a ∧ p1.current = a)) {t : Token} (ht : T[p.current]? = some t)
    (hnl : t.type ≠ TokenType.NEWLINE) (cerr cerr1 : List ParseDiag) :
    PosEq a c ⟨p.current + 1, cerr⟩ ⟨p1.current + 1, cerr1⟩ := by
  rcases hR with ⟨h1, h2⟩ | ⟨h1, h2⟩ | ⟨h1, h2⟩
  · by_cases h : p.current + 1 < a
    · exact Or.inl ⟨h, by simp [h2]⟩
    · rcases hs.last with h0 | ⟨t0, ht0, hn0⟩
      · omega
      · have e : a - 1 = p.current := by omega
        rw [e, ht] at ht0
        cases ht0
        exact absurd hn0 hnl
  · exact Or.inr ⟨by simp only; omega, by simp only; omega⟩
  · exact absurd ⟨h1, h2⟩ hne

theorem ne_of_startsStatement {x y : TokenType} (hx : startsStatement x = true)
    (hy : startsStatement y = false) : x ≠ y := by
  intro h
  rw [h, hy] at hx
  cases hx

theorem isAtEnd_sim (hs : Inserted T T1 a c) {p p1 : Parser} (hR : PosRel a c p p1) :
    Res.RelF (fun b q b1 s => b = b1 ∧ q = p ∧ s = p1) (isAtEnd T p)
      (fun _ => isAtEnd T1 p1) := by
  rw [isAtEnd_eq, isAtEnd_eq]
  rcases tokens_of_posRel hs hR with he | ⟨t, k, ht, hk, hst, hsk, _, _⟩
  · rw [he]
    cases T[p.current]? with
    | none => exact Res.RelF.of_undefined
    | some t => exact Res.RelF.of_ok ⟨rfl, rfl, rfl⟩
  · rw [ht, hk]
    refine Res.RelF.of_ok ⟨?_, rfl, rfl⟩
    have h1 := ne_of_startsStatement hst (y := TokenType.EOF_TOKEN) rfl
    have h2 := ne_of_startsStatement hsk (y := TokenType.EOF_TOKEN) rfl
    simp [h1, h2]

theorem atBlockEnd_sim (hs : Inserted T T1 a c) {p p1 : Parser} (hR : PosRel a c p p1)
    {types : List TokenType} (hts : ∀ type ∈ types, startsStatement type = false) :
    Res.RelF (fun b q b1 s => b = b1 ∧ q = p ∧ s = p1) (atBlockEnd T p types)
      (fun _ => atBlockEnd T1 p1 types) := by
  rw [atBlockEnd_eq, atBlockEnd_eq]
  rcases tokens_of_posRel hs hR with he | ⟨t, k, ht, hk, hst, hsk, _, _⟩
  · rw [he]
    cases T[p.current]? with
    | none => exact Res.RelF.of_undefined
    | some t => exact Res.RelF.of_ok ⟨rfl, rfl, rfl⟩
  · rw [ht, hk]
    refine Res.RelF.of_ok ⟨?_, rfl, rfl⟩
    have h1 := ne_of_startsStatement hst (y := TokenType.EOF_TOKEN) rfl
    have h2 := ne_of_startsStatement hsk (y := TokenType.EOF_TOKEN) rfl
    have h3 : t.type ∉ types := fun hm => ne_of_startsStatement hst (hts _ hm) rfl
    have h4 : k.type ∉ types := fun hm => ne_of_startsStatement hsk (hts _ hm) rfl
    simp [h1, h2, h3, h4]

/-- The call `match` on token types none of which starts a statement, or at a position
where both sequences hold the same token. -/
theorem match_sim (hs : Inserted T T1 a c) {p p1 : Parser} (hR : PosRel a c p p1)
    {type : TokenType} {types : List TokenType}
    (hts : (∀ x ∈ type :: types, startsStatement x = false) ∨ PosEq a c p p1)
    (hnl : TokenType.NEWLINE ∉ type :: types) :
    Res.RelF (fun b q b1 s => b = b1 ∧ PosRel a c q s ∧
        (b = true → Look T T1 q s ∧ PosEq a c q s) ∧ (b = false → q = p ∧ s = p1))
      (match_ T p (type :: types)) (fun _ => match_ T1 p1 (type :: types)) := by
  rw [match_eq, match_eq]
  have key : T1[p1.current]? = T[p.current]? → Res.RelF
      (fun b q b1 s => b = b1 ∧ PosRel a c q s ∧
        (b = true → Look T T1 q s ∧ PosEq a c q s) ∧ (b = false → q = p ∧ s = p1))
      (match T[p.current]? with
        | none => Res.undefined
        | some t =>
          if t.type ≠ TokenType.EOF_TOKEN ∧ t.type ∈ type :: types then
            Res.ok true ⟨p.current + 1, p.cerr⟩
          else Res.ok false p)
      (fun _ => match T1[p1.current]? with
        | none => Res.undefined
        | some t =>
          if t.type ≠ TokenType.EOF_TOKEN ∧ t.type ∈ type :: types then
            Res.ok true ⟨p1.current + 1, p1.cerr⟩
          else Res.ok false p1) := by
    intro he
    rw [he]
    cases hT : T[p.current]? with
    | none => exact Res.RelF.of_undefined
    | some t =>
      simp only
      by_cases hc : t.type ≠ TokenType.EOF_TOKEN ∧ t.type ∈ type :: types
      · simp only [if_pos hc]
        have hne : ¬ (p.current = a ∧ p1.current = a) := by
          rintro ⟨h1, h2⟩
          rcases hts with hts | hE
          · obtain ⟨t0, ht0, hst0⟩ := hs.head
            rw [h1, ht0] at hT
            cases hT
            exact ne_of_startsStatement hst0 (hts _ hc.2) rfl
          · rcases hE with ⟨h3, _⟩ | ⟨_, h4⟩
            · omega
            · have := hs.two; omega
        have hnl1 : t.type ≠ TokenType.NEWLINE := fun h => hnl (h ▸ hc.2)
        obtain ⟨h1, h2⟩ := posRel_step hs hR hne p.cerr p1.cerr
        exact Res.RelF.of_ok ⟨rfl, h1,
          fun _ => ⟨h2, posEq_step hs hR hne hT hnl1 p.cerr p1.cerr⟩, fun h => (by cases h)⟩
      · simp only [if_neg hc]
        exact Res.RelF.of_ok ⟨rfl, hR, fun h => (by cases h), fun _ => ⟨rfl, rfl⟩⟩
  rcases tokens_of_posRel hs hR with he | ⟨t, k, ht, hk, hst, hsk, h1, h2⟩
  · exact key he
  · rcases hts with hts | hE
    · rw [ht, hk]
      have h3 : t.type ∉ type :: types := fun hm => ne_of_startsStatement hst (hts _ hm) rfl
      have h4 : k.type ∉ type :: types := fun hm => ne_of_startsStatement hsk (hts _ hm) rfl
      simp only [h3, h4, and_false, if_false]
      exact Res.RelF.of_ok ⟨rfl, hR, fun h => (by cases h), fun _ => ⟨rfl, rfl⟩⟩
    · exact key (tokens_of_posEq hs hE)

/-- The call `consume` for a token type that does not start a statement. -/
theorem consume_sim (hs : Inserted T T1 a c) {p p1 : Parser} (hR : PosRel a c p p1)
    {type : TokenType} (ht : startsStatement type = false) (message : String) :
    Res.RelF (fun _ q _ s => PosRel a c q s ∧ (Look T T1 p p1 → Look T T1 q s))
      (consume T p type message) (fun _ => consume T1 p1 type message) := by
  rw [consume_eq, consume_eq]
  rcases tokens_of_posRel hs hR with he | ⟨t, k, htk, hk, hst, hsk, h1, h2⟩
  · rw [he]
    cases hT : T[p.current]? with
    | none => exact Res.RelF.of_undefined
    | some t =>
      simp only
      by_cases hc : t.type ≠ TokenType.EOF_TOKEN ∧ t.type = type
      · simp only [if_pos hc]
        have hne : ¬ (p.current = a ∧ p1.current = a) := by
          rintro ⟨h1, h2⟩
          obtain ⟨t0, ht0, hst0⟩ := hs.head
          rw [h1, ht0] at hT
          cases hT
          exact ne_of_startsStatement hst0 ht hc.2
        obtain ⟨h1, h2⟩ := posRel_step hs hR hne p.cerr p1.cerr
        exact Res.RelF.of_ok ⟨h1, fun _ => h2⟩
      · simp only [if_neg hc]
        exact Res.RelF.of_ok ⟨hR, fun h => h⟩
  · rw [htk, hk]
    have h3 : t.type ≠ type := ne_of_startsStatement hst ht
    have h4 : k.type ≠ type := ne_of_startsStatement hsk ht
    simp only [h3, h4, and_false, if_false]
    exact Res.RelF.of_ok ⟨hR, fun h => h⟩

theorem previous_sim {p p1 : Parser} (hL : Look T T1 p p1) :
    Res.RelF (fun t q t1 s => t = t1 ∧ q = p ∧ s = p1) (previous T p)
      (fun _ => previous T1 p1) := by
  obtain ⟨h1, h2, h3⟩ := hL
  rw [previous_eq, previous_eq, if_neg h1, if_neg h2, h3]
  cases T[p.current - 1]? with
  | none => exact Res.RelF.of_undefined
  | some t => exact Res.RelF.of_ok ⟨rfl, rfl, rfl⟩

theorem peek_sim (hs : Inserted T T1 a c) {p p1 : Parser} (hR : PosRel a c p p1) :
    Res.RelF (fun _ q _ s => q = p ∧ s = p1) (peek T p) (fun _ => peek T1 p1) := by
  unfold peek
  rcases tokens_of_posRel hs hR with he | ⟨t, k, htk, hk, _, _, _, _⟩
  · rw [he]
    cases T[p.current]? with
    | none => exact Res.RelF.of_undefined
    | some t => exact Res.RelF.of_ok ⟨rfl, rfl⟩
  · rw [htk, hk]
    exact Res.RelF.of_ok ⟨rfl, rfl⟩

end

end Parser

namespace Parser

section

variable {T T1 : List Token} {a c : Nat}

theorem skipNewlines_sim_aux (hs : Inserted T T1 a c) (n : Nat) :
    ∀ p p1 : Parser, T.length - p.current = n → PosRel a c p p1 →
      Res.RelF (fun _ q _ s => PosRel a c q s ∧ p.current ≤ q.current ∧
          p1.current ≤ s.current ∧ (p1.current ≤ a → s.current ≤ a))
        (skipNewlines T p) (fun _ => skipNewlines T1 p1) := by
  induction n using Nat.strong_induction_on with
  | _ n ih =>
    intro p p1 hn hR
    rw [skipNewlines_eq T p]
    refine Res.RelF.congr (fun _ => skipNewlines_eq T1 p1) ?_
    rcases tokens_of_posRel hs hR with he | ⟨t, k, ht, hk, hst, hsk, h1, h2⟩
    · rw [he]
      cases hT : T[p.current]? with
      | none => exact Res.RelF.of_undefined
      | some t =>
        have hlt : p.current < T.length := by
          rcases Nat.lt_or_ge p.current T.length with h1 | h1
          · exact h1
          · rw [List.getElem?_eq_none h1] at hT; cases hT
        simp only
        by_cases hnl : t.type = TokenType.NEWLINE
        · simp only [if_pos hnl]
          have hne : ¬ (p.current = a ∧ p1.current = a) := by
            rintro ⟨h1, h2⟩
            obtain ⟨t0, ht0, hst0⟩ := hs.head
            rw [h1, ht0] at hT
            cases hT
            rw [hnl] at hst0
            cases hst0
          obtain ⟨h1, _⟩ := posRel_step hs hR hne p.cerr p1.cerr
          refine (ih (T.length - (p.current + 1)) (by omega) ⟨p.current + 1, p.cerr⟩
            ⟨p1.current + 1, p1.cerr⟩ rfl h1).weaken ?_
          intro _ q _ s _ hj
          refine ⟨hj.1, by have := hj.2.1; simp only at this; omega,
            by have := hj.2.2.1; simp only at this; omega, fun hle => ?_⟩
          have hlt1 : p1.current ≠ a := by
            intro h2
            obtain ⟨k, hk, hck⟩ := hs.keyword
            rw [← h2, he, hT] at hk
            cases hk
            rw [hnl] at hck
            cases hck
          exact hj.2.2.2 (by simp only; omega)
        · simp only [if_neg hnl]
          exact Res.RelF.of_ok ⟨hR, le_refl _, le_refl _, fun h => h⟩
    · rw [ht, hk]
      have h3 : t.type ≠ TokenType.NEWLINE := ne_of_startsStatement hst rfl
      have h4 : k.type ≠ TokenType.NEWLINE := ne_of_startsStatement hsk rfl
      simp only [if_neg h3, if_neg h4]
      exact Res.RelF.of_ok ⟨hR, le_refl _, le_refl _, fun h => h⟩

/-- The loop `skipNewlines` from corresponding positions ends at corresponding
positions. -/
theorem skipNewlines_sim (hs : Inserted T T1 a c) {p p1 : Parser} (hR : PosRel a c p p1) :
    Res.RelF (fun _ q _ s => PosRel a c q s ∧ p.current ≤ q.current ∧
        p1.current ≤ s.current ∧ (p1.current ≤ a → s.current ≤ a))
      (skipNewlines T p) (fun _ => skipNewlines T1 p1) :=
  skipNewlines_sim_aux hs _ p p1 rfl hR

end

end Parser

namespace Parser

section

variable {T T1 : List Token} {a c : Nat}

theorem Level.ops_spec (level : Level) :
    ∃ type types, level.ops = type :: types ∧
      (∀ x ∈ type :: types, startsStatement x = false) ∧
      TokenType.NEWLINE ∉ type :: types := by
  cases level <;> exact ⟨_, _, rfl, by decide, by decide⟩

/-- The expression functions run on both sequences from corresponding positions return
the same expression at corresponding positions. -/
theorem expression_sim (hs : Inserted T T1 a c) (n : Nat) :
    (∀ p p1, PosRel a c p p1 →
      Res.RelF (fun e q e1 s => e = e1 ∧ PosRel a c q s) (expression n T p)
        (fun fuel => expression fuel T1 p1)) ∧
    (∀ level p p1, PosRel a c p p1 →
      Res.RelF (fun e q e1 s => e = e1 ∧ PosRel a c q s) (binaryLevel n level T p)
        (fun fuel => binaryLevel fuel level T1 p1)) ∧
    (∀ level expr p p1, PosRel a c p p1 →
      Res.RelF (fun e q e1 s => e = e1 ∧ PosRel a c q s) (binaryLoop n level T expr p)
        (fun fuel => binaryLoop fuel level T1 expr p1)) ∧
    (∀ p p1, PosRel a c p p1 →
      Res.RelF (fun e q e1 s => e = e1 ∧ PosRel a c q s) (primary n T p)
        (fun fuel => primary fuel T1 p1)) := by
  induction n with
  | zero =>
    refine ⟨?_, ?_, ?_, ?_⟩ <;> intros <;> exact Res.RelF.of_timeout
  | succ n ih =>
    obtain ⟨ihE, ihL, ihLoop, ihP⟩ := ih
    have operand : ∀ (level : Level) p p1, PosRel a c p p1 →
        Res.RelF (fun e q e1 s => e = e1 ∧ PosRel a c q s)
          (match level.next with
            | some next => binaryLevel n next T p
            | none => primary n T p)
          (fun fuel => match level.next with
            | some next => binaryLevel fuel next T1 p1
            | none => primary fuel T1 p1) := by
      intro level p p1 hR
      cases level.next with
      | none => exact ihP p p1 hR
      | some next => exact ihL next p p1 hR
    refine ⟨?_, ?_, ?_, ?_⟩
    · intro p p1 hR
      apply Res.RelF.of_succ
      rw [expression]
      refine Res.RelF.congr (fun fuel => by rw [expression]) ?_
      exact ihL _ p p1 hR
    · intro level p p1 hR
      apply Res.RelF.of_succ
      rw [binaryLevel]
      refine Res.RelF.congr (fun fuel => by rw [binaryLevel]) ?_
      refine Res.RelF.bind (operand level p p1 hR) ?_
      rintro e q _ s _ ⟨rfl, hR1⟩
      exact ihLoop level e q s hR1
    · intro level expr p p1 hR
      apply Res.RelF.of_succ
      rw [binaryLoop]
      refine Res.RelF.congr (fun fuel => by rw [binaryLoop]) ?_
      obtain ⟨type, types, hops, hns, hnl⟩ := level.ops_spec
      rw [hops]
      refine Res.RelF.bind (skipNewlines_sim hs hR) ?_
      rintro _ q _ s _ ⟨hR1, _, _, _⟩
      refine Res.RelF.bind (match_sim hs hR1 (Or.inl hns) hnl) ?_
      rintro found q2 _ s2 _ ⟨rfl, hR2, hlook, _⟩
      cases found with
      | false =>
        simp only [Bool.false_eq_true, if_false]
        exact Res.RelF.of_ok ⟨rfl, hR2⟩
      | true =>
        simp only [if_true]
        refine Res.RelF.bind (previous_sim (hlook rfl).1) ?_
        rintro o q3 _ s3 _ ⟨rfl, rfl, rfl⟩
        refine Res.RelF.bind (skipNewlines_sim hs hR2) ?_
        rintro _ q4 _ s4 _ ⟨hR4, _, _, _⟩
        refine Res.RelF.bind (operand level q4 s4 hR4) ?_
        rintro right q5 _ s5 _ ⟨rfl, hR5⟩
        exact ihLoop level _ q5 s5 hR5
    · intro p p1 hR
      apply Res.RelF.of_succ
      rw [primary]
      refine Res.RelF.congr (fun fuel => by rw [primary]) ?_
      refine Res.RelF.bind (match_sim hs hR (Or.inl (by decide)) (by decide)) ?_
      rintro isString q _ s _ ⟨rfl, hR1, hlook, hsame⟩
      cases isString with
      | true =>
        simp only [if_true]
        refine Res.RelF.bind (previous_sim (hlook rfl).1) ?_
        rintro t q2 _ s2 _ ⟨rfl, rfl, rfl⟩
        exact Res.RelF.of_ok ⟨rfl, hR1⟩
      | false =>
        simp only [Bool.false_eq_true, if_false]
        refine Res.RelF.bind (match_sim hs hR1 (Or.inl (by decide)) (by decide)) ?_
        rintro isInteger q2 _ s2 _ ⟨rfl, hR2, hlook2, _⟩
        cases isInteger with
        | true =>
          simp only [if_true]
          refine Res.RelF.bind (previous_sim (hlook2 rfl).1) ?_
          rintro t q3 _ s3 _ ⟨rfl, rfl, rfl⟩
          cases stoi t.value with
          | none => exact Res.RelF.of_thrown
          | some v => exact Res.RelF.of_ok ⟨rfl, hR2⟩
        | false =>
          simp only [Bool.false_eq_true, if_false]
          refine Res.RelF.bind (match_sim hs hR2 (Or.inl (by decide)) (by decide)) ?_
          rintro isParen q3 _ s3 _ ⟨rfl, hR3, _, _⟩
          cases isParen with
          | true =>
            simp only [if_true]
            refine Res.RelF.bind (ihE q3 s3 hR3) ?_
            rintro expr q4 _ s4 _ ⟨rfl, hR4⟩
            refine Res.RelF.bind (consume_sim hs hR4 (by decide) _) ?_
            rintro _ q5 _ s5 _ ⟨hR5, _⟩
            exact Res.RelF.of_ok ⟨rfl, hR5⟩
          | false =>
            simp only [Bool.false_eq_true, if_false]
            refine Res.RelF.bind (match_sim hs hR3 (Or.inl (by decide)) (by decide)) ?_
            rintro isIdentifier q4 _ s4 _ ⟨rfl, hR4, hlook4, _⟩
            cases isIdentifier with
            | true =>
              simp only [if_true]
              refine Res.RelF.bind (previous_sim (hlook4 rfl).1) ?_
              rintro t q5 _ s5 _ ⟨rfl, rfl, rfl⟩
              refine Res.RelF.bind (match_sim hs hR4 (Or.inl (by decide)) (by decide)) ?_
              rintro isBracket q6 _ s6 _ ⟨rfl, hR6, _, _⟩
              cases isBracket with
              | true =>
                simp only [if_true]
                refine Res.RelF.bind (ihE q6 s6 hR6) ?_
                rintro index q7 _ s7 _ ⟨rfl, hR7⟩
                refine Res.RelF.bind (consume_sim hs hR7 (by decide) _) ?_
                rintro _ q8 _ s8 _ ⟨hR8, _⟩
                exact Res.RelF.of_ok ⟨rfl, hR8⟩
              | false =>
                simp only [Bool.false_eq_true, if_false]
                exact Res.RelF.of_ok ⟨rfl, hR6⟩
            | false =>
              simp only [Bool.false_eq_true, if_false]
              refine Res.RelF.bind (peek_sim hs hR4) ?_
              rintro t q5 t1 s5 _ ⟨rfl, rfl⟩
              exact Res.RelF.of_ok ⟨rfl, hR4⟩

end

end Parser

namespace Parser

/-- One step of the loop of `statement` that skips a decorative comment. -/
theorem skipLineFrom_eq (tokens : List Token) (i : Nat) :
    skipLineFrom (tokens.drop i) i =
      match tokens[i]? with
      | none => none
      | some t =>
        if t.type = TokenType.NEWLINE ∨ t.type = TokenType.EOF_TOKEN then some i
        else skipLineFrom (tokens.drop (i + 1)) (i + 1) := by
  cases h : tokens[i]? with
  | none =>
    have hge : tokens.length ≤ i := by
      rcases Nat.lt_or_ge i tokens.length with h1 | h1
      · rw [List.getElem?_eq_getElem h1] at h; cases h
      · exact h1
    simp [List.drop_eq_nil_of_le hge, skipLineFrom]
  | some t =>
    have hlt : i < tokens.length := by
      rcases Nat.lt_or_ge i tokens.length with h1 | h1
      · exact h1
      · rw [List.getElem?_eq_none h1] at h; cases h
    rw [List.getElem?_eq_getElem hlt] at h
    cases h
    simp only [List.drop_eq_getElem_cons hlt, skipLineFrom]

/-- The loop stops at the first `NEWLINE` or `EOF_TOKEN` token from position `i` on. -/
theorem skipLineFrom_first {tokens : List Token} {t : Token} (n : Nat) : ∀ (i : Nat),
    (∀ j, i ≤ j → j < i + n → ∃ u, tokens[j]? = some u ∧ u.type ≠ TokenType.NEWLINE ∧
      u.type ≠ TokenType.EOF_TOKEN) →
    tokens[i + n]? = some t → (t.type = TokenType.NEWLINE ∨ t.type = TokenType.EOF_TOKEN) →
    skipLineFrom (tokens.drop i) i = some (i + n) := by
  induction n with
  | zero =>
    intro i _ ht hty
    rw [skipLineFrom_eq, show i = i + 0 from rfl, ht]
    simp only [if_pos hty]
  | succ n ih =>
    intro i hrun ht hty
    obtain ⟨u, hu, hn1, hn2⟩ := hrun i (le_refl _) (by omega)
    rw [skipLineFrom_eq, hu]
    have hc : ¬ (u.type = TokenType.NEWLINE ∨ u.type = TokenType.EOF_TOKEN) := by
      rintro (h | h)
      · exact hn1 h
      · exact hn2 h
    simp only [if_neg hc]
    rw [ih (i + 1) (fun j h1 h2 => hrun j (by omega) (by omega))
      (by rwa [show i + 1 + n = i + (n + 1) by omega]) hty]
    congr 1
    omega

section

variable {T T1 : List Token} {a c : Nat}

theorem skipLineFrom_sim_aux (hs : Inserted T T1 a c) (n : Nat) :
    ∀ i i1 j : Nat, T.length - i = n → ((i < a ∧ i1 = i) ∨ (a ≤ i ∧ i1 = i + c)) →
      skipLineFrom (T.drop i) i = some j →
      ∃ j1, skipLineFrom (T1.drop i1) i1 = some j1 ∧
        ((j < a ∧ j1 = j) ∨ (a ≤ j ∧ j1 = j + c)) := by
  induction n using Nat.strong_induction_on with
  | _ n ih =>
    intro i i1 j hn hE h
    have he : T1[i1]? = T[i]? := by
      rcases hE with ⟨h1, h2⟩ | ⟨h1, h2⟩
      · rw [h2]; exact hs.before _ h1
      · rw [h2]; exact hs.after _ h1
    rw [skipLineFrom_eq] at h
    rw [skipLineFrom_eq, he]
    cases hT : T[i]? with
    | none => rw [hT] at h; cases h
    | some t =>
      rw [hT] at h
      simp only at h ⊢
      have hlt : i < T.length := by
        rcases Nat.lt_or_ge i T.length with h1 | h1
        · exact h1
        · rw [List.getElem?_eq_none h1] at hT; cases hT
      by_cases hc : t.type = TokenType.NEWLINE ∨ t.type = TokenType.EOF_TOKEN
      · rw [if_pos hc] at h ⊢
        cases h
        exact ⟨i1, rfl, hE⟩
      · rw [if_neg hc] at h ⊢
        refine ih (T.length - (i + 1)) (by omega) (i + 1) (i1 + 1) j rfl ?_ h
        rcases hE with ⟨h1, h2⟩ | ⟨h1, h2⟩
        · left
          refine ⟨?_, by omega⟩
          by_contra hge
          rcases hs.last with h0 | ⟨t0, ht0, hn0⟩
          · omega
          · have e : a - 1 = i := by omega
            rw [e, hT] at ht0
            cases ht0
            exact hc (Or.inl hn0)
        · right; exact ⟨by omega, by omega⟩

/-- The loop that skips a decorative comment, run on both sequences from positions at
which they hold the same token, ends at such positions. -/
theorem skipLineFrom_sim (hs : Inserted T T1 a c) {p p1 : Parser} (hE : PosEq a c p p1)
    {j : Nat} (h : skipLineFrom (T.drop p.current) p.current = some j) :
    ∃ j1, skipLineFrom (T1.drop p1.current) p1.current = some j1 ∧
      ∀ cerr cerr1, PosEq a c ⟨j, cerr⟩ ⟨j1, cerr1⟩ := by
  obtain ⟨j1, h1, h2⟩ := skipLineFrom_sim_aux hs _ p.current p1.current j rfl hE h
  exact ⟨j1, h1, fun _ _ => h2⟩

end

end Parser

namespace Parser

section

variable {T T1 : List Token} {a c : Nat}

theorem printStatement_sim (hs : Inserted T T1 a c) (n : Nat) {p p1 : Parser}
    (hR : PosRel a c p p1) :
    Res.RelF (fun st q st1 s => st = st1 ∧ PosRel a c q s) (printStatement n T p)
      (fun fuel => printStatement fuel T1 p1) := by
  unfold printStatement
  refine Res.RelF.bind ((expression_sim hs n).1 p p1 hR) ?_
  rintro e q _ s _ ⟨rfl, hR1⟩
  exact Res.RelF.of_ok ⟨rfl, hR1⟩

theorem varDeclaration_sim (hs : Inserted T T1 a c) {p p1 : Parser} (hR : PosRel a c p p1)
    (hL : Look T T1 p p1) :
    Res.RelF (fun st q st1 s => st = st1 ∧ PosRel a c q s) (varDeclaration T p)
      (fun _ => varDeclaration T1 p1) := by
  unfold varDeclaration
  refine Res.RelF.bind (consume_sim hs hR (by decide) _) ?_
  rintro _ q _ s _ ⟨hR1, hL1⟩
  refine Res.RelF.bind (previous_sim (hL1 hL)) ?_
  rintro nameToken _ _ _ _ ⟨rfl, rfl, rfl⟩
  refine Res.RelF.bind (consume_sim hs hR1 (by decide) _) ?_
  rintro _ q2 _ s2 _ ⟨hR2, hL2⟩
  have hLook2 := hL2 (hL1 hL)
  refine Res.RelF.bind (match_sim hs hR2 (Or.inl (by decide)) (by decide)) ?_
  rintro isInteger q3 _ s3 _ ⟨rfl, hR3, _, hsame3⟩
  cases isInteger with
  | true =>
    simp only [if_true]
    exact Res.RelF.of_ok ⟨rfl, hR3⟩
  | false =>
    obtain ⟨rfl, rfl⟩ := hsame3 rfl
    simp only [Bool.false_eq_true, if_false]
    refine Res.RelF.bind (match_sim hs hR2 (Or.inl (by decide)) (by decide)) ?_
    rintro isString q4 _ s4 _ ⟨rfl, hR4, _, hsame4⟩
    cases isString with
    | true =>
      simp only [if_true]
      exact Res.RelF.of_ok ⟨rfl, hR4⟩
    | false =>
      obtain ⟨rfl, rfl⟩ := hsame4 rfl
      simp only [Bool.false_eq_true, if_false]
      refine Res.RelF.bind (match_sim hs hR2 (Or.inl (by decide)) (by decide)) ?_
      rintro isArray q5 _ s5 _ ⟨rfl, hR5, hlook5, hsame5⟩
      cases isArray with
      | true =>
        simp only [if_true]
        refine Res.RelF.bind (consume_sim hs hR5 (by decide) _) ?_
        rintro _ q6 _ s6 _ ⟨hR6, hL6⟩
        refine Res.RelF.bind (consume_sim hs hR6 (by decide) _) ?_
        rintro _ q7 _ s7 _ ⟨hR7, hL7⟩
        refine Res.RelF.bind (previous_sim (hL7 (hL6 (hlook5 rfl).1))) ?_
        rintro sizeToken _ _ _ _ ⟨rfl, rfl, rfl⟩
        cases stoi sizeToken.value with
        | none => exact Res.RelF.of_thrown
        | some v => exact Res.RelF.of_ok ⟨rfl, hR7⟩
      | false =>
        simp only [Bool.false_eq_true, if_false]
        exact Res.RelF.of_ok ⟨rfl, hR5⟩

theorem assignment_sim (hs : Inserted T T1 a c) (n : Nat) {p p1 : Parser}
    (hR : PosRel a c p p1) (hL : Look T T1 p p1) :
    Res.RelF (fun st q st1 s => st = st1 ∧ PosRel a c q s) (assignment n T p)
      (fun fuel => assignment fuel T1 p1) := by
  unfold assignment
  refine Res.RelF.bind (consume_sim hs hR (by decide) _) ?_
  rintro _ q _ s _ ⟨hR1, hL1⟩
  refine Res.RelF.bind (previous_sim (hL1 hL)) ?_
  rintro nameToken _ _ _ _ ⟨rfl, rfl, rfl⟩
  refine Res.RelF.bind (match_sim hs hR1 (Or.inl (by decide)) (by decide)) ?_
  rintro isBracket q2 _ s2 _ ⟨rfl, hR2, _, _⟩
  refine Res.RelF.bind (J := fun e q e1 s => e = e1 ∧ PosRel a c q s) ?_ ?_
  · cases isBracket with
    | true =>
      simp only [if_true]
      refine Res.RelF.bind ((expression_sim hs n).1 q2 s2 hR2) ?_
      rintro index q3 _ s3 _ ⟨rfl, hR3⟩
      refine Res.RelF.bind (consume_sim hs hR3 (by decide) _) ?_
      rintro _ q4 _ s4 _ ⟨hR4, _⟩
      exact Res.RelF.of_ok ⟨rfl, hR4⟩
    | false =>
      simp only [Bool.false_eq_true, if_false]
      exact Res.RelF.of_ok ⟨rfl, hR2⟩
  · rintro index q5 _ s5 _ ⟨rfl, hR5⟩
    refine Res.RelF.bind (consume_sim hs hR5 (by decide) _) ?_
    rintro _ q6 _ s6 _ ⟨hR6, _⟩
    refine Res.RelF.bind ((expression_sim hs n).1 q6 s6 hR6) ?_
    rintro value q7 _ s7 _ ⟨rfl, hR7⟩
    exact Res.RelF.of_ok ⟨rfl, hR7⟩

theorem incrementStatement_sim (hs : Inserted T T1 a c) {p p1 : Parser}
    (hR : PosRel a c p p1) (hL : Look T T1 p p1) :
    Res.RelF (fun st q st1 s => st = st1 ∧ PosRel a c q s) (incrementStatement T p)
      (fun _ => incrementStatement T1 p1) := by
  unfold incrementStatement
  refine Res.RelF.bind (consume_sim hs hR (by decide) _) ?_
  rintro _ q _ s _ ⟨hR1, hL1⟩
  refine Res.RelF.bind (previous_sim (hL1 hL)) ?_
  rintro nameToken _ _ _ _ ⟨rfl, rfl, rfl⟩
  refine Res.RelF.bind (consume_sim hs hR1 (by decide) _) ?_
  rintro _ q2 _ s2 _ ⟨hR2, hL2⟩
  refine Res.RelF.bind (consume_sim hs hR2 (by decide) _) ?_
  rintro _ q3 _ s3 _ ⟨hR3, hL3⟩
  refine Res.RelF.bind (previous_sim (hL3 (hL2 (hL1 hL)))) ?_
  rintro amountToken _ _ _ _ ⟨rfl, rfl, rfl⟩
  cases stoi amountToken.value with
  | none => exact Res.RelF.of_thrown
  | some v => exact Res.RelF.of_ok ⟨rfl, hR3⟩

theorem readStatement_sim (hs : Inserted T T1 a c) {p p1 : Parser}
    (hR : PosRel a c p p1) (hL : Look T T1 p p1) :
    Res.RelF (fun st q st1 s => st = st1 ∧ PosRel a c q s) (readStatement T p)
      (fun _ => readStatement T1 p1) := by
  unfold readStatement
  refine Res.RelF.bind (consume_sim hs hR (by decide) _) ?_
  rintro _ q _ s _ ⟨hR1, hL1⟩
  refine Res.RelF.bind (previous_sim (hL1 hL)) ?_
  rintro nameToken _ _ _ _ ⟨rfl, rfl, rfl⟩
  exact Res.RelF.of_ok ⟨rfl, hR1⟩

end

end Parser

namespace Parser

/-- The token at which `skipNewlines` starts is a `NEWLINE`, unless nothing is
skipped. -/
theorem skipNewlines_first {tokens : List Token} {p q : Parser}
    (h : skipNewlines tokens p = Res.ok () q) :
    ∃ t, tokens[p.current]? = some t ∧ (t.type = TokenType.NEWLINE ∨ q = p) := by
  rw [skipNewlines_eq] at h
  cases hT : tokens[p.current]? with
  | none => rw [hT] at h; cases h
  | some t =>
    rw [hT] at h
    simp only at h
    by_cases hnl : t.type = TokenType.NEWLINE
    · exact ⟨t, rfl, Or.inl hnl⟩
    · rw [if_neg hnl] at h
      simp only [Res.ok.injEq, true_and] at h
      exact ⟨t, rfl, Or.inr h.symm⟩

/-- What `statement` does at a decorative comment: it returns no statement and stops at
the first `NEWLINE` or `EOF_TOKEN` token after the keyword. -/
theorem statement_comment {tokens : List Token} {p q : Parser} {k : Token} {j : Nat}
    (fuel : Nat) (hskip : skipNewlines tokens p = Res.ok () q)
    (hk : tokens[q.current]? = some k) (hck : isCommentKeyword k.type = true)
    (hline : skipLineFrom (tokens.drop (q.current + 1)) (q.current + 1) = some j) :
    statement (fuel + 1) tokens p = Res.ok none ⟨j, q.cerr⟩ := by
  have miss : ∀ type, type ≠ TokenType.OBEY_PARTY_LINE →
      type ≠ TokenType.DENOUNCE_IMPERIALIST_ERRORS → type ≠ TokenType.EOF_TOKEN →
      match_ tokens q [type] = Res.ok false q := by
    intro type h1 h2 h3
    apply match_miss hk
    right
    simp only [isCommentKeyword, Bool.or_eq_true, beq_iff_eq] at hck
    rcases hck with h | h <;> rw [h] <;> simp [Ne.symm h1, Ne.symm h2]
  have hit : match_ tokens q [TokenType.OBEY_PARTY_LINE,
      TokenType.DENOUNCE_IMPERIALIST_ERRORS] = Res.ok true ⟨q.current + 1, q.cerr⟩ := by
    simp only [isCommentKeyword, Bool.or_eq_true, beq_iff_eq] at hck
    apply match_hit hk
    · rcases hck with h | h <;> rw [h] <;> simp
    · rcases hck with h | h <;> rw [h] <;> decide
  rw [statement]
  simp only [hskip, Res.bind, miss TokenType.PRAISE_LEADER (by decide) (by decide) (by decide),
    miss TokenType.PLEASE (by decide) (by decide) (by decide),
    miss TokenType.FOR_THE_PEOPLE (by decide) (by decide) (by decide),
    miss TokenType.WHILE (by decide) (by decide) (by decide),
    miss TokenType.IF (by decide) (by decide) (by decide), hit, Bool.false_eq_true, if_false,
    if_true, hline]

section

variable {T T1 : List Token} {a c : Nat}

/-- In the sequence with the comment line the loop over the comment ends at its
`NEWLINE`. -/
theorem skipLineFrom_inserted (hs : Inserted T T1 a c) :
    skipLineFrom (T1.drop (a + 1)) (a + 1) = some (a + c - 1) := by
  obtain ⟨nl, hnl, hty⟩ := hs.newline
  have h2 := hs.two
  have e : a + c - 1 = a + 1 + (c - 2) := by omega
  rw [e] at hnl ⊢
  exact skipLineFrom_first (c - 2) (a + 1)
    (fun j h1 h3 => hs.text j (by omega) (by omega)) hnl (Or.inl hty)

/-- In the sequence with the comment line `skipNewlines` steps from the `NEWLINE` of the
comment to the token after it. -/
theorem skipNewlines_inserted (hs : Inserted T T1 a c) (cerr : List ParseDiag) :
    skipNewlines T1 ⟨a + c - 1, cerr⟩ = Res.ok () ⟨a + c, cerr⟩ := by
  obtain ⟨nl, hnl, hty⟩ := hs.newline
  obtain ⟨t, ht, hst⟩ := hs.head
  have h2 := hs.two
  have e : a + c - 1 + 1 = a + c := by omega
  have h := @skipNewlines_run T1 t (a + c - 1) 1 cerr
    (fun j hj => ⟨nl, by
      have : j = 0 := by omega
      subst this; exact hnl, hty⟩)
    (by rw [e, hs.after a (le_refl _)]; exact ht) (ne_of_startsStatement hst rfl)
  rw [e] at h
  exact h

/-- What `statement` does in the sequence with the comment line when `skipNewlines`
leads it to the comment. -/
theorem statement_inserted (hs : Inserted T T1 a c) {p1 : Parser} (fuel : Nat)
    (hskip : skipNewlines T1 p1 = Res.ok () ⟨a, p1.cerr⟩) :
    statement (fuel + 1) T1 p1 = Res.ok none ⟨a + c - 1, p1.cerr⟩ := by
  obtain ⟨k, hk, hck⟩ := hs.keyword
  exact statement_comment (q := ⟨a, p1.cerr⟩) fuel hskip hk hck (skipLineFrom_inserted hs)

end

end Parser

namespace Parser

section

variable {T T1 : List Token} {a c : Nat}

/-- A statement parsed from a position from which `skipNewlines` leads to a token that
is not a `NEWLINE` is the statement parsed from that token. -/
theorem statement_skip {tokens : List Token} {p q : Parser} {t : Token} (n : Nat)
    (hskip : skipNewlines tokens p = Res.ok () q) (ht : tokens[q.current]? = some t)
    (hnl : t.type ≠ TokenType.NEWLINE) : statement n tokens p = statement n tokens q := by
  cases n with
  | zero => rfl
  | succ n =>
    rw [statement, statement, hskip, skipNewlines_stay ht hnl]

/-- Where `skipNewlines` leads from `p` to the token at position `a`, which starts a
statement, no block ends at `p`. -/
theorem atBlockEnd_before (hs : Inserted T T1 a c) {p q : Parser} {types : List TokenType}
    (hskip : skipNewlines T p = Res.ok () q) (hq : q.current = a)
    (hts : ∀ x ∈ types, startsStatement x = false) (hnl : TokenType.NEWLINE ∉ types) :
    atBlockEnd T p types = Res.ok false p := by
  obtain ⟨t0, ht0, hst0⟩ := hs.head
  obtain ⟨t, ht, hor⟩ := skipNewlines_first hskip
  rw [atBlockEnd_eq, ht]
  rcases hor with h | h
  · simp [h, hnl]
  · rw [← h, hq, ht0] at ht
    cases ht
    have h1 : t0.type ∉ types := fun hm => ne_of_startsStatement hst0 (hts _ hm) rfl
    have h2 := ne_of_startsStatement hst0 (y := TokenType.EOF_TOKEN) rfl
    simp [h1, h2]

/-- The same in the sequence with the comment line, where `skipNewlines` leads to the
keyword of the comment. -/
theorem atBlockEnd_before_inserted (hs : Inserted T T1 a c) {p1 : Parser}
    {types : List TokenType} (hskip : skipNewlines T1 p1 = Res.ok () ⟨a, p1.cerr⟩)
    (hts : ∀ x ∈ types, startsStatement x = false) (hnl : TokenType.NEWLINE ∉ types) :
    atBlockEnd T1 p1 types = Res.ok false p1 := by
  obtain ⟨k, hk, hck⟩ := hs.keyword
  have hsk := startsStatement_of_comment hck
  obtain ⟨t, ht, hor⟩ := skipNewlines_first hskip
  rw [atBlockEnd_eq, ht]
  rcases hor with h | h
  · simp [h, hnl]
  · have e : p1.current = a := by rw [← h]
    rw [e, hk] at ht
    cases ht
    have h1 : k.type ∉ types := fun hm => ne_of_startsStatement hsk (hts _ hm) rfl
    have h2 := ne_of_startsStatement hsk (y := TokenType.EOF_TOKEN) rfl
    simp [h1, h2]

/-- A block parsed from a position from which `skipNewlines` leads to position `a` is the
block parsed from position `a`. -/
theorem block_skip (hs : Inserted T T1 a c) {p q : Parser} {types : List TokenType}
    (n : Nat) (body : List Stmt) (hskip : skipNewlines T p = Res.ok () q) (hq : q.current = a)
    (hts : ∀ x ∈ types, startsStatement x = false) (hnl : TokenType.NEWLINE ∉ types) :
    block (n + 1) types T body p = block (n + 1) types T body q := by
  obtain ⟨t0, ht0, hst0⟩ := hs.head
  have hn0 : t0.type ≠ TokenType.NEWLINE := ne_of_startsStatement hst0 rfl
  have hstay : skipNewlines T q = Res.ok () q := skipNewlines_stay (hq ▸ ht0) hn0
  rw [block, block, atBlockEnd_before hs hskip hq hts hnl,
    atBlockEnd_before hs hstay hq hts hnl]
  simp only [Res.bind, Bool.false_eq_true, if_false]
  rw [statement_skip n hskip (hq ▸ ht0) hn0]

/-- In the sequence with the comment line a block loop passes over the comment in one
iteration that adds no statement. -/
theorem block_inserted (hs : Inserted T T1 a c) {p1 : Parser} {types : List TokenType}
    (fuel : Nat) (body : List Stmt) (hskip : skipNewlines T1 p1 = Res.ok () ⟨a, p1.cerr⟩)
    (hts : ∀ x ∈ types, startsStatement x = false) (hnl : TokenType.NEWLINE ∉ types) :
    block (fuel + 1 + 1) types T1 body p1 = block (fuel + 1) types T1 body ⟨a + c, p1.cerr⟩ := by
  rw [block, atBlockEnd_before_inserted hs hskip hts hnl]
  simp only [Res.bind, Bool.false_eq_true, if_false, statement_inserted hs fuel hskip,
    skipNewlines_inserted hs, Option.toList, List.append_nil]

/-- The same for the loop of `parse`. -/
theorem parseLoop_skip (hs : Inserted T T1 a c) {p q : Parser} (n : Nat)
    (statements : List Stmt) (hskip : skipNewlines T p = Res.ok () q) (hq : q.current = a) :
    parseLoop (n + 1) T statements p = parseLoop (n + 1) T statements q := by
  obtain ⟨t0, ht0, hst0⟩ := hs.head
  have hn0 : t0.type ≠ TokenType.NEWLINE := ne_of_startsStatement hst0 rfl
  have hstay : skipNewlines T q = Res.ok () q := skipNewlines_stay (hq ▸ ht0) hn0
  have h1 : atBlockEnd T p [] = Res.ok false p :=
    atBlockEnd_before hs hskip hq (by simp) (by simp)
  have h2 : atBlockEnd T q [] = Res.ok false q :=
    atBlockEnd_before hs hstay hq (by simp) (by simp)
  simp only [atBlockEnd] at h1 h2
  rw [parseLoop, parseLoop, h1, h2]
  simp only [Res.bind, Bool.false_eq_true, if_false]
  rw [statement_skip n hskip (hq ▸ ht0) hn0]

theorem parseLoop_inserted (hs : Inserted T T1 a c) {p1 : Parser} (fuel : Nat)
    (statements : List Stmt) (hskip : skipNewlines T1 p1 = Res.ok () ⟨a, p1.cerr⟩) :
    parseLoop (fuel + 1 + 1) T1 statements p1 =
      parseLoop (fuel + 1) T1 statements ⟨a + c, p1.cerr⟩ := by
  have h1 : atBlockEnd T1 p1 [] = Res.ok false p1 :=
    atBlockEnd_before_inserted hs hskip (by simp) (by simp)
  simp only [atBlockEnd] at h1
  rw [parseLoop, h1]
  simp only [Res.bind, Bool.false_eq_true, if_false, statement_inserted hs fuel hskip,
    skipNewlines_inserted hs, Option.toList, List.append_nil]

/-- When `skipNewlines` leads to position `a` in the sequence and the other sequence has
not passed the comment line, `skipNewlines` leads to the comment there. -/
theorem skipNewlines_to_comment (hs : Inserted T T1 a c) {p p1 q : Parser}
    (hR : PosRel a c p p1) (hle : p1.current ≤ a) (hskip : skipNewlines T p = Res.ok () q)
    (hq : q.current = a) : skipNewlines T1 p1 = Res.ok () ⟨a, p1.cerr⟩ := by
  obtain ⟨_, s, ⟨hR1, _, _, hle1⟩, m, hm⟩ := (skipNewlines_sim hs hR).1 () q hskip
  have h1 : skipNewlines T1 p1 = Res.ok () s := hm m (le_refl _)
  have hc := skipNewlines_cerr h1
  have h2 := hs.two
  have hsa : s.current = a := by
    have := hle1 hle
    rcases hR1 with ⟨h3, _⟩ | ⟨_, h4⟩ | ⟨_, h4⟩
    · omega
    · omega
    · exact h4
  rw [h1]
  congr 1
  cases s
  simp only at hsa hc
  rw [hsa, hc]

end

end Parser

namespace Parser

section

variable {T T1 : List Token} {a c : Nat}

/-- The statement functions run on both sequences from corresponding positions return
the same statements at corresponding positions; `statement` itself when it is not about
to meet the comment line, which the block loop passes over. -/
theorem statement_sim (hs : Inserted T T1 a c) (n : Nat) :
    (∀ p p1, PosRel a c p p1 →
      (p1.current ≤ a → ∀ q, skipNewlines T p = Res.ok () q → q.current ≠ a) →
      Res.RelF (fun st q st1 s => st = st1 ∧ PosRel a c q s) (statement n T p)
        (fun fuel => statement fuel T1 p1)) ∧
    (∀ types body p p1, (∀ x ∈ types, startsStatement x = false) →
      TokenType.NEWLINE ∉ types → PosRel a c p p1 →
      Res.RelF (fun b q b1 s => b = b1 ∧ PosRel a c q s) (block n types T body p)
        (fun fuel => block fuel types T1 body p1)) ∧
    (∀ p p1, PosRel a c p p1 →
      Res.RelF (fun st q st1 s => st = st1 ∧ PosRel a c q s) (forLoop n T p)
        (fun fuel => forLoop fuel T1 p1)) ∧
    (∀ p p1, PosRel a c p p1 →
      Res.RelF (fun st q st1 s => st = st1 ∧ PosRel a c q s) (whileLoop n T p)
        (fun fuel => whileLoop fuel T1 p1)) ∧
    (∀ clauses p p1, PosRel a c p p1 →
      Res.RelF (fun cl q cl1 s => cl = cl1 ∧ PosRel a c q s) (elseIfClauses n T clauses p)
        (fun fuel => elseIfClauses fuel T1 clauses p1)) ∧
    (∀ p p1, PosRel a c p p1 →
      Res.RelF (fun st q st1 s => st = st1 ∧ PosRel a c q s) (ifStatement n T p)
        (fun fuel => ifStatement fuel T1 p1)) := by
  induction n with
  | zero =>
    refine ⟨?_, ?_, ?_, ?_, ?_, ?_⟩ <;> intros <;> exact Res.RelF.of_timeout
  | succ n ih =>
    obtain ⟨ihS, ihB, ihF, ihW, ihC, ihI⟩ := ih
    have hE := (expression_sim (T := T) (a := a) hs n).1
    refine ⟨?_, ?_, ?_, ?_, ?_, ?_⟩
    · -- statement
      intro p p1 hR hnp
      apply Res.RelF.of_succ
      rw [statement]
      refine Res.RelF.congr (fun fuel => by rw [statement]) ?_
      refine Res.RelF.bind (skipNewlines_sim hs hR) ?_
      rintro _ q _ s hq ⟨hR1, _, hle, _⟩
      have hE1 : PosEq a c q s := by
        rcases hR1 with h | h | ⟨h1, h2⟩
        · exact Or.inl h
        · exact Or.inr h
        · exact absurd h1 (hnp (by omega) q hq)
      refine Res.RelF.bind (match_sim hs hR1 (Or.inr hE1) (by decide)) ?_
      rintro isPrint q2 _ s2 _ ⟨rfl, hR2, _, hsame2⟩
      cases isPrint with
      | true =>
        simp only [if_true]
        refine Res.RelF.bind (printStatement_sim hs n hR2) ?_
        rintro st q3 _ s3 _ ⟨rfl, hR3⟩
        exact Res.RelF.of_ok ⟨rfl, hR3⟩
      | false =>
        obtain ⟨rfl, rfl⟩ := hsame2 rfl
        simp only [Bool.false_eq_true, if_false]
        refine Res.RelF.bind (match_sim hs hR1 (Or.inr hE1) (by decide)) ?_
        rintro isPlease q3 _ s3 _ ⟨rfl, hR3, hlook3, hsame3⟩
        refine Res.RelF.bind
          (J := fun r q r1 s => r = r1 ∧ PosRel a c q s ∧ (r = none → PosEq a c q s)) ?_ ?_
        · cases isPlease with
          | true =>
            obtain ⟨hL3, hE3⟩ := hlook3 rfl
            simp only [if_true]
            refine Res.RelF.bind (match_sim hs hR3 (Or.inl (by decide)) (by decide)) ?_
            rintro isDeclare q4 _ s4 _ ⟨rfl, hR4, hlook4, hsame4⟩
            cases isDeclare with
            | true =>
              simp only [if_true]
              refine Res.RelF.bind (varDeclaration_sim hs hR4 (hlook4 rfl).1) ?_
              rintro st q5 _ s5 _ ⟨rfl, hR5⟩
              exact Res.RelF.of_ok ⟨rfl, hR5, fun h => (by cases h)⟩
            | false =>
              obtain ⟨rfl, rfl⟩ := hsame4 rfl
              simp only [Bool.false_eq_true, if_false]
              refine Res.RelF.bind (match_sim hs hR3 (Or.inl (by decide)) (by decide)) ?_
              rintro isSet q5 _ s5 _ ⟨rfl, hR5, hlook5, hsame5⟩
              cases isSet with
              | true =>
                simp only [if_true]
                refine Res.RelF.bind (assignment_sim hs n hR5 (hlook5 rfl).1) ?_
                rintro st q6 _ s6 _ ⟨rfl, hR6⟩
                exact Res.RelF.of_ok ⟨rfl, hR6, fun h => (by cases h)⟩
              | false =>
                obtain ⟨rfl, rfl⟩ := hsame5 rfl
                simp only [Bool.false_eq_true, if_false]
                refine Res.RelF.bind (match_sim hs hR3 (Or.inl (by decide)) (by decide)) ?_
                rintro isIncrement q6 _ s6 _ ⟨rfl, hR6, hlook6, hsame6⟩
                cases isIncrement with
                | true =>
                  simp only [if_true]
                  refine Res.RelF.bind (incrementStatement_sim hs hR6 (hlook6 rfl).1) ?_
                  rintro st q7 _ s7 _ ⟨rfl, hR7⟩
                  exact Res.RelF.of_ok ⟨rfl, hR7, fun h => (by cases h)⟩
                | false =>
                  obtain ⟨rfl, rfl⟩ := hsame6 rfl
                  simp only [Bool.false_eq_true, if_false]
                  refine Res.RelF.bind
                    (match_sim hs hR3 (Or.inl (by decide)) (by decide)) ?_
                  rintro isRead q7 _ s7 _ ⟨rfl, hR7, hlook7, hsame7⟩
                  cases isRead with
                  | true =>
                    simp only [if_true]
                    refine Res.RelF.bind (readStatement_sim hs hR7 (hlook7 rfl).1) ?_
                    rintro st q8 _ s8 _ ⟨rfl, hR8⟩
                    exact Res.RelF.of_ok ⟨rfl, hR8, fun h => (by cases h)⟩
                  | false =>
                    obtain ⟨rfl, rfl⟩ := hsame7 rfl
                    simp only [Bool.false_eq_true, if_false]
                    exact Res.RelF.of_ok ⟨rfl, hR3, fun _ => hE3⟩
          | false =>
            obtain ⟨rfl, rfl⟩ := hsame3 rfl
            simp only [Bool.false_eq_true, if_false]
            exact Res.RelF.of_ok ⟨rfl, hR1, fun _ => hE1⟩
        · rintro returned q4 _ s4 _ ⟨rfl, hR4, hnone⟩
          cases returned with
          | some result => exact Res.RelF.of_ok ⟨rfl, hR4⟩
          | none =>
            have hE4 := hnone rfl
            simp only
            refine Res.RelF.bind (match_sim hs hR4 (Or.inr hE4) (by decide)) ?_
            rintro isFor q5 _ s5 _ ⟨rfl, hR5, _, hsame5⟩
            cases isFor with
            | true =>
              simp only [if_true]
              refine Res.RelF.bind (ihF q5 s5 hR5) ?_
              rintro st q6 _ s6 _ ⟨rfl, hR6⟩
              exact Res.RelF.of_ok ⟨rfl, hR6⟩
            | false =>
              obtain ⟨rfl, rfl⟩ := hsame5 rfl
              simp only [Bool.false_eq_true, if_false]
              refine Res.RelF.bind (match_sim hs hR4 (Or.inr hE4) (by decide)) ?_
              rintro isWhile q6 _ s6 _ ⟨rfl, hR6, _, hsame6⟩
              cases isWhile with
              | true =>
                simp only [if_true]
                refine Res.RelF.bind (ihW q6 s6 hR6) ?_
                rintro st q7 _ s7 _ ⟨rfl, hR7⟩
                exact Res.RelF.of_ok ⟨rfl, hR7⟩
              | false =>
                obtain ⟨rfl, rfl⟩ := hsame6 rfl
                simp only [Bool.false_eq_true, if_false]
                refine Res.RelF.bind (match_sim hs hR4 (Or.inr hE4) (by decide)) ?_
                rintro isIf q7 _ s7 _ ⟨rfl, hR7, _, hsame7⟩
                cases isIf with
                | true =>
                  simp only [if_true]
                  refine Res.RelF.bind (ihI q7 s7 hR7) ?_
                  rintro st q8 _ s8 _ ⟨rfl, hR8⟩
                  exact Res.RelF.of_ok ⟨rfl, hR8⟩
                | false =>
                  obtain ⟨rfl, rfl⟩ := hsame7 rfl
                  simp only [Bool.false_eq_true, if_false]
                  refine Res.RelF.bind (match_sim hs hR4 (Or.inr hE4) (by decide)) ?_
                  rintro isComment q8 _ s8 _ ⟨rfl, hR8, hlook8, hsame8⟩
                  cases isComment with
                  | true =>
                    obtain ⟨_, hE8⟩ := hlook8 rfl
                    simp only [if_true]
                    cases hline : skipLineFrom (T.drop q8.current) q8.current with
                    | none => exact Res.RelF.of_undefined
                    | some j =>
                      obtain ⟨j1, hj1, hEj⟩ := skipLineFrom_sim hs hE8 hline
                      simp only [hj1]
                      exact Res.RelF.of_ok ⟨rfl, (hEj _ _).posRel⟩
                  | false =>
                    simp only [Bool.false_eq_true, if_false]
                    exact Res.RelF.of_ok ⟨rfl, hR8⟩
    · -- block
      intro types body p p1 hts hnl hR
      have iter : ∀ (body : List Stmt) (p p1 : Parser), PosRel a c p p1 →
          (p1.current ≤ a → ∀ q, skipNewlines T p = Res.ok () q → q.current ≠ a) →
          Res.RelF (fun b q b1 s => b = b1 ∧ PosRel a c q s) (block (n + 1) types T body p)
            (fun fuel => block (fuel + 1) types T1 body p1) := by
        intro body p p1 hR hnp
        rw [block]
        refine Res.RelF.congr (fun fuel => by rw [block]) ?_
        refine Res.RelF.bind (atBlockEnd_sim hs hR hts) ?_
        rintro done q0 _ s0 _ ⟨rfl, rfl, rfl⟩
        cases done with
        | true =>
          simp only [if_true]
          exact Res.RelF.of_ok ⟨rfl, hR⟩
        | false =>
          simp only [Bool.false_eq_true, if_false]
          refine Res.RelF.bind (ihS q0 s0 hR hnp) ?_
          rintro stmt q _ s _ ⟨rfl, hR1⟩
          refine Res.RelF.bind (skipNewlines_sim hs hR1) ?_
          rintro _ q2 _ s2 _ ⟨hR2, _, _, _⟩
          exact ihB types _ q2 s2 hts hnl hR2
      by_cases hA : p1.current ≤ a ∧ ∃ q, skipNewlines T p = Res.ok () q ∧ q.current = a
      · obtain ⟨hle, q, hq, hqa⟩ := hA
        have hskip1 := skipNewlines_to_comment hs hR hle hq hqa
        rw [block_skip hs n body hq hqa hts hnl]
        apply Res.RelF.of_succ
        apply Res.RelF.of_succ
        refine Res.RelF.congr (fun fuel => block_inserted hs fuel body hskip1 hts hnl) ?_
        exact iter body q ⟨a + c, p1.cerr⟩ (Or.inr (Or.inl ⟨by omega, by simp [hqa]⟩))
          (fun h => by have := hs.two; simp only at h; omega)
      · apply Res.RelF.of_succ
        exact iter body p p1 hR (fun hle q hq hqa => hA ⟨hle, q, hq, hqa⟩)
    · -- forLoop
      intro p p1 hR
      apply Res.RelF.of_succ
      rw [forLoop]
      refine Res.RelF.congr (fun fuel => by rw [forLoop]) ?_
      refine Res.RelF.bind (hE p p1 hR) ?_
      rintro condition q _ s _ ⟨rfl, hR1⟩
      refine Res.RelF.bind (consume_sim hs hR1 (by decide) _) ?_
      rintro _ q2 _ s2 _ ⟨hR2, _⟩
      refine Res.RelF.bind (skipNewlines_sim hs hR2) ?_
      rintro _ q3 _ s3 _ ⟨hR3, _, _, _⟩
      refine Res.RelF.bind (ihB _ [] q3 s3 (by decide) (by decide) hR3) ?_
      rintro body q4 _ s4 _ ⟨rfl, hR4⟩
      refine Res.RelF.bind (consume_sim hs hR4 (by decide) _) ?_
      rintro _ q5 _ s5 _ ⟨hR5, _⟩
      exact Res.RelF.of_ok ⟨rfl, hR5⟩
    · -- whileLoop
      intro p p1 hR
      apply Res.RelF.of_succ
      rw [whileLoop]
      refine Res.RelF.congr (fun fuel => by rw [whileLoop]) ?_
      refine Res.RelF.bind (hE p p1 hR) ?_
      rintro condition q _ s _ ⟨rfl, hR1⟩
      refine Res.RelF.bind (consume_sim hs hR1 (by decide) _) ?_
      rintro _ q2 _ s2 _ ⟨hR2, _⟩
      refine Res.RelF.bind (skipNewlines_sim hs hR2) ?_
      rintro _ q3 _ s3 _ ⟨hR3, _, _, _⟩
      refine Res.RelF.bind (ihB _ [] q3 s3 (by decide) (by decide) hR3) ?_
      rintro body q4 _ s4 _ ⟨rfl, hR4⟩
      refine Res.RelF.bind (consume_sim hs hR4 (by decide) _) ?_
      rintro _ q5 _ s5 _ ⟨hR5, _⟩
      exact Res.RelF.of_ok ⟨rfl, hR5⟩
    · -- elseIfClauses
      intro clauses p p1 hR
      apply Res.RelF.of_succ
      rw [elseIfClauses]
      refine Res.RelF.congr (fun fuel => by rw [elseIfClauses]) ?_
      refine Res.RelF.bind (match_sim hs hR (Or.inl (by decide)) (by decide)) ?_
      rintro isElseIf q _ s _ ⟨rfl, hR1, _, _⟩
      cases isElseIf with
      | true =>
        simp only [if_true]
        refine Res.RelF.bind (hE q s hR1) ?_
        rintro condition q2 _ s2 _ ⟨rfl, hR2⟩
        refine Res.RelF.bind (consume_sim hs hR2 (by decide) _) ?_
        rintro _ q3 _ s3 _ ⟨hR3, _⟩
        refine Res.RelF.bind (skipNewlines_sim hs hR3) ?_
        rintro _ q4 _ s4 _ ⟨hR4, _, _, _⟩
        refine Res.RelF.bind (ihB _ [] q4 s4 (by decide) (by decide) hR4) ?_
        rintro body q5 _ s5 _ ⟨rfl, hR5⟩
        exact ihC _ q5 s5 hR5
      | false =>
        simp only [Bool.false_eq_true, if_false]
        exact Res.RelF.of_ok ⟨rfl, hR1⟩
    · -- ifStatement
      intro p p1 hR
      apply Res.RelF.of_succ
      rw [ifStatement]
      refine Res.RelF.congr (fun fuel => by rw [ifStatement]) ?_
      refine Res.RelF.bind (hE p p1 hR) ?_
      rintro condition q _ s _ ⟨rfl, hR1⟩
      refine Res.RelF.bind (consume_sim hs hR1 (by decide) _) ?_
      rintro _ q2 _ s2 _ ⟨hR2, _⟩
      refine Res.RelF.bind (skipNewlines_sim hs hR2) ?_
      rintro _ q3 _ s3 _ ⟨hR3, _, _, _⟩
      refine Res.RelF.bind (ihB _ [] q3 s3 (by decide) (by decide) hR3) ?_
      rintro thenBranch q4 _ s4 _ ⟨rfl, hR4⟩
      refine Res.RelF.bind (ihC [] q4 s4 hR4) ?_
      rintro clauses q5 _ s5 _ ⟨rfl, hR5⟩
      refine Res.RelF.bind (match_sim hs hR5 (Or.inl (by decide)) (by decide)) ?_
      rintro isElse q6 _ s6 _ ⟨rfl, hR6, _, _⟩
      refine Res.RelF.bind (J := fun b q b1 s => b = b1 ∧ PosRel a c q s) ?_ ?_
      · cases isElse with
        | true =>
          simp only [if_true]
          refine Res.RelF.bind (skipNewlines_sim hs hR6) ?_
          rintro _ q7 _ s7 _ ⟨hR7, _, _, _⟩
          exact ihB _ [] q7 s7 (by decide) (by decide) hR7
        | false =>
          simp only [Bool.false_eq_true, if_false]
          exact Res.RelF.of_ok ⟨rfl, hR6⟩
      · rintro elseBranch q8 _ s8 _ ⟨rfl, hR8⟩
        refine Res.RelF.bind (consume_sim hs hR8 (by decide) _) ?_
        rintro _ q9 _ s9 _ ⟨hR9, _⟩
        exact Res.RelF.of_ok ⟨rfl, hR9⟩

end

end Parser

/-- The fuel-indexed call may be replaced by one that agrees with it from some fuel
on. -/
theorem Res.RelF.eventually {α : Type} {J : α → Parser → α → Parser → Prop} {r : Res α}
    {f g : Nat → Res α} (m : Nat) (hfg : ∀ fuel, m ≤ fuel → f fuel = g fuel)
    (h : Res.RelF J r g) : Res.RelF J r f := by
  refine ⟨fun a q e => ?_, fun q e => ?_⟩
  · obtain ⟨b, s, hj, m1, hf⟩ := h.1 a q e
    refine ⟨b, s, hj, max m m1, fun fuel hle => ?_⟩
    rw [hfg fuel (le_trans (le_max_left _ _) hle)]
    exact hf fuel (le_trans (le_max_right _ _) hle)
  · obtain ⟨s, m1, hf⟩ := h.2 q e
    refine ⟨s, max m m1, fun fuel hle => ?_⟩
    rw [hfg fuel (le_trans (le_max_left _ _) hle)]
    exact hf fuel (le_trans (le_max_right _ _) hle)

namespace Parser

section

variable {T T1 : List Token} {a c : Nat}

/-- The loop of `parse` run on both sequences from corresponding positions returns the
same program. -/
theorem parseLoop_sim (hs : Inserted T T1 a c) (n : Nat) :
    ∀ statements p p1, PosRel a c p p1 →
      Res.RelF (fun r _ r1 _ => r = r1) (parseLoop n T statements p)
        (fun fuel => parseLoop fuel T1 statements p1) := by
  induction n with
  | zero => intros; exact Res.RelF.of_timeout
  | succ n ih =>
    intro statements p p1 hR
    have hS := (statement_sim (T := T) (a := a) hs n).1
    have iter : ∀ (statements : List Stmt) (p p1 : Parser), PosRel a c p p1 →
        (p1.current ≤ a → ∀ q, skipNewlines T p = Res.ok () q → q.current ≠ a) →
        Res.RelF (fun r _ r1 _ => r = r1) (parseLoop (n + 1) T statements p)
          (fun fuel => parseLoop (fuel + 1) T1 statements p1) := by
      intro statements p p1 hR hnp
      rw [parseLoop]
      refine Res.RelF.congr (fun fuel => by rw [parseLoop]) ?_
      refine Res.RelF.bind (isAtEnd_sim hs hR) ?_
      rintro atEnd q0 _ s0 _ ⟨rfl, rfl, rfl⟩
      cases atEnd with
      | true =>
        simp only [if_true]
        exact Res.RelF.of_ok rfl
      | false =>
        simp only [Bool.false_eq_true, if_false]
        have inner : Res.RelF (fun st q st1 s => st = st1 ∧ PosRel a c q s)
            ((statement n T q0).bind fun stmt p =>
              (skipNewlines T p).bind fun _ p => Res.ok stmt p)
            (fun fuel => (statement fuel T1 s0).bind fun stmt p =>
              (skipNewlines T1 p).bind fun _ p => Res.ok stmt p) := by
          refine Res.RelF.bind (hS q0 s0 hR hnp) ?_
          rintro stmt q _ s _ ⟨rfl, hR1⟩
          refine Res.RelF.bind (skipNewlines_sim hs hR1) ?_
          rintro _ q2 _ s2 _ ⟨hR2, _⟩
          exact Res.RelF.of_ok ⟨rfl, hR2⟩
        cases hX : ((statement n T q0).bind fun stmt p =>
            (skipNewlines T p).bind fun _ p => Res.ok stmt p) with
        | ok stmt q =>
          obtain ⟨_, s, ⟨rfl, hR1⟩, m, hf⟩ := inner.1 stmt q hX
          refine Res.RelF.eventually m (fun fuel hle => ?_) (ih _ q s hR1)
          have h1 := hf fuel hle
          simp only at h1
          simp only [h1]
        | thrown q =>
          obtain ⟨s, m, hf⟩ := inner.2 q hX
          refine Res.RelF.eventually
            (g := fun _ => Res.ok none { s with cerr := s.cerr ++ [ParseDiag.exception s.current] })
            m (fun fuel hle => ?_) (Res.RelF.of_ok rfl)
          have h1 := hf fuel hle
          simp only at h1
          simp only [h1]
        | undefined => exact Res.RelF.of_undefined
        | timeout => exact Res.RelF.of_timeout
    by_cases hA : p1.current ≤ a ∧ ∃ q, skipNewlines T p = Res.ok () q ∧ q.current = a
    · obtain ⟨hle, q, hq, hqa⟩ := hA
      have hskip1 := skipNewlines_to_comment hs hR hle hq hqa
      rw [parseLoop_skip hs n statements hq hqa]
      apply Res.RelF.of_succ
      apply Res.RelF.of_succ
      refine Res.RelF.congr (fun fuel => parseLoop_inserted hs fuel statements hskip1) ?_
      exact iter statements q ⟨a + c, p1.cerr⟩ (Or.inr (Or.inl ⟨by omega, by simp [hqa]⟩))
        (fun h => by have := hs.two; simp only at h; omega)
    · apply Res.RelF.of_succ
      exact iter statements p p1 hR (fun hle q hq hqa => hA ⟨hle, q, hq, hqa⟩)

/-- The function `parse` returns the same program for both sequences. -/
theorem parse_sim (hs : Inserted T T1 a c) (n : Nat) :
    Res.RelF (fun r _ r1 _ => r = r1) (parse n T) (fun fuel => parse fuel T1) := by
  have hR0 : PosRel a c ⟨0, []⟩ ⟨0, []⟩ := by
    by_cases h : a = 0
    · exact Or.inr (Or.inr ⟨h.symm, h.symm⟩)
    · exact Or.inl ⟨Nat.pos_of_ne_zero h, rfl⟩
  unfold parse
  refine Res.RelF.bind (match_sim hs hR0 (Or.inl (by decide)) (by decide)) ?_
  rintro isHeader q _ s _ ⟨rfl, hR1, _, _⟩
  refine Res.RelF.bind (J := fun _ q _ s => PosRel a c q s) ?_ ?_
  · cases isHeader with
    | true =>
      simp only [if_true]
      exact (skipNewlines_sim hs hR1).weaken (fun _ _ _ _ _ h => h.1)
    | false =>
      simp only [Bool.false_eq_true, if_false]
      exact Res.RelF.of_ok hR1
  · rintro _ q2 _ s2 _ hR2
    exact parseLoop_sim hs n [] q2 s2 hR2

end

/-- A comment line put between a sequence that is empty or ends with a `NEWLINE` token
and a sequence that begins with a token starting a statement. -/
theorem inserted_of_append {A B C : List Token}
    (hA : ∀ t, A.getLast? = some t → t.type = TokenType.NEWLINE)
    (hB : ∃ t, B.head? = some t ∧ startsStatement t.type = true) (hC : CommentLine C) :
    Inserted (A ++ B) (A ++ C ++ B) A.length C.length := by
  obtain ⟨keyword, text, newline, rfl, hkw, htext, hnl⟩ := hC
  obtain ⟨t0, ht0, hst0⟩ := hB
  have hlen : (keyword :: (text ++ [newline])).length = text.length + 2 := by simp
  refine ⟨?_, ?_, ?_, ?_, ?_, ?_, ?_, ?_⟩
  · intro i hi
    rw [List.append_assoc, List.getElem?_append_left hi, List.getElem?_append_left hi]
  · intro i hi
    rw [List.append_assoc, List.getElem?_append_right (by omega),
      List.getElem?_append_right (by omega), List.getElem?_append_right hi]
    congr 1
    omega
  · refine ⟨t0, ?_, hst0⟩
    rw [List.getElem?_append_right (le_refl _), Nat.sub_self]
    cases B with
    | nil => cases ht0
    | cons b B0 => simpa using ht0
  · refine ⟨keyword, ?_, hkw⟩
    rw [List.append_assoc, List.getElem?_append_right (le_refl _), Nat.sub_self,
      List.cons_append, List.getElem?_cons_zero]
  · intro j h1 h2
    rw [hlen] at h2
    obtain ⟨k, rfl⟩ : ∃ k, j = A.length + (k + 1) := ⟨j - A.length - 1, by omega⟩
    have hk : k < text.length := by omega
    refine ⟨text[k], ?_, htext _ (List.getElem_mem _)⟩
    rw [List.append_assoc, List.getElem?_append_right (by omega),
      show A.length + (k + 1) - A.length = k + 1 by omega]
    rw [List.cons_append, List.getElem?_cons_succ, List.append_assoc,
      List.getElem?_append_left hk, List.getElem?_eq_getElem hk]
  · refine ⟨newline, ?_, hnl⟩
    rw [hlen, List.append_assoc, List.getElem?_append_right (by omega),
      show A.length + (text.length + 2) - 1 - A.length = text.length + 1 by omega]
    rw [List.cons_append, List.getElem?_cons_succ, List.append_assoc,
      List.getElem?_append_right (le_refl _), Nat.sub_self, List.cons_append,
      List.getElem?_cons_zero]
  · rw [hlen]; omega
  · cases hlast : A.getLast? with
    | none =>
      left
      rw [List.getLast?_eq_none_iff] at hlast
      rw [hlast]; rfl
    | some t =>
      right
      refine ⟨t, ?_, hA t hlast⟩
      have hne : A ≠ [] := by
        intro h
        rw [h] at hlast
        cases hlast
      have hpos : 0 < A.length := List.length_pos.2 hne
      rw [List.getElem?_append_left (by omega), ← hlast, List.getLast?_eq_getElem?]

end Parser

/-- C29. Decorative comment statements. First: whenever `statement` starts at an
`OBEY_PARTY_LINE` or `DENOUNCE_IMPERIALIST_ERRORS` token, where `n` tokens of any type
other than `NEWLINE` and `EOF_TOKEN` follow the keyword and then a `NEWLINE` or
`EOF_TOKEN` token, it returns no statement and leaves the parser at that `NEWLINE` or
`EOF_TOKEN` token, with any fuel but zero and no diagnostic. Then: for a comment line
`C` put between the tokens `A`, which are none or end with a `NEWLINE`, and the tokens
`B`, which begin with a token that starts a statement, whenever `parse` returns on
`A ++ B` (a program, or none) it returns the same on `A ++ C ++ B` with any fuel from
some fuel on. -/
theorem c29_decorative_comment :
    (∀ (tokens : List Token) (p : Parser) (k t : Token) (n fuel : Nat),
      tokens[p.current]? = some k → Parser.isCommentKeyword k.type = true →
      (∀ j, p.current < j → j < p.current + 1 + n →
        ∃ u, tokens[j]? = some u ∧ u.type ≠ TokenType.NEWLINE ∧
          u.type ≠ TokenType.EOF_TOKEN) →
      tokens[p.current + 1 + n]? = some t →
      (t.type = TokenType.NEWLINE ∨ t.type = TokenType.EOF_TOKEN) →
      Parser.statement (fuel + 1) tokens p = Res.ok none ⟨p.current + 1 + n, p.cerr⟩) ∧
    (∀ (A B C : List Token) (fuel : Nat) (prog : Option Program) (p : Parser),
      (∀ t, A.getLast? = some t → t.type = TokenType.NEWLINE) →
      (∃ t, B.head? = some t ∧ Parser.startsStatement t.type = true) →
      Parser.CommentLine C →
      Parser.parse fuel (A ++ B) = Res.ok prog p →
      ∃ fuel0 p1, ∀ fuel1, fuel0 ≤ fuel1 →
        Parser.parse fuel1 (A ++ C ++ B) = Res.ok prog p1) := by
  constructor
  · intro tokens p k t n fuel hk hck hrun ht hty
    have hnl : k.type ≠ TokenType.NEWLINE :=
      Parser.ne_of_startsStatement (Parser.startsStatement_of_comment hck) rfl
    exact Parser.statement_comment fuel (Parser.skipNewlines_stay hk hnl) hk hck
      (Parser.skipLineFrom_first n (p.current + 1) (fun j h1 h2 => hrun j (by omega) h2)
        ht hty)
  · intro A B C fuel prog p hA hB hC h
    obtain ⟨_, p1, rfl, fuel0, hf⟩ :=
      (Parser.parse_sim (Parser.inserted_of_append hA hB hC) fuel).1 prog p h
    exact ⟨fuel0, p1, hf⟩

/-- C29 (instances). In the tokens of the lines `PRAISE_LEADER "a"`,
`OBEY_PARTY_LINE PLEASE 1 + END_IF` and `PRAISE_LEADER "b"`, `statement` started at the
keyword of the second line returns no statement and stops at the `NEWLINE` that ends
that line; `parse` returns the two print statements without the second line, and so it
does with it. -/
theorem c29_decorative_comment_witness :
    Parser.statement 1 (Parser.linesBefore ++ Parser.commentLine ++ Parser.linesAfter)
        ⟨3, []⟩ = Res.ok none ⟨8, []⟩ ∧
      Parser.parse 10 (Parser.linesBefore ++ Parser.linesAfter) =
        Res.ok (some [Stmt.PrintStatement (Expr.StringLiteral "a"),
          Stmt.PrintStatement (Expr.StringLiteral "b")]) ⟨5, []⟩ ∧
      ∃ fuel0 p1, ∀ fuel1, fuel0 ≤ fuel1 →
        Parser.parse fuel1 (Parser.linesBefore ++ Parser.commentLine ++ Parser.linesAfter) =
          Res.ok (some [Stmt.PrintStatement (Expr.StringLiteral "a"),
            Stmt.PrintStatement (Expr.StringLiteral "b")]) p1 :=
  ⟨c29_decorative_comment.1
      (Parser.linesBefore ++ Parser.commentLine ++ Parser.linesAfter) ⟨3, []⟩
      ⟨TokenType.OBEY_PARTY_LINE, "OBEY_PARTY_LINE", 2, 16⟩ ⟨TokenType.NEWLINE, "", 3, 1⟩ 4 0
      rfl rfl
      (by
        intro j h1 h2
        have h3 : 3 < j := h1
        have h4 : j < 8 := h2
        interval_cases j <;> exact ⟨_, rfl, by decide, by decide⟩)
      rfl (Or.inl rfl),
    rfl,
    c29_decorative_comment.2 Parser.linesBefore Parser.linesAfter Parser.commentLine 10 _
      ⟨5, []⟩ (by decide) ⟨_, rfl, rfl⟩
      ⟨_, [⟨TokenType.PLEASE, "PLEASE", 2, 23⟩, ⟨TokenType.INTEGER, "1", 2, 25⟩,
        ⟨TokenType.PLUS, "", 2, 27⟩, ⟨TokenType.END_IF, "END_IF", 2, 34⟩], _, rfl, rfl,
        (by decide), rfl⟩
      rfl⟩

/-! ## Evaluator: ignored indexed assignments and the two loops -/

/-- C33. Violating indexed assignments are no-ops. For every state and every indexed
assignment `SET a[index] TO value` (the index is present) whose value expression is
evaluated without a `DIVIDE` of `INT_MIN` by `-1` (such a division kills the process):
if `a` is unbound or bound to an Integer or a String, or the evaluation of the index
returns a value that is not an Integer, or it returns an Integer that is negative or not
below the length of the array, then no evaluation made by the call divides `INT_MIN` by
`-1`, `execute` returns, and the variables after it are the variables before it: no
binding is created, changed or resized. Nothing is written to, or read from, the
standard streams `cout` and `cin`. -/
theorem c33_ignored_assignment (fuel : Nat) (s : Interpreter) (a : String)
    (index value : Expr) (hindex : index ≠ Expr.null)
    (hvalue : Interpreter.traps s.vars value = false)
    (hviolation : (∀ arr, s.vars a ≠ some (Value.StringArray arr)) ∨
      (∃ w, Interpreter.EvaluatesTo s.vars index w ∧ ∀ i, w ≠ Value.Integer i) ∨
      ∃ arr i, s.vars a = some (Value.StringArray arr) ∧
        Interpreter.EvaluatesTo s.vars index (Value.Integer i) ∧
        (i < 0 ∨ (arr.length : Int) ≤ i)) :
    Interpreter.assignmentTraps s (Stmt.Assignment a value index) = false ∧
    ∃ s1, Interpreter.execute (fuel + 1) (Stmt.Assignment a value index) s = Exec.ok s1 ∧
      s1.vars = s.vars ∧ s1.cout = s.cout ∧ s1.cin = s.cin := by
  refine ⟨?_, ?_⟩
  · simp only [Interpreter.assignmentTraps, hvalue, Bool.false_or]
    cases ha : s.vars a with
    | none => simp
    | some v =>
      cases v with
      | Integer n => simp
      | String t => simp
      | StringArray arr =>
        rcases hviolation with h | ⟨w, h, _⟩ | ⟨arr1, i1, _, h, _⟩
        · exact absurd ha (h arr)
        · simp [h.1]
        · simp [h.1]
  simp only [Interpreter.execute, ne_eq, hindex, not_false_eq_true, if_true]
  have hv : (s.evaluated value).vars = s.vars := rfl
  rw [hv]
  cases ha : s.vars a with
  | none => exact ⟨_, rfl, rfl, rfl, rfl⟩
  | some v =>
    cases v with
    | Integer n => exact ⟨_, rfl, rfl, rfl, rfl⟩
    | String t => exact ⟨_, rfl, rfl, rfl, rfl⟩
    | StringArray arr =>
      simp only
      cases hi : Interpreter.evaluate s.vars index with
      | String t => exact ⟨_, rfl, rfl, rfl, rfl⟩
      | StringArray t => exact ⟨_, rfl, rfl, rfl, rfl⟩
      | Integer i =>
        simp only
        have hout : ¬ (i ≥ 0 ∧ i < arr.length) := by
          rcases hviolation with h | ⟨w, h1, h2⟩ | ⟨arr1, i1, h1, h2, h3⟩
          · exact absurd ha (h arr)
          · exact absurd (h1.2.symm.trans hi) (h2 i)
          · rw [ha] at h1
            have h4 := h2.2.symm.trans hi
            cases h1
            cases h4
            omega
        rw [if_neg hout]
        exact ⟨_, rfl, rfl, rfl, rfl⟩

/-- C33 (instances). With `names` bound to an array of two elements, `SET names[2]`,
`SET names[0 - 1]` and `SET names["0"]` change no variable, and neither does
`SET n[0]` for `n` bound to an Integer or `SET m[0]` for an unbound `m`. The
evaluation of the value `(0 - 2147483647 - 1) / (0 - 1)` does not return. -/
theorem c33_ignored_assignment_witness :
    (∃ s1, Interpreter.execute 1
        (Stmt.Assignment "names" (Expr.StringLiteral "Bob") (Expr.IntegerLiteral 2))
        (((Interpreter.init []).assign "names" (Value.StringArray ["Alice", " "])).assign "n"
          (Value.Integer 7)) = Exec.ok s1 ∧
      s1.vars = (((Interpreter.init []).assign "names"
        (Value.StringArray ["Alice", " "])).assign "n" (Value.Integer 7)).vars ∧
      s1.cout = [] ∧ s1.cin = []) ∧
    (∃ s1, Interpreter.execute 1
        (Stmt.Assignment "names" (Expr.StringLiteral "Bob") 
          (Expr.BinaryOp (Expr.IntegerLiteral 0) TokenType.MINUS (Expr.IntegerLiteral 1)))
        (((Interpreter.init []).assign "names" (Value.StringArray ["Alice", " "])).assign "n"
          (Value.Integer 7)) = Exec.ok s1 ∧
      s1.vars = (((Interpreter.init []).assign "names"
        (Value.StringArray ["Alice", " "])).assign "n" (Value.Integer 7)).vars ∧
      s1.cout = [] ∧ s1.cin = []) ∧
    (∃ s1, Interpreter.execute 1
        (Stmt.Assignment "names" (Expr.StringLiteral "Bob") (Expr.StringLiteral "0"))
        (((Interpreter.init []).assign "names" (Value.StringArray ["Alice", " "])).assign "n"
          (Value.Integer 7)) = Exec.ok s1 ∧
      s1.vars = (((Interpreter.init []).assign "names"
        (Value.StringArray ["Alice", " "])).assign "n" (Value.Integer 7)).vars ∧
      s1.cout = [] ∧ s1.cin = []) ∧
    (∃ s1, Interpreter.execute 1
        (Stmt.Assignment "n" (Expr.StringLiteral "Bob") (Expr.IntegerLiteral 0))
        (((Interpreter.init []).assign "names" (Value.StringArray ["Alice", " "])).assign "n"
          (Value.Integer 7)) = Exec.ok s1 ∧
      s1.vars = (((Interpreter.init []).assign "names"
        (Value.StringArray ["Alice", " "])).assign "n" (Value.Integer 7)).vars ∧
      s1.cout = [] ∧ s1.cin = []) ∧
    (∃ s1, Interpreter.execute 1
        (Stmt.Assignment "m" (Expr.StringLiteral "Bob") (Expr.IntegerLiteral 0))
        (((Interpreter.init []).assign "names" (Value.StringArray ["Alice", " "])).assign "n"
          (Value.Integer 7)) = Exec.ok s1 ∧
      s1.vars = (((Interpreter.init []).assign "names"
        (Value.StringArray ["Alice", " "])).assign "n" (Value.Integer 7)).vars ∧
      s1.cout = [] ∧ s1.cin = []) ∧
    Interpreter.traps (((Interpreter.init []).assign "names" (Value.StringArray ["Alice", " "])).assign "n"
          (Value.Integer 7)).vars
        (Expr.BinaryOp
          (Expr.BinaryOp
            (Expr.BinaryOp (Expr.IntegerLiteral 0) TokenType.MINUS
              (Expr.IntegerLiteral 2147483647))
            TokenType.MINUS (Expr.IntegerLiteral 1))
          TokenType.DIVIDE
          (Expr.BinaryOp (Expr.IntegerLiteral 0) TokenType.MINUS (Expr.IntegerLiteral 1))) = true :=
  ⟨(c33_ignored_assignment 0 _ "names" (Expr.IntegerLiteral 2) (Expr.StringLiteral "Bob")
      (by decide) rfl
      (Or.inr (Or.inr ⟨["Alice", " "], 2, by decide, ⟨rfl, rfl⟩, Or.inr (by decide)⟩))).2,
    (c33_ignored_assignment 0 _ "names"
      (Expr.BinaryOp (Expr.IntegerLiteral 0) TokenType.MINUS (Expr.IntegerLiteral 1))
      (Expr.StringLiteral "Bob") (by decide) rfl
      (Or.inr (Or.inr ⟨["Alice", " "], -1, by decide, ⟨by decide, by decide⟩,
        Or.inl (by decide)⟩))).2,
    (c33_ignored_assignment 0 _ "names" (Expr.StringLiteral "0") (Expr.StringLiteral "Bob")
      (by decide) rfl
      (Or.inr (Or.inl ⟨Value.String "0", ⟨rfl, rfl⟩, fun i h => (by cases h)⟩))).2,
    (c33_ignored_assignment 0 _ "n" (Expr.IntegerLiteral 0) (Expr.StringLiteral "Bob")
      (by decide) rfl (Or.inl (fun arr h => (by
        have e : (((Interpreter.init []).assign "names"
          (Value.StringArray ["Alice", " "])).assign "n" (Value.Integer 7)).vars "n" =
            some (Value.Integer 7) := by decide
        rw [e] at h
        cases h)))).2,
    (c33_ignored_assignment 0 _ "m" (Expr.IntegerLiteral 0) (Expr.StringLiteral "Bob")
      (by decide) rfl (Or.inl (fun arr h => (by
        have e : (((Interpreter.init []).assign "names"
          (Value.StringArray ["Alice", " "])).assign "n" (Value.Integer 7)).vars "m" =
            none := by decide
        rw [e] at h
        cases h)))).2,
    by decide⟩

namespace Lexer

theorem count_newline_cons {c : Char} (h : c ≠ '\n') (cs : List Char) :
    (c :: cs).count '\n' = cs.count '\n' :=
  List.count_cons_of_ne (Ne.symm h) cs

theorem skipComment_lines (cs : List Char) : ∀ (column : Int),
    (skipComment cs column).1.count '\n' = cs.count '\n' ∧
      column ≤ (skipComment cs column).2 := by
  induction cs with
  | nil => intro column; simp [skipComment]
  | cons c cs ih =>
    intro column
    simp only [skipComment]
    by_cases h : c = '\n'
    · rw [if_pos h]; exact ⟨rfl, le_refl _⟩
    · rw [if_neg h]
      obtain ⟨h1, h2⟩ := ih (column + 1)
      refine ⟨?_, by omega⟩
      rw [h1, count_newline_cons h]

theorem numberLoop_lines (cs : List Char) : ∀ (column : Int) (value : String),
    (numberLoop cs column value).2.1.count '\n' = cs.count '\n' ∧
      column ≤ (numberLoop cs column value).2.2 := by
  induction cs with
  | nil => intro column value; simp [numberLoop]
  | cons c cs ih =>
    intro column value
    simp only [numberLoop]
    by_cases h : isDigit c = true
    · rw [if_pos h]
      have hne : c ≠ '\n' := fun e => by rw [e] at h; exact absurd h (by decide)
      obtain ⟨h1, h2⟩ := ih (column + 1) (value.push c)
      refine ⟨?_, by omega⟩
      rw [h1, count_newline_cons hne]
    · rw [if_neg h]; exact ⟨rfl, le_refl _⟩

theorem identifierLoop_lines (cs : List Char) : ∀ (column : Int) (value : String),
    (identifierLoop cs column value).2.1.count '\n' = cs.count '\n' ∧
      column ≤ (identifierLoop cs column value).2.2 := by
  induction cs with
  | nil => intro column value; simp [identifierLoop]
  | cons c cs ih =>
    intro column value
    simp only [identifierLoop]
    by_cases h : isAlphaNumeric c = true
    · rw [if_pos h]
      have hne : c ≠ '\n' := fun e => by rw [e] at h; exact absurd h (by decide)
      obtain ⟨h1, h2⟩ := ih (column + 1) (value.push c)
      refine ⟨?_, by omega⟩
      rw [h1, count_newline_cons hne]
    · rw [if_neg h]; exact ⟨rfl, le_refl _⟩

/-- The loop of `string` counts every newline it passes. -/
theorem stringLoop_lines (cs : List Char) : ∀ (line column : Int) (value : String),
    (stringLoop cs line column value).2.2.1 +
        ((stringLoop cs line column value).2.1.count '\n' : Nat) =
      line + (cs.count '\n' : Nat) ∧
    line ≤ (stringLoop cs line column value).2.2.1 ∧
    (1 ≤ column → 1 ≤ (stringLoop cs line column value).2.2.2) ∧
    ∀ d, (stringLoop cs line column value).2.1.head? = some d → d = '"' := by
  induction cs with
  | nil => intro line column value; simp [stringLoop]
  | cons c cs ih =>
    intro line column value
    simp only [stringLoop]
    by_cases h1 : c = '"'
    · rw [if_pos h1]
      exact ⟨rfl, le_refl _, fun h => h, fun d hd => by
        simp only [List.head?_cons, Option.some.injEq] at hd
        exact hd ▸ h1⟩
    · rw [if_neg h1]
      by_cases h2 : c = '\n'
      · rw [if_pos h2]
        obtain ⟨e, hle, hcol, hq⟩ := ih (line + 1) (0 + 1) (value.push c)
        refine ⟨?_, by omega, fun _ => hcol (by decide), hq⟩
        rw [e, h2, List.count_cons_self]
        push_cast
        omega
      · rw [if_neg h2]
        obtain ⟨e, hle, hcol, hq⟩ := ih line (column + 1) (value.push c)
        refine ⟨?_, hle, fun h => hcol (by omega), hq⟩
        rw [e, count_newline_cons h2]

/-- The call `skipWhitespace` passes no newline and stays on the line. -/
theorem skipWhitespace_lines (fuel : Nat) : ∀ (lx lx1 : Lexer),
    skipWhitespace fuel lx = some lx1 →
    lx1.line = lx.line ∧ lx.column ≤ lx1.column ∧
      lx1.rest.count '\n' = lx.rest.count '\n' := by
  induction fuel with
  | zero => intro lx lx1 h; simp [skipWhitespace] at h
  | succ fuel ih =>
    intro lx lx1 h
    obtain ⟨rest, line, column, cerr⟩ := lx
    cases rest with
    | nil =>
      simp only [skipWhitespace, peek, peekNext] at h
      rw [if_neg (by decide), if_neg (by decide)] at h
      cases h
      exact ⟨rfl, le_refl _, rfl⟩
    | cons c cs =>
      simp only [skipWhitespace, peek, advance] at h
      by_cases h1 : c = ' ' ∨ c = '\r' ∨ c = '\t'
      · rw [if_pos h1] at h
        obtain ⟨e1, e2, e3⟩ := ih _ _ h
        have hne : c ≠ '\n' := by
          rcases h1 with h | h | h <;> rw [h] <;> decide
        refine ⟨e1, ?_, ?_⟩
        · simp only at e2 ⊢; omega
        · rw [e3, count_newline_cons hne]
      · rw [if_neg h1] at h
        by_cases h2 : c = '/' ∧ peekNext ⟨c :: cs, line, column, cerr⟩ = '/'
        · rw [if_pos h2] at h
          obtain ⟨e1, e2, e3⟩ := ih _ _ h
          obtain ⟨k1, k2⟩ := skipComment_lines (c :: cs) column
          refine ⟨e1, ?_, ?_⟩
          · simp only at e2 ⊢; omega
          · rw [e3]; exact k1
        · rw [if_neg h2] at h
          cases h
          exact ⟨rfl, le_refl _, rfl⟩

end Lexer

namespace Lexer

/-- One pass through the `switch` of `tokenize`: the line counts every newline passed,
and the token pushed, if any, is placed at the line and column reached. -/
theorem scanToken_lines (c : Char) (cs : List Char) (line column : Int)
    (cerr : List LexDiag) (hcol : 1 ≤ column) :
    (scanToken ⟨c :: cs, line, column, cerr⟩ ⟨cs, line, column + 1, cerr⟩ c).2.line +
        ((scanToken ⟨c :: cs, line, column, cerr⟩ ⟨cs, line, column + 1, cerr⟩ c).2.rest.count
          '\n' : Nat) = line + ((c :: cs).count '\n' : Nat) ∧
    line ≤ (scanToken ⟨c :: cs, line, column, cerr⟩ ⟨cs, line, column + 1, cerr⟩ c).2.line ∧
    1 ≤ (scanToken ⟨c :: cs, line, column, cerr⟩ ⟨cs, line, column + 1, cerr⟩ c).2.column ∧
    ∀ t ∈ (scanToken ⟨c :: cs, line, column, cerr⟩ ⟨cs, line, column + 1, cerr⟩ c).1,
      t.line = (scanToken ⟨c :: cs, line, column, cerr⟩ ⟨cs, line, column + 1, cerr⟩ c).2.line ∧
      t.column =
        (scanToken ⟨c :: cs, line, column, cerr⟩ ⟨cs, line, column + 1, cerr⟩ c).2.column := by
  generalize hr : scanToken ⟨c :: cs, line, column, cerr⟩ ⟨cs, line, column + 1, cerr⟩ c = r
  unfold scanToken at hr
  have one : ∀ (t u : Token), t ∈ [u] → t.line = u.line ∧ t.column = u.column := by
    intro t u ht
    simp only [List.mem_singleton] at ht
    subst ht
    exact ⟨rfl, rfl⟩
  have plain : ∀ type : TokenType, c ≠ '\n' →
      ([makeToken ⟨cs, line, column + 1, cerr⟩ type], (⟨cs, line, column + 1, cerr⟩ : Lexer)) = r →
      r.2.line + (r.2.rest.count '\n' : Nat) = line + ((c :: cs).count '\n' : Nat) ∧
        line ≤ r.2.line ∧ 1 ≤ r.2.column ∧
        ∀ t ∈ r.1, t.line = r.2.line ∧ t.column = r.2.column := by
    intro type hne e
    subst e
    exact ⟨by simp only [count_newline_cons hne], le_refl _, by simp only; omega,
      fun t ht => one t _ ht⟩
  by_cases h1 : c = '\n'
  · rw [if_pos h1] at hr
    subst hr
    refine ⟨?_, by simp only; omega, by simp only; omega, fun t ht => one t _ ht⟩
    simp only [h1, List.count_cons_self]
    push_cast
    omega
  rw [if_neg h1] at hr
  by_cases h2 : c = '"'
  · -- string literal
    rw [if_pos h2] at hr
    subst hr
    obtain ⟨e, hle, hc, hq⟩ := stringLoop_lines cs line (column + 1) ""
    simp only [string]
    generalize stringLoop cs line (column + 1) "" = r at e hle hc hq
    obtain ⟨value, rest1, line1, column1⟩ := r
    simp only at e hle hc hq
    have hc1 := hc (by omega)
    rw [count_newline_cons h1]
    cases rest1 with
    | nil =>
      simp only [isAtEnd, List.isEmpty_nil, if_true]
      exact ⟨e, hle, hc1, fun t ht => one t _ ht⟩
    | cons d ds =>
      have hd : d ≠ '\n' := by
        rw [hq d rfl]; decide
      rw [count_newline_cons hd] at e
      simp only [isAtEnd, List.isEmpty_cons, Bool.false_eq_true, if_false, advance]
      exact ⟨e, hle, by show 1 ≤ column1 + 1; omega, fun t ht => one t _ ht⟩
  rw [if_neg h2] at hr
  by_cases h3 : c = '['
  · rw [if_pos h3] at hr; exact plain _ h1 hr
  rw [if_neg h3] at hr
  by_cases h4 : c = ']'
  · rw [if_pos h4] at hr; exact plain _ h1 hr
  rw [if_neg h4] at hr
  by_cases h5 : c = '('
  · rw [if_pos h5] at hr; exact plain _ h1 hr
  rw [if_neg h5] at hr
  by_cases h6 : c = ')'
  · rw [if_pos h6] at hr; exact plain _ h1 hr
  rw [if_neg h6] at hr
  by_cases h7 : c = '+'
  · rw [if_pos h7] at hr; exact plain _ h1 hr
  rw [if_neg h7] at hr
  by_cases h8 : c = '-'
  · rw [if_pos h8] at hr; exact plain _ h1 hr
  rw [if_neg h8] at hr
  by_cases h9 : c = '*'
  · rw [if_pos h9] at hr; exact plain _ h1 hr
  rw [if_neg h9] at hr
  by_cases h10 : c = '/'
  · rw [if_pos h10] at hr; exact plain _ h1 hr
  rw [if_neg h10] at hr
  by_cases h11 : isDigit c = true
  · -- number
    rw [if_pos h11] at hr
    subst hr
    obtain ⟨k1, k2⟩ := numberLoop_lines (c :: cs) (column + 1 - 1) ""
    simp only [number]
    refine ⟨?_, le_refl _, ?_, fun t ht => one t _ ht⟩
    · simp only [k1]
    · exact le_trans (by omega) k2
  rw [if_neg h11] at hr
  by_cases h12 : isAlpha c = true
  · -- identifier or keyword
    rw [if_pos h12] at hr
    subst hr
    obtain ⟨k1, k2⟩ := identifierLoop_lines (c :: cs) (column + 1 - 1) ""
    simp only [identifier]
    cases keywords (identifierLoop (c :: cs) (column + 1 - 1) "").1 with
    | none =>
      refine ⟨?_, le_refl _, ?_, fun t ht => one t _ ht⟩
      · simp only [k1]
      · exact le_trans (by omega) k2
    | some type =>
      refine ⟨?_, le_refl _, ?_, fun t ht => one t _ ht⟩
      · simp only [k1]
      · exact le_trans (by omega) k2
  rw [if_neg h12] at hr
  subst hr
  exact ⟨by simp only [count_newline_cons h1], le_refl _, by simp only; omega,
    fun t ht => (by cases ht)⟩

/-- The tokens pushed by the loop of `tokenize` from a state on: none lies before the
line of that state, their lines never decrease, their columns are at least 1, and the
last one is the `EOF_TOKEN` at the line of the state plus the newlines still unread. -/
theorem tokenizeLoop_lines (fuel : Nat) : ∀ (lx : Lexer) (tokens : List Token)
    (out : List Token) (lx1 : Lexer), 1 ≤ lx.column →
    tokenizeLoop fuel lx tokens = some (out, lx1) →
    ∃ more, out = tokens ++ more ∧
      (∀ t ∈ more, lx.line ≤ t.line ∧ 1 ≤ t.column) ∧
      more.Pairwise (fun t u => t.line ≤ u.line) ∧
      ∃ last, more.getLast? = some last ∧ last.type = TokenType.EOF_TOKEN ∧
        last.line = lx.line + (lx.rest.count '\n' : Nat) := by
  induction fuel with
  | zero => intro lx tokens out lx1 _ h; simp [tokenizeLoop] at h
  | succ fuel ih =>
    intro lx tokens out lx1 hcol h
    have final : ∀ lx2 : Lexer, lx2.rest = [] → lx2.line = lx.line →
        lx.rest.count '\n' = 0 → 1 ≤ lx2.column →
        some (tokens ++ [lx2.makeToken TokenType.EOF_TOKEN], lx2) = some (out, lx1) →
        ∃ more, out = tokens ++ more ∧
          (∀ t ∈ more, lx.line ≤ t.line ∧ 1 ≤ t.column) ∧
          more.Pairwise (fun t u => t.line ≤ u.line) ∧
          ∃ last, more.getLast? = some last ∧ last.type = TokenType.EOF_TOKEN ∧
            last.line = lx.line + (lx.rest.count '\n' : Nat) := by
      intro lx2 hrest hline hcount hcol2 e
      simp only [Option.some.injEq, Prod.mk.injEq] at e
      obtain ⟨rfl, rfl⟩ := e
      refine ⟨[lx2.makeToken TokenType.EOF_TOKEN], rfl, ?_, List.pairwise_singleton _ _,
        lx2.makeToken TokenType.EOF_TOKEN, rfl, rfl, ?_⟩
      · intro t ht
        simp only [List.mem_singleton] at ht
        subst ht
        exact ⟨le_of_eq hline.symm, hcol2⟩
      · show lx2.line = _
        rw [hline, hcount]
        simp
    simp only [tokenizeLoop] at h
    by_cases hend : lx.isAtEnd = true
    · rw [if_pos hend] at h
      have hrest : lx.rest = [] := by simpa [isAtEnd] using hend
      exact final lx hrest rfl (by rw [hrest]; rfl) hcol h
    · rw [if_neg hend] at h
      cases hsk : skipWhitespace (fuel + 1) lx with
      | none => rw [hsk] at h; cases h
      | some lx2 =>
        rw [hsk] at h
        simp only at h
        obtain ⟨e1, e2, e3⟩ := skipWhitespace_lines _ _ _ hsk
        by_cases hend2 : lx2.isAtEnd = true
        · rw [if_pos hend2] at h
          have hrest : lx2.rest = [] := by simpa [isAtEnd] using hend2
          exact final lx2 hrest e1 (by rw [← e3, hrest]; rfl) (by omega) h
        · rw [if_neg hend2] at h
          obtain ⟨rest2, line2, column2, cerr2⟩ := lx2
          cases rest2 with
          | nil => simp [isAtEnd] at hend2
          | cons c cs =>
            simp only [advance] at h
            simp only at e1 e2 e3
            obtain ⟨k1, k2, k3, k4⟩ := scanToken_lines c cs line2 column2 cerr2 (by omega)
            generalize scanToken ⟨c :: cs, line2, column2, cerr2⟩
              ⟨cs, line2, column2 + 1, cerr2⟩ c = r at h k1 k2 k3 k4
            obtain ⟨more, rfl, hall, hsorted, last, hlast, htype, hline⟩ :=
              ih r.2 (tokens ++ r.1) out lx1 k3 h
            refine ⟨r.1 ++ more, by rw [List.append_assoc], ?_, ?_, last, ?_, htype, ?_⟩
            · intro t ht
              rcases List.mem_append.1 ht with ht | ht
              · obtain ⟨a1, a2⟩ := k4 t ht
                exact ⟨by omega, by omega⟩
              · obtain ⟨a1, a2⟩ := hall t ht
                exact ⟨by omega, a2⟩
            · rw [List.pairwise_append]
              refine ⟨?_, hsorted, ?_⟩
              · have hsame : ∀ t ∈ r.1, t.line = r.2.line := fun t ht => (k4 t ht).1
                rw [List.pairwise_iff_forall_sublist]
                intro t u hsub
                have ht := hsub.subset (List.mem_cons_self _ _)
                have hu := hsub.subset (List.mem_cons_of_mem _ (List.mem_singleton_self _))
                rw [hsame t ht, hsame u hu]
              · intro t ht u hu
                rw [(k4 t ht).1]
                exact (hall u hu).1
            · cases more with
              | nil => simp at hlast
              | cons m ms => rw [List.getLast?_append_of_ne_nil _ (by simp)]; exact hlast
            · rw [hline, k1, e1, ← e3]

end Lexer

/-- C36. Line tracking of the lexer. For every source text `tokenize` returns a token
sequence in which every line number and every column is at least 1, the line numbers
never decrease along the sequence, and the last token is an `EOF_TOKEN` whose line is
1 plus the number of newline characters of the source, wherever they stand (in a
string literal, after a comment, between statements). -/
theorem c36_line_tracking (source : String) :
    ∃ tokens, Lexer.tokenize source = some tokens ∧
      (∀ t ∈ tokens, 1 ≤ t.line ∧ 1 ≤ t.column) ∧
      tokens.Pairwise (fun t u => t.line ≤ u.line) ∧
      ∃ last, tokens.getLast? = some last ∧ last.type = TokenType.EOF_TOKEN ∧
        last.line = 1 + (source.data.count '\n' : Nat) := by
  obtain ⟨more, lx1, hrun, _⟩ := Lexer.tokenizeLoop_terminates (source.length + 1)
    (Lexer.init source) [] (Nat.lt_succ_self _)
  obtain ⟨more1, e, hall, hsorted, last, hlast, htype, hline⟩ :=
    Lexer.tokenizeLoop_lines _ _ _ _ _ (le_refl _) hrun
  have hr : Lexer.run source = some ([] ++ more, lx1) := hrun
  refine ⟨[] ++ more, by simp [Lexer.tokenize, hr], ?_, ?_, last, ?_, htype, hline⟩
  · rw [e]
    intro t ht
    exact hall t (by simpa using ht)
  · rw [e]; simpa using hsorted
  · rw [e]; simpa using hlast

/-! ## Parser: positions, exceptions and declarations -/

namespace Res.Sound

variable {α β : Type} {A : α → Parser → Prop} {A2 : β → Parser → Prop}
  {B : Parser → Prop}

theorem ok_of {a : α} {q : Parser} (h : A a q) : Res.Sound A B (Res.ok a q) (Res.ok a q) :=
  ⟨rfl, fun e => (by cases e), fun a1 q1 e => (by cases e; exact h), fun _ e => (by cases e)⟩

theorem thrown_of {q : Parser} (h : B q) :
    Res.Sound A B (Res.thrown q) (Res.thrown q) :=
  ⟨rfl, fun e => (by cases e), fun _ _ e => (by cases e), fun q1 e => (by cases e; exact h)⟩

theorem timeout_of : Res.Sound A B (Res.timeout : Res α) Res.timeout :=
  ⟨rfl, fun e => (by cases e), fun _ _ e => (by cases e), fun _ e => (by cases e)⟩

theorem imp {A1 : α → Parser → Prop} {r r1 : Res α} (h : Res.Sound A B r r1)
    (hA : ∀ a q, A a q → A1 a q) : Res.Sound A1 B r r1 :=
  ⟨h.1, h.2.1, fun a q e => hA a q (h.2.2.1 a q e), h.2.2.2⟩

/-- Sequencing of sound calls. -/
theorem seq {r r1 : Res α} {k k1 : α → Parser → Res β} (h : Res.Sound A B r r1)
    (hk : ∀ a q, A a q → Res.Sound A2 B (k a q) (k1 a q)) :
    Res.Sound A2 B (r.bind k) (r1.bind k1) := by
  obtain ⟨rfl, h2, h3, h4⟩ := h
  cases r1 with
  | ok a q => exact hk a q (h3 a q rfl)
  | thrown q => exact thrown_of (h4 q rfl)
  | undefined => exact absurd rfl h2
  | timeout => exact timeout_of

end Res.Sound

namespace Parser

section

variable {T T1 : List Token} {k : Nat} {B : Parser → Prop}

/-- At a position up to the first `EOF_TOKEN` both sequences hold the same token, which
is the `EOF_TOKEN` only at its index. -/
theorem upTo_token (hu : UpTo T T1 k) {p : Parser} (hp : p.current ≤ k) :
    ∃ t, T[p.current]? = some t ∧ T1[p.current]? = some t ∧
      (t.type = TokenType.EOF_TOKEN ↔ p.current = k) := by
  rcases Nat.lt_or_eq_of_le hp with h | h
  · obtain ⟨t, ht, hne⟩ := hu.before _ h
    exact ⟨t, ht, by rw [hu.agree _ hp, ht], fun e => absurd e hne, fun e => by omega⟩
  · obtain ⟨t, ht, he⟩ := hu.eof
    rw [← h] at ht
    exact ⟨t, ht, by rw [hu.agree _ hp, ht], fun _ => h, fun _ => he⟩

theorem upTo_mem {tokens : List Token} {i : Nat} {t : Token} (h : tokens[i]? = some t) :
    t ∈ tokens := by
  obtain ⟨hlt, e⟩ := List.getElem?_eq_some_iff.1 h
  exact e ▸ List.getElem_mem _

theorem peek_sound (hu : UpTo T T1 k) {p : Parser} (hp : p.current ≤ k) :
    Res.Sound (fun _ q => q = p) B (peek T p) (peek T1 p) := by
  obtain ⟨t, h1, h2, _⟩ := upTo_token hu hp
  unfold peek
  rw [h1, h2]
  exact Res.Sound.ok_of rfl

theorem isAtEnd_sound (hu : UpTo T T1 k) {p : Parser} (hp : p.current ≤ k) :
    Res.Sound (fun b q => q = p ∧ (b = true ↔ p.current = k)) B (isAtEnd T p)
      (isAtEnd T1 p) := by
  obtain ⟨t, h1, h2, h3⟩ := upTo_token hu hp
  rw [isAtEnd_eq, isAtEnd_eq, h1, h2]
  exact Res.Sound.ok_of ⟨rfl, by rw [beq_iff_eq]; exact h3⟩

theorem atBlockEnd_sound (hu : UpTo T T1 k) {p : Parser} (hp : p.current ≤ k)
    (types : List TokenType) :
    Res.Sound (fun _ q => q = p) B (atBlockEnd T p types) (atBlockEnd T1 p types) := by
  obtain ⟨t, h1, h2, _⟩ := upTo_token hu hp
  rw [atBlockEnd_eq, atBlockEnd_eq, h1, h2]
  exact Res.Sound.ok_of rfl

/-- The call `match`: when it finds one of the types it moves one token on, not past the
first `EOF_TOKEN`; otherwise it changes nothing. -/
theorem match_sound (hu : UpTo T T1 k) {p : Parser} (hp : p.current ≤ k)
    (type : TokenType) (types : List TokenType) :
    Res.Sound (fun b q => q.current ≤ k ∧
        (b = true → q.current = p.current + 1 ∧
          ∃ t, T[p.current]? = some t ∧ t.type ∈ type :: types) ∧
        (b = false → q = p)) B
      (match_ T p (type :: types)) (match_ T1 p (type :: types)) := by
  obtain ⟨t, h1, h2, h3⟩ := upTo_token hu hp
  rw [match_eq, match_eq, h1, h2]
  simp only
  by_cases hc : t.type ≠ TokenType.EOF_TOKEN ∧ t.type ∈ type :: types
  · rw [if_pos hc]
    have hlt : p.current ≠ k := fun e => hc.1 (h3.2 e)
    exact Res.Sound.ok_of ⟨by simp only; omega, fun _ => ⟨rfl, t, rfl, hc.2⟩,
      fun e => (by cases e)⟩
  · rw [if_neg hc]
    exact Res.Sound.ok_of ⟨hp, fun e => (by cases e), fun _ => rfl⟩

/-- The call `consume`: either it moves over a token of the expected type, or it stays
and reports the message; it throws nothing. -/
theorem consume_sound (hu : UpTo T T1 k) {p : Parser} (hp : p.current ≤ k)
    (type : TokenType) (message : String) :
    Res.Sound (fun _ q => q.current ≤ k ∧
        ((q.current = p.current + 1 ∧ ∃ t, T[p.current]? = some t ∧ t.type = type) ∨
          (q.current = p.current ∧ ∃ line, ParseDiag.parseError message line ∈ q.cerr))) B
      (consume T p type message) (consume T1 p type message) := by
  obtain ⟨t, h1, h2, h3⟩ := upTo_token hu hp
  rw [consume_eq, consume_eq, h1, h2]
  simp only
  by_cases hc : t.type ≠ TokenType.EOF_TOKEN ∧ t.type = type
  · rw [if_pos hc]
    have hlt : p.current ≠ k := fun e => hc.1 (h3.2 e)
    exact Res.Sound.ok_of ⟨by simp only; omega, Or.inl ⟨rfl, t, rfl, hc.2⟩⟩
  · rw [if_neg hc]
    exact Res.Sound.ok_of ⟨hp, Or.inr ⟨rfl, t.line, by simp⟩⟩

/-- The call `previous` at a position other than the first. -/
theorem previous_sound (hu : UpTo T T1 k) {p : Parser} (hp : p.current ≤ k)
    (h1 : 1 ≤ p.current) :
    Res.Sound (fun t q => q = p ∧ T[p.current - 1]? = some t) B (previous T p)
      (previous T1 p) := by
  obtain ⟨t, h2, h3, _⟩ := @upTo_token T T1 k hu ⟨p.current - 1, p.cerr⟩ (by simp only; omega)
  rw [previous_eq, previous_eq, if_neg (by omega), if_neg (by omega)]
  simp only at h2 h3
  rw [h2, h3]
  exact Res.Sound.ok_of ⟨rfl, rfl⟩

theorem skipNewlines_sound_aux (hu : UpTo T T1 k) (n : Nat) : ∀ p : Parser,
    k - p.current = n → p.current ≤ k →
    Res.Sound (fun _ q => q.current ≤ k ∧ p.current ≤ q.current) B (skipNewlines T p)
      (skipNewlines T1 p) := by
  induction n with
  | zero =>
    intro p hn hp
    obtain ⟨t, h1, h2, h3⟩ := upTo_token hu hp
    have he : t.type = TokenType.EOF_TOKEN := h3.2 (by omega)
    have hne : t.type ≠ TokenType.NEWLINE := by rw [he]; decide
    rw [skipNewlines_eq, skipNewlines_eq T1, h1, h2]
    simp only [if_neg hne]
    exact Res.Sound.ok_of ⟨hp, le_refl _⟩
  | succ n ih =>
    intro p hn hp
    obtain ⟨t, h1, h2, h3⟩ := upTo_token hu hp
    rw [skipNewlines_eq, skipNewlines_eq T1, h1, h2]
    simp only
    by_cases hc : t.type = TokenType.NEWLINE
    · rw [if_pos hc, if_pos hc]
      exact (ih ⟨p.current + 1, p.cerr⟩ (by simp only; omega) (by simp only; omega)).imp
        (fun _ q h => ⟨h.1, by have := h.2; simp only at this; omega⟩)
    · rw [if_neg hc, if_neg hc]
      exact Res.Sound.ok_of ⟨hp, le_refl _⟩

/-- The call `skipNewlines` stops at the first `EOF_TOKEN` at the latest. -/
theorem skipNewlines_sound (hu : UpTo T T1 k) {p : Parser} (hp : p.current ≤ k) :
    Res.Sound (fun _ q => q.current ≤ k ∧ p.current ≤ q.current) B (skipNewlines T p)
      (skipNewlines T1 p) :=
  skipNewlines_sound_aux hu _ p rfl hp

/-- The loop that skips a decorative comment stops at the first `EOF_TOKEN` at the
latest. -/
theorem skipLineFrom_sound (hu : UpTo T T1 k) (n : Nat) : ∀ i : Nat, k - i = n → i ≤ k →
    ∃ j, skipLineFrom (T.drop i) i = some j ∧ skipLineFrom (T1.drop i) i = some j ∧
      j ≤ k := by
  induction n with
  | zero =>
    intro i hn hi
    obtain ⟨t, h1, h2, h3⟩ := @upTo_token T T1 k hu ⟨i, []⟩ hi
    simp only at h1 h2 h3
    have he : t.type = TokenType.EOF_TOKEN := h3.2 (by omega)
    rw [skipLineFrom_eq, skipLineFrom_eq T1, h1, h2]
    simp only [he, or_true, if_true]
    exact ⟨i, rfl, rfl, hi⟩
  | succ n ih =>
    intro i hn hi
    obtain ⟨t, h1, h2, h3⟩ := @upTo_token T T1 k hu ⟨i, []⟩ hi
    simp only at h1 h2 h3
    rw [skipLineFrom_eq, skipLineFrom_eq T1, h1, h2]
    simp only
    by_cases hc : t.type = TokenType.NEWLINE ∨ t.type = TokenType.EOF_TOKEN
    · simp only [if_pos hc]
      exact ⟨i, rfl, rfl, hi⟩
    · simp only [if_neg hc]
      have hne : i ≠ k := fun e => hc (Or.inr (h3.2 e))
      exact ih (i + 1) (by omega) (by omega)

end

end Parser

namespace Parser

section

variable {T T1 : List Token} {k : Nat}

/-- The expression functions started not after the first `EOF_TOKEN` stay there, read no
token outside the sequence and none after the first `EOF_TOKEN`, and throw only on an
`INTEGER` lexeme that does not fit. -/
theorem expression_sound (hu : UpTo T T1 k) (n : Nat) :
    (∀ p : Parser, p.current ≤ k →
      Res.Sound (fun _ q => q.current ≤ k) (Thrown T k) (expression n T p)
        (expression n T1 p)) ∧
    (∀ (level : Level) (p : Parser), p.current ≤ k →
      Res.Sound (fun _ q => q.current ≤ k) (Thrown T k) (binaryLevel n level T p)
        (binaryLevel n level T1 p)) ∧
    (∀ (level : Level) (expr : Expr) (p : Parser), p.current ≤ k →
      Res.Sound (fun _ q => q.current ≤ k) (Thrown T k) (binaryLoop n level T expr p)
        (binaryLoop n level T1 expr p)) ∧
    (∀ p : Parser, p.current ≤ k →
      Res.Sound (fun _ q => q.current ≤ k) (Thrown T k) (primary n T p)
        (primary n T1 p)) := by
  induction n with
  | zero =>
    refine ⟨?_, ?_, ?_, ?_⟩ <;> intros <;> exact Res.Sound.timeout_of
  | succ n ih =>
    obtain ⟨ihE, ihL, ihO, ihP⟩ := ih
    have operand : ∀ (level : Level) (p : Parser), p.current ≤ k →
        Res.Sound (fun _ q => q.current ≤ k) (Thrown T k)
          (match level.next with
            | some next => binaryLevel n next T p
            | none => primary n T p)
          (match level.next with
            | some next => binaryLevel n next T1 p
            | none => primary n T1 p) := by
      intro level p hp
      cases level.next with
      | some next => exact ihL next p hp
      | none => exact ihP p hp
    refine ⟨?_, ?_, ?_, ?_⟩
    · intro p hp
      simp only [expression]
      exact ihL _ p hp
    · intro level p hp
      simp only [binaryLevel]
      refine Res.Sound.seq (operand level p hp) ?_
      intro expr q hq
      exact ihO level expr q hq
    · intro level expr p hp
      obtain ⟨type, types, hops, _, _⟩ := Level.ops_spec level
      simp only [binaryLoop, hops]
      refine Res.Sound.seq (skipNewlines_sound hu hp) ?_
      rintro _ q ⟨hq, _⟩
      refine Res.Sound.seq (match_sound hu hq type types) ?_
      rintro found q2 ⟨hq2, hfound, _⟩
      cases found with
      | true =>
        simp only [if_true]
        obtain ⟨hnext, _⟩ := hfound rfl
        refine Res.Sound.seq (previous_sound hu hq2 (by omega)) ?_
        rintro opToken _ ⟨rfl, _⟩
        refine Res.Sound.seq (skipNewlines_sound hu hq2) ?_
        rintro _ q3 ⟨hq3, _⟩
        refine Res.Sound.seq (operand level q3 hq3) ?_
        intro right q4 hq4
        exact ihO level _ q4 hq4
      | false =>
        simp only [Bool.false_eq_true, if_false]
        exact Res.Sound.ok_of hq2
    · intro p hp
      simp only [primary]
      refine Res.Sound.seq (match_sound hu hp _ _) ?_
      rintro isString q ⟨hq, hfound, hsame⟩
      cases isString with
      | true =>
        simp only [if_true]
        obtain ⟨hnext, _⟩ := hfound rfl
        refine Res.Sound.seq (previous_sound hu hq (by omega)) ?_
        rintro t _ ⟨rfl, _⟩
        exact Res.Sound.ok_of hq
      | false =>
        simp only [Bool.false_eq_true, if_false]
        cases hsame rfl
        refine Res.Sound.seq (match_sound hu hp _ _) ?_
        rintro isInteger q ⟨hq, hfound, hsame⟩
        cases isInteger with
        | true =>
          simp only [if_true]
          obtain ⟨hnext, t0, ht0, hty⟩ := hfound rfl
          refine Res.Sound.seq (previous_sound hu hq (by omega)) ?_
          rintro t _ ⟨rfl, ht⟩
          have e : t = t0 := by
            rw [hnext, Nat.add_sub_cancel, ht0] at ht
            exact (Option.some.inj ht).symm
          cases hs : stoi t.value with
          | some v => exact Res.Sound.ok_of hq
          | none =>
            refine Res.Sound.thrown_of ⟨hq, fun hfit => ?_⟩
            have hmem : t ∈ T := e ▸ upTo_mem ht0
            have hint : t.type = TokenType.INTEGER := by
              rw [e]; simpa using hty
            exact absurd hs (hfit t hmem hint)
        | false =>
          simp only [Bool.false_eq_true, if_false]
          cases hsame rfl
          refine Res.Sound.seq (match_sound hu hp _ _) ?_
          rintro isParen q ⟨hq, _, hsame⟩
          cases isParen with
          | true =>
            simp only [if_true]
            refine Res.Sound.seq (ihE q hq) ?_
            intro expr q2 hq2
            refine Res.Sound.seq (consume_sound hu hq2 _ _) ?_
            rintro _ q3 ⟨hq3, _⟩
            exact Res.Sound.ok_of hq3
          | false =>
            simp only [Bool.false_eq_true, if_false]
            cases hsame rfl
            refine Res.Sound.seq (match_sound hu hp _ _) ?_
            rintro isIdentifier q ⟨hq, hfound, hsame⟩
            cases isIdentifier with
            | true =>
              simp only [if_true]
              obtain ⟨hnext, _⟩ := hfound rfl
              refine Res.Sound.seq (previous_sound hu hq (by omega)) ?_
              rintro t _ ⟨rfl, _⟩
              refine Res.Sound.seq (match_sound hu hq _ _) ?_
              rintro isBracket q2 ⟨hq2, _, _⟩
              cases isBracket with
              | true =>
                simp only [if_true]
                refine Res.Sound.seq (ihE q2 hq2) ?_
                intro index q3 hq3
                refine Res.Sound.seq (consume_sound hu hq3 _ _) ?_
                rintro _ q4 ⟨hq4, _⟩
                exact Res.Sound.ok_of hq4
              | false =>
                simp only [Bool.false_eq_true, if_false]
                exact Res.Sound.ok_of hq2
            | false =>
              simp only [Bool.false_eq_true, if_false]
              cases hsame rfl
              refine Res.Sound.seq (peek_sound hu hp) ?_
              rintro t _ rfl
              exact Res.Sound.ok_of hp

end

end Parser

namespace Parser

theorem shaped_print (tokens : List Token) (expr : Expr) :
    Shaped tokens (Stmt.PrintStatement expr) := fun _ _ _ h => (by cases h)

theorem shaped_assignment (tokens : List Token) (varName : String) (value index : Expr) :
    Shaped tokens (Stmt.Assignment varName value index) := fun _ _ _ h => (by cases h)

theorem shaped_increment (tokens : List Token) (varName : String) (amount : Int) :
    Shaped tokens (Stmt.IncrementStatement varName amount) := fun _ _ _ h => (by cases h)

theorem shaped_read (tokens : List Token) (varName : String) :
    Shaped tokens (Stmt.ReadStatement varName) := fun _ _ _ h => (by cases h)

theorem shaped_declaration {tokens : List Token} {type : String} {arraySize : Int}
    (name : String) (h : DeclShape tokens type arraySize) :
    Shaped tokens (Stmt.VarDeclaration name type arraySize) := by
  intro n t z hd
  cases hd
  exact h

theorem shaped_forLoop {tokens : List Token} {body : List Stmt} (varName : String)
    (condition : Expr) (h : ∀ s ∈ body, Shaped tokens s) :
    Shaped tokens (Stmt.ForLoop varName condition body) := by
  intro n t z hd
  cases hd with
  | forLoop _ _ _ s hs hd => exact h s hs n t z hd

theorem shaped_whileLoop {tokens : List Token} {body : List Stmt} (condition : Expr)
    (h : ∀ s ∈ body, Shaped tokens s) : Shaped tokens (Stmt.WhileLoop condition body) := by
  intro n t z hd
  cases hd with
  | whileLoop _ _ s hs hd => exact h s hs n t z hd

theorem shaped_ifStatement {tokens : List Token} {thenBranch elseBranch : List Stmt}
    {clauses : List (Expr × List Stmt)} (condition : Expr)
    (h1 : ∀ s ∈ thenBranch, Shaped tokens s)
    (h2 : ∀ c ∈ clauses, ∀ s ∈ c.2, Shaped tokens s)
    (h3 : ∀ s ∈ elseBranch, Shaped tokens s) :
    Shaped tokens (Stmt.IfStatement condition thenBranch clauses elseBranch) := by
  intro n t z hd
  cases hd with
  | thenBranch _ _ _ _ s hs hd => exact h1 s hs n t z hd
  | elseIfClause _ _ _ _ c s hc hs hd => exact h2 c hc s hs n t z hd
  | elseBranch _ _ _ _ s hs hd => exact h3 s hs n t z hd

theorem missingInteger_append {cerr : List ParseDiag} (h : MissingInteger cerr)
    (more : List ParseDiag) : MissingInteger (cerr ++ more) := by
  obtain ⟨line, h⟩ := h
  exact ⟨line, h.imp (fun h => List.mem_append_left _ h) (fun h => List.mem_append_left _ h)⟩

section

variable {T T1 : List Token} {k : Nat}

theorem printStatement_sound (hu : UpTo T T1 k) (n : Nat) {p : Parser} (hp : p.current ≤ k) :
    Res.Sound (fun st q => q.current ≤ k ∧ Shaped T st) (Thrown T k)
      (printStatement n T p) (printStatement n T1 p) := by
  unfold printStatement
  refine Res.Sound.seq ((expression_sound hu n).1 p hp) ?_
  intro expr q hq
  exact Res.Sound.ok_of ⟨hq, shaped_print T expr⟩

theorem readStatement_sound (hu : UpTo T T1 k) {p : Parser} (hp : p.current ≤ k)
    (h1 : 1 ≤ p.current) :
    Res.Sound (fun st q => q.current ≤ k ∧ Shaped T st) (Thrown T k)
      (readStatement T p) (readStatement T1 p) := by
  unfold readStatement
  refine Res.Sound.seq (consume_sound hu hp _ _) ?_
  rintro _ q ⟨hq, hcase⟩
  refine Res.Sound.seq (previous_sound hu hq (by omega)) ?_
  rintro t _ ⟨rfl, _⟩
  exact Res.Sound.ok_of ⟨hq, shaped_read T _⟩

theorem assignment_sound (hu : UpTo T T1 k) (n : Nat) {p : Parser} (hp : p.current ≤ k)
    (h1 : 1 ≤ p.current) :
    Res.Sound (fun st q => q.current ≤ k ∧ Shaped T st) (Thrown T k)
      (assignment n T p) (assignment n T1 p) := by
  unfold assignment
  refine Res.Sound.seq (consume_sound hu hp _ _) ?_
  rintro _ q ⟨hq, hcase⟩
  refine Res.Sound.seq (previous_sound hu hq (by omega)) ?_
  rintro t _ ⟨rfl, _⟩
  refine Res.Sound.seq (match_sound hu hq _ _) ?_
  rintro isBracket q2 ⟨hq2, _, _⟩
  refine Res.Sound.seq (A := fun _ q => q.current ≤ k) ?_ ?_
  · cases isBracket with
    | true =>
      simp only [if_true]
      refine Res.Sound.seq ((expression_sound hu n).1 q2 hq2) ?_
      intro index q3 hq3
      refine Res.Sound.seq (consume_sound hu hq3 _ _) ?_
      rintro _ q4 ⟨hq4, _⟩
      exact Res.Sound.ok_of hq4
    | false =>
      simp only [Bool.false_eq_true, if_false]
      exact Res.Sound.ok_of hq2
  · intro index q5 hq5
    refine Res.Sound.seq (consume_sound hu hq5 _ _) ?_
    rintro _ q6 ⟨hq6, _⟩
    refine Res.Sound.seq ((expression_sound hu n).1 q6 hq6) ?_
    intro value q7 hq7
    exact Res.Sound.ok_of ⟨hq7, shaped_assignment T _ _ _⟩

/-- The call `incrementStatement` throws only when the amount is missing or does not
fit. -/
theorem incrementStatement_sound (hu : UpTo T T1 k) {p : Parser} (hp : p.current ≤ k)
    (h1 : 1 ≤ p.current) :
    Res.Sound (fun st q => q.current ≤ k ∧ Shaped T st) (Thrown T k)
      (incrementStatement T p) (incrementStatement T1 p) := by
  unfold incrementStatement
  refine Res.Sound.seq (consume_sound hu hp _ _) ?_
  rintro _ q ⟨hq, hcase⟩
  refine Res.Sound.seq (previous_sound hu hq (by omega)) ?_
  rintro nameToken _ ⟨rfl, _⟩
  refine Res.Sound.seq (consume_sound hu hq _ _) ?_
  rintro _ q2 ⟨hq2, hcase2⟩
  refine Res.Sound.seq (consume_sound hu hq2 _ _) ?_
  rintro _ q3 ⟨hq3, hcase3⟩
  refine Res.Sound.seq (previous_sound hu hq3 (by omega)) ?_
  rintro amountToken _ ⟨rfl, hprev⟩
  cases hs : stoi amountToken.value with
  | some amount => exact Res.Sound.ok_of ⟨hq3, shaped_increment T _ _⟩
  | none =>
    refine Res.Sound.thrown_of ⟨hq3, fun hfit => ?_⟩
    rcases hcase3 with ⟨hnext, t, ht, hty⟩ | ⟨_, line, hline⟩
    · rw [hnext, Nat.add_sub_cancel, ht] at hprev
      cases hprev
      exact absurd hs (hfit _ (upTo_mem ht) hty)
    · exact ⟨line, Or.inl hline⟩

/-- The call `varDeclaration` throws only when the array size is missing or does not
fit; the declaration it returns has the shape `DeclShape`. -/
theorem varDeclaration_sound (hu : UpTo T T1 k) {p : Parser} (hp : p.current ≤ k)
    (h1 : 1 ≤ p.current) :
    Res.Sound (fun st q => q.current ≤ k ∧ Shaped T st) (Thrown T k)
      (varDeclaration T p) (varDeclaration T1 p) := by
  unfold varDeclaration
  refine Res.Sound.seq (consume_sound hu hp _ _) ?_
  rintro _ q ⟨hq, hcase⟩
  refine Res.Sound.seq (previous_sound hu hq (by omega)) ?_
  rintro nameToken _ ⟨rfl, _⟩
  refine Res.Sound.seq (consume_sound hu hq _ _) ?_
  rintro _ q2 ⟨hq2, _⟩
  refine Res.Sound.seq (match_sound hu hq2 _ _) ?_
  rintro isInteger q3 ⟨hq3, _, hsame3⟩
  cases isInteger with
  | true =>
    simp only [if_true]
    exact Res.Sound.ok_of ⟨hq3, shaped_declaration _
      ⟨Or.inl rfl, fun _ => rfl, fun _ => le_refl _⟩⟩
  | false =>
    simp only [Bool.false_eq_true, if_false]
    cases hsame3 rfl
    refine Res.Sound.seq (match_sound hu hq2 _ _) ?_
    rintro isString q4 ⟨hq4, _, hsame4⟩
    cases isString with
    | true =>
      simp only [if_true]
      exact Res.Sound.ok_of ⟨hq4, shaped_declaration _
        ⟨Or.inr (Or.inl rfl), fun _ => rfl, fun _ => le_refl _⟩⟩
    | false =>
      simp only [Bool.false_eq_true, if_false]
      cases hsame4 rfl
      refine Res.Sound.seq (match_sound hu hq2 _ _) ?_
      rintro isArray q5 ⟨hq5, hfound5, hsame5⟩
      cases isArray with
      | true =>
        simp only [if_true]
        obtain ⟨hnext5, t5, ht5, hty5⟩ := hfound5 rfl
        have hty5 : t5.type = TokenType.ARRAY_OF_STRING := by simpa using hty5
        refine Res.Sound.seq (consume_sound hu hq5 _ _) ?_
        rintro _ q6 ⟨hq6, hcase6⟩
        refine Res.Sound.seq (consume_sound hu hq6 _ _) ?_
        rintro _ q7 ⟨hq7, hcase7⟩
        refine Res.Sound.seq (previous_sound hu hq7 (by omega)) ?_
        rintro sizeToken q8 ⟨rfl, hprev⟩
        have hkind : (sizeToken.type = TokenType.INTEGER ∨
            sizeToken.type = TokenType.SIZE ∨
            sizeToken.type = TokenType.ARRAY_OF_STRING) ∧
            (sizeToken.type = TokenType.INTEGER ∨
              ∃ line, ParseDiag.parseError "Expected array size" line ∈ q8.cerr) := by
          rcases hcase7 with ⟨hnext7, t7, ht7, hty7⟩ | ⟨hstay7, line, hline⟩
          · rw [hnext7, Nat.add_sub_cancel, ht7] at hprev
            cases hprev
            exact ⟨Or.inl hty7, Or.inl hty7⟩
          · refine ⟨?_, Or.inr ⟨line, hline⟩⟩
            rcases hcase6 with ⟨hnext6, t6, ht6, hty6⟩ | ⟨hstay6, _⟩
            · rw [hstay7, hnext6, Nat.add_sub_cancel, ht6] at hprev
              cases hprev
              exact Or.inr (Or.inl hty6)
            · rw [hstay7, hstay6, hnext5, Nat.add_sub_cancel, ht5] at hprev
              cases hprev
              exact Or.inr (Or.inr hty5)
        cases hs : stoi sizeToken.value with
        | some arraySize =>
          exact Res.Sound.ok_of ⟨hq7, shaped_declaration _
            ⟨Or.inr (Or.inr (Or.inl rfl)), fun h => absurd rfl h,
              fun hsizes => hsizes _ (upTo_mem hprev) hkind.1 _ hs⟩⟩
        | none =>
          refine Res.Sound.thrown_of ⟨hq7, fun hfit => ?_⟩
          rcases hkind.2 with hty | ⟨line, hline⟩
          · exact absurd hs (hfit _ (upTo_mem hprev) hty)
          · exact ⟨line, Or.inr hline⟩
      | false =>
        simp only [Bool.false_eq_true, if_false]
        exact Res.Sound.ok_of ⟨hq5, shaped_declaration _
          ⟨Or.inr (Or.inr (Or.inr rfl)), fun _ => rfl, fun _ => le_refl _⟩⟩

end

end Parser

namespace Parser

section

variable {T T1 : List Token} {k : Nat}

/-- The statement functions started not after the first `EOF_TOKEN` stay there, read no
token outside the sequence and none after the first `EOF_TOKEN`, throw only for an
integer that is missing or does not fit, and return declarations of the shape
`DeclShape` only. -/
theorem statement_sound (hu : UpTo T T1 k) (n : Nat) :
    (∀ p : Parser, p.current ≤ k →
      Res.Sound (fun r q => q.current ≤ k ∧ ∀ s, r = some s → Shaped T s) (Thrown T k)
        (statement n T p) (statement n T1 p)) ∧
    (∀ (types : List TokenType) (body : List Stmt) (p : Parser), p.current ≤ k →
      (∀ s ∈ body, Shaped T s) →
      Res.Sound (fun b q => q.current ≤ k ∧ ∀ s ∈ b, Shaped T s) (Thrown T k)
        (block n types T body p) (block n types T1 body p)) ∧
    (∀ p : Parser, p.current ≤ k →
      Res.Sound (fun st q => q.current ≤ k ∧ Shaped T st) (Thrown T k)
        (forLoop n T p) (forLoop n T1 p)) ∧
    (∀ p : Parser, p.current ≤ k →
      Res.Sound (fun st q => q.current ≤ k ∧ Shaped T st) (Thrown T k)
        (whileLoop n T p) (whileLoop n T1 p)) ∧
    (∀ (clauses : List (Expr × List Stmt)) (p : Parser), p.current ≤ k →
      (∀ c ∈ clauses, ∀ s ∈ c.2, Shaped T s) →
      Res.Sound (fun cl q => q.current ≤ k ∧ ∀ c ∈ cl, ∀ s ∈ c.2, Shaped T s) (Thrown T k)
        (elseIfClauses n T clauses p) (elseIfClauses n T1 clauses p)) ∧
    (∀ p : Parser, p.current ≤ k →
      Res.Sound (fun st q => q.current ≤ k ∧ Shaped T st) (Thrown T k)
        (ifStatement n T p) (ifStatement n T1 p)) := by
  induction n with
  | zero =>
    refine ⟨?_, ?_, ?_, ?_, ?_, ?_⟩ <;> intros <;> exact Res.Sound.timeout_of
  | succ n ih =>
    obtain ⟨ihS, ihB, ihF, ihW, ihC, ihI⟩ := ih
    have hE := (expression_sound hu n).1
    have some_of : ∀ {r r1 : Res Stmt}, Res.Sound (fun st q => q.current ≤ k ∧ Shaped T st)
        (Thrown T k) r r1 →
        Res.Sound (fun r q => q.current ≤ k ∧ ∀ s, r = some s → Shaped T s) (Thrown T k)
          (r.bind fun s p => Res.ok (some s) p) (r1.bind fun s p => Res.ok (some s) p) := by
      intro r r1 h
      refine Res.Sound.seq h ?_
      rintro st q ⟨hq, hst⟩
      exact Res.Sound.ok_of ⟨hq, fun s e => by cases e; exact hst⟩
    have some_some_of : ∀ {r r1 : Res Stmt},
        Res.Sound (fun st q => q.current ≤ k ∧ Shaped T st) (Thrown T k) r r1 →
        Res.Sound (fun (r : Option (Option Stmt)) q => q.current ≤ k ∧
            ∀ s, r = some (some s) → Shaped T s) (Thrown T k)
          (r.bind fun s p => Res.ok (some (some s)) p)
          (r1.bind fun s p => Res.ok (some (some s)) p) := by
      intro r r1 h
      refine Res.Sound.seq h ?_
      rintro st q ⟨hq, hst⟩
      exact Res.Sound.ok_of ⟨hq, fun s e => by cases e; exact hst⟩
    refine ⟨?_, ?_, ?_, ?_, ?_, ?_⟩
    · -- statement
      intro p hp
      simp only [statement]
      refine Res.Sound.seq (skipNewlines_sound hu hp) ?_
      rintro _ q ⟨hq, _⟩
      refine Res.Sound.seq (match_sound hu hq _ _) ?_
      rintro isPrint q2 ⟨hq2, _, hsame2⟩
      cases isPrint with
      | true =>
        simp only [if_true]
        exact some_of (printStatement_sound hu n hq2)
      | false =>
        simp only [Bool.false_eq_true, if_false]
        cases hsame2 rfl
        refine Res.Sound.seq (match_sound hu hq _ _) ?_
        rintro isPlease q3 ⟨hq3, hfound3, _⟩
        refine Res.Sound.seq (A := fun (r : Option (Option Stmt)) q => q.current ≤ k ∧
          ∀ s, r = some (some s) → Shaped T s) ?_ ?_
        · cases isPlease with
          | true =>
            simp only [if_true]
            obtain ⟨hnext3, _⟩ := hfound3 rfl
            refine Res.Sound.seq (match_sound hu hq3 _ _) ?_
            rintro isDeclare q4 ⟨hq4, hfound4, hsame4⟩
            cases isDeclare with
            | true =>
              simp only [if_true]
              exact some_some_of
                (varDeclaration_sound hu hq4 (by have := (hfound4 rfl).1; omega))
            | false =>
              simp only [Bool.false_eq_true, if_false]
              cases hsame4 rfl
              refine Res.Sound.seq (match_sound hu hq3 _ _) ?_
              rintro isSet q5 ⟨hq5, hfound5, hsame5⟩
              cases isSet with
              | true =>
                simp only [if_true]
                exact some_some_of
                  (assignment_sound hu n hq5 (by have := (hfound5 rfl).1; omega))
              | false =>
                simp only [Bool.false_eq_true, if_false]
                cases hsame5 rfl
                refine Res.Sound.seq (match_sound hu hq3 _ _) ?_
                rintro isIncrement q6 ⟨hq6, hfound6, hsame6⟩
                cases isIncrement with
                | true =>
                  simp only [if_true]
                  exact some_some_of
                    (incrementStatement_sound hu hq6 (by have := (hfound6 rfl).1; omega))
                | false =>
                  simp only [Bool.false_eq_true, if_false]
                  cases hsame6 rfl
                  refine Res.Sound.seq (match_sound hu hq3 _ _) ?_
                  rintro isRead q7 ⟨hq7, hfound7, _⟩
                  cases isRead with
                  | true =>
                    simp only [if_true]
                    exact some_some_of
                      (readStatement_sound hu hq7 (by have := (hfound7 rfl).1; omega))
                  | false =>
                    simp only [Bool.false_eq_true, if_false]
                    exact Res.Sound.ok_of ⟨hq7, fun s e => (by cases e)⟩
          | false =>
            simp only [Bool.false_eq_true, if_false]
            exact Res.Sound.ok_of ⟨hq3, fun s e => (by cases e)⟩
        · rintro returned q4 ⟨hq4, hshape⟩
          cases returned with
          | some result =>
            simp only
            exact Res.Sound.ok_of ⟨hq4, fun s e => hshape s (by rw [e])⟩
          | none =>
            simp only
            refine Res.Sound.seq (match_sound hu hq4 _ _) ?_
            rintro isFor q5 ⟨hq5, _, hsame5⟩
            cases isFor with
            | true =>
              simp only [if_true]
              exact some_of (ihF q5 hq5)
            | false =>
              simp only [Bool.false_eq_true, if_false]
              cases hsame5 rfl
              refine Res.Sound.seq (match_sound hu hq4 _ _) ?_
              rintro isWhile q6 ⟨hq6, _, hsame6⟩
              cases isWhile with
              | true =>
                simp only [if_true]
                exact some_of (ihW q6 hq6)
              | false =>
                simp only [Bool.false_eq_true, if_false]
                cases hsame6 rfl
                refine Res.Sound.seq (match_sound hu hq4 _ _) ?_
                rintro isIf q7 ⟨hq7, _, hsame7⟩
                cases isIf with
                | true =>
                  simp only [if_true]
                  exact some_of (ihI q7 hq7)
                | false =>
                  simp only [Bool.false_eq_true, if_false]
                  cases hsame7 rfl
                  refine Res.Sound.seq (match_sound hu hq4 _ _) ?_
                  rintro isComment q8 ⟨hq8, _, _⟩
                  cases isComment with
                  | true =>
                    simp only [if_true]
                    obtain ⟨j, h1, h2, hj⟩ := skipLineFrom_sound hu _ q8.current rfl hq8
                    rw [h1, h2]
                    exact Res.Sound.ok_of ⟨hj, fun s e => (by cases e)⟩
                  | false =>
                    simp only [Bool.false_eq_true, if_false]
                    exact Res.Sound.ok_of ⟨hq8, fun s e => (by cases e)⟩
    · -- block
      intro types body p hp hbody
      simp only [block]
      refine Res.Sound.seq (atBlockEnd_sound hu hp types) ?_
      rintro done _ rfl
      cases done with
      | true =>
        simp only [if_true]
        exact Res.Sound.ok_of ⟨hp, hbody⟩
      | false =>
        simp only [Bool.false_eq_true, if_false]
        refine Res.Sound.seq (ihS _ hp) ?_
        rintro stmt q ⟨hq, hstmt⟩
        refine Res.Sound.seq (skipNewlines_sound hu hq) ?_
        rintro _ q2 ⟨hq2, _⟩
        refine ihB types _ q2 hq2 ?_
        intro s hs
        rcases List.mem_append.1 hs with h | h
        · exact hbody s h
        · cases stmt with
          | none => cases h
          | some st =>
            simp only [Option.toList, List.mem_singleton] at h
            exact h ▸ hstmt st rfl
    · -- forLoop
      intro p hp
      simp only [forLoop]
      refine Res.Sound.seq (hE p hp) ?_
      intro condition q hq
      refine Res.Sound.seq (consume_sound hu hq _ _) ?_
      rintro _ q2 ⟨hq2, _⟩
      refine Res.Sound.seq (skipNewlines_sound hu hq2) ?_
      rintro _ q3 ⟨hq3, _⟩
      refine Res.Sound.seq (ihB _ [] q3 hq3 (fun s h => (by cases h))) ?_
      rintro body q4 ⟨hq4, hbody⟩
      refine Res.Sound.seq (consume_sound hu hq4 _ _) ?_
      rintro _ q5 ⟨hq5, _⟩
      exact Res.Sound.ok_of ⟨hq5, shaped_forLoop _ _ hbody⟩
    · -- whileLoop
      intro p hp
      simp only [whileLoop]
      refine Res.Sound.seq (hE p hp) ?_
      intro condition q hq
      refine Res.Sound.seq (consume_sound hu hq _ _) ?_
      rintro _ q2 ⟨hq2, _⟩
      refine Res.Sound.seq (skipNewlines_sound hu hq2) ?_
      rintro _ q3 ⟨hq3, _⟩
      refine Res.Sound.seq (ihB _ [] q3 hq3 (fun s h => (by cases h))) ?_
      rintro body q4 ⟨hq4, hbody⟩
      refine Res.Sound.seq (consume_sound hu hq4 _ _) ?_
      rintro _ q5 ⟨hq5, _⟩
      exact Res.Sound.ok_of ⟨hq5, shaped_whileLoop _ hbody⟩
    · -- elseIfClauses
      intro clauses p hp hclauses
      simp only [elseIfClauses]
      refine Res.Sound.seq (match_sound hu hp _ _) ?_
      rintro isElseIf q ⟨hq, _, _⟩
      cases isElseIf with
      | true =>
        simp only [if_true]
        refine Res.Sound.seq (hE q hq) ?_
        intro condition q2 hq2
        refine Res.Sound.seq (consume_sound hu hq2 _ _) ?_
        rintro _ q3 ⟨hq3, _⟩
        refine Res.Sound.seq (skipNewlines_sound hu hq3) ?_
        rintro _ q4 ⟨hq4, _⟩
        refine Res.Sound.seq (ihB _ [] q4 hq4 (fun s h => (by cases h))) ?_
        rintro body q5 ⟨hq5, hbody⟩
        refine ihC _ q5 hq5 ?_
        intro c hc
        rcases List.mem_append.1 hc with h | h
        · exact hclauses c h
        · simp only [List.mem_singleton] at h
          rw [h]
          exact hbody
      | false =>
        simp only [Bool.false_eq_true, if_false]
        exact Res.Sound.ok_of ⟨hq, hclauses⟩
    · -- ifStatement
      intro p hp
      simp only [ifStatement]
      refine Res.Sound.seq (hE p hp) ?_
      intro condition q hq
      refine Res.Sound.seq (consume_sound hu hq _ _) ?_
      rintro _ q2 ⟨hq2, _⟩
      refine Res.Sound.seq (skipNewlines_sound hu hq2) ?_
      rintro _ q3 ⟨hq3, _⟩
      refine Res.Sound.seq (ihB _ [] q3 hq3 (fun s h => (by cases h))) ?_
      rintro thenBranch q4 ⟨hq4, hthen⟩
      refine Res.Sound.seq (ihC [] q4 hq4 (fun c h => (by cases h))) ?_
      rintro clauses q5 ⟨hq5, hclauses⟩
      refine Res.Sound.seq (match_sound hu hq5 _ _) ?_
      rintro isElse q6 ⟨hq6, _, _⟩
      refine Res.Sound.seq (A := fun b q => q.current ≤ k ∧ ∀ s ∈ b, Shaped T s) ?_ ?_
      · cases isElse with
        | true =>
          simp only [if_true]
          refine Res.Sound.seq (skipNewlines_sound hu hq6) ?_
          rintro _ q7 ⟨hq7, _⟩
          exact ihB _ [] q7 hq7 (fun s h => (by cases h))
        | false =>
          simp only [Bool.false_eq_true, if_false]
          exact Res.Sound.ok_of ⟨hq6, fun s h => (by cases h)⟩
      · rintro elseBranch q8 ⟨hq8, helse⟩
        refine Res.Sound.seq (consume_sound hu hq8 _ _) ?_
        rintro _ q9 ⟨hq9, _⟩
        exact Res.Sound.ok_of ⟨hq9, shaped_ifStatement _ hthen hclauses helse⟩

/-- The loop of `parse`: it returns the null program only after an exception, and the
statements of the program it returns hold declarations of the shape `DeclShape`
only. -/
theorem parseLoop_sound (hu : UpTo T T1 k) (n : Nat) :
    ∀ (statements : List Stmt) (p : Parser), p.current ≤ k →
      (∀ s ∈ statements, Shaped T s) →
      Res.Sound (fun r q => q.current ≤ k ∧
          (∀ program, r = some program → ∀ s ∈ program, Shaped T s) ∧
          (r = none → IntegersFit T → MissingInteger q.cerr)) (fun _ => False)
        (parseLoop n T statements p) (parseLoop n T1 statements p) := by
  induction n with
  | zero => intros; exact Res.Sound.timeout_of
  | succ n ih =>
    intro statements p hp hstatements
    simp only [parseLoop]
    refine Res.Sound.seq (isAtEnd_sound hu hp) ?_
    rintro atEnd p0 ⟨rfl, _⟩
    cases atEnd with
    | true =>
      simp only [if_true]
      exact Res.Sound.ok_of ⟨hp, fun program e s hs => by
        cases e; exact hstatements s hs, fun e => (by cases e)⟩
    | false =>
      simp only [Bool.false_eq_true, if_false]
      have inner : Res.Sound (fun r q => q.current ≤ k ∧ ∀ s, r = some s → Shaped T s)
          (Thrown T k)
          ((statement n T p0).bind fun stmt p =>
            (skipNewlines T p).bind fun _ p => Res.ok stmt p)
          ((statement n T1 p0).bind fun stmt p =>
            (skipNewlines T1 p).bind fun _ p => Res.ok stmt p) := by
        refine Res.Sound.seq ((statement_sound hu n).1 p0 hp) ?_
        rintro stmt q ⟨hq, hstmt⟩
        refine Res.Sound.seq (skipNewlines_sound hu hq) ?_
        rintro _ q2 ⟨hq2, _⟩
        exact Res.Sound.ok_of ⟨hq2, hstmt⟩
      obtain ⟨e1, h2, h3, h4⟩ := inner
      rw [e1]
      cases hX : ((statement n T p0).bind fun stmt p =>
          (skipNewlines T p).bind fun _ p => Res.ok stmt p) with
      | ok stmt q =>
        obtain ⟨hq, hstmt⟩ := h3 stmt q hX
        simp only
        refine ih _ q hq ?_
        intro s hs
        rcases List.mem_append.1 hs with h | h
        · exact hstatements s h
        · cases stmt with
          | none => cases h
          | some st =>
            simp only [Option.toList, List.mem_singleton] at h
            exact h ▸ hstmt st rfl
      | thrown q =>
        obtain ⟨hq, hmiss⟩ := h4 q hX
        simp only
        exact Res.Sound.ok_of ⟨hq, fun program e => (by cases e),
          fun _ hfit => missingInteger_append (hmiss hfit) _⟩
      | undefined => exact absurd hX h2
      | timeout => exact Res.Sound.timeout_of

/-- The function `parse` on a sequence with an `EOF_TOKEN`. -/
theorem parse_sound (hu : UpTo T T1 k) (n : Nat) :
    Res.Sound (fun r q => q.current ≤ k ∧
        (∀ program, r = some program → ∀ s ∈ program, Shaped T s) ∧
        (r = none → IntegersFit T → MissingInteger q.cerr)) (fun _ => False)
      (parse n T) (parse n T1) := by
  unfold parse
  refine Res.Sound.seq (match_sound hu (Nat.zero_le _) _ _) ?_
  rintro isHeader q ⟨hq, _, _⟩
  refine Res.Sound.seq (A := fun _ q => q.current ≤ k) ?_ ?_
  · cases isHeader with
    | true =>
      simp only [if_true]
      exact (skipNewlines_sound hu hq).imp (fun _ _ h => h.1)
    | false =>
      simp only [Bool.false_eq_true, if_false]
      exact Res.Sound.ok_of hq
  · intro _ q2 hq2
    exact parseLoop_sound hu n [] q2 hq2 (fun s h => (by cases h))

end

end Parser

namespace Parser

/-- In a sequence that ends with an `EOF_TOKEN` the first `EOF_TOKEN` is at the index
`firstEof`. -/
theorem upTo_firstEof {tokens tokens1 : List Token}
    (hlast : ∃ t, tokens.getLast? = some t ∧ t.type = TokenType.EOF_TOKEN)
    (hagree : ∀ i, i ≤ firstEof tokens → tokens1[i]? = tokens[i]?) :
    firstEof tokens < tokens.length ∧ UpTo tokens tokens1 (firstEof tokens) := by
  obtain ⟨t, ht, hty⟩ := hlast
  have hex : ∃ x ∈ tokens, (x.type == TokenType.EOF_TOKEN) = true :=
    ⟨t, List.mem_of_getLast?_eq_some ht, by simp [hty]⟩
  have hlt : firstEof tokens < tokens.length := List.findIdx_lt_length_of_exists hex
  refine ⟨hlt, ⟨⟨tokens[firstEof tokens], List.getElem?_eq_getElem hlt, ?_⟩, ?_, hagree⟩⟩
  · have h := @List.findIdx_getElem _ (fun t : Token => t.type == TokenType.EOF_TOKEN) tokens hlt
    exact beq_iff_eq.1 h
  · intro i hi
    have hil : i < tokens.length := lt_trans hi hlt
    refine ⟨tokens[i], List.getElem?_eq_getElem hil, ?_⟩
    have h := @List.not_of_lt_findIdx _ (fun t : Token => t.type == TokenType.EOF_TOKEN) tokens i hi
    intro e
    simp [e] at h

end Parser

/-- C35. Parser index safety. For every token sequence whose last token is an
`EOF_TOKEN`, with `k` the index of its first `EOF_TOKEN`: `parse`, with any fuel, never
reads `tokens[i]` with `i` outside the sequence (no `peek()` past the end, no
`previous()` at position 0); when it returns, the position is at most `k`; and it gives
the same outcome on every sequence that holds the same tokens at the indices up to `k`,
so no token after the first `EOF_TOKEN` is ever read. -/
theorem c35_index_safety (tokens : List Token) (fuel : Nat)
    (hlast : ∃ t, tokens.getLast? = some t ∧ t.type = TokenType.EOF_TOKEN) :
    Parser.firstEof tokens < tokens.length ∧
    Parser.parse fuel tokens ≠ Res.undefined ∧
    (∀ prog q, Parser.parse fuel tokens = Res.ok prog q →
      q.current ≤ Parser.firstEof tokens) ∧
    ∀ tokens1 : List Token,
      (∀ i, i ≤ Parser.firstEof tokens → tokens1[i]? = tokens[i]?) →
      Parser.parse fuel tokens1 = Parser.parse fuel tokens := by
  obtain ⟨hlt, hu⟩ := @Parser.upTo_firstEof tokens tokens hlast (fun _ _ => rfl)
  obtain ⟨_, h2, h3, _⟩ := Parser.parse_sound hu fuel
  refine ⟨hlt, h2, fun prog q h => (h3 prog q h).1, fun tokens1 hagree => ?_⟩
  exact (Parser.parse_sound (Parser.upTo_firstEof hlast hagree).2 fuel).1

/-- C35 (instance). The tokens of the source text `PRAISE_LEADER "a`, an unterminated
string, end with two `EOF_TOKEN` tokens, the first at index 1: `parse` stops at index 1,
and it returns the same without the second `EOF_TOKEN`. -/
theorem c35_index_safety_witness :
    Lexer.tokenize "PRAISE_LEADER \"a" = some Parser.praiseUnterminated ∧
    Parser.firstEof Parser.praiseUnterminated = 1 ∧
    Parser.parse 10 Parser.praiseUnterminated =
      Res.ok (some [Stmt.PrintStatement Expr.null])
        ⟨1, [ParseDiag.expectedExpression 1]⟩ ∧
    Parser.parse 10 (Parser.praiseUnterminated.take 2) =
      Parser.parse 10 Parser.praiseUnterminated ∧
    Parser.parse 10 Parser.praiseUnterminated ≠ Res.undefined :=
  ⟨by decide, by decide, rfl,
    (c35_index_safety Parser.praiseUnterminated 10 ⟨_, rfl, rfl⟩).2.2.2 _
      (fun i hi => by
        have h : i ≤ 1 := hi
        interval_cases i <;> rfl),
    (c35_index_safety Parser.praiseUnterminated 10 ⟨_, rfl, rfl⟩).2.1⟩

/-- C31 (counterexample). On the tokens of the source texts `PLEASE INCREMENT x BY` and
`PLEASE DECLARE_VARIABLE "a" AS ARRAY_OF_STRING SIZE`, where no `INTEGER` token stands at
all, `consume` reports the missing integer and stays, `std::stoi` is then applied to
the lexeme of the token before (`BY`, `SIZE`) and throws, and `parse` returns the null
program. -/
theorem c31_counterexample :
    Lexer.tokenize "PLEASE INCREMENT x BY" = some Parser.incrementNothing ∧
    Lexer.tokenize "PLEASE DECLARE_VARIABLE \"a\" AS ARRAY_OF_STRING SIZE" =
      some Parser.declareSizeNothing ∧
    Parser.IntegersFit Parser.incrementNothing ∧
    Parser.parse 3 Parser.incrementNothing =
      Res.ok none ⟨4, [ParseDiag.parseError "Expected increment amount" 1,
        ParseDiag.exception 4]⟩ ∧
    Parser.IntegersFit Parser.declareSizeNothing ∧
    Parser.parse 3 Parser.declareSizeNothing =
      Res.ok none ⟨6, [ParseDiag.parseError "Expected array size" 1,
        ParseDiag.exception 6]⟩ :=
  ⟨by decide, by decide, by simp [Parser.IntegersFit, Parser.incrementNothing], rfl,
    by simp [Parser.IntegersFit, Parser.declareSizeNothing], rfl⟩

/-- C31 (amended). An unmet expectation is fatal only through a missing integer. When
`consume` finds the `EOF_TOKEN` or a token of another type than the expected one, it
reports the message at the line of that token, leaves the position unchanged and
returns that token. And for every token sequence that ends with an `EOF_TOKEN` and in
which every `INTEGER` lexeme fits a 32-bit `int`: when `parse` returns and neither
`Expected increment amount` nor `Expected array size` was reported, it returns a
non-null program. -/
theorem c31_unmet_expectation :
    (∀ (tokens : List Token) (p : Parser) (type : TokenType) (message : String) (t : Token),
      tokens[p.current]? = some t → (t.type = TokenType.EOF_TOKEN ∨ t.type ≠ type) →
      Parser.consume tokens p type message =
        Res.ok t ⟨p.current, p.cerr ++ [ParseDiag.parseError message t.line]⟩) ∧
    (∀ (tokens : List Token) (fuel : Nat) (prog : Option Program) (q : Parser),
      (∃ t, tokens.getLast? = some t ∧ t.type = TokenType.EOF_TOKEN) →
      Parser.IntegersFit tokens →
      Parser.parse fuel tokens = Res.ok prog q →
      ¬ Parser.MissingInteger q.cerr →
      ∃ program, prog = some program) := by
  constructor
  · intro tokens p type message t ht hty
    have hc : ¬ (t.type ≠ TokenType.EOF_TOKEN ∧ t.type = type) := by
      rintro ⟨h1, h2⟩
      rcases hty with h | h
      · exact h1 h
      · exact h h2
    rw [Parser.consume_eq, ht]
    simp only [if_neg hc]
  · intro tokens fuel prog q hlast hfit h hno
    obtain ⟨_, hu⟩ := @Parser.upTo_firstEof tokens tokens hlast (fun _ _ => rfl)
    obtain ⟨_, _, h3, _⟩ := Parser.parse_sound hu fuel
    obtain ⟨_, _, hnone⟩ := h3 prog q h
    cases prog with
    | some program => exact ⟨program, rfl⟩
    | none => exact absurd (hnone rfl hfit) hno

/-- C31 (instances). On the tokens of `PLEASE DECLARE_VARIABLE "x" AS`, where the type is
missing, `consume` is not even called for it and `parse` returns a program; at the
`EOF_TOKEN` of `PLEASE INCREMENT x BY`, `consume` for an `INTEGER` reports and stays. -/
theorem c31_unmet_expectation_witness :
    Parser.consume Parser.incrementNothing ⟨4, []⟩ TokenType.INTEGER
        "Expected increment amount" =
      Res.ok ⟨TokenType.EOF_TOKEN, "", 1, 22⟩
        ⟨4, [ParseDiag.parseError "Expected increment amount" 1]⟩ ∧
    Parser.parse 3 Parser.declareNothing =
      Res.ok (some [Stmt.VarDeclaration "x" "" 0]) ⟨4, []⟩ ∧
    ∃ program, (some [Stmt.VarDeclaration "x" "" 0] : Option Program) = some program :=
  ⟨c31_unmet_expectation.1 Parser.incrementNothing ⟨4, []⟩ TokenType.INTEGER
      "Expected increment amount" ⟨TokenType.EOF_TOKEN, "", 1, 22⟩ rfl (Or.inl rfl),
    rfl,
    c31_unmet_expectation.2 Parser.declareNothing 3 _ ⟨4, []⟩ ⟨_, rfl, rfl⟩
      (by simp [Parser.IntegersFit, Parser.declareNothing]) rfl
      (by
        rintro ⟨line, h | h⟩
        · cases h
        · cases h)⟩

/-! ## Lexer: the lexemes of the tokens -/

/-- The function `std::stoi` gives a negative integer only for a text with a minus
sign. -/
theorem stoi_nonneg {s : String} {n : Int} (h : '-' ∉ s.data) (hs : stoi s = some n) :
    0 ≤ n := by
  have hsub := (List.dropWhile_sublist (l := s.data) isSpace).subset
  have hhead : (s.data.dropWhile isSpace).head? ≠ some '-' := by
    intro e
    exact h (hsub (List.mem_of_mem_head? (by rw [e]; rfl)))
  simp only [stoi, hhead, decide_False, Bool.false_eq_true, if_false, false_or] at hs
  split_ifs at hs
  all_goals
    cases hs
    exact Int.ofNat_nonneg _

namespace Lexer

theorem numberLoop_chars (cs : List Char) : ∀ (column : Int) (value : String),
    ∀ d ∈ (numberLoop cs column value).1.data, d ∈ value.data ∨ isDigit d = true := by
  induction cs with
  | nil => intro column value d hd; exact Or.inl hd
  | cons c cs ih =>
    intro column value d hd
    simp only [numberLoop] at hd
    by_cases h : isDigit c = true
    · rw [if_pos h] at hd
      rcases ih _ _ d hd with h1 | h1
      · simp only [String.push, List.mem_append, List.mem_singleton] at h1
        rcases h1 with h1 | h1
        · exact Or.inl h1
        · exact Or.inr (h1 ▸ h)
      · exact Or.inr h1
    · rw [if_neg h] at hd
      exact Or.inl hd

theorem identifierLoop_chars (cs : List Char) : ∀ (column : Int) (value : String),
    ∀ d ∈ (identifierLoop cs column value).1.data,
      d ∈ value.data ∨ isAlphaNumeric d = true := by
  induction cs with
  | nil => intro column value d hd; exact Or.inl hd
  | cons c cs ih =>
    intro column value d hd
    simp only [identifierLoop] at hd
    by_cases h : isAlphaNumeric c = true
    · rw [if_pos h] at hd
      rcases ih _ _ d hd with h1 | h1
      · simp only [String.push, List.mem_append, List.mem_singleton] at h1
        rcases h1 with h1 | h1
        · exact Or.inl h1
        · exact Or.inr (h1 ▸ h)
      · exact Or.inr h1
    · rw [if_neg h] at hd
      exact Or.inl hd

/-- The token pushed by one pass through the `switch` of `tokenize` is a `STRING`, or
its lexeme holds letters, digits, `_` and `!` only (it is empty for a punctuation mark,
a `NEWLINE` and an `EOF_TOKEN`). -/
theorem scanToken_lexeme (before lx : Lexer) (c : Char) :
    ∀ t ∈ (scanToken before lx c).1,
      t.type = TokenType.STRING ∨ ∀ d ∈ t.value.data, isAlphaNumeric d = true := by
  generalize hr : scanToken before lx c = r
  unfold scanToken at hr
  have plain : ∀ (type : TokenType) (lx1 lx2 : Lexer), ([makeToken lx1 type], lx2) = r →
      ∀ t ∈ r.1, t.type = TokenType.STRING ∨ ∀ d ∈ t.value.data, isAlphaNumeric d = true := by
    intro type lx1 lx2 e t ht
    subst e
    simp only [List.mem_singleton] at ht
    subst ht
    exact Or.inr (fun d hd => (by cases hd))
  by_cases h1 : c = '\n'
  · rw [if_pos h1] at hr; exact plain _ _ _ hr
  rw [if_neg h1] at hr
  by_cases h2 : c = '"'
  · rw [if_pos h2] at hr
    subst hr
    intro t ht
    simp only [string, List.mem_singleton] at ht
    split_ifs at ht
    · subst ht
      exact Or.inr (fun d hd => (by cases hd))
    · subst ht
      exact Or.inl rfl
  rw [if_neg h2] at hr
  by_cases h3 : c = '['
  · rw [if_pos h3] at hr; exact plain _ _ _ hr
  rw [if_neg h3] at hr
  by_cases h4 : c = ']'
  · rw [if_pos h4] at hr; exact plain _ _ _ hr
  rw [if_neg h4] at hr
  by_cases h5 : c = '('
  · rw [if_pos h5] at hr; exact plain _ _ _ hr
  rw [if_neg h5] at hr
  by_cases h6 : c = ')'
  · rw [if_pos h6] at hr; exact plain _ _ _ hr
  rw [if_neg h6] at hr
  by_cases h7 : c = '+'
  · rw [if_pos h7] at hr; exact plain _ _ _ hr
  rw [if_neg h7] at hr
  by_cases h8 : c = '-'
  · rw [if_pos h8] at hr; exact plain _ _ _ hr
  rw [if_neg h8] at hr
  by_cases h9 : c = '*'
  · rw [if_pos h9] at hr; exact plain _ _ _ hr
  rw [if_neg h9] at hr
  by_cases h10 : c = '/'
  · rw [if_pos h10] at hr; exact plain _ _ _ hr
  rw [if_neg h10] at hr
  by_cases h11 : isDigit c = true
  · rw [if_pos h11] at hr
    subst hr
    intro t ht
    simp only [number, List.mem_singleton] at ht
    subst ht
    refine Or.inr (fun d hd => ?_)
    rcases numberLoop_chars _ _ _ d hd with h | h
    · cases h
    · simp [isAlphaNumeric, h]
  rw [if_neg h11] at hr
  by_cases h12 : isAlpha c = true
  · rw [if_pos h12] at hr
    subst hr
    intro t ht
    have key : ∀ d ∈ (identifierLoop before.rest (lx.column - 1) "").1.data,
        isAlphaNumeric d = true := by
      intro d hd
      rcases identifierLoop_chars _ _ _ d hd with h | h
      · cases h
      · exact h
    simp only [identifier] at ht
    cases hk : keywords (identifierLoop before.rest (lx.column - 1) "").1 with
    | none =>
      rw [hk] at ht
      simp only [List.mem_singleton] at ht
      subst ht
      exact Or.inr key
    | some type =>
      rw [hk] at ht
      simp only [List.mem_singleton] at ht
      subst ht
      exact Or.inr key
  rw [if_neg h12] at hr
  subst hr
  intro t ht
  cases ht

/-- Every token returned by the loop of `tokenize` is a `STRING` or has a lexeme of
letters, digits, `_` and `!` only. -/
theorem tokenizeLoop_lexemes (fuel : Nat) : ∀ (lx : Lexer) (tokens out : List Token)
    (lx1 : Lexer), tokenizeLoop fuel lx tokens = some (out, lx1) →
    (∀ t ∈ tokens, t.type = TokenType.STRING ∨ ∀ d ∈ t.value.data, isAlphaNumeric d = true) →
    ∀ t ∈ out, t.type = TokenType.STRING ∨ ∀ d ∈ t.value.data, isAlphaNumeric d = true := by
  induction fuel with
  | zero => intro lx tokens out lx1 h; simp [tokenizeLoop] at h
  | succ fuel ih =>
    intro lx tokens out lx1 h htokens
    have final : ∀ lx2 : Lexer,
        some (tokens ++ [lx2.makeToken TokenType.EOF_TOKEN], lx2) = some (out, lx1) →
        ∀ t ∈ out, t.type = TokenType.STRING ∨
          ∀ d ∈ t.value.data, isAlphaNumeric d = true := by
      intro lx2 e t ht
      simp only [Option.some.injEq, Prod.mk.injEq] at e
      obtain ⟨rfl, rfl⟩ := e
      rcases List.mem_append.1 ht with h | h
      · exact htokens t h
      · simp only [List.mem_singleton] at h
        subst h
        exact Or.inr (fun d hd => (by cases hd))
    simp only [tokenizeLoop] at h
    by_cases hend : lx.isAtEnd = true
    · rw [if_pos hend] at h
      exact final lx h
    · rw [if_neg hend] at h
      cases hsk : skipWhitespace (fuel + 1) lx with
      | none => rw [hsk] at h; cases h
      | some lx2 =>
        rw [hsk] at h
        simp only at h
        by_cases hend2 : lx2.isAtEnd = true
        · rw [if_pos hend2] at h
          exact final lx2 h
        · rw [if_neg hend2] at h
          refine ih _ _ out lx1 h ?_
          intro t ht
          rcases List.mem_append.1 ht with h1 | h1
          · exact htokens t h1
          · exact scanToken_lexeme _ _ _ t h1

/-- In the tokens of a source text no lexeme of an `INTEGER`, `SIZE` or
`ARRAY_OF_STRING` token is converted by `std::stoi` to a negative integer. -/
theorem tokenize_sizes {source : String} {tokens : List Token}
    (h : tokenize source = some tokens) : Parser.SizesNonNegative tokens := by
  simp only [tokenize, run, Option.map_eq_some'] at h
  obtain ⟨⟨out, lx1⟩, hrun, rfl⟩ := h
  intro t ht hty n hn
  have hlex := tokenizeLoop_lexemes _ _ _ _ _ hrun (fun t h => (by cases h)) t ht
  have hns : t.type ≠ TokenType.STRING := by
    rcases hty with e | e | e <;> rw [e] <;> decide
  rcases hlex with e | hchars
  · exact absurd e hns
  · exact stoi_nonneg (fun hm => absurd (hchars _ hm) (by decide)) hn

end Lexer

/-- C32 (counterexample). On the tokens of `PLEASE DECLARE_VARIABLE "x" AS`, followed
directly by the `EOF_TOKEN`, `parse` returns a program whose declaration has the empty
string as its type-tag, which is none of `INTEGER`, `STRING`, `ARRAY_OF_STRING`. And on a
token sequence whose size token holds the lexeme `-5` (the lexer returns no such token)
it returns a declaration with the array size `-5`. -/
theorem c32_counterexample :
    Lexer.tokenize "PLEASE DECLARE_VARIABLE \"x\" AS" = some Parser.declareNothing ∧
    Parser.parse 3 Parser.declareNothing =
      Res.ok (some [Stmt.VarDeclaration "x" "" 0]) ⟨4, []⟩ ∧
    ("" ≠ "INTEGER" ∧ "" ≠ "STRING" ∧ "" ≠ "ARRAY_OF_STRING") ∧
    Parser.parse 3 Parser.declareNegativeSize =
      Res.ok (some [Stmt.VarDeclaration "a" "ARRAY_OF_STRING" (-5)]) ⟨7, []⟩ :=
  ⟨by decide, rfl, by decide, rfl⟩

/-- C32 (amended). Shape of parsed declarations. For every token sequence that ends
with an `EOF_TOKEN` and on which `parse` returns a program, every `VarDeclaration` in
it, at any depth, has a type-tag that is one of `INTEGER`, `STRING`, `ARRAY_OF_STRING`
or the empty string (the tag of a declaration whose type keyword is missing), and the
array size `0` whenever the tag is not `ARRAY_OF_STRING`; its array size is not negative
when no lexeme of an `INTEGER`, `SIZE` or `ARRAY_OF_STRING` token is converted by
`std::stoi` to a negative integer. The tokens that `tokenize` returns for a source text
are such a sequence. -/
theorem c32_declaration_shape :
    (∀ (tokens : List Token) (fuel : Nat) (program : Program) (q : Parser) (stmt : Stmt)
      (name type : String) (arraySize : Int),
      (∃ t, tokens.getLast? = some t ∧ t.type = TokenType.EOF_TOKEN) →
      Parser.parse fuel tokens = Res.ok (some program) q →
      stmt ∈ program → stmt.Declares name type arraySize →
      (type = "INTEGER" ∨ type = "STRING" ∨ type = "ARRAY_OF_STRING" ∨ type = "") ∧
        (type ≠ "ARRAY_OF_STRING" → arraySize = 0) ∧
        (Parser.SizesNonNegative tokens → 0 ≤ arraySize)) ∧
    (∀ (source : String) (tokens : List Token),
      Lexer.tokenize source = some tokens → Parser.SizesNonNegative tokens) := by
  constructor
  · intro tokens fuel program q stmt name type arraySize hlast h hstmt hdecl
    obtain ⟨_, hu⟩ := @Parser.upTo_firstEof tokens tokens hlast (fun _ _ => rfl)
    obtain ⟨_, _, h3, _⟩ := Parser.parse_sound hu fuel
    obtain ⟨_, hshape, _⟩ := h3 _ q h
    exact hshape program rfl stmt hstmt name type arraySize hdecl
  · intro source tokens h
    exact Lexer.tokenize_sizes h

/-- C32 (instances). The declarations parsed from the tokens of
`PLEASE DECLARE_VARIABLE "x" AS` and from the sequence with the size lexeme `-5` have a
tag among the four and the size `0` unless the tag is `ARRAY_OF_STRING`; the tokens of
the source text `PLEASE DECLARE_VARIABLE "x" AS` hold no lexeme that is converted to a
negative integer. -/
theorem c32_declaration_shape_witness :
    (("" = "INTEGER" ∨ "" = "STRING" ∨ "" = "ARRAY_OF_STRING" ∨ "" = "") ∧
      ("" ≠ "ARRAY_OF_STRING" → (0 : Int) = 0) ∧
      (Parser.SizesNonNegative Parser.declareNothing → (0 : Int) ≤ 0)) ∧
    (("ARRAY_OF_STRING" = "INTEGER" ∨ "ARRAY_OF_STRING" = "STRING" ∨
        "ARRAY_OF_STRING" = "ARRAY_OF_STRING" ∨ "ARRAY_OF_STRING" = "") ∧
      ("ARRAY_OF_STRING" ≠ "ARRAY_OF_STRING" → (-5 : Int) = 0) ∧
      (Parser.SizesNonNegative Parser.declareNegativeSize → (0 : Int) ≤ -5)) ∧
    Parser.SizesNonNegative Parser.declareNothing :=
  ⟨c32_declaration_shape.1 Parser.declareNothing 3 [Stmt.VarDeclaration "x" "" 0] ⟨4, []⟩
      (Stmt.VarDeclaration "x" "" 0) "x" "" 0 ⟨_, rfl, rfl⟩ rfl (List.mem_singleton_self _)
      Stmt.Declares.here,
    c32_declaration_shape.1 Parser.declareNegativeSize 3
      [Stmt.VarDeclaration "a" "ARRAY_OF_STRING" (-5)] ⟨7, []⟩
      (Stmt.VarDeclaration "a" "ARRAY_OF_STRING" (-5)) "a" "ARRAY_OF_STRING" (-5)
      ⟨_, rfl, rfl⟩ rfl (List.mem_singleton_self _) Stmt.Declares.here,
    c32_declaration_shape.2 "PLEASE DECLARE_VARIABLE \"x\" AS" Parser.declareNothing
      (by decide)⟩

end Gov
